import Mathlib

/-!
# Goodreads scraper: extraction and normalisation of a book record

A shallow embedding of `src/src/scraper.js` (`scrapeGoodreads`).

* JavaScript strings are lists of characters (`Str`).
* The DOM collaborator (cheerio) is represented by the results of the queries
  the scraper issues: a `Page` holds, for every selector used by the source,
  the texts / attributes that selector returns, in document order.
* `JSON.parse` and the auxiliary `cheerio.load(..).text()` call are parameters
  (`Env`), so every statement holds for every behaviour of those collaborators.
* Every regular expression of the source is written with a small set of
  backtracking combinators (`lit`, `star`, `plus`, `starCap`, `lazyCap`, ...)
  that follow the ECMAScript matching order: greedy quantifiers try the longest
  repetition first, lazy ones the shortest, alternatives left to right, and an
  unanchored search tries start positions from left to right.
-/

namespace Goodreads

/-- A JavaScript string. -/
abbrev Str := List Char

/-! ## Character classes -/

/-- Characters matched by `\s` and removed by `String.prototype.trim`
(ECMAScript WhiteSpace and LineTerminator). -/
def isWs (c : Char) : Bool :=
  let n := c.toNat
  n == 0x09 || n == 0x0A || n == 0x0B || n == 0x0C || n == 0x0D || n == 0x20 ||
  n == 0xA0 || n == 0x1680 || (decide (0x2000 ≤ n) && decide (n ≤ 0x200A)) ||
  n == 0x2028 || n == 0x2029 || n == 0x202F || n == 0x205F || n == 0x3000 || n == 0xFEFF

/-- ECMAScript LineTerminator: the characters `.` does not match. -/
def isLineTerm (c : Char) : Bool :=
  let n := c.toNat
  n == 0x0A || n == 0x0D || n == 0x2028 || n == 0x2029

/-- The class `.` (without the `s` flag). -/
def isDot (c : Char) : Bool := !isLineTerm c

/-- The class `\d`. -/
def isDigit (c : Char) : Bool := decide (48 ≤ c.toNat) && decide (c.toNat ≤ 57)

/-- The class `[\d,]`. -/
def isDigitComma (c : Char) : Bool := isDigit c || c == ','

/-- The class `[\d.]`. -/
def isDigitDot (c : Char) : Bool := isDigit c || c == '.'

/-- The class `[0-9.,\-]`. -/
def isPosChar (c : Char) : Bool := isDigit c || c == '.' || c == ',' || c == '-'

/-- The class `[\d\/\.\-]`. -/
def isPosTok (c : Char) : Bool := isDigit c || c == '/' || c == '.' || c == '-'

/-- The class `[\s#]`. -/
def isWsHash (c : Char) : Bool := isWs c || c == '#'

/-- The class `[^"]`. -/
def isNotQuote (c : Char) : Bool := !(c == '"')

/-- The class `[\s\S]`. -/
def isAny (_ : Char) : Bool := true

/-- Lower-casing of the ASCII capital letters.  `String.prototype.toLowerCase`
also maps non-ASCII capitals, but none of them to a letter of the ASCII words
the scraper looks for in a label. -/
def lowerChar (c : Char) : Char :=
  if decide (65 ≤ c.toNat) && decide (c.toNat ≤ 90) then Char.ofNat (c.toNat + 32) else c

/-- Model of `toLowerCase()`. -/
def toLowerCase (s : Str) : Str := s.map lowerChar

/-- Character equality under the `i` flag (no `u` flag): a pattern letter
matches exactly its two ASCII case variants. -/
def eqCI (a b : Char) : Bool := lowerChar a == lowerChar b

/-- Plain character equality. -/
def eqCS (a b : Char) : Bool := a == b

/-! ## String primitives -/

/-- Model of `trim()`. -/
def trim (s : Str) : Str := (s.dropWhile isWs).rdropWhile isWs

/-- Consume the literal `p` at the front of `s` (characters compared with
`eq`); the rest of `s` on success. -/
def dropLit (eq : Char → Char → Bool) : Str → Str → Option Str
  | [], s => some s
  | _ :: _, [] => none
  | a :: p, b :: s => if eq a b then dropLit eq p s else none

/-- Model of `s.includes(p)`. -/
def includes : Str → Str → Bool
  | [], p => p.isEmpty
  | c :: cs, p => (dropLit eqCS p (c :: cs)).isSome || includes cs p

/-- Model of `s.replace(p, '')` for a string pattern `p`: the first occurrence
of `p` is removed. -/
def removeFirst : Str → Str → Str
  | [], _ => []
  | c :: cs, p =>
    match dropLit eqCS p (c :: cs) with
    | some rest => rest
    | none => c :: removeFirst cs p

/-- Text after the first occurrence of `p`:
`s.substring(s.indexOf(p) + p.length)` when `s.includes(p)`. -/
def afterFirst : Str → Str → Str
  | [], _ => []
  | c :: cs, p =>
    match dropLit eqCS p (c :: cs) with
    | some rest => rest
    | none => afterFirst cs p

/-- Model of `replace(/,/g, '')`. -/
def removeCommas (s : Str) : Str := s.filter (fun c => !(c == ','))

/-- Model of `replace(/,/g, ', ')`. -/
def spaceCommas : Str → Str
  | [] => []
  | c :: cs => if c == ',' then ',' :: ' ' :: spaceCommas cs else c :: spaceCommas cs

/-! ## Backtracking regular-expression combinators

A matcher takes the text at the current position and returns `none` when the
pattern fails there.  The continuation `k` is the rest of the pattern. -/

section Combinators
variable {α : Type}

/-- First alternative that succeeds. -/
def alt (a b : Option α) : Option α :=
  match a with
  | some x => some x
  | none => b

/-- A literal, then `k`. -/
def lit (p : Str) (k : Str → Option α) (s : Str) : Option α :=
  match dropLit eqCS p s with
  | some rest => k rest
  | none => none

/-- A literal under the `i` flag, then `k`. -/
def litCI (p : Str) (k : Str → Option α) (s : Str) : Option α :=
  match dropLit eqCI p s with
  | some rest => k rest
  | none => none

/-- End of input (`$` without the `m` flag). -/
def eos (a : α) (s : Str) : Option α :=
  match s with
  | [] => some a
  | _ :: _ => none

/-- Greedy `c*` for a character class, then `k`. -/
def star (p : Char → Bool) (k : Str → Option α) : Str → Option α
  | [] => k []
  | c :: cs => if p c then alt (star p k cs) (k (c :: cs)) else k (c :: cs)

/-- Greedy `c+` for a character class, then `k`. -/
def plus (p : Char → Bool) (k : Str → Option α) : Str → Option α
  | [] => none
  | c :: cs => if p c then star p k cs else none

/-- Greedy `(c*)` with the text consumed so far in `acc`; `k` receives the
captured text and the rest. -/
def starCap (p : Char → Bool) (k : Str → Str → Option α) : Str → Str → Option α
  | acc, [] => k acc []
  | acc, c :: cs =>
    if p c then alt (starCap p k (acc ++ [c]) cs) (k acc (c :: cs)) else k acc (c :: cs)

/-- Greedy capturing `(c+)`, then `k`. -/
def plusCap (p : Char → Bool) (k : Str → Str → Option α) : Str → Option α
  | [] => none
  | c :: cs => if p c then starCap p k [c] cs else none

/-- Lazy capturing `(c*?)`: the shortest repetition for which `k` succeeds. -/
def lazyCap (p : Char → Bool) (k : Str → Str → Option α) : Str → Str → Option α
  | acc, [] => k acc []
  | acc, c :: cs =>
    alt (k acc (c :: cs)) (if p c then lazyCap p k (acc ++ [c]) cs else none)

/-- Unanchored search: the leftmost start position at which `m` matches,
returned with the text before the match. -/
def search (m : Str → Option α) : Str → Option (Str × α)
  | [] => (m []).map (fun a => ([], a))
  | c :: cs =>
    match m (c :: cs) with
    | some a => some ([], a)
    | none => (search m cs).map (fun r => (c :: r.1, r.2))

/-- Successive non-overlapping matches of a global regular expression whose
matches are never empty.  `m` returns the value of a match and the text after
it; `skip` counts the characters of the current match still to pass. -/
def scanAll (m : Str → Option (α × Str)) : Nat → Str → List α
  | _, [] => []
  | skip + 1, _ :: cs => scanAll m skip cs
  | 0, c :: cs =>
    match m (c :: cs) with
    | some (a, rest) => a :: scanAll m (cs.length - rest.length) cs
    | none => scanAll m 0 cs

/-- Model of `replace(re, rep)` for a global regular expression whose matches
are never empty; `m` returns the text after a match. -/
def replaceAll (m : Str → Option Str) (rep : Str) : Nat → Str → Str
  | _, [] => []
  | skip + 1, _ :: cs => replaceAll m rep skip cs
  | 0, c :: cs =>
    match m (c :: cs) with
    | some rest => rep ++ replaceAll m rep (cs.length - rest.length) cs
    | none => c :: replaceAll m rep 0 cs

/-- Model of `split(re)` for a separator that never matches the empty string;
`cur` is the part being collected. -/
def splitOn (m : Str → Option Str) : Nat → Str → Str → List Str
  | _, cur, [] => [cur]
  | skip + 1, cur, _ :: cs => splitOn m skip cur cs
  | 0, cur, c :: cs =>
    match m (c :: cs) with
    | some rest => cur :: splitOn m (cs.length - rest.length) [] cs
    | none => splitOn m 0 (cur ++ [c]) cs

end Combinators

/-! ## The regular expressions of the scraper -/

/-- The double-quote character. -/
def dq : Char := Char.ofNat 34

/-- The regular expression `"characters"\s*:\s*\[([\s\S]*?)\]` at one position:
the matched text and the text after it. -/
def charPatternAt (s : Str) : Option (Str × Str) :=
  (lit (dq :: "characters".toList ++ [dq]) (star isWs (lit ":".toList (star isWs
    (lit "[".toList (lazyCap isAny (fun _ rest => lit "]".toList some rest) []))))) s).map
    (fun rest => (s.take (s.length - rest.length), rest))

/-- The regular expression `"name"\s*:\s*"([^"]+)"` at one position: group 1
and the text after the match. -/
def namePatternAt (s : Str) : Option (Str × Str) :=
  lit (dq :: "name".toList ++ [dq]) (star isWs (lit ":".toList (star isWs (lit [dq]
    (plusCap isNotQuote (fun cap rest => lit [dq] (fun r => some (cap, r)) rest)))))) s

/-- Lines 71-88: every `"name": "..."` inside every `"characters": [...]`
substring of the raw data-island text, in order of occurrence. -/
def regexCharacterNames (content : Str) : List Str :=
  (scanAll charPatternAt 0 content).flatMap (fun characterArray => scanAll namePatternAt 0 characterArray)

/-- Group 1 of `text.match(/Published\s+(.+)/)`. -/
def publishedMatch (text : Str) : Option Str :=
  (search (lit "Published".toList (plus isWs (plusCap isDot (fun cap _ => some cap)))) text).map
    (fun r => r.2)

/-- Group 1 of `text.match(/First published\s+(.+)/)`. -/
def firstPublishedMatch (text : Str) : Option Str :=
  (search (lit "First published".toList (plus isWs (plusCap isDot (fun cap _ => some cap)))) text).map
    (fun r => r.2)

/-- Model of `s.split(/\s+by\s+/)`. -/
def splitBy (s : Str) : List Str :=
  splitOn (plus isWs (lit "by".toList (plus isWs some))) 0 [] s

/-- Group 1 of `text.match(/([\d,]+)/)`. -/
def ratingsMatch (text : Str) : Option Str :=
  (search (plusCap isDigitComma (fun cap _ => some cap)) text).map (fun r => r.2)

/-- Greedy capturing `\d{1,2}`, then `k`. -/
def digits12 {α : Type} (k : Str → Str → Option α) : Str → Option α
  | [] => none
  | [c] => if isDigit c then k [c] [] else none
  | c :: d :: rest =>
    if isDigit c then
      (if isDigit d then alt (k [c, d] rest) (k [c] (d :: rest)) else k [c] (d :: rest))
    else none

/-- The whole match of `text.match(/(\d{1,2}\.\d{1,2})/)`. -/
def avgRatingMatch (text : Str) : Option Str :=
  (search (digits12 (fun a r => lit ".".toList (digits12 (fun b _ => some (a ++ '.' :: b))) r))
    text).map (fun r => r.2)

/-- Group 1 of `text.match(/(\d+)/)`. -/
def pagesMatch (text : Str) : Option Str :=
  (search (plusCap isDigit (fun cap _ => some cap)) text).map (fun r => r.2)

/-- Group 1 of `text.match(/(\d+)\s*pages/i)`. -/
def pagesFormatMatch (text : Str) : Option Str :=
  (search (plusCap isDigit (fun cap rest =>
    star isWs (litCI "pages".toList (fun _ => some cap)) rest)) text).map (fun r => r.2)

/-- Groups 1 and 2 of `text.match(/^(.*?)(?:\s*\(#([\d.]+)\))?$/)`; `none` when
the text does not match. -/
def keySeriesMatch (text : Str) : Option (Str × Option Str) :=
  lazyCap isDot (fun g1 rest =>
    alt (star isWs (lit "(#".toList (plusCap isDigitDot (fun g2 r =>
          lit ")".toList (eos (g1, some g2)) r))) rest)
        (eos (g1, none) rest)) [] text

/-- Groups 1 and 2 of `text.match(/^(.*?)(?:[\s#]+([0-9.,\-]+))?$/)`. -/
def genericSeriesMatch (text : Str) : Option (Str × Option Str) :=
  lazyCap isDot (fun g1 rest =>
    alt (plus isWsHash (plusCap isPosChar (fun g2 r => eos (g1, some g2) r)) rest)
        (eos (g1, none) rest)) [] text

/-- Model of `replace(/^#/, '')`. -/
def stripLeadingHash : Str → Str
  | [] => []
  | c :: cs => if c == '#' then cs else c :: cs

/-- The position text used as a regular-expression source (lines 597-598).
At that point the position consists of characters of `[0-9.,\-]`: a dot is the
wildcard `.`, every other character stands for itself. -/
def posPat {α : Type} (k : Str → Option α) : Str → Str → Option α
  | [], s => k s
  | _ :: _, [] => none
  | x :: xs, c :: cs =>
    if (if x == '.' then isDot c else x == c) then posPat k xs cs else none

/-- Lines 597-598.  The sources are the template literals
`\s*\(#${pos}\)$` and `\s*#${pos}$`; in a template literal `\s`, `\(` and `\)`
denote the plain characters `s`, `(` and `)`, so the expressions built are
`s*(#pos)$` and `s*#pos$`.  Both match a run of letters `s`, a `#` and the
position pattern at the end of the name.  The result is the name with the
leftmost such match removed. -/
def stripResidual (pos name : Str) : Str :=
  match search (star (fun c => c == 's') (lit "#".toList (posPat (eos ()) pos))) name with
  | some r => r.1
  | none => name

/-- The match of `/#([0-9.,\-]+)$/` (line 605): the text before the match and
group 1.  As the match ends at the end of the input, the first component is
also the result of `replace(/#[0-9.,\-]+$/, '')` (line 609). -/
def hashNumberMatch (name : Str) : Option (Str × Str) :=
  search (lit "#".toList (plusCap isPosChar (fun cap r => eos cap r))) name

/-- The series-name noise word of line 621. -/
def ignoreWord : Str := "ভলিউম".toList

/-- Line 626: every match of `\s*<word>\s*` (flags `gi`) replaced by a space. -/
def removeIgnoreWord (word name : Str) : Str :=
  replaceAll (star isWs (litCI word (star isWs some))) " ".toList 0 name

/-- The match of `/(#?\s*)([\d\/\.\-]+)$/` (line 630): the text before the
match and group 2.  The first component is also the result of the `replace`
of line 636. -/
def positionMatch (name : Str) : Option (Str × Str) :=
  search (fun s =>
    alt (lit "#".toList (star isWs (plusCap isPosTok (fun cap r => eos cap r))) s)
        (star isWs (plusCap isPosTok (fun cap r => eos cap r)) s)) name

/-- Model of `html.replace(/<br\s*\/?>/gi, '\n')`. -/
def replaceBr (html : Str) : Str :=
  replaceAll (litCI "<br".toList (star isWs (fun s =>
    alt (lit "/".toList (lit ">".toList some) s) (lit ">".toList some s)))) [Char.ofNat 10] 0 html

/-- Model of `replace(/^Published by\s+/i, '')`. -/
def stripPublishedBy (s : Str) : Str :=
  match litCI "Published by".toList (plus isWs some) s with
  | some rest => rest
  | none => s

/-! ## JavaScript values

Values produced by `JSON.parse`, plus `undefined` (the result of reading a
missing property).  A number is represented by the text `String(n)` gives for
it: two numbers are equal exactly when these texts are equal, and the number
is falsy exactly when the text is `0`.  An object lists its own properties in
enumeration (`for ... in`) order, each key once. -/

/-- A JavaScript value. -/
inductive JVal where
  | undef
  | null
  | bool (b : Bool)
  | num (repr : Str)
  | str (s : Str)
  | arr (items : List JVal)
  | obj (fields : List (Str × JVal))

namespace JVal

/-- JavaScript truthiness (`if (v)`). -/
def truthy : JVal → Bool
  | undef => false
  | null => false
  | bool b => b
  | num r => !(r == "0".toList) && !(r == "NaN".toList)
  | str s => !s.isEmpty
  | arr _ => true
  | obj _ => true

/-- The values `null` and `undefined`; reading a property of one of them
raises a `TypeError`. -/
def isNullish : JVal → Bool
  | undef => true
  | null => true
  | _ => false

/-- Model of `typeof v === 'object' && v !== null`. -/
def isObject : JVal → Bool
  | arr _ => true
  | obj _ => true
  | _ => false

/-- Own property lookup. -/
def lookup : List (Str × JVal) → Str → JVal
  | [], _ => undef
  | (k, v) :: rest, key => if k == key then v else lookup rest key

/-- Model of `v.key` for a value that is not nullish and a key that no
prototype defines (all keys read by the scraper are of that kind). -/
def prop (v : JVal) (key : String) : JVal :=
  match v with
  | obj fields => lookup fields key.toList
  | _ => undef

/-- SameValueZero, the comparison of `Array.prototype.includes`: primitives by
value; arrays and objects by identity, and two values coming from different
places of a parsed JSON text are never the same object. -/
def sameValueZero : JVal → JVal → Bool
  | undef, undef => true
  | null, null => true
  | bool a, bool b => a == b
  | num a, num b => a == b
  | str a, str b => a == b
  | _, _ => false

/-- Model of `v === s` for a string literal `s`. -/
def isStr (v : JVal) (s : String) : Bool :=
  match v with
  | str t => t == s.toList
  | _ => false

end JVal

/-- Model of `xs.includes(v)`. -/
def includesVal (xs : List JVal) (v : JVal) : Bool := xs.any (fun x => JVal.sameValueZero x v)

/-- A JavaScript number produced by `parseInt`: `NaN`, an integer that a
double represents exactly, or an infinity. -/
inductive JNum where
  | nan
  | int (n : Int)
  | infinity (negative : Bool)
  deriving DecidableEq

/-- Truthiness of `bookDetails.numberOfPages` (`null`, `NaN` and `0` are falsy). -/
def numTruthy : Option JNum → Bool
  | some (JNum.int n) => !(n == 0)
  | some (JNum.infinity _) => true
  | _ => false

/-- Truthiness of a field holding `null` or a string. -/
def strTruthy : Option Str → Bool
  | some s => !s.isEmpty
  | none => false

/-- Value of a run of decimal digits. -/
def digitsVal (ds : Str) : Nat := ds.foldl (fun n c => 10 * n + (c.toNat - 48)) 0

/-- Number of binary digits of `n`; `fuel` bounds the recursion (`n` itself
is enough). -/
def bitLength : Nat → Nat → Nat
  | 0, _ => 0
  | fuel + 1, n => if n == 0 then 0 else bitLength fuel (n / 2) + 1

/-- The double nearest to a natural number, ties going to the even
significand (53 binary digits); `none` stands for `Infinity`.  Integers below
2^53 are exact. -/
def nearestDouble (n : Nat) : Option Nat :=
  if n < 2 ^ 53 then some n
  else
    let e := bitLength n n - 53
    let q := n / 2 ^ e
    let r := n % 2 ^ e
    let up := decide (2 ^ e < 2 * r) || (2 * r == 2 ^ e && q % 2 == 1)
    let m := (if up then q + 1 else q) * 2 ^ e
    if m < 2 ^ 1024 then some m else none

/-- The Number value of a signed integer. -/
def numberOf (neg : Bool) (n : Nat) : JNum :=
  match nearestDouble n with
  | some m => JNum.int (if neg then -(m : Int) else (m : Int))
  | none => JNum.infinity neg

/-- Model of `parseInt(s, 10)` for a string: leading white space, an optional
sign, then the longest run of digits; the result is the Number value (a
double) of that integer, `NaN` when there is no digit.  Negative zero is not
told apart from zero (both are falsy and print as `0`). -/
def parseIntStr (s : Str) : JNum :=
  let t := s.dropWhile isWs
  let neg := match t with
    | c :: _ => c == '-'
    | [] => false
  let u := match t with
    | c :: r => if c == '-' || c == '+' then r else t
    | [] => t
  let ds := u.takeWhile isDigit
  if ds.isEmpty then JNum.nan else numberOf neg (digitsVal ds)

/-- Whether an object has an own property `toString`.  A value of a parsed
JSON text is never callable, so such a property hides
`Object.prototype.toString` and the conversion of the object to a string
raises a `TypeError`. -/
def hidesToString (fields : List (Str × JVal)) : Bool :=
  fields.any (fun kv => kv.1 == "toString".toList)

mutual
/-- Model of `String(v)`; `none` when the conversion raises a `TypeError`. -/
def JVal.toStr : JVal → Option Str
  | JVal.undef => some "undefined".toList
  | JVal.null => some "null".toList
  | JVal.bool b => some (if b then "true".toList else "false".toList)
  | JVal.num r => some r
  | JVal.str s => some s
  | JVal.arr items => JVal.joinItems items
  | JVal.obj fields => if hidesToString fields then none else some "[object Object]".toList
/-- Model of `items.join(',')`: nullish elements give the empty text. -/
def JVal.joinItems : List JVal → Option Str
  | [] => some []
  | x :: rest =>
    match (if x.isNullish then some [] else JVal.toStr x), JVal.joinItems rest with
    | some first, some others =>
      some (first ++ (match rest with
                      | [] => []
                      | _ :: _ => ',' :: others))
    | _, _ => none
end

/-- Model of `parseInt(v, 10)`; `none` when `String(v)` raises a `TypeError`. -/
def parseInt (v : JVal) : Option JNum := v.toStr.map parseIntStr

/-! ## Collaborators and the parsed page -/

/-- The collaborators the extraction calls besides the DOM queries. -/
structure Env where
  /-- Model of `JSON.parse`; `none` when it raises a `SyntaxError`. -/
  jsonParse : Str → Option JVal
  /-- Plain text of an HTML fragment: the result of
  `cheerio.load('<div>' + html + '</div>')('div').text()`. -/
  htmlText : Str → Str

/-- An element matched by `$('a')`. -/
structure Anchor where
  /-- Result of `attr('href')`; `none` when the attribute is missing. -/
  href : Option Str
  /-- Result of `text()`. -/
  text : Str

/-- An element matched by `$('dt')`. -/
structure DtEntry where
  /-- Result of `text()`. -/
  label : Str
  /-- Texts of `next('dd').find('a[href*="/characters/"]')`. -/
  characterLinks : List Str

/-- An element matched by
`$('div[data-testid="KeyDetails"] .DetailsLayoutRightItem__label')`, with what
the source reads from its value element. -/
structure KeyDetailsItem where
  /-- Result of `$(el).text()`. -/
  label : Str
  /-- Result of `valueElement.text()`. -/
  valueText : Str
  /-- Whether `valueElement.find('.Button').length > 0`. -/
  hasButton : Bool
  /-- Result of `valueElement.clone().children().remove().end().text()`. -/
  ownText : Str
  /-- Result of `valueElement.find('a[href*="/series/"]').text()`; `none` when
  the selection is empty. -/
  seriesAnchor : Option Str
  /-- Texts of `valueElement.find('a[href*="/characters/"]')`. -/
  characterLinks : List Str

/-- An element matched by `featuredDetailsContainer.find('p[data-testid]')`. -/
structure FeaturedParagraph where
  /-- Result of `attr('data-testid')`. -/
  testId : Str
  /-- Result of `text()`. -/
  text : Str

/-- An element matched by `featuredDetailsContainer.find('dt')`. -/
structure FeaturedDt where
  /-- Result of `$(el).text()`. -/
  label : Str
  /-- Result of `$(el).next('dd').text()`. -/
  detailText : Str
  /-- Result of `$(el).next('dd').find('a[href*="/series/"]').text()`; `none`
  when the selection is empty. -/
  seriesAnchor : Option Str
  /-- Texts of `$(el).next('dd').find('a[href*="/characters/"]')`. -/
  characterLinks : List Str

/-- The selection `$('.BookDetails .FeaturedDetails')` when it is not empty. -/
structure FeaturedDetails where
  paragraphs : List FeaturedParagraph
  dts : List FeaturedDt

/-- The description container when it exists. -/
structure Description where
  /-- Result of `html()` (`none` for `null`). -/
  html : Option Str
  /-- Result of `text()`. -/
  text : Str

/-- The parsed page: the result of every DOM query of `scrapeGoodreads`. -/
structure Page where
  /-- `$('a')`. -/
  anchors : List Anchor
  /-- `$('dt')`. -/
  dts : List DtEntry
  /-- `html()` of `script#__NEXT_DATA__[type="application/json"]`; `none` when
  there is no such element. -/
  nextData : Option Str
  /-- `$('h1[data-testid="bookTitle"]').text()`. -/
  title : Str
  /-- Texts of `$('span[data-testid="authorName"], .ContributorLink__name')`. -/
  authorNames : List Str
  /-- Texts of `$('.BookPageTitleSection a[href*="/author/show/"]')`. -/
  titleAuthorLinks : List Str
  /-- `$('.BookCover__image .ResponsiveImage').attr('src')`. -/
  imageSrc : Option Str
  /-- The description container. -/
  description : Option Description
  /-- `$('[data-testid="publicationInfo"]').text()`. -/
  publicationInfo : Str
  /-- `text()` of `$('.BookDetails .PublisherLine [aria-label*="Publisher"]')`;
  `none` when the selection is empty. -/
  publisherElement : Option Str
  /-- `$('[data-testid="publicationInfo"]').parent().find('a[href*="/publisher/"]').text()`. -/
  publisherLink : Str
  /-- Texts of `$('.BookPageMetadataSection__genres .Button__labelItem')`. -/
  genreLabels : List Str
  /-- `$('[data-testid="ratingsCount"]').text()`. -/
  ratingsCount : Str
  /-- `$('.RatingStatistics__rating').text()`. -/
  ratingStatistic : Str
  /-- `$('[data-testid="ratingValue"]').text()`. -/
  ratingValue : Str
  /-- `html()` of `script[type="application/ld+json"]`; `none` when there is
  no such element. -/
  ldJson : Option Str
  /-- The key-details labels. -/
  keyDetails : List KeyDetailsItem
  /-- The featured-details container. -/
  featuredDetails : Option FeaturedDetails
  /-- Text of the first
  `.Text__subdued.Text__regular.Text__italic.Text__title3.Text > a[href*="/series/"]`. -/
  seriesItalicLink : Option Str
  /-- Text of the first `.BookDetails .FeaturedDetails a[href*="/series/"]`. -/
  seriesFeaturedLink : Option Str
  /-- Text of the first `a[href*="/series/"][id*="bookSeries"]`. -/
  seriesGenericLink : Option Str

/-- The record `bookDetails`.  `none` stands for `null` / `undefined`.  The
fields `publisher` and `language` can receive any value of the data island or
of the linked-data block, the three lists any value of them. -/
structure BookDetails where
  bookName : Option Str := none
  authors : List JVal := []
  imageUrl : Option Str := none
  bookSummary : Option Str := none
  publicationDate : Option Str := none
  publisher : JVal := JVal.null
  genres : List JVal := []
  ratings : Str := "0".toList
  averageRating : Option Str := none
  numberOfPages : Option JNum := none
  language : JVal := JVal.null
  seriesName : Option Str := none
  positionInSeries : Option Str := none
  characters : List JVal := []

/-! ## Character harvesting (lines 30-58) -/

/-- The body shared by lines 36-39 and 51-54: the trimmed text is appended
when it is not empty and not yet in the list. -/
def addCharacter (b : BookDetails) (raw : Str) : BookDetails :=
  let text := trim raw
  if !text.isEmpty && !includesVal b.characters (JVal.str text) then
    { b with characters := b.characters ++ [JVal.str text] }
  else b

/-- Lines 33-41, one anchor. -/
def harvestAnchor (b : BookDetails) (a : Anchor) : BookDetails :=
  match a.href with
  | none => b
  | some href =>
    if !href.isEmpty && includes href "/characters/".toList then addCharacter b a.text else b

/-- Lines 33-41. -/
def directCharacters (page : Page) (b : BookDetails) : BookDetails :=
  page.anchors.foldl harvestAnchor b

/-- Lines 46-57, one `dt`. -/
def charactersSectionEntry (b : BookDetails) (dt : DtEntry) : BookDetails :=
  if trim dt.label == "Characters".toList then dt.characterLinks.foldl addCharacter b else b

/-- Lines 46-57. -/
def charactersSection (page : Page) (b : BookDetails) : BookDetails :=
  page.dts.foldl charactersSectionEntry b

/-! ## The data island (lines 60-174) -/

/-- Lines 79-86, one name found by the regular expressions. -/
def addRegexCharacter (b : BookDetails) (name : Str) : BookDetails :=
  if !name.isEmpty then
    (if !includesVal b.characters (JVal.str name) then
      { b with characters := b.characters ++ [JVal.str name] }
    else b)
  else b

/-- Lines 71-88. -/
def regexCharacters (content : Str) (b : BookDetails) : BookDetails :=
  (regexCharacterNames content).foldl addRegexCharacter b

/-- Line 94: `apolloState` when the guard of line 94 holds, `undefined`
otherwise. -/
def apolloStateOf (json : JVal) : JVal :=
  if json.truthy && (json.prop "props").truthy && ((json.prop "props").prop "pageProps").truthy
      && (((json.prop "props").prop "pageProps").prop "apolloState").truthy then
    ((json.prop "props").prop "pageProps").prop "apolloState"
  else JVal.undef

/-- The values visited by `for (const key in apolloState)`, in order; `none`
when `apolloState.hasOwnProperty(key)` raises a `TypeError` because the state
has an own property of that name (a JSON value is never callable). -/
def stateItems : JVal → Option (List JVal)
  | JVal.obj fields =>
    if fields.any (fun kv => kv.1 == "hasOwnProperty".toList) then none
    else some (fields.map (fun kv => kv.2))
  | JVal.arr items => some items
  | _ => some []

/-- Line 106: the test for a book record candidate. -/
def isCandidate (item : JVal) : Bool :=
  (item.prop "details").truthy &&
    ((item.prop "bookGenres").truthy || (item.prop "title").truthy ||
     (item.prop "name").truthy || (item.prop "work").truthy)

/-- Lines 110-114. -/
def itemPublisher (item : JVal) (b : BookDetails) : BookDetails :=
  if (item.prop "details").truthy && ((item.prop "details").prop "publisher").truthy
      && !b.publisher.truthy then
    { b with publisher := (item.prop "details").prop "publisher" }
  else b

/-- Lines 117-121. -/
def itemLanguage (item : JVal) (b : BookDetails) : BookDetails :=
  if (item.prop "details").truthy && ((item.prop "details").prop "language").truthy
      && (((item.prop "details").prop "language").prop "name").truthy && !b.language.truthy then
    { b with language := ((item.prop "details").prop "language").prop "name" }
  else b

/-- Lines 124-128.  The second component tells whether `parseInt` raised a
`TypeError`. -/
def itemPages (item : JVal) (b : BookDetails) : BookDetails × Bool :=
  if (item.prop "details").truthy && ((item.prop "details").prop "numPages").truthy
      && !numTruthy b.numberOfPages then
    match parseInt ((item.prop "details").prop "numPages") with
    | some n => ({ b with numberOfPages := some n }, false)
    | none => (b, true)
  else (b, false)

/-- Lines 132-136: the `forEach` over `bookGenres`.  The second component
tells whether `bg.genre` raised a `TypeError` (nullish `bg`). -/
def pushGenres : List JVal → BookDetails → BookDetails × Bool
  | [], b => (b, false)
  | bg :: rest, b =>
    if bg.isNullish then (b, true)
    else
      pushGenres rest
        (if (bg.prop "genre").truthy && ((bg.prop "genre").prop "name").truthy then
          { b with genres := b.genres ++ [(bg.prop "genre").prop "name"] }
         else b)

/-- Lines 131-141. -/
def itemGenres (item : JVal) (b : BookDetails) : BookDetails × Bool :=
  match item.prop "bookGenres" with
  | JVal.arr bgs => if b.genres.length == 0 then pushGenres bgs b else (b, false)
  | _ => (b, false)

/-- Lines 147-151, one element of `details.characters`. -/
def addItemCharacter (b : BookDetails) (char : JVal) : BookDetails :=
  if char.truthy && (char.prop "name").truthy && !includesVal b.characters (char.prop "name") then
    { b with characters := b.characters ++ [char.prop "name"] }
  else b

/-- Lines 146-156. -/
def itemCharacters (item : JVal) (b : BookDetails) : BookDetails :=
  if (item.prop "details").truthy then
    match (item.prop "details").prop "characters" with
    | JVal.arr chars => chars.foldl addItemCharacter b
    | _ => b
  else b

/-- Lines 101-166, one entry of the state map.  The second component tells
whether an exception was raised; the record is as mutated up to that point. -/
def processItem (b : BookDetails) (item : JVal) : BookDetails × Bool :=
  if item.isObject && isCandidate item then
    let p := itemPages item (itemLanguage item (itemPublisher item b))
    if p.2 then p
    else
      let r := itemGenres item p.1
      if r.2 then r else (itemCharacters item r.1, false)
  else (b, false)

/-- Lines 100-167: the loop over the state map, left at the first exception. -/
def walkItems : List JVal → BookDetails → BookDetails × Bool
  | [], b => (b, false)
  | item :: rest, b =>
    if (processItem b item).2 then (processItem b item) else walkItems rest (processItem b item).1

/-- Lines 90-168: the structured parse, inside the `try` of line 64. -/
def structuredParse (json : JVal) (b : BookDetails) : BookDetails :=
  if (apolloStateOf json).truthy then
    match stateItems (apolloStateOf json) with
    | some items => (walkItems items b).1
    | none => b
  else b

/-- Lines 61-173.  The flag `nextDataParsed` is never read and is left out. -/
def nextDataPass (env : Env) (page : Page) (b : BookDetails) : BookDetails :=
  match page.nextData with
  | none => b
  | some content =>
    match env.jsonParse content with
    | some json => structuredParse json (regexCharacters content b)
    | none => regexCharacters content b

/-! ## Book name and authors (lines 176-248) -/

/-- Append `v` unless `includes(v)`. -/
def pushUnique (xs : List JVal) (v : JVal) : List JVal :=
  if includesVal xs v then xs else xs ++ [v]

/-- Lines 184-187 and 242-245: an author text found in the markup. -/
def addAuthorText (b : BookDetails) (raw : Str) : BookDetails :=
  let authorName := trim raw
  if !authorName.isEmpty && !includesVal b.authors (JVal.str authorName) then
    { b with authors := b.authors ++ [JVal.str authorName] }
  else b

/-- Lines 214-218: the `forEach` over `item.authors`; the flag tells whether
`author.name` raised a `TypeError`. -/
def pushAuthorList : List JVal → BookDetails → BookDetails × Bool
  | [], b => (b, false)
  | author :: rest, b =>
    if author.isNullish then (b, true)
    else
      pushAuthorList rest
        (if (author.prop "name").truthy && !includesVal b.authors (author.prop "name") then
          { b with authors := b.authors ++ [author.prop "name"] }
         else b)

/-- Lines 220-225: the loop over `item.contributors`. -/
def pushContributors : List JVal → BookDetails → BookDetails × Bool
  | [], b => (b, false)
  | contributor :: rest, b =>
    if contributor.isNullish then (b, true)
    else
      pushContributors rest
        (if (contributor.prop "role").isStr "AUTHOR" && (contributor.prop "name").truthy
            && !includesVal b.authors (contributor.prop "name") then
          { b with authors := b.authors ++ [contributor.prop "name"] }
         else b)

/-- Lines 202-227, one entry of the state map. -/
def authorFromItem (b : BookDetails) (item : JVal) : BookDetails × Bool :=
  if item.isObject then
    if (item.prop "author").truthy && ((item.prop "author").prop "name").truthy then
      ({ b with authors := pushUnique b.authors ((item.prop "author").prop "name") }, false)
    else
      match item.prop "authors" with
      | JVal.arr authors => pushAuthorList authors b
      | _ =>
        match item.prop "contributors" with
        | JVal.arr contributors => pushContributors contributors b
        | _ => (b, false)
  else (b, false)

/-- Lines 201-228: the loop, left at the first exception. -/
def walkAuthors : List JVal → BookDetails → BookDetails × Bool
  | [], b => (b, false)
  | item :: rest, b =>
    if (authorFromItem b item).2 then (authorFromItem b item)
    else walkAuthors rest (authorFromItem b item).1

/-- Lines 192-234: authors from the data island when the markup gave none. -/
def authorsFromNextData (env : Env) (page : Page) (b : BookDetails) : BookDetails :=
  if b.authors.length == 0 then
    match page.nextData with
    | none => b
    | some content =>
      match env.jsonParse content with
      | none => b
      | some json =>
        if (apolloStateOf json).truthy then
          match stateItems (apolloStateOf json) with
          | some items => (walkAuthors items b).1
          | none => b
        else b
  else b

/-- Lines 237-248. -/
def authorsFromTitleLinks (page : Page) (b : BookDetails) : BookDetails :=
  if b.authors.length == 0 then page.titleAuthorLinks.foldl addAuthorText b else b

/-- Lines 176-248. -/
def nameAndAuthors (env : Env) (page : Page) (b : BookDetails) : BookDetails :=
  authorsFromTitleLinks page (authorsFromNextData env page
    (page.authorNames.foldl addAuthorText { b with bookName := some (trim page.title) }))

/-! ## Image, summary, publication info, genres, ratings (lines 250-349) -/

/-- Lines 254-274: the summary text. -/
def summaryOf (env : Env) (page : Page) : Str :=
  match page.description with
  | none => []
  | some d =>
    match d.html with
    | some html => if !html.isEmpty then trim (env.htmlText (replaceBr html)) else trim d.text
    | none => trim d.text

/-- Lines 250-277. -/
def imageAndSummary (env : Env) (page : Page) (b : BookDetails) : BookDetails :=
  { b with imageUrl := page.imageSrc, bookSummary := some (summaryOf env page) }

/-- A match object and its group 1 are both truthy (`m && m[1]`). -/
def truthyGroup : Option Str → Option Str
  | some g => if g.isEmpty then none else some g
  | none => none

/-- Lines 280-300.  Assigning `null` to a falsy publisher is kept as in the
source. -/
def publicationInfoStep (page : Page) (b : BookDetails) : BookDetails :=
  let text := trim page.publicationInfo
  match truthyGroup (publishedMatch text) with
  | some g =>
    let parts := splitBy g
    if decide (parts.length > 1) && !b.publisher.truthy then
      { b with publicationDate := some (trim (parts.headD [])),
               publisher := JVal.str (trim (parts.getD 1 [])) }
    else if !b.publisher.truthy then
      { b with publicationDate := some (trim (parts.headD [])), publisher := JVal.null }
    else { b with publicationDate := some (trim (parts.headD [])) }
  | none =>
    match truthyGroup (firstPublishedMatch text) with
    | some g =>
      if !b.publisher.truthy then { b with publicationDate := some (trim g), publisher := JVal.null }
      else { b with publicationDate := some (trim g) }
    | none =>
      if !b.publisher.truthy then { b with publicationDate := some text, publisher := JVal.null }
      else { b with publicationDate := some text }

/-- Lines 303-308. -/
def publisherAfterBy (page : Page) (b : BookDetails) : BookDetails :=
  let text := trim page.publicationInfo
  if !b.publisher.truthy && strTruthy b.publicationDate && includes text " by ".toList then
    (if !(afterFirst text " by ".toList).isEmpty then
      { b with publisher := JVal.str (trim (afterFirst text " by ".toList)) }
    else b)
  else b

/-- Lines 310-315. -/
def publisherFromElement (page : Page) (b : BookDetails) : BookDetails :=
  if !b.publisher.truthy then
    match page.publisherElement with
    | some t => { b with publisher := JVal.str (trim (removeFirst t "Published by ".toList)) }
    | none => b
  else b

/-- Lines 317-322. -/
def publisherFromLink (page : Page) (b : BookDetails) : BookDetails :=
  if !b.publisher.truthy then
    (if !(trim page.publisherLink).isEmpty then
      { b with publisher := JVal.str (trim page.publisherLink) }
    else b)
  else b

/-- Lines 279-322. -/
def publicationPass (page : Page) (b : BookDetails) : BookDetails :=
  publisherFromLink page (publisherFromElement page (publisherAfterBy page
    (publicationInfoStep page b)))

/-- Lines 325-331. -/
def genresPass (page : Page) (b : BookDetails) : BookDetails :=
  if b.genres.length == 0 then
    let pushed := b.genres ++ page.genreLabels.map (fun t => JVal.str (trim t))
    { b with genres :=
        pushed.filter (fun genre => !(genre.isStr "Show all genres") && !(genre.isStr "...more")) }
  else b

/-- Lines 334-336: the `ratings` value for the text of the ratings-count
element. -/
def ratingsOf (raw : Str) : Str :=
  match ratingsMatch (trim raw) with
  | some g => removeCommas g
  | none => "0".toList

/-- Lines 338-349: the `averageRating` value. -/
def averageRatingOf (statistic value : Str) : Str :=
  let avgRating := if (trim statistic).isEmpty then trim value else trim statistic
  match truthyGroup (avgRatingMatch avgRating) with
  | some m => m
  | none => avgRating

/-- Lines 333-349. -/
def ratingsPass (page : Page) (b : BookDetails) : BookDetails :=
  { b with ratings := ratingsOf page.ratingsCount,
           averageRating := some (averageRatingOf page.ratingStatistic page.ratingValue) }

/-! ## The linked-data block (lines 361-399) -/

/-- Lines 383-389: the `forEach` over an array `jsonData.author`; the flag
tells whether `author.name` raised a `TypeError` (`typeof null` is
`'object'`). -/
def pushLdAuthors : List JVal → BookDetails → BookDetails × Bool
  | [], b => (b, false)
  | author :: rest, b =>
    match author with
    | JVal.str s =>
      pushLdAuthors rest
        (if !includesVal b.authors (JVal.str s) then
          { b with authors := b.authors ++ [JVal.str s] } else b)
    | JVal.null => (b, true)
    | _ =>
      pushLdAuthors rest
        (if author.isObject && (author.prop "name").truthy
            && !includesVal b.authors (author.prop "name") then
          { b with authors := b.authors ++ [author.prop "name"] }
         else b)

/-- Lines 376-391. -/
def ldAuthors (jsonData : JVal) (b : BookDetails) : BookDetails :=
  if b.authors.length == 0 && (jsonData.prop "author").truthy then
    match jsonData.prop "author" with
    | JVal.str s => { b with authors := b.authors ++ [JVal.str s] }
    | JVal.obj fields =>
      if (JVal.lookup fields "name".toList).truthy then
        { b with authors := b.authors ++ [JVal.lookup fields "name".toList] }
      else b
    | JVal.arr authors => (pushLdAuthors authors b).1
    | _ => b
  else b

/-- Lines 367-370. -/
def ldLanguage (jsonData : JVal) (b : BookDetails) : BookDetails :=
  if (jsonData.prop "inLanguage").truthy && !b.language.truthy then
    { b with language := jsonData.prop "inLanguage" }
  else b

/-- Lines 371-374.  The second component tells whether `parseInt` raised a
`TypeError`. -/
def ldPages (jsonData : JVal) (b : BookDetails) : BookDetails × Bool :=
  if (jsonData.prop "numberOfPages").truthy && !numTruthy b.numberOfPages then
    match parseInt (jsonData.prop "numberOfPages") with
    | some n => ({ b with numberOfPages := some n }, false)
    | none => (b, true)
  else (b, false)

/-- Lines 362-399.  An exception raised by the page count leaves the `try`
before the authors are read.  The flag `detailsFoundBySelectors` is never read
and is left out. -/
def ldJsonPass (env : Env) (page : Page) (b : BookDetails) : BookDetails :=
  match page.ldJson with
  | none => b
  | some content =>
    match env.jsonParse content with
    | none => b
    | some jsonData =>
      if jsonData.truthy then
        (if (ldPages jsonData (ldLanguage jsonData b)).2 then
          (ldPages jsonData (ldLanguage jsonData b)).1
         else ldAuthors jsonData (ldPages jsonData (ldLanguage jsonData b)).1)
      else b

/-! ## Key details and featured details (lines 410-525) -/

/-- Lines 436-442 and 502-507: the series link text read with
`/^(.*?)(?:\s*\(#([\d.]+)\))?$/`. -/
def readKeySeries (raw : Str) (b : BookDetails) : BookDetails :=
  match keySeriesMatch (trim raw) with
  | some (g1, g2) =>
    if !g1.isEmpty then
      match truthyGroup g2 with
      | some p => { b with seriesName := some (trim g1), positionInSeries := some p }
      | none => { b with seriesName := some (trim g1) }
    else b
  | none => b

/-- Lines 447-453 and 512-518: a character link of a details section; no
`includes` test here. -/
def pushCharacter (b : BookDetails) (raw : Str) : BookDetails :=
  if !(trim raw).isEmpty then { b with characters := b.characters ++ [JVal.str (trim raw)] }
  else b

/-- Lines 425-428 and 490-494: the page count read with `/(\d+)/`; `parseInt`
is given a string and cannot raise. -/
def readPages (valueText : Str) (b : BookDetails) : BookDetails :=
  match truthyGroup (pagesMatch valueText) with
  | some g => { b with numberOfPages := some (parseIntStr g) }
  | none => b

/-- Lines 414-422: the value text of a key-details item. -/
def KeyDetailsItem.value (it : KeyDetailsItem) : Str :=
  if it.hasButton then trim it.ownText else trim it.valueText

/-- Lines 424-454: the `if / else if` chain on the label. -/
def keyDetailsChain (label : Str) (it : KeyDetailsItem) (b : BookDetails) : BookDetails :=
  if includes label "pages".toList && !numTruthy b.numberOfPages then readPages it.value b
  else if includes label "language".toList && !b.language.truthy then
    { b with language := JVal.str it.value }
  else if includes label "series".toList then
    match it.seriesAnchor with
    | some t => readKeySeries t b
    | none => b
  else if includes label "characters".toList && b.characters.length == 0 then
    it.characterLinks.foldl pushCharacter b
  else b

/-- Lines 455-458. -/
def keyDetailsPublisher (label : Str) (it : KeyDetailsItem) (b : BookDetails) : BookDetails :=
  if includes label "publisher".toList && !b.publisher.truthy then
    { b with publisher := JVal.str (trim (stripPublishedBy it.value)) }
  else b

/-- Lines 412-459, one label. -/
def keyDetailsItem (b : BookDetails) (it : KeyDetailsItem) : BookDetails :=
  keyDetailsPublisher (toLowerCase (trim it.label)) it
    (keyDetailsChain (toLowerCase (trim it.label)) it b)

/-- Line 411: the guard of the key-details attempt. -/
def keyDetailsGate (b : BookDetails) : Bool :=
  !numTruthy b.numberOfPages || !b.language.truthy || b.characters.length == 0
    || !b.publisher.truthy

/-- Lines 411-460. -/
def keyDetailsPass (page : Page) (b : BookDetails) : BookDetails :=
  if keyDetailsGate b then page.keyDetails.foldl keyDetailsItem b else b

/-- Lines 465-481, one paragraph. -/
def featuredParagraph (b : BookDetails) (p : FeaturedParagraph) : BookDetails :=
  if p.testId == "pagesFormat".toList && !numTruthy b.numberOfPages then
    match truthyGroup (pagesFormatMatch (trim p.text)) with
    | some g => { b with numberOfPages := some (parseIntStr g) }
    | none => b
  else b

/-- Lines 486-522, one `dt` of the featured-details container. -/
def legacyDt (b : BookDetails) (d : FeaturedDt) : BookDetails :=
  let labelText := toLowerCase (trim d.label)
  let detailText := trim d.detailText
  if includes labelText "pages".toList && !numTruthy b.numberOfPages then readPages detailText b
  else if includes labelText "language".toList && !b.language.truthy then
    { b with language := JVal.str detailText }
  else if includes labelText "series".toList && !strTruthy b.seriesName then
    match d.seriesAnchor with
    | some t => readKeySeries t b
    | none => b
  else if includes labelText "characters".toList && b.characters.length == 0 then
    d.characterLinks.foldl pushCharacter b
  else if includes labelText "publisher".toList && !b.publisher.truthy then
    { b with publisher := JVal.str (trim (stripPublishedBy detailText)) }
  else b

/-- Lines 484-524. -/
def legacyPass (fd : FeaturedDetails) (b : BookDetails) : BookDetails :=
  if !numTruthy b.numberOfPages && !b.language.truthy then fd.dts.foldl legacyDt b else b

/-- Lines 463-525. -/
def featuredPass (page : Page) (b : BookDetails) : BookDetails :=
  match page.featuredDetails with
  | none => b
  | some fd =>
    if !numTruthy b.numberOfPages then legacyPass fd (fd.paragraphs.foldl featuredParagraph b)
    else b

/-! ## Series fallbacks (lines 527-600) -/

/-- Lines 541-545: removal of the first `(#pos)`, else of the first `#pos`,
from the name. -/
def cleanCommonPatterns (b : BookDetails) : BookDetails :=
  match b.positionInSeries, b.seriesName with
  | some pos, some name =>
    if !pos.isEmpty && includes name ("(#".toList ++ pos ++ ")".toList) then
      { b with seriesName := some (trim (removeFirst name ("(#".toList ++ pos ++ ")".toList))) }
    else if !pos.isEmpty && includes name ('#' :: pos) then
      { b with seriesName := some (trim (removeFirst name ('#' :: pos))) }
    else b
  | _, _ => b

/-- Lines 532-547 (and 554-569, 577-592): a series link text read with
`/^(.*?)(?:[\s#]+([0-9.,\-]+))?$/`. -/
def seriesAttempt (raw : Str) (b : BookDetails) : BookDetails :=
  match genericSeriesMatch (trim raw) with
  | some (g1, g2) =>
    if !g1.isEmpty then
      match truthyGroup g2 with
      | some p =>
        cleanCommonPatterns
          { b with seriesName := some (trim g1),
                   positionInSeries := some (trim (stripLeadingHash p)) }
      | none => cleanCommonPatterns { b with seriesName := some (trim g1) }
    else b
  | none => b

/-- One of the three attempts: made when the name is still falsy and the
selection is not empty. -/
def seriesTry (link : Option Str) (b : BookDetails) : BookDetails :=
  if !strTruthy b.seriesName then
    match link with
    | some t => seriesAttempt t b
    | none => b
  else b

/-- Lines 596-599. -/
def residualCleanup (b : BookDetails) : BookDetails :=
  match b.seriesName, b.positionInSeries with
  | some name, some pos =>
    if !name.isEmpty && !pos.isEmpty then
      { b with seriesName := some (trim (stripResidual pos (trim (stripResidual pos name)))) }
    else b
  | _, _ => b

/-- Lines 528-600. -/
def seriesFallback (page : Page) (b : BookDetails) : BookDetails :=
  if !strTruthy b.seriesName then
    residualCleanup (seriesTry page.seriesGenericLink (seriesTry page.seriesFeaturedLink
      (seriesTry page.seriesItalicLink b)))
  else b

/-! ## Normalisation of series name and position (lines 602-646) -/

/-- Lines 603-611: a trailing `#number` moved from the name to the position. -/
def extractHashNumber (s : Option Str × Option Str) : Option Str × Option Str :=
  match s.1 with
  | some name =>
    if !name.isEmpty && !strTruthy s.2 then
      match hashNumberMatch name with
      | some (before, g) => if !g.isEmpty then (some (trim before), some g) else s
      | none => s
    else s
  | none => s

/-- Lines 619-640: ignore-word removal and trailing position token. -/
def cleanSeriesName (s : Option Str × Option Str) : Option Str × Option Str :=
  match s.1 with
  | some name =>
    if !name.isEmpty then
      match positionMatch (removeIgnoreWord ignoreWord name) with
      | some (before, g) =>
        if !g.isEmpty then
          (some (trim (trim before)), if !strTruthy s.2 then some (trim g) else s.2)
        else (some (trim (removeIgnoreWord ignoreWord name)), s.2)
      | none => (some (trim (removeIgnoreWord ignoreWord name)), s.2)
    else s
  | none => s

/-- Lines 643-646. -/
def formatPosition (s : Option Str × Option Str) : Option Str × Option Str :=
  match s.2 with
  | some pos => if !pos.isEmpty then (s.1, some (spaceCommas pos)) else s
  | none => s

/-- Lines 602-646 on the pair `(seriesName, positionInSeries)`. -/
def normalizeSeries (s : Option Str × Option Str) : Option Str × Option Str :=
  formatPosition (cleanSeriesName (extractHashNumber s))

/-- Lines 602-646 on the record. -/
def normalizePass (b : BookDetails) : BookDetails :=
  { b with seriesName := (normalizeSeries (b.seriesName, b.positionInSeries)).1,
           positionInSeries := (normalizeSeries (b.seriesName, b.positionInSeries)).2 }

/-! ## The whole extraction -/

/-- Lines 13-28: the initial record. -/
def initialDetails : BookDetails := {}

/-- Lines 30-174: the record after character harvesting and the data island. -/
def afterNextData (env : Env) (page : Page) : BookDetails :=
  nextDataPass env page (charactersSection page (directCharacters page initialDetails))

/-- Lines 30-349: the record after the single-selector fields. -/
def afterRatings (env : Env) (page : Page) : BookDetails :=
  ratingsPass page (genresPass page (publicationPass page (imageAndSummary env page
    (nameAndAuthors env page (afterNextData env page)))))

/-- Lines 30-399: the record before the key-details attempt. -/
def beforeKeyDetails (env : Env) (page : Page) : BookDetails :=
  ldJsonPass env page (afterRatings env page)

/-- Lines 30-600: the record before normalisation. -/
def beforeNormalize (env : Env) (page : Page) : BookDetails :=
  seriesFallback page (featuredPass page (keyDetailsPass page (beforeKeyDetails env page)))

/-- Lines 13-650: the record built from a parsed page. -/
def extractDetails (env : Env) (page : Page) : BookDetails :=
  normalizePass (beforeNormalize env page)

/-- The function `scrapeGoodreads`.  `fetch` is `axios.get`: the response
body, `none` when the promise is rejected (network error or a status outside
2xx).  `load body` is the document `cheerio.load(data)` builds from the data
axios makes of the body, `none` when that call raises (axios hands over a body
that is a JSON text as the parsed value, and `cheerio.load` raises on a
number).  The statements of lines 13-650 raise only inside their own `try`
blocks.  Every exception of the body is caught at line 652, where `null` is
returned: the result `none`. -/
def scrapeGoodreads (env : Env) (fetch : Str → Option Str) (load : Str → Option Page)
    (url : Str) : Option BookDetails :=
  match fetch url with
  | some body =>
    match load body with
    | some page => some (extractDetails env page)
    | none => none
  | none => none


/-! ## The command-line entry point (`src/cli.js`) -/

/-- The test of line 24, `url.match(/^https?:\/\/www\.goodreads\.com\/book\/show\/\d+/)`:
the expression is anchored at the start only. -/
def urlMatches (url : Str) : Bool :=
  (lit "http".toList (fun s =>
    alt (lit "s".toList (lit "://www.goodreads.com/book/show/".toList (plus isDigit some)) s)
        (lit "://www.goodreads.com/book/show/".toList (plus isDigit some) s)) url).isSome

/-- What `main` writes to the console. -/
inductive Output where
  /-- Lines 16-19: the usage text. -/
  | usage
  /-- Lines 25-26: the invalid-URL message. -/
  | invalidUrl
  /-- Line 31: `Scraping: <url>`. -/
  | scraping (url : Str)
  /-- Line 37: `JSON.stringify(bookDetails, null, 2)`, which is the text `null`
  when the value is `null`. -/
  | record (bookDetails : Option BookDetails)
  /-- Line 39: `Scraping completed successfully.` -/
  | completed
  /-- Lines 41-44: the error report of the `catch` block. -/
  | scrapeError

/-- A finished run of the command-line program: what it wrote, in order, and
the exit code of the process. -/
structure Run where
  output : List Output
  exitCode : Nat

/-- The body of `main` (lines 13-47) for a given `scrape` function.  `arg` is
`process.argv[2]` (`none` when it is missing); `scrape url` is the outcome of
`await scrapeGoodreads(url)`: `none` when the promise is rejected, else the
value it resolves to.  `process.exit(1)` ends the process at once; a run that
reaches the end of `main` ends with code 0. -/
def mainWith (scrape : Str → Option (Option BookDetails)) (arg : Option Str) : Run :=
  match arg with
  | none => { output := [Output.usage], exitCode := 1 }
  | some url =>
    if url.isEmpty then { output := [Output.usage], exitCode := 1 }
    else if !urlMatches url then { output := [Output.invalidUrl], exitCode := 1 }
    else
      match scrape url with
      | some bookDetails =>
        { output := [Output.scraping url, Output.record bookDetails, Output.completed],
          exitCode := 0 }
      | none => { output := [Output.scraping url, Output.scrapeError], exitCode := 1 }

/-- The program `src/cli.js`.  The promise returned by `scrapeGoodreads` is
never rejected: the whole body of that function is inside its `try`, and the
`catch` of line 652 returns `null`. -/
def main (env : Env) (fetch : Str → Option Str) (load : Str → Option Page) (arg : Option Str) :
    Run :=
  mainWith (fun url => some (scrapeGoodreads env fetch load url)) arg

/-! ## Notions used to state the properties -/

/-- The entries of a list field that are strings. -/
def strings : List JVal → List Str
  | [] => []
  | JVal.str s :: rest => s :: strings rest
  | _ :: rest => strings rest

/-- The first (leftmost) maximal run of decimal digits of a text; empty when
the text has no digit. -/
def firstDigitRun : Str → Str
  | [] => []
  | c :: cs => if isDigit c then c :: cs.takeWhile isDigit else firstDigitRun cs

/-- A page on which every query of the scraper finds nothing. -/
def emptyPage : Page :=
  { anchors := [], dts := [], nextData := none, title := [], authorNames := [],
    titleAuthorLinks := [], imageSrc := none, description := none, publicationInfo := [],
    publisherElement := none, publisherLink := [], genreLabels := [], ratingsCount := [],
    ratingStatistic := [], ratingValue := [], ldJson := none, keyDetails := [],
    featuredDetails := none, seriesItalicLink := none, seriesFeaturedLink := none,
    seriesGenericLink := none }

/-- Collaborators for pages without embedded JSON: `JSON.parse` is never
given a valid text. -/
def noJson : Env := { jsonParse := fun _ => none, htmlText := fun s => s }

/-- A key-details item labelled `Series` whose value is one series link. -/
def seriesItem (text : Str) : KeyDetailsItem :=
  { label := "Series".toList, valueText := text, hasButton := false, ownText := [],
    seriesAnchor := some text, characterLinks := [] }

/-- A page whose ratings-count element has a comma before the number. -/
def commaRatingsPage : Page :=
  { emptyPage with ratingsCount := "Ratings, all editions: 1,234".toList }

/-- A page whose only series markup is a link carrying `id*="bookSeries"`. -/
def genericSeriesPage (text : String) : Page :=
  { emptyPage with seriesGenericLink := some text.toList }

/-- A page whose only series markup is the italic title link. -/
def italicSeriesPage (text : String) : Page :=
  { emptyPage with seriesItalicLink := some text.toList }

/-- A page whose only series markup is a link of the featured-details section. -/
def featuredSeriesPage (text : String) : Page :=
  { emptyPage with seriesFeaturedLink := some text.toList }

/-- A page whose only series markup is a key-details `Series` item. -/
def keySeriesPage (text : String) : Page :=
  { emptyPage with keyDetails := [seriesItem text.toList] }

/-- Whether a text starts, after optional white space, with the word `pages`
in any letter case. -/
def followedByPages (rest : Str) : Bool :=
  (dropLit eqCI "pages".toList (rest.dropWhile isWs)).isSome

/-- The first maximal run of digits that is directly followed by optional
white space and the word `pages` (any letter case). -/
def firstPagesRun : Str → Option Str
  | [] => none
  | c :: cs =>
    if isDigit c && followedByPages (cs.dropWhile isDigit) then some (c :: cs.takeWhile isDigit)
    else firstPagesRun cs

/-- A featured-details container holding one `pagesFormat` paragraph. -/
def pagesFormatPage (text : String) : Page :=
  { emptyPage with
      featuredDetails := some { paragraphs := [{ testId := "pagesFormat".toList, text := text.toList }],
                                dts := [] } }

/-- A key-details item labelled `Pages`. -/
def pagesItem (text : String) : KeyDetailsItem :=
  { label := "Pages".toList, valueText := text.toList, hasButton := false, ownText := [],
    seriesAnchor := none, characterLinks := [] }

/-- A legacy `dt` / `dd` entry labelled `Pages`. -/
def pagesDt (text : String) : FeaturedDt :=
  { label := "Pages".toList, detailText := text.toList, seriesAnchor := none, characterLinks := [] }

/-- A series name the cleanup has nothing left to do on: trimmed, free of the
ignore word, and not ending in a digit or one of `/ . , -`. -/
def isCleanName (n : Str) : Bool :=
  (trim n == n) && !includes n ignoreWord &&
    (match n.getLast? with
     | some c => !isPosChar c && !isPosTok c
     | none => true)

/-- A position text without a comma. -/
def hasNoComma (p : Str) : Bool := p.all (fun c => !(c == ','))

/-- The characters allowed in the words of a plain series name.  Every letter
(of any script) is one: the test only excludes white space, digits and the
punctuation `# ( . , - /` of the series grammar. -/
def isNameLetter (c : Char) : Bool :=
  !isWs c && !isDigit c && !(c == '#') && !(c == '(') && !(c == '.') && !(c == ',') &&
    !(c == '-') && !(c == '/')

/-- Letters separated by single spaces; `afterLetter` tells whether the
previous character was a letter. -/
def plainFrom : Bool → Str → Bool
  | afterLetter, [] => afterLetter
  | afterLetter, c :: cs =>
    if isNameLetter c then plainFrom true cs else (c == ' ' && afterLetter && plainFrom false cs)

/-- A non-empty name made of letters separated by single spaces. -/
def isPlainName (n : Str) : Bool := plainFrom false n

/-- Whether a key-details or `dt` label leads to the series branch whatever
the other fields hold: it mentions `series` but neither `pages` nor
`language`. -/
def isSeriesLabel (label : Str) : Bool :=
  includes (toLowerCase (trim label)) "series".toList &&
    !includes (toLowerCase (trim label)) "pages".toList &&
    !includes (toLowerCase (trim label)) "language".toList

/-- Whether a label mentions `series`. -/
def mentionsSeries (label : Str) : Bool := includes (toLowerCase (trim label)) "series".toList

/-- The key-details strategy reads the series link text `t`: the guard of line
411 holds, some series item carries a link with that text, and no item that
mentions `series` carries a link with another text. -/
def keyDetailsReads (env : Env) (page : Page) (t : Str) : Bool :=
  keyDetailsGate (beforeKeyDetails env page) &&
    page.keyDetails.any (fun it => isSeriesLabel it.label && it.seriesAnchor == some t) &&
    page.keyDetails.all (fun it =>
      !mentionsSeries it.label || it.seriesAnchor == none || it.seriesAnchor == some t)

/-- The legacy `dt`/`dd` strategy reads the series link text `t`: the guards of
lines 463 and 484 hold, no series has been found before, some series entry
carries a link with that text, and no entry that mentions `series` carries a
link with another text. -/
def legacyReads (env : Env) (page : Page) (t : Str) : Bool :=
  match page.featuredDetails with
  | none => false
  | some fd =>
    !numTruthy (keyDetailsPass page (beforeKeyDetails env page)).numberOfPages &&
    !numTruthy (fd.paragraphs.foldl featuredParagraph
        (keyDetailsPass page (beforeKeyDetails env page))).numberOfPages &&
    !(fd.paragraphs.foldl featuredParagraph
        (keyDetailsPass page (beforeKeyDetails env page))).language.truthy &&
    !strTruthy (keyDetailsPass page (beforeKeyDetails env page)).seriesName &&
    (keyDetailsPass page (beforeKeyDetails env page)).positionInSeries == none &&
    fd.dts.any (fun d => isSeriesLabel d.label && d.seriesAnchor == some t) &&
    fd.dts.all (fun d =>
      !mentionsSeries d.label || d.seriesAnchor == none || d.seriesAnchor == some t)

/-- One of the three fallback links (italic title link, featured-details
link, `bookSeries` link) is the one read, with text `t`: no series name has
been found before, and the links tried earlier are absent. -/
def fallbackReads (env : Env) (page : Page) (t : Str) : Bool :=
  !strTruthy (featuredPass page (keyDetailsPass page (beforeKeyDetails env page))).seriesName &&
    (page.seriesItalicLink == some t ||
      (page.seriesItalicLink == none &&
        (page.seriesFeaturedLink == some t ||
          (page.seriesFeaturedLink == none && page.seriesGenericLink == some t))))

/-- A page whose only series markup is a legacy `dt`/`dd` entry. -/
def legacySeriesPage (text : String) : Page :=
  { emptyPage with
      featuredDetails := some
        { paragraphs := [],
          dts := [{ label := "Series".toList, detailText := text.toList,
                    seriesAnchor := some text.toList, characterLinks := [] }] } }

/-- The pair `(seriesName, positionInSeries)` of a record. -/
def seriesOf (b : BookDetails) : Option Str × Option Str := (b.seriesName, b.positionInSeries)

/-- No two entries of the list are equal for `Array.prototype.includes`. -/
def distinctValues (xs : List JVal) : Prop :=
  List.Pairwise (fun a b => JVal.sameValueZero a b = false) xs

/-- The list `ys` is `xs` with entries appended, and is duplicate-free when
`xs` is. -/
def extendsDistinct (xs ys : List JVal) : Prop :=
  (∃ extra, ys = xs ++ extra) ∧ (distinctValues xs → distinctValues ys)

/-- Whether an anchor is harvested by lines 33-41: its `href` contains
`/characters/`. -/
def isCharacterAnchor (a : Anchor) : Bool :=
  match a.href with
  | some href => !href.isEmpty && includes href "/characters/".toList
  | none => false

/-- Texts of the page anchors whose `href` contains `/characters/`. -/
def characterAnchorTexts (page : Page) : List Str :=
  (page.anchors.filter isCharacterAnchor).map (fun a => a.text)

/-- Texts of the character anchors found inside the details sections
(key-details values and legacy `dd` elements). -/
def detailCharacterLinks (page : Page) : List Str :=
  page.keyDetails.flatMap (fun it => it.characterLinks) ++
    (match page.featuredDetails with
     | some fd => fd.dts.flatMap (fun d => d.characterLinks)
     | none => [])

/-- A JSON object written with string keys. -/
def jobj (fields : List (String × JVal)) : JVal :=
  JVal.obj (fields.map (fun kv => (kv.1.toList, kv.2)))

/-- A JSON string. -/
def jstr (s : String) : JVal := JVal.str s.toList

/-- Collaborators whose `JSON.parse` knows one text, of which `json` is the
parsed value, and rejects every other text. -/
def parseOnly (text : String) (json : JVal) : Env :=
  { jsonParse := fun s => if s == text.toList then some json else none, htmlText := fun s => s }

/-- A data island `{"props":{"pageProps":{"apolloState": state}}}`. -/
def islandOf (state : JVal) : JVal :=
  jobj [("props", jobj [("pageProps", jobj [("apolloState", state)])])]

/-- The genre names a `bookGenres` list carries. -/
def genreNames (bgs : List JVal) : List JVal :=
  bgs.map (fun bg => (bg.prop "genre").prop "name")

/-- A page with character links in a key-details item, the same links being
anchors of the page, and a repeated author element. -/
def charactersPage : Page :=
  { emptyPage with
      anchors := [{ href := some "/characters/1-crowley".toList, text := "Crowley".toList },
                  { href := some "/characters/1-crowley".toList, text := " Crowley ".toList }],
      authorNames := ["Terry Pratchett".toList, "Neil Gaiman".toList, "Terry Pratchett".toList],
      keyDetails := [{ label := "Characters".toList, valueText := "Crowley Crowley".toList,
                       hasButton := false, ownText := [], seriesAnchor := none,
                       characterLinks := ["Crowley".toList, " Crowley ".toList] }] }

/-- A page whose genre section shows the label `Fantasy` twice. -/
def repeatedGenrePage : Page :=
  { emptyPage with genreLabels := ["Fantasy".toList, "Fiction".toList, "Fantasy".toList] }

/-- Text of a data island whose book record lists the genre `Fantasy` twice. -/
def repeatedGenreText : String :=
  "\x7b\"props\":\x7b\"pageProps\":\x7b\"apolloState\":\x7b\"Book:1\":\x7b\"details\":\x7b\x7d,\"bookGenres\":[\x7b\"genre\":\x7b\"name\":\"Fantasy\"\x7d\x7d,\x7b\"genre\":\x7b\"name\":\"Fantasy\"\x7d\x7d]\x7d\x7d\x7d\x7d\x7d"

/-- The value `JSON.parse` returns for `repeatedGenreText`. -/
def repeatedGenreJson : JVal :=
  islandOf (jobj [("Book:1", jobj [("details", jobj []),
    ("bookGenres", JVal.arr [jobj [("genre", jobj [("name", jstr "Fantasy")])],
                             jobj [("genre", jobj [("name", jstr "Fantasy")])]])])])

/-- A page whose only content is the data island `repeatedGenreText`. -/
def repeatedGenreIslandPage : Page :=
  { emptyPage with nextData := some repeatedGenreText.toList }

/-- The entries of the state map the structured parse of the data island
visits: empty when the page has no data island, when its text is not valid
JSON, when the guard of line 94 fails, or when `hasOwnProperty` raises. -/
def islandItems (env : Env) (page : Page) : List JVal :=
  match page.nextData with
  | none => []
  | some content =>
    match env.jsonParse content with
    | none => []
    | some json =>
      match stateItems (apolloStateOf json) with
      | some items => items
      | none => []

/-- No `bookGenres` list of the data island names a genre twice, and no two
genre label elements have the same trimmed text. -/
def genreSourcesDistinct (env : Env) (page : Page) : Bool :=
  (islandItems env page).all (fun item =>
    match item.prop "bookGenres" with
    | JVal.arr bgs => decide ((strings (genreNames bgs)).Nodup)
    | _ => true) &&
  decide ((page.genreLabels.map trim).Nodup)

/-- Text of a data island whose book record lists two different genres. -/
def twoGenresText : String :=
  "\x7b\"props\":\x7b\"pageProps\":\x7b\"apolloState\":\x7b\"Book:1\":\x7b\"details\":\x7b\x7d,\"bookGenres\":[\x7b\"genre\":\x7b\"name\":\"Fantasy\"\x7d\x7d,\x7b\"genre\":\x7b\"name\":\"Fiction\"\x7d\x7d]\x7d\x7d\x7d\x7d\x7d"

/-- The value `JSON.parse` returns for `twoGenresText`. -/
def twoGenresJson : JVal :=
  islandOf (jobj [("Book:1", jobj [("details", jobj []),
    ("bookGenres", JVal.arr [jobj [("genre", jobj [("name", jstr "Fantasy")])],
                             jobj [("genre", jobj [("name", jstr "Fiction")])]])])])

/-- A page whose only content is the data island `twoGenresText`. -/
def twoGenresPage : Page :=
  { emptyPage with nextData := some twoGenresText.toList }

/-- The value `item.details.publisher`. -/
def publisherOf (item : JVal) : JVal := (item.prop "details").prop "publisher"

/-- The value `item.details.language.name`. -/
def languageOf (item : JVal) : JVal := ((item.prop "details").prop "language").prop "name"

/-- The entry is a book record candidate with a truthy publisher. -/
def suppliesPublisher (item : JVal) : Bool :=
  item.isObject && isCandidate item && (publisherOf item).truthy

/-- The entry is a book record candidate with a truthy language name. -/
def suppliesLanguage (item : JVal) : Bool :=
  item.isObject && isCandidate item && (languageOf item).truthy

/-- The `bookGenres` list of the entry has a `null` element: reading
`bg.genre` on it raises a `TypeError`, which ends the structured parse. -/
def hasNullGenre (item : JVal) : Bool :=
  match item.prop "bookGenres" with
  | JVal.arr bgs => bgs.any JVal.isNullish
  | _ => false

/-- The page count of the entry cannot be converted to a string (it is, or
contains, an object with an own `toString` property): `parseInt` raises a
`TypeError` on it at line 125, which ends the structured parse. -/
def hasBadPageCount (item : JVal) : Bool :=
  ((item.prop "details").prop "numPages").toStr.isNone

/-- Processing the entry can raise an exception: a `null` in its `bookGenres`
list or a page count that cannot be converted to a string. -/
def canRaise (item : JVal) : Bool := hasNullGenre item || hasBadPageCount item

/-- Text of a data island with two entries: the first has a `null` in its
`bookGenres` list, the second is the book record with publisher `Ace Books`
and language `English`. -/
def brokenFirstEntryText : String :=
  "\x7b\"props\":\x7b\"pageProps\":\x7b\"apolloState\":\x7b\"Work:1\":\x7b\"details\":\x7b\x7d,\"bookGenres\":[null]\x7d,\"Book:1\":\x7b\"title\":\"Good Omens\",\"details\":\x7b\"publisher\":\"Ace Books\",\"language\":\x7b\"name\":\"English\"\x7d\x7d\x7d\x7d\x7d\x7d\x7d"

/-- The value `JSON.parse` returns for `brokenFirstEntryText`. -/
def brokenFirstEntryJson : JVal :=
  islandOf (jobj [
    ("Work:1", jobj [("details", jobj []), ("bookGenres", JVal.arr [JVal.null])]),
    ("Book:1", jobj [("title", jstr "Good Omens"),
      ("details", jobj [("publisher", jstr "Ace Books"),
                        ("language", jobj [("name", jstr "English")])])])])

/-- A key-details item labelled `Language`. -/
def languageItem (text : String) : KeyDetailsItem :=
  { label := "Language".toList, valueText := text.toList, hasButton := false, ownText := [],
    seriesAnchor := none, characterLinks := [] }

/-- A page with the data island `brokenFirstEntryText`, a publication line
naming another publisher and a key-details item naming another language. -/
def brokenFirstEntryPage : Page :=
  { emptyPage with
      nextData := some brokenFirstEntryText.toList,
      publicationInfo := "Published May 1, 1990 by Workman".toList,
      keyDetails := [languageItem "French"] }

/-- Text of a data island with a contributor entry followed by the book
record, which has publisher `Ace Books` and language `English`. -/
def aceBooksText : String :=
  "\x7b\"props\":\x7b\"pageProps\":\x7b\"apolloState\":\x7b\"Contributor:1\":\x7b\"name\":\"Terry Pratchett\"\x7d,\"Book:1\":\x7b\"title\":\"Good Omens\",\"details\":\x7b\"publisher\":\"Ace Books\",\"language\":\x7b\"name\":\"English\"\x7d\x7d\x7d\x7d\x7d\x7d\x7d"

/-- The contributor entry of `aceBooksText`. -/
def contributorItem : JVal := jobj [("name", jstr "Terry Pratchett")]

/-- The book record of `aceBooksText`. -/
def aceBooksItem : JVal :=
  jobj [("title", jstr "Good Omens"),
    ("details", jobj [("publisher", jstr "Ace Books"),
                      ("language", jobj [("name", jstr "English")])])]

/-- The value `JSON.parse` returns for `aceBooksText`. -/
def aceBooksJson : JVal :=
  islandOf (jobj [("Contributor:1", contributorItem), ("Book:1", aceBooksItem)])

/-- A page with the data island `aceBooksText`, a publication line naming
another publisher and a key-details item naming another language. -/
def aceBooksPage : Page :=
  { emptyPage with
      nextData := some aceBooksText.toList,
      publicationInfo := "Published May 1, 1990 by Workman".toList,
      keyDetails := [languageItem "French"] }

/-! ## Notions used to state the properties of single fields and of the
entry points -/

/-- The page has no link whose target contains `/series/`: every selection
`a[href*="/series/"]` made by the scraper (inside a key-details value, inside a
legacy `dd`, and the three fallback links) is empty. -/
def noSeriesLink (page : Page) : Bool :=
  page.keyDetails.all (fun it => it.seriesAnchor.isNone) &&
    (match page.featuredDetails with
     | some fd => fd.dts.all (fun d => d.seriesAnchor.isNone)
     | none => true) &&
    page.seriesItalicLink.isNone && page.seriesFeaturedLink.isNone &&
    page.seriesGenericLink.isNone

/-- Text of a linked-data block giving the language and the page count. -/
def linkedDataText : String :=
  "\x7b\"@type\":\"Book\",\"inLanguage\":\"English\",\"numberOfPages\":412\x7d"

/-- The value `JSON.parse` returns for `linkedDataText`. -/
def linkedDataJson : JVal :=
  jobj [("@type", jstr "Book"), ("inLanguage", jstr "English"),
        ("numberOfPages", JVal.num "412".toList)]

/-- A page whose key-details section has a `Series` item with the link
`Discworld (#2)` and no other series markup; characters are given by an
anchor, the publisher by the publication line, language and page count by the
linked-data block. -/
def gatedSeriesPage : Page :=
  { emptyPage with
      anchors := [{ href := some "/characters/1-rincewind".toList, text := "Rincewind".toList }],
      publicationInfo := "Published May 1, 1990 by Workman".toList,
      ldJson := some linkedDataText.toList,
      keyDetails := [seriesItem "Discworld (#2)".toList] }

/-- A well-formed book URL. -/
def goodOmensUrl : Str := "https://www.goodreads.com/book/show/12067.Good_Omens".toList

/-- A page with a title, an author, a character anchor, a publication line, a
linked-data block, a key-details item and a legacy page-count entry, but no
link to a series. -/
def noSeriesPage : Page :=
  { emptyPage with
      anchors := [{ href := some "/characters/1-crowley".toList, text := "Crowley".toList }],
      title := "Good Omens".toList,
      authorNames := ["Terry Pratchett".toList],
      publicationInfo := "Published May 1, 1990 by Workman".toList,
      ldJson := some linkedDataText.toList,
      keyDetails := [languageItem "French"],
      featuredDetails := some { paragraphs := [], dts := [pagesDt "412 pages"] } }

/-- The title element, the description container, the publication-info
element and both rating elements are missing: the text of an empty selection
is the empty string. -/
def lacksTextElements (page : Page) : Bool :=
  page.title.isEmpty && page.description.isNone && page.publicationInfo.isEmpty &&
    page.ratingStatistic.isEmpty && page.ratingValue.isEmpty

/-- A text of the form one or two digits, a dot, one or two digits. -/
def isDecimal : Str → Bool
  | [a, p, b] => isDigit a && p == '.' && isDigit b
  | [a, x, y, b] => isDigit a && isDigit b && ((x == '.' && isDigit y) || (isDigit x && y == '.'))
  | [a, a2, p, b, b2] => isDigit a && isDigit a2 && p == '.' && isDigit b && isDigit b2
  | _ => false

/-- The longest text of the decimal form a text starts with. -/
def decimalPrefix (s : Str) : Option Str :=
  if isDecimal (s.take 5) then some (s.take 5)
  else if isDecimal (s.take 4) then some (s.take 4)
  else if isDecimal (s.take 3) then some (s.take 3)
  else none

/-- The text `m`, found in `text` after the text `pre`, is the leftmost match
of the decimal form: no text of that form starts earlier in `text`, and none
that starts at the same place is longer. -/
def IsLeftmostDecimal (text pre m : Str) : Prop :=
  (∃ post, text = pre ++ m ++ post) ∧ isDecimal m = true ∧
  ∀ pre2 m2 post2, text = pre2 ++ m2 ++ post2 → isDecimal m2 = true →
    pre.length < pre2.length ∨ (pre.length = pre2.length ∧ m2.length ≤ m.length)

/-- The raw rating text: the trimmed text of the rating-statistic element, or
of the rating-value element when the former is empty. -/
def ratingText (page : Page) : Str :=
  if (trim page.ratingStatistic).isEmpty then trim page.ratingValue else trim page.ratingStatistic

/-- A page whose rating-statistic element reads `Average rating 4.14 ·`. -/
def averageRatingPage : Page :=
  { emptyPage with ratingStatistic := "Average rating 4.14 ·".toList }

/-- A list with its later repeats removed: the first occurrence of every
entry, in order. -/
def withoutRepeats : List Str → List Str
  | [] => []
  | x :: xs => x :: (withoutRepeats xs).filter (fun y => !(y == x))

/-- The trimmed texts of the author-name elements that are not empty, in
document order. -/
def authorTexts (page : Page) : List Str :=
  (page.authorNames.map trim).filter (fun t => !t.isEmpty)

/-- A non-empty text of digits and commas; digit groups with comma thousands
separators such as `1,234,567` are of this form. -/
def isDigitGroup (g : Str) : Bool := !g.isEmpty && g.all isDigitComma

/-- The page of the end-to-end scenario: title `Good Omens`, author-name
elements `Terry Pratchett` and `Neil Gaiman` (followed by a blank one and a
repeated one), ratings count `1,234,567 ratings`. -/
def goodOmensPage : Page :=
  { emptyPage with
      title := "Good Omens".toList,
      authorNames := ["Terry Pratchett".toList, " Neil Gaiman ".toList, " ".toList,
                      "Terry Pratchett".toList],
      ratingsCount := "1,234,567 ratings".toList }

/-- The names a nested character list offers: `char.name` of every truthy
element with a truthy name. -/
def nestedNames (chars : List JVal) : List JVal :=
  (chars.filter (fun char => char.truthy && (char.prop "name").truthy)).map
    (fun char => char.prop "name")

/-- Text of a data island whose book record has a nested character list; the
character object carries an (empty) list of aliases before its name. -/
def nestedCharactersText : String :=
  "\x7b\"props\":\x7b\"pageProps\":\x7b\"apolloState\":\x7b\"Book:1\":\x7b\"title\":\"Good Omens\",\"details\":\x7b\"characters\":[\x7b\"aliases\":[],\"name\":\"Aziraphale\"\x7d]\x7d\x7d\x7d\x7d\x7d\x7d"

/-- The nested character list of `nestedCharactersText`. -/
def nestedCharacterList : List JVal :=
  [jobj [("aliases", JVal.arr []), ("name", jstr "Aziraphale")]]

/-- The book record of `nestedCharactersText`. -/
def nestedCharactersItem : JVal :=
  jobj [("title", jstr "Good Omens"),
        ("details", jobj [("characters", JVal.arr nestedCharacterList)])]

/-- The value `JSON.parse` returns for `nestedCharactersText`. -/
def nestedCharactersJson : JVal := islandOf (jobj [("Book:1", nestedCharactersItem)])

/-- A page with one character anchor and the data island
`nestedCharactersText`. -/
def nestedCharactersPage : Page :=
  { emptyPage with
      anchors := [{ href := some "/characters/1-crowley".toList, text := "Crowley".toList }],
      nextData := some nestedCharactersText.toList }

/-- Whether a text starts with the word `by`: the letters `by` followed by
white space or by the end of the text. -/
def startsWithBy (s : Str) : Bool :=
  match dropLit eqCS "by".toList s with
  | some [] => true
  | some (c :: _) => isWs c
  | none => false

/-- Whether a text contains the word `by` right after a white-space
character. -/
def hasSpacedBy : Str → Bool
  | [] => false
  | c :: cs => (isWs c && startsWithBy cs) || hasSpacedBy cs

/-- A one-line text for a date or a publisher: it starts and ends with a
character that is not white space (so it is non-empty and trimmed), has no
line terminator, and does not contain the word `by` after white space. -/
def isPlainLine (s : Str) : Bool :=
  (match s.head? with
   | some c => !isWs c
   | none => false) &&
  (match s.getLast? with
   | some c => !isWs c
   | none => false) &&
  s.all isDot && !hasSpacedBy s

/-- A page whose publication-info element has the given text. -/
def publicationPage (text : String) : Page :=
  { emptyPage with publicationInfo := text.toList }

/-- The page with its data island removed. -/
def withoutIsland (page : Page) : Page := { page with nextData := none }

/-- The two records differ at most in their character lists. -/
def sameButCharacters (a b : BookDetails) : Prop := a = { b with characters := a.characters }

/-- The two records differ at most in their character lists and their
publishers. -/
def sameButCharactersPublisher (a b : BookDetails) : Prop :=
  a = { b with characters := a.characters, publisher := a.publisher }

/-- The four fields the data island can supply besides characters and
authors are equal in the two records. -/
def sameIslandFields (a b : BookDetails) : Prop :=
  a.publisher = b.publisher ∧ a.language = b.language ∧ a.numberOfPages = b.numberOfPages ∧
    a.genres = b.genres

/-- No `dt` label of the featured-details container mentions both
`characters` and `publisher`. -/
def noCharacterPublisherLabel (page : Page) : Bool :=
  match page.featuredDetails with
  | none => true
  | some fd =>
    fd.dts.all (fun d =>
      !(includes (toLowerCase (trim d.label)) "characters".toList &&
        includes (toLowerCase (trim d.label)) "publisher".toList))

/-- Text of a data island cut off in the middle of the book record. -/
def truncatedIslandText : String :=
  "\x7b\"props\":\x7b\"pageProps\":\x7b\"apolloState\":\x7b\"Book:1\":\x7b\"details\":\x7b\"characters\":[\x7b\"name\":\"Crowley\"\x7d]"

/-- A page with the data island `truncatedIslandText` and a legacy `dt`
entry whose label mentions both characters and publisher. -/
def truncatedIslandPage : Page :=
  { emptyPage with
      dts := [{ label := "Characters and publisher".toList, characterLinks := [] }],
      nextData := some truncatedIslandText.toList,
      featuredDetails := some
        { paragraphs := [],
          dts := [{ label := "Characters and publisher".toList, detailText := "Ace Books".toList,
                    seriesAnchor := none, characterLinks := [] }] } }

/-- The page `noSeriesPage` with the data island `truncatedIslandText`. -/
def truncatedIslandBook : Page :=
  { noSeriesPage with nextData := some truncatedIslandText.toList }

/-! ## Basic facts about characters and the combinators -/

theorem alt_none_right {α : Type} (a : Option α) : alt a none = a := by
  cases a <;> rfl

theorem alt_some_left {α : Type} (x : α) (b : Option α) : alt (some x) b = some x := rfl

theorem alt_none_left {α : Type} (b : Option α) : alt none b = b := rfl

theorem isDigit_not_ws {c : Char} (h : isDigit c = true) : isWs c = false := by
  simp only [isDigit, Bool.and_eq_true, decide_eq_true_eq] at h
  simp only [isWs, Bool.or_eq_false_iff, Bool.and_eq_false_iff, beq_eq_false_iff_ne, ne_eq,
    decide_eq_false_iff_not]
  omega

theorem isLineTerm_isWs {c : Char} (h : isLineTerm c = true) : isWs c = true := by
  simp only [isLineTerm, Bool.or_eq_true, beq_iff_eq] at h
  simp only [isWs, Bool.or_eq_true, beq_iff_eq, Bool.and_eq_true, decide_eq_true_eq]
  omega

theorem isDot_of_not_ws {c : Char} (h : isWs c = false) : isDot c = true := by
  cases hl : isLineTerm c
  · simp [isDot, hl]
  · rw [isLineTerm_isWs hl] at h; cases h

theorem char_eq_of_toNat {c d : Char} (h : c.toNat = d.toNat) : c = d := by
  apply Char.ext
  apply UInt32.ext
  exact h

theorem beq_char_false_of_toNat {c d : Char} (h : c.toNat ≠ d.toNat) : (c == d) = false := by
  rw [beq_eq_false_iff_ne]
  intro e
  exact h (by rw [e])

theorem isDigit_ne {c d : Char} (h : isDigit c = true) (hd : isDigit d = false) :
    (c == d) = false := by
  rw [beq_eq_false_iff_ne]
  intro e
  rw [e] at h
  rw [h] at hd
  cases hd

theorem search_map_snd_cons {α : Type} (m : Str → Option α) (c : Char) (cs : Str) :
    (search m (c :: cs)).map (fun r => r.2)
      = match m (c :: cs) with
        | some a => some a
        | none => (search m cs).map (fun r => r.2) := by
  simp only [search]
  cases m (c :: cs) with
  | some a => rfl
  | none => cases search m cs <;> rfl

theorem search_map_snd_nil {α : Type} (m : Str → Option α) :
    (search m []).map (fun r => r.2) = m [] := by
  simp only [search]
  cases m [] <;> rfl

/-! ## Digit runs and page counts -/

theorem starCap_accept (p : Char → Bool) (s acc : Str) :
    starCap p (fun cap _ => some cap) acc s = some (acc ++ s.takeWhile p) := by
  induction s generalizing acc with
  | nil => simp [starCap]
  | cons c cs ih =>
    by_cases hc : p c = true
    · simp [starCap, hc, ih, alt_some_left]
    · simp [starCap, hc]

theorem plusCap_accept (p : Char → Bool) (c : Char) (cs : Str) :
    plusCap p (fun cap _ => some cap) (c :: cs)
      = if p c then some (c :: cs.takeWhile p) else none := by
  by_cases hc : p c = true
  · simp [plusCap, hc, starCap_accept]
  · simp [plusCap, hc]

theorem pagesMatch_eq (s : Str) :
    pagesMatch s = if s.any isDigit then some (firstDigitRun s) else none := by
  unfold pagesMatch
  induction s with
  | nil => simp [search, plusCap]
  | cons c cs ih =>
    by_cases hc : isDigit c = true
    · simp [search, plusCap_accept, hc, firstDigitRun]
    · simp only [Bool.not_eq_true] at hc
      simp only [search, plusCap_accept, hc, firstDigitRun, List.any_cons, Bool.false_or]
      simp only [Bool.false_eq_true, if_false]
      by_cases ha : cs.any isDigit = true
      · rw [ha] at ih
        simp only [if_true] at ih
        simp only [ha, if_true]
        cases hs : search (plusCap isDigit fun cap _ => some cap) cs with
        | none => rw [hs] at ih; simp at ih
        | some r => rw [hs] at ih; simpa using ih
      · simp only [Bool.not_eq_true] at ha
        rw [ha] at ih
        simp only [Bool.false_eq_true, if_false] at ih
        simp only [ha, Bool.false_eq_true, if_false]
        cases hs : search (plusCap isDigit fun cap _ => some cap) cs with
        | none => simp
        | some r => rw [hs] at ih; simp at ih

theorem firstDigitRun_ne_nil {s : Str} (h : s.any isDigit = true) : firstDigitRun s ≠ [] := by
  induction s with
  | nil => simp at h
  | cons c cs ih =>
    by_cases hc : isDigit c = true
    · simp [firstDigitRun, hc]
    · simp only [Bool.not_eq_true] at hc
      simp only [List.any_cons, hc, Bool.false_or] at h
      simpa [firstDigitRun, hc] using ih h

theorem firstDigitRun_digits (s : Str) : ∀ c ∈ firstDigitRun s, isDigit c = true := by
  induction s with
  | nil => simp [firstDigitRun]
  | cons c cs ih =>
    by_cases hc : isDigit c = true
    · intro d hd
      simp only [firstDigitRun, hc, if_true, List.mem_cons] at hd
      rcases hd with rfl | hd
      · exact hc
      · exact (List.mem_takeWhile_imp hd)
    · simp only [Bool.not_eq_true] at hc
      simpa [firstDigitRun, hc] using ih

theorem takeWhile_eq_self_of_all {p : Char → Bool} {s : Str} (h : ∀ c ∈ s, p c = true) :
    s.takeWhile p = s := by
  induction s with
  | nil => rfl
  | cons c cs ih =>
    have hc : p c = true := h c (List.mem_cons_self _ _)
    simp only [List.takeWhile_cons, hc, if_true]
    rw [ih (fun d hd => h d (List.mem_cons_of_mem _ hd))]

/-- An integer below 2^53 is its own Number value. -/
theorem numberOf_exact {n : Nat} (h : n < 2 ^ 53) : numberOf false n = JNum.int (n : Int) := by
  have hn : nearestDouble n = some n := by
    unfold nearestDouble
    exact if_pos h
  simp only [numberOf, hn, Bool.false_eq_true, if_false]

/-- `parseInt` of a non-empty run of digits is the Number value of the integer
the digits denote. -/
theorem parseInt_digits {ds : Str} (hne : ds ≠ []) (hd : ∀ c ∈ ds, isDigit c = true) :
    parseIntStr ds = numberOf false (digitsVal ds) := by
  cases ds with
  | nil => exact absurd rfl hne
  | cons c cs =>
    have hc : isDigit c = true := hd c (List.mem_cons_self _ _)
    have hws : isWs c = false := isDigit_not_ws hc
    have h1 : (c == '-') = false := isDigit_ne hc (by decide)
    have h2 : (c == '+') = false := isDigit_ne hc (by decide)
    have ht : (c :: cs).takeWhile isDigit = c :: cs := takeWhile_eq_self_of_all hd
    simp only [parseIntStr, List.dropWhile_cons, hws, h1, h2,
      Bool.false_eq_true, if_false, Bool.or_self, ht, List.isEmpty_cons]

theorem truthyGroup_some_cons (c : Char) (cs : Str) : truthyGroup (some (c :: cs)) = some (c :: cs) := rfl

theorem truthyGroup_of_ne_nil {g : Str} (h : g ≠ []) : truthyGroup (some g) = some g := by
  cases g with
  | nil => exact absurd rfl h
  | cons c cs => rfl

/-- Lines 425-428 / 490-494 on a text with a digit: the page count is the
Number value of the first digit run. -/
theorem readPages_of_digit (valueText : Str) (b : BookDetails)
    (h : valueText.any isDigit = true) :
    (readPages valueText b).numberOfPages
      = some (numberOf false (digitsVal (firstDigitRun valueText))) := by
  unfold readPages
  rw [pagesMatch_eq, h]
  simp only [if_true, truthyGroup_of_ne_nil (firstDigitRun_ne_nil h)]
  rw [parseInt_digits (firstDigitRun_ne_nil h) (firstDigitRun_digits valueText)]

theorem lowerChar_of_ws {c : Char} (h : isWs c = true) : lowerChar c = c := by
  simp only [isWs, Bool.or_eq_true, beq_iff_eq, Bool.and_eq_true, decide_eq_true_eq] at h
  have : ¬ (65 ≤ c.toNat ∧ c.toNat ≤ 90) := by omega
  simp only [lowerChar, Bool.and_eq_true, decide_eq_true_eq, this, if_false]

theorem lowerChar_of_digit {c : Char} (h : isDigit c = true) : lowerChar c = c := by
  simp only [isDigit, Bool.and_eq_true, decide_eq_true_eq] at h
  have : ¬ (65 ≤ c.toNat ∧ c.toNat ≤ 90) := by omega
  simp only [lowerChar, Bool.and_eq_true, decide_eq_true_eq, this, if_false]

theorem pages_lit_ws {c : Char} (cs : Str) (h : isWs c = true) :
    dropLit eqCI "pages".toList (c :: cs) = none := by
  have hne : (('p' : Char) == c) = false := by
    apply beq_char_false_of_toNat
    simp only [isWs, Bool.or_eq_true, beq_iff_eq, Bool.and_eq_true, decide_eq_true_eq] at h
    have : ('p' : Char).toNat = 112 := by decide
    omega
  have hl : lowerChar 'p' = 'p' := by decide
  show dropLit eqCI ('p' :: "ages".toList) (c :: cs) = none
  simp only [dropLit, eqCI, lowerChar_of_ws h, hl, hne, Bool.false_eq_true, if_false]

theorem pages_lit_digit {c : Char} (cs : Str) (h : isDigit c = true) :
    dropLit eqCI "pages".toList (c :: cs) = none := by
  have hne : (('p' : Char) == c) = false := by
    apply beq_char_false_of_toNat
    simp only [isDigit, Bool.and_eq_true, decide_eq_true_eq] at h
    have : ('p' : Char).toNat = 112 := by decide
    omega
  have hl : lowerChar 'p' = 'p' := by decide
  show dropLit eqCI ('p' :: "ages".toList) (c :: cs) = none
  simp only [dropLit, eqCI, lowerChar_of_digit h, hl, hne, Bool.false_eq_true, if_false]

theorem star_ws_pages (cap : Str) (rest : Str) :
    star isWs (litCI "pages".toList (fun _ => some cap)) rest
      = if followedByPages rest then some cap else none := by
  induction rest with
  | nil => simp [star, litCI, followedByPages, dropLit]
  | cons c cs ih =>
    by_cases hc : isWs c = true
    · have hl : litCI "pages".toList (fun _ => some cap) (c :: cs) = none := by
        simp only [litCI, pages_lit_ws cs hc]
      simp only [star, hc, if_true, hl, alt_none_right, ih, followedByPages, List.dropWhile_cons]
    · simp only [Bool.not_eq_true] at hc
      simp only [star, hc, Bool.false_eq_true, if_false, litCI, followedByPages,
        List.dropWhile_cons]
      cases dropLit eqCI "pages".toList (c :: cs) <;> simp

theorem starCap_pages (s acc : Str) :
    starCap isDigit (fun cap rest => star isWs (litCI "pages".toList (fun _ => some cap)) rest)
        acc s
      = if followedByPages (s.dropWhile isDigit) then some (acc ++ s.takeWhile isDigit)
        else none := by
  induction s generalizing acc with
  | nil =>
    simp only [starCap, star_ws_pages, List.dropWhile_nil, List.takeWhile_nil, List.append_nil]
  | cons c cs ih =>
    by_cases hc : isDigit c = true
    · have hk : star isWs (litCI "pages".toList (fun _ => some acc)) (c :: cs) = none := by
        simp only [star, isDigit_not_ws hc, Bool.false_eq_true, if_false, litCI,
          pages_lit_digit cs hc]
      simp only [starCap, hc, if_true, hk, alt_none_right, ih, List.dropWhile_cons,
        List.takeWhile_cons, List.append_assoc, List.singleton_append]
    · simp only [Bool.not_eq_true] at hc
      simp only [starCap, hc, Bool.false_eq_true, if_false, star_ws_pages, List.dropWhile_cons,
        List.takeWhile_cons, List.append_nil]

theorem pagesFormatMatch_eq (s : Str) : pagesFormatMatch s = firstPagesRun s := by
  unfold pagesFormatMatch
  induction s with
  | nil => simp [search, plusCap, firstPagesRun]
  | cons c cs ih =>
    rw [search_map_snd_cons]
    by_cases hc : isDigit c = true
    · by_cases hf : followedByPages (cs.dropWhile isDigit) = true
      · simp only [plusCap, hc, if_true, starCap_pages, hf, firstPagesRun, Bool.and_self,
          List.singleton_append]
      · simp only [Bool.not_eq_true] at hf
        simp only [plusCap, hc, if_true, starCap_pages, hf, Bool.false_eq_true, if_false,
          firstPagesRun, Bool.and_false, ih]
    · simp only [Bool.not_eq_true] at hc
      simp only [plusCap, hc, Bool.false_eq_true, if_false, firstPagesRun, Bool.false_and, ih]

theorem firstPagesRun_spec {s run : Str} (h : firstPagesRun s = some run) :
    run ≠ [] ∧ ∀ c ∈ run, isDigit c = true := by
  induction s with
  | nil => simp [firstPagesRun] at h
  | cons c cs ih =>
    by_cases hc : (isDigit c && followedByPages (cs.dropWhile isDigit)) = true
    · simp only [firstPagesRun, hc, if_true, Option.some.injEq] at h
      subst h
      simp only [Bool.and_eq_true] at hc
      refine ⟨by simp, ?_⟩
      intro d hd
      simp only [List.mem_cons] at hd
      rcases hd with rfl | hd
      · exact hc.1
      · exact List.mem_takeWhile_imp hd
    · simp only [firstPagesRun, hc, if_false] at h
      exact ih h

/-- Lines 469-474: the `pagesFormat` paragraph sets the page count to the
Number value of the first digit run followed by `pages`, and leaves it
unchanged when there is none. -/
theorem featuredParagraph_pages (b : BookDetails) (p : FeaturedParagraph)
    (hid : p.testId = "pagesFormat".toList) (hunset : numTruthy b.numberOfPages = false) :
    (featuredParagraph b p).numberOfPages
      = match firstPagesRun (trim p.text) with
        | some run => some (numberOf false (digitsVal run))
        | none => b.numberOfPages := by
  unfold featuredParagraph
  rw [pagesFormatMatch_eq]
  simp only [hid, beq_self_eq_true, hunset, Bool.not_false, Bool.and_self, if_true]
  cases h : firstPagesRun (trim p.text) with
  | none => simp [truthyGroup]
  | some run =>
    obtain ⟨hne, hd⟩ := firstPagesRun_spec h
    simp only [truthyGroup_of_ne_nil hne, parseInt_digits hne hd]

/-! ## Searches, end-anchored captures, the ignore word -/

theorem search_none {α : Type} (m : Str → Option α) (s : Str)
    (h : ∀ pre t, s = pre ++ t → m t = none) : search m s = none := by
  induction s with
  | nil => simp [search, h [] [] rfl]
  | cons c cs ih =>
    have h0 : m (c :: cs) = none := h [] (c :: cs) rfl
    have hr : search m cs = none := ih (fun pre t e => h (c :: pre) t (by rw [e]; rfl))
    simp [search, h0, hr]

theorem search_append {α : Type} (m : Str → Option α) (pre t : Str) (a : α)
    (hfail : ∀ u c v, pre = u ++ c :: v → m (c :: v ++ t) = none) (hok : m t = some a) :
    search m (pre ++ t) = some (pre, a) := by
  induction pre with
  | nil =>
    cases t with
    | nil => simp [search, hok]
    | cons c cs => simp [search, hok]
  | cons c cs ih =>
    have h0 : m (c :: cs ++ t) = none := hfail [] c cs rfl
    have hr := ih (fun u d v e => hfail (c :: u) d v (by rw [e]; rfl))
    simp only [List.cons_append] at h0 ⊢
    simp [search, h0, hr]

theorem replaceAll_id (m : Str → Option Str) (rep s : Str)
    (h : ∀ pre t, s = pre ++ t → m t = none) : replaceAll m rep 0 s = s := by
  induction s with
  | nil => rfl
  | cons c cs ih =>
    have h0 : m (c :: cs) = none := h [] (c :: cs) rfl
    have hr := ih (fun pre t e => h (c :: pre) t (by rw [e]; rfl))
    simp [replaceAll, h0, hr]

theorem star_none {α : Type} (p : Char → Bool) (k : Str → Option α) (s : Str)
    (h : ∀ pre t, s = pre ++ t → k t = none) : star p k s = none := by
  induction s with
  | nil => simp [star, h [] [] rfl]
  | cons c cs ih =>
    have h0 : k (c :: cs) = none := h [] (c :: cs) rfl
    have hr := ih (fun pre t e => h (c :: pre) t (by rw [e]; rfl))
    by_cases hc : p c = true
    · simp [star, hc, h0, hr, alt]
    · simp [star, hc, h0]

theorem starCap_eos (p : Char → Bool) (s acc : Str) :
    starCap p (fun cap r => eos cap r) acc s = if s.all p then some (acc ++ s) else none := by
  induction s generalizing acc with
  | nil => simp [starCap, eos]
  | cons c cs ih =>
    by_cases hc : p c = true
    · have he : (eos acc (c :: cs) : Option Str) = none := rfl
      simp only [starCap, hc, if_true, ih, he, alt_none_right, List.all_cons, Bool.true_and,
        List.append_assoc, List.singleton_append]
    · have he : (eos acc (c :: cs) : Option Str) = none := rfl
      simp only [Bool.not_eq_true] at hc
      simp only [starCap, hc, Bool.false_eq_true, if_false, he, List.all_cons, Bool.false_and]

theorem plusCap_eos (p : Char → Bool) (s : Str) :
    plusCap p (fun cap r => eos cap r) s
      = if s ≠ [] ∧ s.all p = true then some s else none := by
  cases s with
  | nil => simp [plusCap]
  | cons c cs =>
    by_cases hc : p c = true
    · simp [plusCap, hc, starCap_eos]
    · simp [plusCap, hc]

/-- A text whose last character is outside the class `p`. -/
theorem all_false_of_getLast {p : Char → Bool} {s : Str} {c : Char}
    (h : s.getLast? = some c) (hc : p c = false) : s.all p = false := by
  have hmem : c ∈ s := List.mem_of_getLast?_eq_some h
  rw [List.all_eq_false]
  exact ⟨c, hmem, by simp [hc]⟩

theorem getLast_suffix {pre t s : Str} {c : Char} (e : s = pre ++ t) (hne : t ≠ [])
    (h : s.getLast? = some c) : t.getLast? = some c := by
  subst e
  rwa [List.getLast?_append_of_ne_nil _ hne] at h

theorem plusCap_eos_none_of_last {p : Char → Bool} {s : Str}
    (h : ∀ c, s.getLast? = some c → p c = false) (pre : Str) {t : Str} (e : s = pre ++ t) :
    plusCap p (fun cap r => eos cap r) t = none := by
  rw [plusCap_eos]
  by_cases hne : t = []
  · simp [hne]
  · obtain ⟨c, hc⟩ : ∃ c, s.getLast? = some c := by
      cases hs : s.getLast? with
      | none =>
        rw [List.getLast?_eq_none_iff] at hs
        subst hs
        simp at e
        exact absurd e.2 hne
      | some c => exact ⟨c, rfl⟩
    have := all_false_of_getLast (getLast_suffix e hne hc) (h c hc)
    simp [this]

theorem lit_hash (k : Str → Option α) (s : Str) :
    lit "#".toList k s = match s with
      | [] => none
      | c :: cs => if c == '#' then k cs else none := by
  unfold lit
  cases s with
  | nil => rfl
  | cons c cs =>
    by_cases hc : c = '#'
    · subst hc; rfl
    · have : ('#' == c) = false := by
        rw [beq_eq_false_iff_ne]; exact fun e => hc e.symm
      have h2 : (c == '#') = false := by rw [beq_eq_false_iff_ne]; exact hc
      simp [dropLit, eqCS, this, h2]

theorem hashNumberMatch_none {s : Str} (h : ∀ c, s.getLast? = some c → isPosChar c = false) :
    hashNumberMatch s = none := by
  unfold hashNumberMatch
  apply search_none
  intro pre t e
  rw [lit_hash]
  cases t with
  | nil => rfl
  | cons c cs =>
    by_cases hc : (c == '#') = true
    · simp only [hc, if_true]
      exact plusCap_eos_none_of_last h (pre ++ [c]) (by rw [e]; simp)
    · simp [hc]

theorem positionMatch_none {s : Str} (h : ∀ c, s.getLast? = some c → isPosTok c = false) :
    positionMatch s = none := by
  unfold positionMatch
  apply search_none
  intro pre t e
  have h1 : star isWs (plusCap isPosTok (fun cap r => eos cap r)) t = none := by
    apply star_none
    intro pre2 t2 e2
    exact plusCap_eos_none_of_last h (pre ++ pre2) (by rw [e, e2]; simp)
  rw [lit_hash, h1]
  cases t with
  | nil => rfl
  | cons c cs =>
    by_cases hc : (c == '#') = true
    · simp only [hc, if_true, alt_none_right]
      apply star_none
      intro pre2 t2 e2
      exact plusCap_eos_none_of_last h (pre ++ [c] ++ pre2) (by rw [e, e2]; simp)
    · simp [hc, alt]

theorem spaceCommas_id {p : Str} (h : hasNoComma p = true) : spaceCommas p = p := by
  induction p with
  | nil => rfl
  | cons c cs ih =>
    simp only [hasNoComma, List.all_cons, Bool.and_eq_true, Bool.not_eq_true'] at h
    have hcs : hasNoComma cs = true := by simpa [hasNoComma] using h.2
    simp [spaceCommas, h.1, ih hcs]

theorem lowerChar_toNat_le (c : Char) (h : 65 ≤ c.toNat ∧ c.toNat ≤ 90) :
    (lowerChar c).toNat ≤ 122 := by
  have hc : c = Char.ofNat c.toNat := (Char.ofNat_toNat c).symm
  obtain ⟨h1, h2⟩ := h
  generalize c.toNat = n at hc h1 h2
  subst hc
  interval_cases n <;> decide

/-- Under the `i` flag a pattern character above `z` matches only itself. -/
theorem eqCI_high {a : Char} (ha : 122 < a.toNat) (c : Char) : eqCI a c = eqCS a c := by
  have hla : lowerChar a = a := by
    have : ¬ (65 ≤ a.toNat ∧ a.toNat ≤ 90) := by omega
    simp only [lowerChar, Bool.and_eq_true, decide_eq_true_eq, this, if_false]
  unfold eqCI eqCS
  rw [hla]
  by_cases hc : 65 ≤ c.toNat ∧ c.toNat ≤ 90
  · have h1 : (a == lowerChar c) = false := by
      apply beq_char_false_of_toNat
      have := lowerChar_toNat_le c hc
      omega
    have h2 : (a == c) = false := by
      apply beq_char_false_of_toNat
      omega
    rw [h1, h2]
  · simp only [lowerChar, Bool.and_eq_true, decide_eq_true_eq, hc, if_false]

theorem dropLit_congr {eq1 eq2 : Char → Char → Bool} (p : Str)
    (h : ∀ a ∈ p, ∀ c, eq1 a c = eq2 a c) (s : Str) : dropLit eq1 p s = dropLit eq2 p s := by
  induction p generalizing s with
  | nil => rfl
  | cons a p ih =>
    cases s with
    | nil => rfl
    | cons c cs =>
      simp only [dropLit, h a (List.mem_cons_self _ _) c,
        ih (fun x hx => h x (List.mem_cons_of_mem _ hx))]

theorem ignoreWord_high : ∀ a ∈ ignoreWord, 122 < a.toNat := by decide

theorem dropLit_ignoreWord (s : Str) :
    dropLit eqCI ignoreWord s = dropLit eqCS ignoreWord s :=
  dropLit_congr ignoreWord (fun a ha c => eqCI_high (ignoreWord_high a ha) c) s

theorem includes_false_suffix {s p : Str} (h : includes s p = false) {pre t : Str}
    (e : s = pre ++ t) : dropLit eqCS p t = none ∨ t = [] := by
  induction pre generalizing s with
  | nil =>
    simp only [List.nil_append] at e
    subst e
    cases s with
    | nil => exact Or.inr rfl
    | cons c cs =>
      simp only [includes, Bool.or_eq_false_iff] at h
      left
      cases hd : dropLit eqCS p (c :: cs) with
      | none => rfl
      | some r => rw [hd] at h; simp at h
  | cons a pre ih =>
    subst e
    simp only [List.cons_append, includes, Bool.or_eq_false_iff] at h
    exact ih h.2 rfl

theorem removeIgnoreWord_id {n : Str} (h : includes n ignoreWord = false) :
    removeIgnoreWord ignoreWord n = n := by
  unfold removeIgnoreWord
  apply replaceAll_id
  intro pre t e
  apply star_none
  intro pre2 t2 e2
  have hs : n = (pre ++ pre2) ++ t2 := by rw [e, e2]; simp
  unfold litCI
  rw [dropLit_ignoreWord]
  rcases includes_false_suffix h hs with h1 | h1
  · rw [h1]
  · subst h1; rfl

/-! ## The series expressions on plain names -/

theorem nameLetter_facts {c : Char} (h : isNameLetter c = true) :
    isWs c = false ∧ isDigit c = false ∧ (c == '#') = false ∧ (c == '(') = false ∧
    (c == '.') = false ∧ (c == ',') = false ∧ (c == '-') = false ∧ (c == '/') = false := by
  simpa [isNameLetter, and_assoc] using h

theorem nameLetter_classes {c : Char} (h : isNameLetter c = true) :
    isDot c = true ∧ isWsHash c = false ∧ isPosChar c = false ∧ isPosTok c = false := by
  obtain ⟨h1, h2, h3, h4, h5, h6, h7, h8⟩ := nameLetter_facts h
  refine ⟨isDot_of_not_ws h1, ?_, ?_, ?_⟩
  · simp [isWsHash, h1, h3]
  · simp [isPosChar, h2, h5, h6, h7]
  · simp [isPosTok, h2, h5, h7, h8]

theorem space_not_letter : isNameLetter ' ' = false := by decide

theorem plainFrom_false_cons {cs : Str} (h : plainFrom false cs = true) :
    ∃ d ds, cs = d :: ds ∧ isNameLetter d = true ∧ plainFrom true ds = true := by
  cases cs with
  | nil => simp [plainFrom] at h
  | cons d ds =>
    by_cases hd : isNameLetter d = true
    · exact ⟨d, ds, rfl, hd, by simpa [plainFrom, hd] using h⟩
    · simp [plainFrom, hd] at h

/-- Every character of a plain name is a letter or a space. -/
theorem plainFrom_mem {prev : Bool} {n : Str} (h : plainFrom prev n = true) :
    ∀ c ∈ n, isNameLetter c = true ∨ c = ' ' := by
  induction n generalizing prev with
  | nil => simp
  | cons c cs ih =>
    intro d hd
    by_cases hc : isNameLetter c = true
    · simp only [plainFrom, hc, if_true] at h
      rcases List.mem_cons.mp hd with rfl | hd
      · exact Or.inl hc
      · exact ih h d hd
    · simp only [Bool.not_eq_true] at hc
      simp only [plainFrom, hc, Bool.false_eq_true, if_false, Bool.and_eq_true, beq_iff_eq] at h
      rcases List.mem_cons.mp hd with rfl | hd
      · exact Or.inr h.1.1
      · exact ih h.2 d hd

/-- A plain name ends with a letter. -/
theorem plainFrom_getLast {prev : Bool} {n : Str} (h : plainFrom prev n = true) (hne : n ≠ []) :
    ∃ c, n.getLast? = some c ∧ isNameLetter c = true := by
  induction n generalizing prev with
  | nil => exact absurd rfl hne
  | cons c cs ih =>
    by_cases hc : isNameLetter c = true
    · simp only [plainFrom, hc, if_true] at h
      cases cs with
      | nil => exact ⟨c, rfl, hc⟩
      | cons d ds =>
        obtain ⟨x, hx, hl⟩ := ih h (by simp)
        exact ⟨x, by rw [List.getLast?_cons_cons]; exact hx, hl⟩
    · simp only [Bool.not_eq_true] at hc
      simp only [plainFrom, hc, Bool.false_eq_true, if_false, Bool.and_eq_true, beq_iff_eq] at h
      obtain ⟨d, ds, e, _, _⟩ := plainFrom_false_cons h.2
      subst e
      obtain ⟨x, hx, hl⟩ := ih h.2 (by simp)
      exact ⟨x, by rw [List.getLast?_cons_cons]; exact hx, hl⟩

theorem trim_eq_self {s : Str} (hhead : ∀ c, s.head? = some c → isWs c = false)
    (hlast : ∀ c, s.getLast? = some c → isWs c = false) : trim s = s := by
  unfold trim
  have h1 : s.dropWhile isWs = s := by
    cases s with
    | nil => rfl
    | cons c cs => simp [List.dropWhile_cons, hhead c rfl]
  rw [h1, List.rdropWhile_eq_self_iff]
  intro hne
  have := hlast (s.getLast hne) (List.getLast?_eq_getLast s hne)
  simp [this]

theorem isPlainName_ne_nil {n : Str} (h : isPlainName n = true) : n ≠ [] := by
  intro e
  subst e
  simp [isPlainName, plainFrom] at h

theorem isPlainName_head {n : Str} (h : isPlainName n = true) :
    ∀ c, n.head? = some c → isNameLetter c = true := by
  obtain ⟨d, ds, e, hd, _⟩ := plainFrom_false_cons h
  subst e
  intro c hc
  simp only [List.head?_cons, Option.some.injEq] at hc
  subst hc
  exact hd

theorem isPlainName_trim {n : Str} (h : isPlainName n = true) : trim n = n := by
  apply trim_eq_self
  · intro c hc
    exact (nameLetter_facts (isPlainName_head h c hc)).1
  · intro c hc
    obtain ⟨x, hx, hl⟩ := plainFrom_getLast h (isPlainName_ne_nil h)
    rw [hx] at hc
    cases hc
    exact (nameLetter_facts hl).1

theorem includes_false_of_not_mem {s : Str} {a : Char} (p : Str) (h : a ∉ s) :
    includes s (a :: p) = false := by
  induction s with
  | nil => rfl
  | cons c cs ih =>
    have hc : (a == c) = false := by
      rw [beq_eq_false_iff_ne]
      intro e
      exact h (by rw [e]; exact List.mem_cons_self _ _)
    have hcs : a ∉ cs := fun hm => h (List.mem_cons_of_mem _ hm)
    simp [includes, dropLit, eqCS, hc, ih hcs]

theorem dropLit_some_mem {q t r : Str} (h : dropLit eqCS q t = some r) : ∀ b ∈ q, b ∈ t := by
  induction q generalizing t with
  | nil => simp
  | cons a q ih =>
    cases t with
    | nil => simp [dropLit] at h
    | cons c cs =>
      by_cases hac : eqCS a c = true
      · simp only [dropLit, hac, if_true] at h
        have e : a = c := by simpa [eqCS] using hac
        intro b hb
        rcases List.mem_cons.mp hb with rfl | hb
        · rw [e]; exact List.mem_cons_self _ _
        · exact List.mem_cons_of_mem _ (ih h b hb)
      · simp [dropLit, hac] at h

theorem includes_false_of_not_mem_pat {s q : Str} {b : Char} (hb : b ∈ q) (h : b ∉ s) :
    includes s q = false := by
  induction s with
  | nil =>
    cases q with
    | nil => simp at hb
    | cons a q => rfl
  | cons c cs ih =>
    have hcs : b ∉ cs := fun hm => h (List.mem_cons_of_mem _ hm)
    have hd : dropLit eqCS q (c :: cs) = none := by
      cases hq : dropLit eqCS q (c :: cs) with
      | none => rfl
      | some r => exact absurd (dropLit_some_mem hq b hb) h
    simp [includes, hd, ih hcs]

theorem plain_not_mem {n : Str} (h : isPlainName n = true) {a : Char}
    (ha : isNameLetter a = false) (hs : a ≠ ' ') : a ∉ n := by
  intro hm
  rcases plainFrom_mem h a hm with h1 | h1
  · rw [h1] at ha; cases ha
  · exact hs h1

/-- A plain name without the ignore word is a clean name. -/
theorem isPlainName_clean {n : Str} (h : isPlainName n = true)
    (hinc : includes n ignoreWord = false) : isCleanName n = true := by
  obtain ⟨x, hx, hl⟩ := plainFrom_getLast h (isPlainName_ne_nil h)
  obtain ⟨_, _, h3, h4⟩ := nameLetter_classes hl
  simp [isCleanName, isPlainName_trim h, hinc, hx, h3, h4]

theorem lazyCap_plain {α : Type} (k : Str → Str → Option α)
    (hL : ∀ g c r, isNameLetter c = true → k g (c :: r) = none)
    (hS : ∀ g c r, isNameLetter c = true → k g (' ' :: c :: r) = none) :
    ∀ (n : Str) (prev : Bool) (acc suffix : Str), plainFrom prev n = true →
      lazyCap isDot k acc (n ++ suffix) = lazyCap isDot k (acc ++ n) suffix := by
  intro n
  induction n with
  | nil => intro prev acc suffix _; simp
  | cons c cs ih =>
    intro prev acc suffix h
    by_cases hc : isNameLetter c = true
    · simp only [plainFrom, hc, if_true] at h
      have := ih true (acc ++ [c]) suffix h
      rw [List.cons_append]
      simp only [lazyCap, hL acc c _ hc, alt_none_left,
        (nameLetter_classes hc).1, if_true, this, List.append_assoc, List.singleton_append]
    · simp only [Bool.not_eq_true] at hc
      simp only [plainFrom, hc, Bool.false_eq_true, if_false, Bool.and_eq_true, beq_iff_eq] at h
      obtain ⟨⟨hsp, _⟩, hrest⟩ := h
      obtain ⟨d, ds, e, hd, _⟩ := plainFrom_false_cons hrest
      subst hsp
      have := ih false (acc ++ [' ']) suffix hrest
      subst e
      have hdot : isDot ' ' = true := by decide
      rw [List.cons_append, List.cons_append]
      rw [List.cons_append] at this
      rw [lazyCap, hS acc d _ hd, alt_none_left, hdot, if_pos rfl, this, List.append_assoc,
        List.singleton_append]

theorem lazyCap_all {α : Type} (k : Str → Str → Option α) (s : Str)
    (hdot : ∀ c ∈ s, isDot c = true)
    (hfail : ∀ g pre t, s = pre ++ t → t ≠ [] → k g t = none) (acc : Str) :
    lazyCap isDot k acc s = k (acc ++ s) [] := by
  induction s generalizing acc with
  | nil => simp [lazyCap]
  | cons c cs ih =>
    have h0 : k acc (c :: cs) = none := hfail acc [] (c :: cs) rfl (by simp)
    have hc : isDot c = true := hdot c (List.mem_cons_self _ _)
    have := ih (fun d hd => hdot d (List.mem_cons_of_mem _ hd))
      (fun g pre t e hne => hfail g (c :: pre) t (by rw [e]; rfl) hne) (acc ++ [c])
    simp only [lazyCap, h0, alt_none_left, hc, if_true, this, List.append_assoc,
      List.singleton_append]

theorem starCap_run {α : Type} (p : Char → Bool) (k : Str → Str → Option α) (run rest acc : Str)
    (a : α) (hrun : ∀ c ∈ run, p c = true) (hrest : ∀ c, rest.head? = some c → p c = false)
    (hk : k (acc ++ run) rest = some a) : starCap p k acc (run ++ rest) = some a := by
  induction run generalizing acc with
  | nil =>
    simp only [List.append_nil, List.nil_append] at hk ⊢
    cases rest with
    | nil => simpa [starCap] using hk
    | cons c cs => simpa [starCap, hrest c rfl] using hk
  | cons d ds ih =>
    have hd : p d = true := hrun d (List.mem_cons_self _ _)
    have := ih (acc ++ [d]) (fun c hc => hrun c (List.mem_cons_of_mem _ hc))
      (by simpa using hk)
    rw [List.cons_append]
    simp only [starCap, hd, if_true, this, alt_some_left]

theorem plusCap_run {α : Type} (p : Char → Bool) (k : Str → Str → Option α) (run rest : Str)
    (a : α) (hne : run ≠ []) (hrun : ∀ c ∈ run, p c = true)
    (hrest : ∀ c, rest.head? = some c → p c = false)
    (hk : k run rest = some a) : plusCap p k (run ++ rest) = some a := by
  cases run with
  | nil => exact absurd rfl hne
  | cons d ds =>
    have hd : p d = true := hrun d (List.mem_cons_self _ _)
    have := starCap_run p k ds rest [d] a (fun c hc => hrun c (List.mem_cons_of_mem _ hc)) hrest
      (by simpa using hk)
    rw [List.cons_append]
    simp only [plusCap, hd, if_true, this]

theorem lit_paren_none {α : Type} (k : Str → Option α) (c : Char) (r : Str)
    (h : (c == '(') = false) : lit "(#".toList k (c :: r) = none := by
  have h2 : (('(' : Char) == c) = false := by
    rw [beq_eq_false_iff_ne] at h ⊢
    exact fun e => h e.symm
  show lit ('(' :: "#".toList) k (c :: r) = none
  simp only [lit, dropLit, eqCS, h2, Bool.false_eq_true, if_false]

theorem lit_paren_nil {α : Type} (k : Str → Option α) : lit "(#".toList k [] = none := rfl

/-- The key-details expression on `name (#position)`. -/
theorem keySeriesMatch_paren {n p : Str} (hn : isPlainName n = true) (hp : p ≠ [])
    (hpd : ∀ c ∈ p, isDigitDot c = true) :
    keySeriesMatch (n ++ " (#".toList ++ p ++ ")".toList) = some (n, some p) := by
  unfold keySeriesMatch
  rw [List.append_assoc, List.append_assoc, lazyCap_plain _ _ _ n false [] _ hn]
  · have hparen : isDigitDot ')' = false := by decide
    have hcap : plusCap isDigitDot (fun g2 r => lit ")".toList (eos (n, some g2)) r)
        (p ++ ")".toList) = some (n, some p) :=
      plusCap_run _ _ p ")".toList _ hp hpd
        (by intro c hc; cases hc; exact hparen) rfl
    have hlit : lit "(#".toList
        (plusCap isDigitDot (fun g2 r => lit ")".toList (eos (n, some g2)) r))
        ('(' :: '#' :: (p ++ ")".toList)) = some (n, some p) := by
      show lit ['(', '#'] _ _ = _
      simp only [lit, dropLit, eqCS, beq_self_eq_true, if_true]
      exact hcap
    have hws1 : isWs ' ' = true := by decide
    have hws2 : isWs '(' = false := by decide
    show lazyCap isDot _ ([] ++ n) (' ' :: '(' :: '#' :: (p ++ ")".toList)) = _
    simp only [lazyCap, star, hws1, hws2, if_true, Bool.false_eq_true, if_false, hlit,
      alt_some_left, List.nil_append]
  · intro g c r hc
    obtain ⟨hws, _, _, hpar, _⟩ := nameLetter_facts hc
    simp only [star, hws, Bool.false_eq_true, if_false, lit_paren_none _ c r hpar, eos,
      alt_none_left]
  · intro g c r hc
    obtain ⟨hws, _, _, hpar, _⟩ := nameLetter_facts hc
    have hws1 : isWs ' ' = true := by decide
    have hsp : ((' ' : Char) == '(') = false := by decide
    simp only [star, hws1, if_true, hws, Bool.false_eq_true, if_false, lit_paren_none _ c r hpar,
      lit_paren_none _ ' ' (c :: r) hsp, eos, alt_none_left]

/-- The key-details expression on a text without `(`: group 1 is the whole
text and group 2 does not take part. -/
theorem keySeriesMatch_no_paren {t : Str} (hdot : ∀ c ∈ t, isDot c = true)
    (hpar : ∀ c ∈ t, (c == '(') = false) : keySeriesMatch t = some (t, none) := by
  unfold keySeriesMatch
  rw [lazyCap_all _ t hdot]
  · simp only [star, lit_paren_nil, eos, alt_none_left, List.nil_append]
  · intro g pre u e hne
    have hstar : ∀ (k : Str → Option (Str × Option Str)), star isWs (lit "(#".toList k) u = none := by
      intro k
      apply star_none
      intro pre2 v e2
      cases v with
      | nil => rfl
      | cons c cs =>
        apply lit_paren_none
        apply hpar
        rw [e, e2]
        simp
    rw [hstar]
    cases u with
    | nil => exact absurd rfl hne
    | cons c cs => rfl

theorem digitComma_classes {c : Char} (h : isDigitComma c = true) :
    isPosChar c = true ∧ isWs c = false ∧ (c == '#') = false ∧ (c == '(') = false ∧
    isDot c = true ∧ isNameLetter c = false := by
  simp only [isDigitComma, Bool.or_eq_true, beq_iff_eq] at h
  rcases h with h | h
  · have hws := isDigit_not_ws h
    refine ⟨by simp [isPosChar, h], hws, isDigit_ne h (by decide), isDigit_ne h (by decide),
      isDot_of_not_ws hws, by simp [isNameLetter, h]⟩
  · subst h
    decide

theorem digitDot_classes {c : Char} (h : isDigitDot c = true) :
    isWs c = false ∧ (c == ',') = false := by
  simp only [isDigitDot, Bool.or_eq_true, beq_iff_eq] at h
  rcases h with h | h
  · exact ⟨isDigit_not_ws h, isDigit_ne h (by decide)⟩
  · subst h
    decide

/-- The fallback expression on `name #position`. -/
theorem genericSeriesMatch_hash {n p : Str} (hn : isPlainName n = true) (hp : p ≠ [])
    (hpd : ∀ c ∈ p, isDigitComma c = true) :
    genericSeriesMatch (n ++ " #".toList ++ p) = some (n, some p) := by
  unfold genericSeriesMatch
  rw [List.append_assoc, lazyCap_plain _ _ _ n false [] _ hn]
  · have hall : p.all isPosChar = true := by
      rw [List.all_eq_true]
      exact fun c hc => (digitComma_classes (hpd c hc)).1
    have hcap : plusCap isPosChar (fun g2 r => eos (n, some g2) r) p = some (n, some p) := by
      have := plusCap_run isPosChar (fun g2 r => eos (n, some g2) r) p [] (n, some p) hp
        (fun c hc => (digitComma_classes (hpd c hc)).1) (by simp) rfl
      simpa using this
    obtain ⟨d, ds, e⟩ : ∃ d ds, p = d :: ds := by
      cases p with
      | nil => exact absurd rfl hp
      | cons d ds => exact ⟨d, ds, rfl⟩
    have hd := digitComma_classes (hpd d (by rw [e]; exact List.mem_cons_self _ _))
    have hdh : isWsHash d = false := by simp [isWsHash, hd.2.1, hd.2.2.1]
    have h1 : isWsHash ' ' = true := by decide
    have h2 : isWsHash '#' = true := by decide
    show lazyCap isDot _ ([] ++ n) (' ' :: '#' :: p) = _
    rw [e] at hcap ⊢
    simp only [lazyCap, plus, star, h1, h2, hdh, if_true, Bool.false_eq_true, if_false, hcap,
      alt_some_left, List.nil_append]
  · intro g c r hc
    obtain ⟨_, hwh, _, _⟩ := nameLetter_classes hc
    simp only [plus, hwh, Bool.false_eq_true, if_false, eos, alt_none_left]
  · intro g c r hc
    obtain ⟨_, hwh, hpc, _⟩ := nameLetter_classes hc
    have h1 : isWsHash ' ' = true := by decide
    simp only [plus, star, h1, if_true, hwh, Bool.false_eq_true, if_false, plusCap, hpc, eos,
      alt_none_left]

/-- The trailing `#number` expression on `name #position`. -/
theorem hashNumberMatch_hash {n p : Str} (hn : isPlainName n = true) (hp : p ≠ [])
    (hpd : ∀ c ∈ p, isDigitComma c = true) :
    hashNumberMatch (n ++ " #".toList ++ p) = some (n ++ " ".toList, p) := by
  unfold hashNumberMatch
  have hall : p.all isPosChar = true := by
    rw [List.all_eq_true]
    exact fun c hc => (digitComma_classes (hpd c hc)).1
  have e : n ++ " #".toList ++ p = (n ++ " ".toList) ++ ('#' :: p) := by simp
  rw [e]
  apply search_append
  · intro u c v euv
    rw [lit_hash]
    have hc : (c == '#') = false := by
      have hm : c ∈ n ++ " ".toList := by rw [euv]; simp
      rcases List.mem_append.mp hm with hm | hm
      · rcases plainFrom_mem hn c hm with h1 | h1
        · exact (nameLetter_facts h1).2.2.1
        · subst h1; decide
      · simp at hm
        subst hm
        decide
    simp [hc]
  · rw [lit_hash]
    simp [plusCap_eos, hp, hall]

theorem lit_hash_none_of_not_mem {α : Type} (k : Str → Option α) {s : Str}
    (h : ∀ c ∈ s, (c == '#') = false) (pre : Str) {t : Str} (e : s = pre ++ t) :
    lit "#".toList k t = none := by
  rw [lit_hash]
  cases t with
  | nil => rfl
  | cons c cs =>
    have : (c == '#') = false := h c (by rw [e]; simp)
    simp [this]

/-- Lines 597-598 leave a name without `#` unchanged. -/
theorem stripResidual_no_hash {pos name : Str} (h : ∀ c ∈ name, (c == '#') = false) :
    stripResidual pos name = name := by
  unfold stripResidual
  rw [search_none]
  intro pre t e
  apply star_none
  intro pre2 t2 e2
  exact lit_hash_none_of_not_mem _ h (pre ++ pre2) (by rw [e, e2]; simp)

theorem plain_no_hash {n : Str} (hn : isPlainName n = true) : ∀ c ∈ n, (c == '#') = false := by
  intro c hc
  rcases plainFrom_mem hn c hc with h1 | h1
  · exact (nameLetter_facts h1).2.2.1
  · subst h1; decide

theorem plain_no_paren {n : Str} (hn : isPlainName n = true) : ∀ c ∈ n, (c == '(') = false := by
  intro c hc
  rcases plainFrom_mem hn c hc with h1 | h1
  · exact (nameLetter_facts h1).2.2.2.1
  · subst h1; decide

theorem plain_isDot {n : Str} (hn : isPlainName n = true) : ∀ c ∈ n, isDot c = true := by
  intro c hc
  rcases plainFrom_mem hn c hc with h1 | h1
  · exact (nameLetter_classes h1).1
  · subst h1; decide

theorem trim_all_not_ws {s : Str} (h : ∀ c ∈ s, isWs c = false) : trim s = s := by
  apply trim_eq_self
  · intro c hc
    exact h c (List.mem_of_mem_head? hc)
  · intro c hc
    exact h c (List.mem_of_getLast?_eq_some hc)

theorem trim_plain_space {n : Str} (hn : isPlainName n = true) : trim (n ++ " ".toList) = n := by
  obtain ⟨d, ds, e, hd, _⟩ := plainFrom_false_cons hn
  obtain ⟨x, hx, hl⟩ := plainFrom_getLast hn (isPlainName_ne_nil hn)
  unfold trim
  have h1 : (n ++ " ".toList).dropWhile isWs = n ++ " ".toList := by
    subst e
    simp [List.dropWhile_cons, (nameLetter_facts hd).1]
  rw [h1]
  show List.rdropWhile isWs (n ++ [' ']) = n
  have hsp : isWs ' ' = true := by decide
  rw [List.rdropWhile_concat_pos _ _ _ hsp, List.rdropWhile_eq_self_iff]
  intro hne
  have : n.getLast hne = x := by
    have := List.getLast?_eq_getLast n hne
    rw [hx] at this
    exact (Option.some.inj this).symm
  rw [this]
  simp [(nameLetter_facts hl).1]

theorem trim_plain_hash {n p : Str} (hn : isPlainName n = true) (hp : p ≠ [])
    (hpd : ∀ c ∈ p, isDigitComma c = true) :
    trim (n ++ " #".toList ++ p) = n ++ " #".toList ++ p := by
  apply trim_eq_self
  · intro c hc
    obtain ⟨d, ds, e, hd, _⟩ := plainFrom_false_cons hn
    subst e
    simp only [List.cons_append, List.head?_cons, Option.some.injEq] at hc
    subst hc
    exact (nameLetter_facts hd).1
  · intro c hc
    rw [List.getLast?_append_of_ne_nil _ hp] at hc
    exact (digitComma_classes (hpd c (List.mem_of_getLast?_eq_some hc))).2.1

theorem stripLeadingHash_id {p : Str} (h : ∀ c ∈ p, (c == '#') = false) :
    stripLeadingHash p = p := by
  cases p with
  | nil => rfl
  | cons c cs => simp [stripLeadingHash, h c (List.mem_cons_self _ _)]

/-! ## Frame lemmas: the fields each step leaves unchanged -/

set_option linter.unusedTactic false
set_option linter.unreachableTactic false

theorem foldl_frame {α β : Type} (f : BookDetails → α → BookDetails) (proj : BookDetails → β)
    (h : ∀ b x, proj (f b x) = proj b) (l : List α) (b : BookDetails) :
    proj (l.foldl f b) = proj b := by
  induction l generalizing b with
  | nil => rfl
  | cons x xs ih => rw [List.foldl_cons, ih, h]

@[simp] theorem addCharacter_frame (b : BookDetails) (raw : Str) :
    (addCharacter b raw).authors = b.authors ∧
    (addCharacter b raw).genres = b.genres ∧
    (addCharacter b raw).publisher = b.publisher ∧
    (addCharacter b raw).language = b.language ∧
    (addCharacter b raw).numberOfPages = b.numberOfPages ∧
    (addCharacter b raw).seriesName = b.seriesName ∧
    (addCharacter b raw).positionInSeries = b.positionInSeries := by
  unfold addCharacter
  try dsimp only
  refine ⟨?_, ?_, ?_, ?_, ?_, ?_, ?_⟩ <;> (repeat' split) <;> simp

@[simp] theorem harvestAnchor_frame (b : BookDetails) (a : Anchor) :
    (harvestAnchor b a).authors = b.authors ∧
    (harvestAnchor b a).genres = b.genres ∧
    (harvestAnchor b a).publisher = b.publisher ∧
    (harvestAnchor b a).language = b.language ∧
    (harvestAnchor b a).numberOfPages = b.numberOfPages ∧
    (harvestAnchor b a).seriesName = b.seriesName ∧
    (harvestAnchor b a).positionInSeries = b.positionInSeries := by
  unfold harvestAnchor
  try dsimp only
  refine ⟨?_, ?_, ?_, ?_, ?_, ?_, ?_⟩ <;> (repeat' split) <;> simp

@[simp] theorem directCharacters_frame (page : Page) (b : BookDetails) :
    (directCharacters page b).authors = b.authors ∧
    (directCharacters page b).genres = b.genres ∧
    (directCharacters page b).publisher = b.publisher ∧
    (directCharacters page b).language = b.language ∧
    (directCharacters page b).numberOfPages = b.numberOfPages ∧
    (directCharacters page b).seriesName = b.seriesName ∧
    (directCharacters page b).positionInSeries = b.positionInSeries := by
  unfold directCharacters
  try dsimp only
  refine ⟨?_, ?_, ?_, ?_, ?_, ?_, ?_⟩ <;> (repeat' split) <;>
    first
    | rfl
    | exact foldl_frame _ _ (fun b x => by simp) _ _

@[simp] theorem charactersSectionEntry_frame (b : BookDetails) (dt : DtEntry) :
    (charactersSectionEntry b dt).authors = b.authors ∧
    (charactersSectionEntry b dt).genres = b.genres ∧
    (charactersSectionEntry b dt).publisher = b.publisher ∧
    (charactersSectionEntry b dt).language = b.language ∧
    (charactersSectionEntry b dt).numberOfPages = b.numberOfPages ∧
    (charactersSectionEntry b dt).seriesName = b.seriesName ∧
    (charactersSectionEntry b dt).positionInSeries = b.positionInSeries := by
  unfold charactersSectionEntry
  try dsimp only
  refine ⟨?_, ?_, ?_, ?_, ?_, ?_, ?_⟩ <;> (repeat' split) <;>
    first
    | rfl
    | exact foldl_frame _ _ (fun b x => by simp) _ _

@[simp] theorem charactersSection_frame (page : Page) (b : BookDetails) :
    (charactersSection page b).authors = b.authors ∧
    (charactersSection page b).genres = b.genres ∧
    (charactersSection page b).publisher = b.publisher ∧
    (charactersSection page b).language = b.language ∧
    (charactersSection page b).numberOfPages = b.numberOfPages ∧
    (charactersSection page b).seriesName = b.seriesName ∧
    (charactersSection page b).positionInSeries = b.positionInSeries := by
  unfold charactersSection
  try dsimp only
  refine ⟨?_, ?_, ?_, ?_, ?_, ?_, ?_⟩ <;> (repeat' split) <;>
    first
    | rfl
    | exact foldl_frame _ _ (fun b x => by simp) _ _

@[simp] theorem addRegexCharacter_frame (b : BookDetails) (name : Str) :
    (addRegexCharacter b name).authors = b.authors ∧
    (addRegexCharacter b name).genres = b.genres ∧
    (addRegexCharacter b name).publisher = b.publisher ∧
    (addRegexCharacter b name).language = b.language ∧
    (addRegexCharacter b name).numberOfPages = b.numberOfPages ∧
    (addRegexCharacter b name).seriesName = b.seriesName ∧
    (addRegexCharacter b name).positionInSeries = b.positionInSeries := by
  unfold addRegexCharacter
  try dsimp only
  refine ⟨?_, ?_, ?_, ?_, ?_, ?_, ?_⟩ <;> (repeat' split) <;> simp

@[simp] theorem regexCharacters_frame (content : Str) (b : BookDetails) :
    (regexCharacters content b).authors = b.authors ∧
    (regexCharacters content b).genres = b.genres ∧
    (regexCharacters content b).publisher = b.publisher ∧
    (regexCharacters content b).language = b.language ∧
    (regexCharacters content b).numberOfPages = b.numberOfPages ∧
    (regexCharacters content b).seriesName = b.seriesName ∧
    (regexCharacters content b).positionInSeries = b.positionInSeries := by
  unfold regexCharacters
  try dsimp only
  refine ⟨?_, ?_, ?_, ?_, ?_, ?_, ?_⟩ <;> (repeat' split) <;>
    first
    | rfl
    | exact foldl_frame _ _ (fun b x => by simp) _ _

@[simp] theorem itemPublisher_frame (item : JVal) (b : BookDetails) :
    (itemPublisher item b).authors = b.authors ∧
    (itemPublisher item b).characters = b.characters ∧
    (itemPublisher item b).genres = b.genres ∧
    (itemPublisher item b).language = b.language ∧
    (itemPublisher item b).numberOfPages = b.numberOfPages ∧
    (itemPublisher item b).seriesName = b.seriesName ∧
    (itemPublisher item b).positionInSeries = b.positionInSeries := by
  unfold itemPublisher
  try dsimp only
  refine ⟨?_, ?_, ?_, ?_, ?_, ?_, ?_⟩ <;> (repeat' split) <;> simp

@[simp] theorem itemLanguage_frame (item : JVal) (b : BookDetails) :
    (itemLanguage item b).authors = b.authors ∧
    (itemLanguage item b).characters = b.characters ∧
    (itemLanguage item b).genres = b.genres ∧
    (itemLanguage item b).publisher = b.publisher ∧
    (itemLanguage item b).numberOfPages = b.numberOfPages ∧
    (itemLanguage item b).seriesName = b.seriesName ∧
    (itemLanguage item b).positionInSeries = b.positionInSeries := by
  unfold itemLanguage
  try dsimp only
  refine ⟨?_, ?_, ?_, ?_, ?_, ?_, ?_⟩ <;> (repeat' split) <;> simp

@[simp] theorem itemPages_frame (item : JVal) (b : BookDetails) :
    ((itemPages item b).1).authors = b.authors ∧
    ((itemPages item b).1).characters = b.characters ∧
    ((itemPages item b).1).genres = b.genres ∧
    ((itemPages item b).1).publisher = b.publisher ∧
    ((itemPages item b).1).language = b.language ∧
    ((itemPages item b).1).seriesName = b.seriesName ∧
    ((itemPages item b).1).positionInSeries = b.positionInSeries := by
  unfold itemPages
  try dsimp only
  refine ⟨?_, ?_, ?_, ?_, ?_, ?_, ?_⟩ <;> (repeat' split) <;> simp

@[simp] theorem pushGenres_authors (bgs : List JVal) (b : BookDetails) :
    (pushGenres bgs b).1.authors = b.authors := by
  induction bgs generalizing b with
  | nil => rfl
  | cons bg rest ih =>
    unfold pushGenres
    (repeat' split) <;> first | rfl | rw [ih]

@[simp] theorem pushGenres_characters (bgs : List JVal) (b : BookDetails) :
    (pushGenres bgs b).1.characters = b.characters := by
  induction bgs generalizing b with
  | nil => rfl
  | cons bg rest ih =>
    unfold pushGenres
    (repeat' split) <;> first | rfl | rw [ih]

@[simp] theorem pushGenres_publisher (bgs : List JVal) (b : BookDetails) :
    (pushGenres bgs b).1.publisher = b.publisher := by
  induction bgs generalizing b with
  | nil => rfl
  | cons bg rest ih =>
    unfold pushGenres
    (repeat' split) <;> first | rfl | rw [ih]

@[simp] theorem pushGenres_language (bgs : List JVal) (b : BookDetails) :
    (pushGenres bgs b).1.language = b.language := by
  induction bgs generalizing b with
  | nil => rfl
  | cons bg rest ih =>
    unfold pushGenres
    (repeat' split) <;> first | rfl | rw [ih]

@[simp] theorem pushGenres_numberOfPages (bgs : List JVal) (b : BookDetails) :
    (pushGenres bgs b).1.numberOfPages = b.numberOfPages := by
  induction bgs generalizing b with
  | nil => rfl
  | cons bg rest ih =>
    unfold pushGenres
    (repeat' split) <;> first | rfl | rw [ih]

@[simp] theorem pushGenres_seriesName (bgs : List JVal) (b : BookDetails) :
    (pushGenres bgs b).1.seriesName = b.seriesName := by
  induction bgs generalizing b with
  | nil => rfl
  | cons bg rest ih =>
    unfold pushGenres
    (repeat' split) <;> first | rfl | rw [ih]

@[simp] theorem pushGenres_positionInSeries (bgs : List JVal) (b : BookDetails) :
    (pushGenres bgs b).1.positionInSeries = b.positionInSeries := by
  induction bgs generalizing b with
  | nil => rfl
  | cons bg rest ih =>
    unfold pushGenres
    (repeat' split) <;> first | rfl | rw [ih]

@[simp] theorem itemGenres_frame (item : JVal) (b : BookDetails) :
    ((itemGenres item b).1).authors = b.authors ∧
    ((itemGenres item b).1).characters = b.characters ∧
    ((itemGenres item b).1).publisher = b.publisher ∧
    ((itemGenres item b).1).language = b.language ∧
    ((itemGenres item b).1).numberOfPages = b.numberOfPages ∧
    ((itemGenres item b).1).seriesName = b.seriesName ∧
    ((itemGenres item b).1).positionInSeries = b.positionInSeries := by
  unfold itemGenres
  try dsimp only
  refine ⟨?_, ?_, ?_, ?_, ?_, ?_, ?_⟩ <;> (repeat' split) <;> simp

@[simp] theorem addItemCharacter_frame (b : BookDetails) (char : JVal) :
    (addItemCharacter b char).authors = b.authors ∧
    (addItemCharacter b char).genres = b.genres ∧
    (addItemCharacter b char).publisher = b.publisher ∧
    (addItemCharacter b char).language = b.language ∧
    (addItemCharacter b char).numberOfPages = b.numberOfPages ∧
    (addItemCharacter b char).seriesName = b.seriesName ∧
    (addItemCharacter b char).positionInSeries = b.positionInSeries := by
  unfold addItemCharacter
  try dsimp only
  refine ⟨?_, ?_, ?_, ?_, ?_, ?_, ?_⟩ <;> (repeat' split) <;> simp

@[simp] theorem itemCharacters_frame (item : JVal) (b : BookDetails) :
    (itemCharacters item b).authors = b.authors ∧
    (itemCharacters item b).genres = b.genres ∧
    (itemCharacters item b).publisher = b.publisher ∧
    (itemCharacters item b).language = b.language ∧
    (itemCharacters item b).numberOfPages = b.numberOfPages ∧
    (itemCharacters item b).seriesName = b.seriesName ∧
    (itemCharacters item b).positionInSeries = b.positionInSeries := by
  unfold itemCharacters
  try dsimp only
  refine ⟨?_, ?_, ?_, ?_, ?_, ?_, ?_⟩ <;> (repeat' split) <;>
    first
    | rfl
    | exact foldl_frame _ _ (fun b x => by simp) _ _

@[simp] theorem processItem_frame (b : BookDetails) (item : JVal) :
    ((processItem b item).1).authors = b.authors ∧
    ((processItem b item).1).seriesName = b.seriesName ∧
    ((processItem b item).1).positionInSeries = b.positionInSeries := by
  unfold processItem
  try dsimp only
  refine ⟨?_, ?_, ?_⟩ <;> (repeat' split) <;> simp

@[simp] theorem walkItems_authors (items : List JVal) (b : BookDetails) :
    (walkItems items b).1.authors = b.authors := by
  induction items generalizing b with
  | nil => rfl
  | cons item rest ih =>
    unfold walkItems
    split
    · simp
    · rw [ih]; simp

@[simp] theorem walkItems_seriesName (items : List JVal) (b : BookDetails) :
    (walkItems items b).1.seriesName = b.seriesName := by
  induction items generalizing b with
  | nil => rfl
  | cons item rest ih =>
    unfold walkItems
    split
    · simp
    · rw [ih]; simp

@[simp] theorem walkItems_positionInSeries (items : List JVal) (b : BookDetails) :
    (walkItems items b).1.positionInSeries = b.positionInSeries := by
  induction items generalizing b with
  | nil => rfl
  | cons item rest ih =>
    unfold walkItems
    split
    · simp
    · rw [ih]; simp

@[simp] theorem structuredParse_frame (json : JVal) (b : BookDetails) :
    (structuredParse json b).authors = b.authors ∧
    (structuredParse json b).seriesName = b.seriesName ∧
    (structuredParse json b).positionInSeries = b.positionInSeries := by
  unfold structuredParse
  try dsimp only
  refine ⟨?_, ?_, ?_⟩ <;> (repeat' split) <;> simp

@[simp] theorem nextDataPass_frame (env : Env) (page : Page) (b : BookDetails) :
    (nextDataPass env page b).authors = b.authors ∧
    (nextDataPass env page b).seriesName = b.seriesName ∧
    (nextDataPass env page b).positionInSeries = b.positionInSeries := by
  unfold nextDataPass
  try dsimp only
  refine ⟨?_, ?_, ?_⟩ <;> (repeat' split) <;> simp

@[simp] theorem addAuthorText_frame (b : BookDetails) (raw : Str) :
    (addAuthorText b raw).characters = b.characters ∧
    (addAuthorText b raw).genres = b.genres ∧
    (addAuthorText b raw).publisher = b.publisher ∧
    (addAuthorText b raw).language = b.language ∧
    (addAuthorText b raw).numberOfPages = b.numberOfPages ∧
    (addAuthorText b raw).seriesName = b.seriesName ∧
    (addAuthorText b raw).positionInSeries = b.positionInSeries := by
  unfold addAuthorText
  try dsimp only
  refine ⟨?_, ?_, ?_, ?_, ?_, ?_, ?_⟩ <;> (repeat' split) <;> simp

@[simp] theorem pushAuthorList_characters (authors : List JVal) (b : BookDetails) :
    (pushAuthorList authors b).1.characters = b.characters := by
  induction authors generalizing b with
  | nil => rfl
  | cons author rest ih =>
    unfold pushAuthorList
    (repeat' split) <;> first | rfl | rw [ih]

@[simp] theorem pushAuthorList_genres (authors : List JVal) (b : BookDetails) :
    (pushAuthorList authors b).1.genres = b.genres := by
  induction authors generalizing b with
  | nil => rfl
  | cons author rest ih =>
    unfold pushAuthorList
    (repeat' split) <;> first | rfl | rw [ih]

@[simp] theorem pushAuthorList_publisher (authors : List JVal) (b : BookDetails) :
    (pushAuthorList authors b).1.publisher = b.publisher := by
  induction authors generalizing b with
  | nil => rfl
  | cons author rest ih =>
    unfold pushAuthorList
    (repeat' split) <;> first | rfl | rw [ih]

@[simp] theorem pushAuthorList_language (authors : List JVal) (b : BookDetails) :
    (pushAuthorList authors b).1.language = b.language := by
  induction authors generalizing b with
  | nil => rfl
  | cons author rest ih =>
    unfold pushAuthorList
    (repeat' split) <;> first | rfl | rw [ih]

@[simp] theorem pushAuthorList_numberOfPages (authors : List JVal) (b : BookDetails) :
    (pushAuthorList authors b).1.numberOfPages = b.numberOfPages := by
  induction authors generalizing b with
  | nil => rfl
  | cons author rest ih =>
    unfold pushAuthorList
    (repeat' split) <;> first | rfl | rw [ih]

@[simp] theorem pushAuthorList_seriesName (authors : List JVal) (b : BookDetails) :
    (pushAuthorList authors b).1.seriesName = b.seriesName := by
  induction authors generalizing b with
  | nil => rfl
  | cons author rest ih =>
    unfold pushAuthorList
    (repeat' split) <;> first | rfl | rw [ih]

@[simp] theorem pushAuthorList_positionInSeries (authors : List JVal) (b : BookDetails) :
    (pushAuthorList authors b).1.positionInSeries = b.positionInSeries := by
  induction authors generalizing b with
  | nil => rfl
  | cons author rest ih =>
    unfold pushAuthorList
    (repeat' split) <;> first | rfl | rw [ih]

@[simp] theorem pushContributors_characters (contributors : List JVal) (b : BookDetails) :
    (pushContributors contributors b).1.characters = b.characters := by
  induction contributors generalizing b with
  | nil => rfl
  | cons contributor rest ih =>
    unfold pushContributors
    (repeat' split) <;> first | rfl | rw [ih]

@[simp] theorem pushContributors_genres (contributors : List JVal) (b : BookDetails) :
    (pushContributors contributors b).1.genres = b.genres := by
  induction contributors generalizing b with
  | nil => rfl
  | cons contributor rest ih =>
    unfold pushContributors
    (repeat' split) <;> first | rfl | rw [ih]

@[simp] theorem pushContributors_publisher (contributors : List JVal) (b : BookDetails) :
    (pushContributors contributors b).1.publisher = b.publisher := by
  induction contributors generalizing b with
  | nil => rfl
  | cons contributor rest ih =>
    unfold pushContributors
    (repeat' split) <;> first | rfl | rw [ih]

@[simp] theorem pushContributors_language (contributors : List JVal) (b : BookDetails) :
    (pushContributors contributors b).1.language = b.language := by
  induction contributors generalizing b with
  | nil => rfl
  | cons contributor rest ih =>
    unfold pushContributors
    (repeat' split) <;> first | rfl | rw [ih]

@[simp] theorem pushContributors_numberOfPages (contributors : List JVal) (b : BookDetails) :
    (pushContributors contributors b).1.numberOfPages = b.numberOfPages := by
  induction contributors generalizing b with
  | nil => rfl
  | cons contributor rest ih =>
    unfold pushContributors
    (repeat' split) <;> first | rfl | rw [ih]

@[simp] theorem pushContributors_seriesName (contributors : List JVal) (b : BookDetails) :
    (pushContributors contributors b).1.seriesName = b.seriesName := by
  induction contributors generalizing b with
  | nil => rfl
  | cons contributor rest ih =>
    unfold pushContributors
    (repeat' split) <;> first | rfl | rw [ih]

@[simp] theorem pushContributors_positionInSeries (contributors : List JVal) (b : BookDetails) :
    (pushContributors contributors b).1.positionInSeries = b.positionInSeries := by
  induction contributors generalizing b with
  | nil => rfl
  | cons contributor rest ih =>
    unfold pushContributors
    (repeat' split) <;> first | rfl | rw [ih]

@[simp] theorem authorFromItem_frame (b : BookDetails) (item : JVal) :
    ((authorFromItem b item).1).characters = b.characters ∧
    ((authorFromItem b item).1).genres = b.genres ∧
    ((authorFromItem b item).1).publisher = b.publisher ∧
    ((authorFromItem b item).1).language = b.language ∧
    ((authorFromItem b item).1).numberOfPages = b.numberOfPages ∧
    ((authorFromItem b item).1).seriesName = b.seriesName ∧
    ((authorFromItem b item).1).positionInSeries = b.positionInSeries := by
  unfold authorFromItem
  try dsimp only
  refine ⟨?_, ?_, ?_, ?_, ?_, ?_, ?_⟩ <;> (repeat' split) <;> simp

@[simp] theorem walkAuthors_characters (items : List JVal) (b : BookDetails) :
    (walkAuthors items b).1.characters = b.characters := by
  induction items generalizing b with
  | nil => rfl
  | cons item rest ih =>
    unfold walkAuthors
    split
    · simp
    · rw [ih]; simp

@[simp] theorem walkAuthors_genres (items : List JVal) (b : BookDetails) :
    (walkAuthors items b).1.genres = b.genres := by
  induction items generalizing b with
  | nil => rfl
  | cons item rest ih =>
    unfold walkAuthors
    split
    · simp
    · rw [ih]; simp

@[simp] theorem walkAuthors_publisher (items : List JVal) (b : BookDetails) :
    (walkAuthors items b).1.publisher = b.publisher := by
  induction items generalizing b with
  | nil => rfl
  | cons item rest ih =>
    unfold walkAuthors
    split
    · simp
    · rw [ih]; simp

@[simp] theorem walkAuthors_language (items : List JVal) (b : BookDetails) :
    (walkAuthors items b).1.language = b.language := by
  induction items generalizing b with
  | nil => rfl
  | cons item rest ih =>
    unfold walkAuthors
    split
    · simp
    · rw [ih]; simp

@[simp] theorem walkAuthors_numberOfPages (items : List JVal) (b : BookDetails) :
    (walkAuthors items b).1.numberOfPages = b.numberOfPages := by
  induction items generalizing b with
  | nil => rfl
  | cons item rest ih =>
    unfold walkAuthors
    split
    · simp
    · rw [ih]; simp

@[simp] theorem walkAuthors_seriesName (items : List JVal) (b : BookDetails) :
    (walkAuthors items b).1.seriesName = b.seriesName := by
  induction items generalizing b with
  | nil => rfl
  | cons item rest ih =>
    unfold walkAuthors
    split
    · simp
    · rw [ih]; simp

@[simp] theorem walkAuthors_positionInSeries (items : List JVal) (b : BookDetails) :
    (walkAuthors items b).1.positionInSeries = b.positionInSeries := by
  induction items generalizing b with
  | nil => rfl
  | cons item rest ih =>
    unfold walkAuthors
    split
    · simp
    · rw [ih]; simp

@[simp] theorem authorsFromNextData_frame (env : Env) (page : Page) (b : BookDetails) :
    (authorsFromNextData env page b).characters = b.characters ∧
    (authorsFromNextData env page b).genres = b.genres ∧
    (authorsFromNextData env page b).publisher = b.publisher ∧
    (authorsFromNextData env page b).language = b.language ∧
    (authorsFromNextData env page b).numberOfPages = b.numberOfPages ∧
    (authorsFromNextData env page b).seriesName = b.seriesName ∧
    (authorsFromNextData env page b).positionInSeries = b.positionInSeries := by
  unfold authorsFromNextData
  try dsimp only
  refine ⟨?_, ?_, ?_, ?_, ?_, ?_, ?_⟩ <;> (repeat' split) <;> simp

@[simp] theorem authorsFromTitleLinks_frame (page : Page) (b : BookDetails) :
    (authorsFromTitleLinks page b).characters = b.characters ∧
    (authorsFromTitleLinks page b).genres = b.genres ∧
    (authorsFromTitleLinks page b).publisher = b.publisher ∧
    (authorsFromTitleLinks page b).language = b.language ∧
    (authorsFromTitleLinks page b).numberOfPages = b.numberOfPages ∧
    (authorsFromTitleLinks page b).seriesName = b.seriesName ∧
    (authorsFromTitleLinks page b).positionInSeries = b.positionInSeries := by
  unfold authorsFromTitleLinks
  try dsimp only
  refine ⟨?_, ?_, ?_, ?_, ?_, ?_, ?_⟩ <;> (repeat' split) <;>
    first
    | rfl
    | exact foldl_frame _ _ (fun b x => by simp) _ _

@[simp] theorem foldl_addAuthorText_frame (l : List Str) (b : BookDetails) :
    (l.foldl addAuthorText b).characters = b.characters ∧
    (l.foldl addAuthorText b).genres = b.genres ∧
    (l.foldl addAuthorText b).publisher = b.publisher ∧
    (l.foldl addAuthorText b).language = b.language ∧
    (l.foldl addAuthorText b).numberOfPages = b.numberOfPages ∧
    (l.foldl addAuthorText b).seriesName = b.seriesName ∧
    (l.foldl addAuthorText b).positionInSeries = b.positionInSeries := by
  refine ⟨?_, ?_, ?_, ?_, ?_, ?_, ?_⟩ <;> exact foldl_frame _ _ (fun b x => by simp) _ _

@[simp] theorem nameAndAuthors_frame (env : Env) (page : Page) (b : BookDetails) :
    (nameAndAuthors env page b).characters = b.characters ∧
    (nameAndAuthors env page b).genres = b.genres ∧
    (nameAndAuthors env page b).publisher = b.publisher ∧
    (nameAndAuthors env page b).language = b.language ∧
    (nameAndAuthors env page b).numberOfPages = b.numberOfPages ∧
    (nameAndAuthors env page b).seriesName = b.seriesName ∧
    (nameAndAuthors env page b).positionInSeries = b.positionInSeries := by
  unfold nameAndAuthors
  try dsimp only
  refine ⟨?_, ?_, ?_, ?_, ?_, ?_, ?_⟩ <;> (repeat' split) <;> simp

@[simp] theorem imageAndSummary_frame (env : Env) (page : Page) (b : BookDetails) :
    (imageAndSummary env page b).authors = b.authors ∧
    (imageAndSummary env page b).characters = b.characters ∧
    (imageAndSummary env page b).genres = b.genres ∧
    (imageAndSummary env page b).publisher = b.publisher ∧
    (imageAndSummary env page b).language = b.language ∧
    (imageAndSummary env page b).numberOfPages = b.numberOfPages ∧
    (imageAndSummary env page b).seriesName = b.seriesName ∧
    (imageAndSummary env page b).positionInSeries = b.positionInSeries := by
  unfold imageAndSummary
  try dsimp only
  refine ⟨?_, ?_, ?_, ?_, ?_, ?_, ?_, ?_⟩ <;> (repeat' split) <;> simp

@[simp] theorem publicationInfoStep_frame (page : Page) (b : BookDetails) :
    (publicationInfoStep page b).authors = b.authors ∧
    (publicationInfoStep page b).characters = b.characters ∧
    (publicationInfoStep page b).genres = b.genres ∧
    (publicationInfoStep page b).language = b.language ∧
    (publicationInfoStep page b).numberOfPages = b.numberOfPages ∧
    (publicationInfoStep page b).seriesName = b.seriesName ∧
    (publicationInfoStep page b).positionInSeries = b.positionInSeries := by
  unfold publicationInfoStep
  try dsimp only
  refine ⟨?_, ?_, ?_, ?_, ?_, ?_, ?_⟩ <;> (repeat' split) <;> simp

@[simp] theorem publisherAfterBy_frame (page : Page) (b : BookDetails) :
    (publisherAfterBy page b).authors = b.authors ∧
    (publisherAfterBy page b).characters = b.characters ∧
    (publisherAfterBy page b).genres = b.genres ∧
    (publisherAfterBy page b).language = b.language ∧
    (publisherAfterBy page b).numberOfPages = b.numberOfPages ∧
    (publisherAfterBy page b).seriesName = b.seriesName ∧
    (publisherAfterBy page b).positionInSeries = b.positionInSeries := by
  unfold publisherAfterBy
  try dsimp only
  refine ⟨?_, ?_, ?_, ?_, ?_, ?_, ?_⟩ <;> (repeat' split) <;> simp

@[simp] theorem publisherFromElement_frame (page : Page) (b : BookDetails) :
    (publisherFromElement page b).authors = b.authors ∧
    (publisherFromElement page b).characters = b.characters ∧
    (publisherFromElement page b).genres = b.genres ∧
    (publisherFromElement page b).language = b.language ∧
    (publisherFromElement page b).numberOfPages = b.numberOfPages ∧
    (publisherFromElement page b).seriesName = b.seriesName ∧
    (publisherFromElement page b).positionInSeries = b.positionInSeries := by
  unfold publisherFromElement
  try dsimp only
  refine ⟨?_, ?_, ?_, ?_, ?_, ?_, ?_⟩ <;> (repeat' split) <;> simp

@[simp] theorem publisherFromLink_frame (page : Page) (b : BookDetails) :
    (publisherFromLink page b).authors = b.authors ∧
    (publisherFromLink page b).characters = b.characters ∧
    (publisherFromLink page b).genres = b.genres ∧
    (publisherFromLink page b).language = b.language ∧
    (publisherFromLink page b).numberOfPages = b.numberOfPages ∧
    (publisherFromLink page b).seriesName = b.seriesName ∧
    (publisherFromLink page b).positionInSeries = b.positionInSeries := by
  unfold publisherFromLink
  try dsimp only
  refine ⟨?_, ?_, ?_, ?_, ?_, ?_, ?_⟩ <;> (repeat' split) <;> simp

@[simp] theorem publicationPass_frame (page : Page) (b : BookDetails) :
    (publicationPass page b).authors = b.authors ∧
    (publicationPass page b).characters = b.characters ∧
    (publicationPass page b).genres = b.genres ∧
    (publicationPass page b).language = b.language ∧
    (publicationPass page b).numberOfPages = b.numberOfPages ∧
    (publicationPass page b).seriesName = b.seriesName ∧
    (publicationPass page b).positionInSeries = b.positionInSeries := by
  unfold publicationPass
  try dsimp only
  refine ⟨?_, ?_, ?_, ?_, ?_, ?_, ?_⟩ <;> (repeat' split) <;> simp

@[simp] theorem genresPass_frame (page : Page) (b : BookDetails) :
    (genresPass page b).authors = b.authors ∧
    (genresPass page b).characters = b.characters ∧
    (genresPass page b).publisher = b.publisher ∧
    (genresPass page b).language = b.language ∧
    (genresPass page b).numberOfPages = b.numberOfPages ∧
    (genresPass page b).seriesName = b.seriesName ∧
    (genresPass page b).positionInSeries = b.positionInSeries := by
  unfold genresPass
  try dsimp only
  refine ⟨?_, ?_, ?_, ?_, ?_, ?_, ?_⟩ <;> (repeat' split) <;> simp

@[simp] theorem ratingsPass_frame (page : Page) (b : BookDetails) :
    (ratingsPass page b).authors = b.authors ∧
    (ratingsPass page b).characters = b.characters ∧
    (ratingsPass page b).genres = b.genres ∧
    (ratingsPass page b).publisher = b.publisher ∧
    (ratingsPass page b).language = b.language ∧
    (ratingsPass page b).numberOfPages = b.numberOfPages ∧
    (ratingsPass page b).seriesName = b.seriesName ∧
    (ratingsPass page b).positionInSeries = b.positionInSeries := by
  unfold ratingsPass
  try dsimp only
  refine ⟨?_, ?_, ?_, ?_, ?_, ?_, ?_, ?_⟩ <;> (repeat' split) <;> simp

@[simp] theorem pushLdAuthors_characters (authors : List JVal) (b : BookDetails) :
    (pushLdAuthors authors b).1.characters = b.characters := by
  induction authors generalizing b with
  | nil => rfl
  | cons author rest ih =>
    unfold pushLdAuthors
    (repeat' split) <;> first | rfl | rw [ih]

@[simp] theorem pushLdAuthors_genres (authors : List JVal) (b : BookDetails) :
    (pushLdAuthors authors b).1.genres = b.genres := by
  induction authors generalizing b with
  | nil => rfl
  | cons author rest ih =>
    unfold pushLdAuthors
    (repeat' split) <;> first | rfl | rw [ih]

@[simp] theorem pushLdAuthors_publisher (authors : List JVal) (b : BookDetails) :
    (pushLdAuthors authors b).1.publisher = b.publisher := by
  induction authors generalizing b with
  | nil => rfl
  | cons author rest ih =>
    unfold pushLdAuthors
    (repeat' split) <;> first | rfl | rw [ih]

@[simp] theorem pushLdAuthors_language (authors : List JVal) (b : BookDetails) :
    (pushLdAuthors authors b).1.language = b.language := by
  induction authors generalizing b with
  | nil => rfl
  | cons author rest ih =>
    unfold pushLdAuthors
    (repeat' split) <;> first | rfl | rw [ih]

@[simp] theorem pushLdAuthors_numberOfPages (authors : List JVal) (b : BookDetails) :
    (pushLdAuthors authors b).1.numberOfPages = b.numberOfPages := by
  induction authors generalizing b with
  | nil => rfl
  | cons author rest ih =>
    unfold pushLdAuthors
    (repeat' split) <;> first | rfl | rw [ih]

@[simp] theorem pushLdAuthors_seriesName (authors : List JVal) (b : BookDetails) :
    (pushLdAuthors authors b).1.seriesName = b.seriesName := by
  induction authors generalizing b with
  | nil => rfl
  | cons author rest ih =>
    unfold pushLdAuthors
    (repeat' split) <;> first | rfl | rw [ih]

@[simp] theorem pushLdAuthors_positionInSeries (authors : List JVal) (b : BookDetails) :
    (pushLdAuthors authors b).1.positionInSeries = b.positionInSeries := by
  induction authors generalizing b with
  | nil => rfl
  | cons author rest ih =>
    unfold pushLdAuthors
    (repeat' split) <;> first | rfl | rw [ih]

@[simp] theorem ldAuthors_frame (jsonData : JVal) (b : BookDetails) :
    (ldAuthors jsonData b).characters = b.characters ∧
    (ldAuthors jsonData b).genres = b.genres ∧
    (ldAuthors jsonData b).publisher = b.publisher ∧
    (ldAuthors jsonData b).language = b.language ∧
    (ldAuthors jsonData b).numberOfPages = b.numberOfPages ∧
    (ldAuthors jsonData b).seriesName = b.seriesName ∧
    (ldAuthors jsonData b).positionInSeries = b.positionInSeries := by
  unfold ldAuthors
  try dsimp only
  refine ⟨?_, ?_, ?_, ?_, ?_, ?_, ?_⟩ <;> (repeat' split) <;> simp

@[simp] theorem ldLanguage_frame (jsonData : JVal) (b : BookDetails) :
    (ldLanguage jsonData b).authors = b.authors ∧
    (ldLanguage jsonData b).characters = b.characters ∧
    (ldLanguage jsonData b).genres = b.genres ∧
    (ldLanguage jsonData b).publisher = b.publisher ∧
    (ldLanguage jsonData b).numberOfPages = b.numberOfPages ∧
    (ldLanguage jsonData b).seriesName = b.seriesName ∧
    (ldLanguage jsonData b).positionInSeries = b.positionInSeries := by
  unfold ldLanguage
  try dsimp only
  refine ⟨?_, ?_, ?_, ?_, ?_, ?_, ?_⟩ <;> (repeat' split) <;> simp

@[simp] theorem ldPages_frame (jsonData : JVal) (b : BookDetails) :
    ((ldPages jsonData b).1).authors = b.authors ∧
    ((ldPages jsonData b).1).characters = b.characters ∧
    ((ldPages jsonData b).1).genres = b.genres ∧
    ((ldPages jsonData b).1).publisher = b.publisher ∧
    ((ldPages jsonData b).1).language = b.language ∧
    ((ldPages jsonData b).1).seriesName = b.seriesName ∧
    ((ldPages jsonData b).1).positionInSeries = b.positionInSeries := by
  unfold ldPages
  try dsimp only
  refine ⟨?_, ?_, ?_, ?_, ?_, ?_, ?_⟩ <;> (repeat' split) <;> simp

@[simp] theorem ldJsonPass_frame (env : Env) (page : Page) (b : BookDetails) :
    (ldJsonPass env page b).characters = b.characters ∧
    (ldJsonPass env page b).genres = b.genres ∧
    (ldJsonPass env page b).publisher = b.publisher ∧
    (ldJsonPass env page b).seriesName = b.seriesName ∧
    (ldJsonPass env page b).positionInSeries = b.positionInSeries := by
  unfold ldJsonPass
  try dsimp only
  refine ⟨?_, ?_, ?_, ?_, ?_⟩ <;> (repeat' split) <;> simp

@[simp] theorem readKeySeries_frame (raw : Str) (b : BookDetails) :
    (readKeySeries raw b).authors = b.authors ∧
    (readKeySeries raw b).characters = b.characters ∧
    (readKeySeries raw b).genres = b.genres ∧
    (readKeySeries raw b).publisher = b.publisher ∧
    (readKeySeries raw b).language = b.language ∧
    (readKeySeries raw b).numberOfPages = b.numberOfPages := by
  unfold readKeySeries
  try dsimp only
  refine ⟨?_, ?_, ?_, ?_, ?_, ?_⟩ <;> (repeat' split) <;> simp

@[simp] theorem pushCharacter_frame (b : BookDetails) (raw : Str) :
    (pushCharacter b raw).authors = b.authors ∧
    (pushCharacter b raw).genres = b.genres ∧
    (pushCharacter b raw).publisher = b.publisher ∧
    (pushCharacter b raw).language = b.language ∧
    (pushCharacter b raw).numberOfPages = b.numberOfPages ∧
    (pushCharacter b raw).seriesName = b.seriesName ∧
    (pushCharacter b raw).positionInSeries = b.positionInSeries := by
  unfold pushCharacter
  try dsimp only
  refine ⟨?_, ?_, ?_, ?_, ?_, ?_, ?_⟩ <;> (repeat' split) <;> simp

@[simp] theorem foldl_pushCharacter_frame (l : List Str) (b : BookDetails) :
    (l.foldl pushCharacter b).authors = b.authors ∧
    (l.foldl pushCharacter b).genres = b.genres ∧
    (l.foldl pushCharacter b).publisher = b.publisher ∧
    (l.foldl pushCharacter b).language = b.language ∧
    (l.foldl pushCharacter b).numberOfPages = b.numberOfPages ∧
    (l.foldl pushCharacter b).seriesName = b.seriesName ∧
    (l.foldl pushCharacter b).positionInSeries = b.positionInSeries := by
  refine ⟨?_, ?_, ?_, ?_, ?_, ?_, ?_⟩ <;> exact foldl_frame _ _ (fun b x => by simp) _ _

@[simp] theorem readPages_frame (valueText : Str) (b : BookDetails) :
    (readPages valueText b).authors = b.authors ∧
    (readPages valueText b).characters = b.characters ∧
    (readPages valueText b).genres = b.genres ∧
    (readPages valueText b).publisher = b.publisher ∧
    (readPages valueText b).language = b.language ∧
    (readPages valueText b).seriesName = b.seriesName ∧
    (readPages valueText b).positionInSeries = b.positionInSeries := by
  unfold readPages
  try dsimp only
  refine ⟨?_, ?_, ?_, ?_, ?_, ?_, ?_⟩ <;> (repeat' split) <;> simp

@[simp] theorem keyDetailsChain_frame (label : Str) (it : KeyDetailsItem) (b : BookDetails) :
    (keyDetailsChain label it b).authors = b.authors ∧
    (keyDetailsChain label it b).genres = b.genres ∧
    (keyDetailsChain label it b).publisher = b.publisher := by
  unfold keyDetailsChain
  try dsimp only
  refine ⟨?_, ?_, ?_⟩ <;> (repeat' split) <;> simp

@[simp] theorem keyDetailsPublisher_frame (label : Str) (it : KeyDetailsItem) (b : BookDetails) :
    (keyDetailsPublisher label it b).authors = b.authors ∧
    (keyDetailsPublisher label it b).characters = b.characters ∧
    (keyDetailsPublisher label it b).genres = b.genres ∧
    (keyDetailsPublisher label it b).language = b.language ∧
    (keyDetailsPublisher label it b).numberOfPages = b.numberOfPages ∧
    (keyDetailsPublisher label it b).seriesName = b.seriesName ∧
    (keyDetailsPublisher label it b).positionInSeries = b.positionInSeries := by
  unfold keyDetailsPublisher
  try dsimp only
  refine ⟨?_, ?_, ?_, ?_, ?_, ?_, ?_⟩ <;> (repeat' split) <;> simp

@[simp] theorem keyDetailsItem_frame (b : BookDetails) (it : KeyDetailsItem) :
    (keyDetailsItem b it).authors = b.authors ∧
    (keyDetailsItem b it).genres = b.genres := by
  unfold keyDetailsItem
  try dsimp only
  refine ⟨?_, ?_⟩ <;> (repeat' split) <;> simp

@[simp] theorem foldl_keyDetailsItem_frame (l : List KeyDetailsItem) (b : BookDetails) :
    (l.foldl keyDetailsItem b).authors = b.authors ∧
    (l.foldl keyDetailsItem b).genres = b.genres := by
  refine ⟨?_, ?_⟩ <;> exact foldl_frame _ _ (fun b x => by simp) _ _

@[simp] theorem keyDetailsPass_frame (page : Page) (b : BookDetails) :
    (keyDetailsPass page b).authors = b.authors ∧
    (keyDetailsPass page b).genres = b.genres := by
  unfold keyDetailsPass
  try dsimp only
  refine ⟨?_, ?_⟩ <;> (repeat' split) <;> simp

@[simp] theorem featuredParagraph_frame (b : BookDetails) (p : FeaturedParagraph) :
    (featuredParagraph b p).authors = b.authors ∧
    (featuredParagraph b p).characters = b.characters ∧
    (featuredParagraph b p).genres = b.genres ∧
    (featuredParagraph b p).publisher = b.publisher ∧
    (featuredParagraph b p).language = b.language ∧
    (featuredParagraph b p).seriesName = b.seriesName ∧
    (featuredParagraph b p).positionInSeries = b.positionInSeries := by
  unfold featuredParagraph
  try dsimp only
  refine ⟨?_, ?_, ?_, ?_, ?_, ?_, ?_⟩ <;> (repeat' split) <;> simp

@[simp] theorem foldl_featuredParagraph_frame (l : List FeaturedParagraph) (b : BookDetails) :
    (l.foldl featuredParagraph b).authors = b.authors ∧
    (l.foldl featuredParagraph b).characters = b.characters ∧
    (l.foldl featuredParagraph b).genres = b.genres ∧
    (l.foldl featuredParagraph b).publisher = b.publisher ∧
    (l.foldl featuredParagraph b).language = b.language ∧
    (l.foldl featuredParagraph b).seriesName = b.seriesName ∧
    (l.foldl featuredParagraph b).positionInSeries = b.positionInSeries := by
  refine ⟨?_, ?_, ?_, ?_, ?_, ?_, ?_⟩ <;> exact foldl_frame _ _ (fun b x => by simp) _ _

@[simp] theorem legacyDt_frame (b : BookDetails) (d : FeaturedDt) :
    (legacyDt b d).authors = b.authors ∧
    (legacyDt b d).genres = b.genres := by
  unfold legacyDt
  try dsimp only
  refine ⟨?_, ?_⟩ <;> (repeat' split) <;> simp

@[simp] theorem foldl_legacyDt_frame (l : List FeaturedDt) (b : BookDetails) :
    (l.foldl legacyDt b).authors = b.authors ∧
    (l.foldl legacyDt b).genres = b.genres := by
  refine ⟨?_, ?_⟩ <;> exact foldl_frame _ _ (fun b x => by simp) _ _

@[simp] theorem legacyPass_frame (fd : FeaturedDetails) (b : BookDetails) :
    (legacyPass fd b).authors = b.authors ∧
    (legacyPass fd b).genres = b.genres := by
  unfold legacyPass
  try dsimp only
  refine ⟨?_, ?_⟩ <;> (repeat' split) <;> simp

@[simp] theorem featuredPass_frame (page : Page) (b : BookDetails) :
    (featuredPass page b).authors = b.authors ∧
    (featuredPass page b).genres = b.genres := by
  unfold featuredPass
  try dsimp only
  refine ⟨?_, ?_⟩ <;> (repeat' split) <;> simp

@[simp] theorem cleanCommonPatterns_frame (b : BookDetails) :
    (cleanCommonPatterns b).authors = b.authors ∧
    (cleanCommonPatterns b).characters = b.characters ∧
    (cleanCommonPatterns b).genres = b.genres ∧
    (cleanCommonPatterns b).publisher = b.publisher ∧
    (cleanCommonPatterns b).language = b.language ∧
    (cleanCommonPatterns b).numberOfPages = b.numberOfPages ∧
    (cleanCommonPatterns b).positionInSeries = b.positionInSeries := by
  unfold cleanCommonPatterns
  try dsimp only
  refine ⟨?_, ?_, ?_, ?_, ?_, ?_, ?_⟩ <;> (repeat' split) <;> simp

@[simp] theorem seriesAttempt_frame (raw : Str) (b : BookDetails) :
    (seriesAttempt raw b).authors = b.authors ∧
    (seriesAttempt raw b).characters = b.characters ∧
    (seriesAttempt raw b).genres = b.genres ∧
    (seriesAttempt raw b).publisher = b.publisher ∧
    (seriesAttempt raw b).language = b.language ∧
    (seriesAttempt raw b).numberOfPages = b.numberOfPages := by
  unfold seriesAttempt
  try dsimp only
  refine ⟨?_, ?_, ?_, ?_, ?_, ?_⟩ <;> (repeat' split) <;> simp

@[simp] theorem seriesTry_frame (link : Option Str) (b : BookDetails) :
    (seriesTry link b).authors = b.authors ∧
    (seriesTry link b).characters = b.characters ∧
    (seriesTry link b).genres = b.genres ∧
    (seriesTry link b).publisher = b.publisher ∧
    (seriesTry link b).language = b.language ∧
    (seriesTry link b).numberOfPages = b.numberOfPages := by
  unfold seriesTry
  try dsimp only
  refine ⟨?_, ?_, ?_, ?_, ?_, ?_⟩ <;> (repeat' split) <;> simp

@[simp] theorem residualCleanup_frame (b : BookDetails) :
    (residualCleanup b).authors = b.authors ∧
    (residualCleanup b).characters = b.characters ∧
    (residualCleanup b).genres = b.genres ∧
    (residualCleanup b).publisher = b.publisher ∧
    (residualCleanup b).language = b.language ∧
    (residualCleanup b).numberOfPages = b.numberOfPages ∧
    (residualCleanup b).positionInSeries = b.positionInSeries := by
  unfold residualCleanup
  try dsimp only
  refine ⟨?_, ?_, ?_, ?_, ?_, ?_, ?_⟩ <;> (repeat' split) <;> simp

@[simp] theorem seriesFallback_frame (page : Page) (b : BookDetails) :
    (seriesFallback page b).authors = b.authors ∧
    (seriesFallback page b).characters = b.characters ∧
    (seriesFallback page b).genres = b.genres ∧
    (seriesFallback page b).publisher = b.publisher ∧
    (seriesFallback page b).language = b.language ∧
    (seriesFallback page b).numberOfPages = b.numberOfPages := by
  unfold seriesFallback
  try dsimp only
  refine ⟨?_, ?_, ?_, ?_, ?_, ?_⟩ <;> (repeat' split) <;> simp

@[simp] theorem normalizePass_frame (b : BookDetails) :
    (normalizePass b).authors = b.authors ∧
    (normalizePass b).characters = b.characters ∧
    (normalizePass b).genres = b.genres ∧
    (normalizePass b).publisher = b.publisher ∧
    (normalizePass b).language = b.language ∧
    (normalizePass b).numberOfPages = b.numberOfPages := by
  unfold normalizePass
  try dsimp only
  refine ⟨?_, ?_, ?_, ?_, ?_, ?_⟩ <;> (repeat' split) <;> simp

/-! ## Series: how each pass acts on `(seriesName, positionInSeries)` -/

theorem seriesOf_eq_of_fields {b b' : BookDetails} (h1 : b'.seriesName = b.seriesName)
    (h2 : b'.positionInSeries = b.positionInSeries) : seriesOf b' = seriesOf b := by
  simp [seriesOf, h1, h2]

theorem beforeKeyDetails_series (env : Env) (page : Page) :
    seriesOf (beforeKeyDetails env page) = (none, none) := by
  simp [seriesOf, beforeKeyDetails, afterRatings, afterNextData, initialDetails]

theorem normalizePass_series (b : BookDetails) :
    seriesOf (normalizePass b) = normalizeSeries (seriesOf b) := rfl

theorem seriesFallback_of_named {page : Page} {b : BookDetails}
    (h : strTruthy b.seriesName = true) : seriesFallback page b = b := by
  simp [seriesFallback, h]

/-- One key-details item either leaves the series fields alone or reads its
series link. -/
theorem keyDetailsItem_series (b : BookDetails) (it : KeyDetailsItem) :
    seriesOf (keyDetailsItem b it) = seriesOf b ∨
    (mentionsSeries it.label = true ∧
      ∃ t, it.seriesAnchor = some t ∧ seriesOf (keyDetailsItem b it) = seriesOf (readKeySeries t b)) := by
  unfold keyDetailsItem
  have hp : ∀ x, seriesOf (keyDetailsPublisher (toLowerCase (trim it.label)) it x) = seriesOf x :=
    fun x => seriesOf_eq_of_fields (by simp) (by simp)
  rw [hp]
  unfold keyDetailsChain
  split
  · exact Or.inl (seriesOf_eq_of_fields (by simp) (by simp))
  · split
    · exact Or.inl rfl
    · split
      · rename_i hs
        cases ha : it.seriesAnchor with
        | none => exact Or.inl rfl
        | some t => exact Or.inr ⟨hs, t, rfl, rfl⟩
      · split
        · exact Or.inl (seriesOf_eq_of_fields (by simp) (by simp))
        · exact Or.inl rfl

theorem keyDetailsItem_series_read (b : BookDetails) (it : KeyDetailsItem) (t : Str)
    (hl : isSeriesLabel it.label = true) (ha : it.seriesAnchor = some t) :
    seriesOf (keyDetailsItem b it) = seriesOf (readKeySeries t b) := by
  simp only [isSeriesLabel, Bool.and_eq_true, Bool.not_eq_true'] at hl
  obtain ⟨⟨h1, h2⟩, h3⟩ := hl
  unfold keyDetailsItem
  have hp : ∀ x, seriesOf (keyDetailsPublisher (toLowerCase (trim it.label)) it x) = seriesOf x :=
    fun x => seriesOf_eq_of_fields (by simp) (by simp)
  rw [hp]
  unfold keyDetailsChain
  simp only [h1, h2, h3, ha, Bool.false_and, Bool.false_eq_true, if_false, if_true]

/-- The key-details loop over items whose series links all carry the text
`t`: the series fields stay in `ok`, and they are `target` once a series item
was met. -/
theorem keyDetails_fold_series (t : Str) (target : Option Str × Option Str)
    (ok : Option Str × Option Str → Prop) (hok : ok target)
    (hread : ∀ b, ok (seriesOf b) → seriesOf (readKeySeries t b) = target)
    (items : List KeyDetailsItem) :
    ∀ b,
      (∀ it ∈ items, mentionsSeries it.label = true →
        it.seriesAnchor = none ∨ it.seriesAnchor = some t) →
      ok (seriesOf b) →
      ok (seriesOf (items.foldl keyDetailsItem b)) ∧
      ((∃ it ∈ items, isSeriesLabel it.label = true ∧ it.seriesAnchor = some t) →
        seriesOf (items.foldl keyDetailsItem b) = target) ∧
      (seriesOf b = target → seriesOf (items.foldl keyDetailsItem b) = target) := by
  induction items with
  | nil =>
    intro b _ hb
    exact ⟨hb, fun ⟨it, hit, _⟩ => absurd hit (List.not_mem_nil _), fun h => h⟩
  | cons it rest ih =>
    intro b hall hb
    have hstep : seriesOf (keyDetailsItem b it) = seriesOf b ∨
        seriesOf (keyDetailsItem b it) = target := by
      rcases keyDetailsItem_series b it with h | ⟨hm, u, hu, h⟩
      · exact Or.inl h
      · rcases hall it (List.mem_cons_self _ _) hm with h0 | h0
        · rw [h0] at hu; cases hu
        · rw [h0] at hu
          cases hu
          exact Or.inr (h.trans (hread b hb))
    have hok' : ok (seriesOf (keyDetailsItem b it)) := by
      rcases hstep with h | h
      · rw [h]; exact hb
      · rw [h]; exact hok
    obtain ⟨r1, r2, r3⟩ := ih (keyDetailsItem b it)
      (fun x hx => hall x (List.mem_cons_of_mem _ hx)) hok'
    refine ⟨r1, ?_, ?_⟩
    · rintro ⟨x, hx, hxl, hxa⟩
      rcases List.mem_cons.mp hx with rfl | hx
      · exact r3 ((keyDetailsItem_series_read b x t hxl hxa).trans (hread b hb))
      · exact r2 ⟨x, hx, hxl, hxa⟩
    · intro hbt
      rcases hstep with h | h
      · exact r3 (h.trans hbt)
      · exact r3 h

/-- One legacy `dt` either leaves the series fields alone or, when no series
name is set, reads its series link. -/
theorem legacyDt_series (b : BookDetails) (d : FeaturedDt) :
    seriesOf (legacyDt b d) = seriesOf b ∨
    (mentionsSeries d.label = true ∧ strTruthy b.seriesName = false ∧
      ∃ t, d.seriesAnchor = some t ∧ seriesOf (legacyDt b d) = seriesOf (readKeySeries t b)) := by
  unfold legacyDt
  dsimp only
  split
  · exact Or.inl (seriesOf_eq_of_fields (by simp) (by simp))
  · split
    · exact Or.inl rfl
    · split
      · rename_i hs
        simp only [Bool.and_eq_true, Bool.not_eq_true'] at hs
        cases ha : d.seriesAnchor with
        | none => exact Or.inl rfl
        | some t => exact Or.inr ⟨hs.1, hs.2, t, rfl, rfl⟩
      · split
        · exact Or.inl (seriesOf_eq_of_fields (by simp) (by simp))
        · split
          · exact Or.inl rfl
          · exact Or.inl rfl

theorem legacyDt_series_read (b : BookDetails) (d : FeaturedDt) (t : Str)
    (hl : isSeriesLabel d.label = true) (ha : d.seriesAnchor = some t)
    (hn : strTruthy b.seriesName = false) :
    seriesOf (legacyDt b d) = seriesOf (readKeySeries t b) := by
  simp only [isSeriesLabel, Bool.and_eq_true, Bool.not_eq_true'] at hl
  obtain ⟨⟨h1, h2⟩, h3⟩ := hl
  unfold legacyDt
  simp only [h1, h2, h3, ha, hn, Bool.false_and, Bool.false_eq_true, if_false, if_true,
    Bool.not_false, Bool.and_self]

theorem legacyDt_series_named (b : BookDetails) (d : FeaturedDt)
    (hn : strTruthy b.seriesName = true) : seriesOf (legacyDt b d) = seriesOf b := by
  rcases legacyDt_series b d with h | ⟨_, h, _⟩
  · exact h
  · rw [hn] at h; cases h

theorem legacy_fold_named (dts : List FeaturedDt) :
    ∀ b, strTruthy b.seriesName = true → seriesOf (dts.foldl legacyDt b) = seriesOf b := by
  induction dts with
  | nil => intro b _; rfl
  | cons d rest ih =>
    intro b hn
    have h1 := legacyDt_series_named b d hn
    have hn' : strTruthy (legacyDt b d).seriesName = true := by
      have : (legacyDt b d).seriesName = b.seriesName := congrArg Prod.fst h1
      rw [this]; exact hn
    rw [List.foldl_cons, ih _ hn', h1]

/-- Once a series name is set, the featured-details pass leaves the series
fields alone. -/
theorem featuredPass_series_named (page : Page) (b : BookDetails)
    (hn : strTruthy b.seriesName = true) : seriesOf (featuredPass page b) = seriesOf b := by
  unfold featuredPass
  split
  · rfl
  · split
    · unfold legacyPass
      have hp : seriesOf (List.foldl featuredParagraph b (‹FeaturedDetails›).paragraphs) = seriesOf b :=
        seriesOf_eq_of_fields (by simp) (by simp)
      split
      · rw [legacy_fold_named, hp]
        have : (List.foldl featuredParagraph b (‹FeaturedDetails›).paragraphs).seriesName
            = b.seriesName := by simp
        rw [this]; exact hn
      · exact hp
    · rfl

theorem legacy_fold_series (t : Str) (target : Option Str × Option Str)
    (htarget : strTruthy target.1 = true)
    (hread : ∀ b, strTruthy b.seriesName = false → b.positionInSeries = none →
      seriesOf (readKeySeries t b) = target)
    (dts : List FeaturedDt) :
    ∀ b,
      (∀ d ∈ dts, mentionsSeries d.label = true →
        d.seriesAnchor = none ∨ d.seriesAnchor = some t) →
      strTruthy b.seriesName = false → b.positionInSeries = none →
      ((strTruthy (dts.foldl legacyDt b).seriesName = false ∧
          (dts.foldl legacyDt b).positionInSeries = none) ∨
        seriesOf (dts.foldl legacyDt b) = target) ∧
      ((∃ d ∈ dts, isSeriesLabel d.label = true ∧ d.seriesAnchor = some t) →
        seriesOf (dts.foldl legacyDt b) = target) := by
  induction dts with
  | nil =>
    intro b _ h1 h2
    exact ⟨Or.inl ⟨h1, h2⟩, fun ⟨d, hd, _⟩ => absurd hd (List.not_mem_nil _)⟩
  | cons d rest ih =>
    intro b hall h1 h2
    have hkeep : seriesOf (legacyDt b d) = target →
        seriesOf (List.foldl legacyDt (legacyDt b d) rest) = target := by
      intro h
      have hn : strTruthy (legacyDt b d).seriesName = true := by
        have : (legacyDt b d).seriesName = target.1 := congrArg Prod.fst h
        rw [this]; exact htarget
      rw [legacy_fold_named rest _ hn, h]
    have hstep : seriesOf (legacyDt b d) = seriesOf b ∨ seriesOf (legacyDt b d) = target := by
      rcases legacyDt_series b d with h | ⟨hm, _, u, hu, h⟩
      · exact Or.inl h
      · rcases hall d (List.mem_cons_self _ _) hm with h0 | h0
        · rw [h0] at hu; cases hu
        · rw [h0] at hu
          cases hu
          exact Or.inr (h.trans (hread b h1 h2))
    rw [List.foldl_cons]
    rcases hstep with h | h
    · have e1 : (legacyDt b d).seriesName = b.seriesName := congrArg Prod.fst h
      have e2 : (legacyDt b d).positionInSeries = b.positionInSeries := congrArg Prod.snd h
      obtain ⟨r1, r2⟩ := ih (legacyDt b d) (fun x hx => hall x (List.mem_cons_of_mem _ hx))
        (by rw [e1]; exact h1) (by rw [e2]; exact h2)
      refine ⟨r1, ?_⟩
      rintro ⟨x, hx, hxl, hxa⟩
      rcases List.mem_cons.mp hx with rfl | hx
      · have := (legacyDt_series_read b x t hxl hxa h1).trans (hread b h1 h2)
        exact hkeep this
      · exact r2 ⟨x, hx, hxl, hxa⟩
    · exact ⟨Or.inr (hkeep h), fun _ => hkeep h⟩

theorem trim_paren_text {n p : Str} (hn : isPlainName n = true) :
    trim (n ++ " (#".toList ++ p ++ ")".toList) = n ++ " (#".toList ++ p ++ ")".toList := by
  apply trim_eq_self
  · intro c hc
    obtain ⟨d, ds, e, hd, _⟩ := plainFrom_false_cons hn
    subst e
    simp only [List.cons_append, List.head?_cons, Option.some.injEq] at hc
    subst hc
    exact (nameLetter_facts hd).1
  · intro c hc
    rw [List.getLast?_append_of_ne_nil _ (by decide)] at hc
    cases hc
    decide

/-- The key-details reading of `name (#position)`. -/
theorem readKeySeries_paren {n p : Str} (hn : isPlainName n = true) (hp : p ≠ [])
    (hpd : ∀ c ∈ p, isDigitDot c = true) (b : BookDetails) :
    seriesOf (readKeySeries (n ++ " (#".toList ++ p ++ ")".toList) b) = (some n, some p) := by
  unfold readKeySeries
  rw [trim_paren_text hn, keySeriesMatch_paren hn hp hpd]
  have hne : n ≠ [] := isPlainName_ne_nil hn
  have h1 : (!n.isEmpty) = true := by
    cases n with
    | nil => exact absurd rfl hne
    | cons c cs => rfl
  simp only [h1, if_true, truthyGroup_of_ne_nil hp, isPlainName_trim hn]
  rfl

theorem hash_text_facts {n p : Str} (hn : isPlainName n = true)
    (hpd : ∀ c ∈ p, isDigitComma c = true) :
    (∀ c ∈ n ++ " #".toList ++ p, isDot c = true) ∧
    (∀ c ∈ n ++ " #".toList ++ p, (c == '(') = false) := by
  constructor
  · intro c hc
    simp only [List.mem_append] at hc
    rcases hc with (hc | hc) | hc
    · exact plain_isDot hn c hc
    · simp at hc
      rcases hc with rfl | rfl <;> decide
    · exact (digitComma_classes (hpd c hc)).2.2.2.2.1
  · intro c hc
    simp only [List.mem_append] at hc
    rcases hc with (hc | hc) | hc
    · exact plain_no_paren hn c hc
    · simp at hc
      rcases hc with rfl | rfl <;> decide
    · exact (digitComma_classes (hpd c hc)).2.2.2.1

/-- The key-details reading of `name #position`: the whole text becomes the
name and the position is not touched. -/
theorem readKeySeries_hash {n p : Str} (hn : isPlainName n = true) (hp : p ≠ [])
    (hpd : ∀ c ∈ p, isDigitComma c = true) (b : BookDetails) :
    seriesOf (readKeySeries (n ++ " #".toList ++ p) b)
      = (some (n ++ " #".toList ++ p), b.positionInSeries) := by
  unfold readKeySeries
  obtain ⟨h1, h2⟩ := hash_text_facts hn hpd
  rw [trim_plain_hash hn hp hpd, keySeriesMatch_no_paren h1 h2]
  have hne : (!(n ++ " #".toList ++ p).isEmpty) = true := by
    cases n with
    | nil => exact absurd rfl (isPlainName_ne_nil hn)
    | cons c cs => rfl
  simp only [hne, if_true, truthyGroup, trim_plain_hash hn hp hpd]
  rfl

/-- A fallback attempt on `name #position`. -/
theorem seriesAttempt_hash {n p : Str} (hn : isPlainName n = true) (hp : p ≠ [])
    (hpd : ∀ c ∈ p, isDigitComma c = true) (b : BookDetails) :
    seriesOf (seriesAttempt (n ++ " #".toList ++ p) b) = (some n, some p) := by
  unfold seriesAttempt
  rw [trim_plain_hash hn hp hpd, genericSeriesMatch_hash hn hp hpd]
  have hne : (!n.isEmpty) = true := by
    cases n with
    | nil => exact absurd rfl (isPlainName_ne_nil hn)
    | cons c cs => rfl
  have hph : ∀ c ∈ p, (c == '#') = false := fun c hc => (digitComma_classes (hpd c hc)).2.2.1
  have hpt : trim p = p := trim_all_not_ws (fun c hc => (digitComma_classes (hpd c hc)).2.1)
  have hpe : (!p.isEmpty) = true := by
    cases p with
    | nil => exact absurd rfl hp
    | cons c cs => rfl
  have hi1 : includes n ("(#".toList ++ p ++ ")".toList) = false :=
    includes_false_of_not_mem_pat (b := '(') (by simp)
      (fun hm => by have := plain_no_paren hn _ hm; simp at this)
  have hi2 : includes n ('#' :: p) = false :=
    includes_false_of_not_mem_pat (b := '#') (by simp)
      (fun hm => by have := plain_no_hash hn _ hm; simp at this)
  simp only [hne, if_true, truthyGroup_of_ne_nil hp, stripLeadingHash_id hph, hpt,
    isPlainName_trim hn, cleanCommonPatterns, hpe, hi1, hi2, Bool.and_false, Bool.false_eq_true,
    if_false]
  rfl

theorem residualCleanup_plain {n : Str} (hn : isPlainName n = true) (b : BookDetails)
    (h : b.seriesName = some n) : seriesOf (residualCleanup b) = seriesOf b := by
  unfold residualCleanup
  rw [h]
  cases hpos : b.positionInSeries with
  | none => rfl
  | some pos =>
    simp only
    split
    · simp only [seriesOf, stripResidual_no_hash (plain_no_hash hn), isPlainName_trim hn, h, hpos]
    · rfl

theorem seriesTry_named (link : Option Str) (b : BookDetails)
    (h : strTruthy b.seriesName = true) : seriesTry link b = b := by
  simp [seriesTry, h]

theorem strTruthy_some_plain {n : Str} (hn : isPlainName n = true) :
    strTruthy (some n) = true := by
  cases n with
  | nil => exact absurd rfl (isPlainName_ne_nil hn)
  | cons c cs => rfl

/-- The fallback block when one of its links carries `name #position`. -/
theorem seriesFallback_hash {n p : Str} (hn : isPlainName n = true) (hp : p ≠ [])
    (hpd : ∀ c ∈ p, isDigitComma c = true) (page : Page) (b : BookDetails)
    (hb : strTruthy b.seriesName = false)
    (hlink : page.seriesItalicLink = some (n ++ " #".toList ++ p) ∨
      (page.seriesItalicLink = none ∧
        (page.seriesFeaturedLink = some (n ++ " #".toList ++ p) ∨
          (page.seriesFeaturedLink = none ∧
            page.seriesGenericLink = some (n ++ " #".toList ++ p))))) :
    seriesOf (seriesFallback page b) = (some n, some p) := by
  have hatt : ∀ x, seriesOf (seriesAttempt (n ++ " #".toList ++ p) x) = (some n, some p) :=
    fun x => seriesAttempt_hash hn hp hpd x
  have hnamed : ∀ x : BookDetails, seriesOf x = (some n, some p) →
      strTruthy x.seriesName = true := by
    intro x hx
    have : x.seriesName = some n := congrArg Prod.fst hx
    rw [this]
    exact strTruthy_some_plain hn
  have hres : ∀ x : BookDetails, seriesOf x = (some n, some p) →
      seriesOf (residualCleanup x) = (some n, some p) := by
    intro x hx
    rw [residualCleanup_plain hn x (congrArg Prod.fst hx), hx]
  have htry : ∀ x : BookDetails, strTruthy x.seriesName = false →
      seriesOf (seriesTry (some (n ++ " #".toList ++ p)) x) = (some n, some p) := by
    intro x hx
    simp only [seriesTry, hx, Bool.not_false, if_true]
    exact hatt x
  have hnone : ∀ x : BookDetails, seriesTry none x = x := by
    intro x
    unfold seriesTry
    split <;> rfl
  unfold seriesFallback
  simp only [hb, Bool.not_false, if_true]
  apply hres
  rcases hlink with h1 | ⟨h1, h2 | ⟨h2, h3⟩⟩
  · rw [h1]
    have e1 := htry b hb
    rw [seriesTry_named _ _ (hnamed _ e1)] at *
    rw [seriesTry_named _ _ (hnamed _ e1)]
    exact e1
  · rw [h1, h2, hnone]
    have e1 := htry b hb
    rw [seriesTry_named _ _ (hnamed _ e1)]
    exact e1
  · rw [h1, h2, h3, hnone, hnone]
    exact htry b hb

/-! ## Normalisation on clean names -/

theorem isCleanName_facts {n : Str} (hc : isCleanName n = true) :
    trim n = n ∧ includes n ignoreWord = false ∧
    (∀ c, n.getLast? = some c → isPosChar c = false) ∧
    (∀ c, n.getLast? = some c → isPosTok c = false) := by
  simp only [isCleanName, Bool.and_eq_true, beq_iff_eq, Bool.not_eq_true'] at hc
  obtain ⟨⟨htrim, hinc⟩, hlast⟩ := hc
  refine ⟨htrim, hinc, ?_, ?_⟩ <;>
  · intro c hcl
    rw [hcl] at hlast
    simp only [Bool.and_eq_true, Bool.not_eq_true'] at hlast
    first
    | exact hlast.1
    | exact hlast.2

theorem extractHashNumber_clean {n : Str} (hc : isCleanName n = true) (pos : Option Str) :
    extractHashNumber (some n, pos) = (some n, pos) := by
  unfold extractHashNumber
  simp only [hashNumberMatch_none (isCleanName_facts hc).2.2.1]
  split <;> rfl

theorem cleanSeriesName_clean {n : Str} (hc : isCleanName n = true) (pos : Option Str) :
    cleanSeriesName (some n, pos) = (some n, pos) := by
  obtain ⟨h1, h2, _, h4⟩ := isCleanName_facts hc
  unfold cleanSeriesName
  simp only [removeIgnoreWord_id h2, positionMatch_none h4, h1]
  split <;> rfl

theorem formatPosition_no_comma (name pos : Option Str)
    (hpos : ∀ p, pos = some p → hasNoComma p = true) :
    formatPosition (name, pos) = (name, pos) := by
  unfold formatPosition
  cases pos with
  | none => rfl
  | some p =>
    simp only
    split
    · rw [spaceCommas_id (hpos p rfl)]
    · rfl

theorem formatPosition_some (name : Option Str) {p : Str} (hp : p ≠ []) :
    formatPosition (name, some p) = (name, some (spaceCommas p)) := by
  cases p with
  | nil => exact absurd rfl hp
  | cons c cs => rfl

/-- The normalisation of a clean name with a position: only the commas of the
position change. -/
theorem normalizeSeries_clean {n p : Str} (hc : isCleanName n = true) (hp : p ≠ []) :
    normalizeSeries (some n, some p) = (some n, some (spaceCommas p)) := by
  rw [normalizeSeries, extractHashNumber_clean hc, cleanSeriesName_clean hc,
    formatPosition_some _ hp]

/-- The normalisation of `name #position` without a position. -/
theorem normalizeSeries_hash {n p : Str} (hn : isPlainName n = true) (hp : p ≠ [])
    (hpd : ∀ c ∈ p, isDigitComma c = true) (hig : includes n ignoreWord = false) :
    normalizeSeries (some (n ++ " #".toList ++ p), none) = (some n, some (spaceCommas p)) := by
  have hne : (!(n ++ " #".toList ++ p).isEmpty) = true := by
    cases n with
    | nil => exact absurd rfl (isPlainName_ne_nil hn)
    | cons c cs => rfl
  have hpe : (!p.isEmpty) = true := by
    cases p with
    | nil => exact absurd rfl hp
    | cons c cs => rfl
  have h1 : extractHashNumber (some (n ++ " #".toList ++ p), none) = (some n, some p) := by
    unfold extractHashNumber
    simp only [hne, strTruthy, Bool.not_false, Bool.and_self, if_true,
      hashNumberMatch_hash hn hp hpd, hpe, trim_plain_space hn]
  rw [normalizeSeries, h1, cleanSeriesName_clean (isPlainName_clean hn hig), formatPosition_some _ hp]

theorem digitDot_no_comma {p : Str} (hpd : ∀ c ∈ p, isDigitDot c = true) :
    hasNoComma p = true := by
  simp only [hasNoComma, List.all_eq_true, Bool.not_eq_true']
  exact fun c hc => (digitDot_classes (hpd c hc)).2

/-! ## Series: from the strategies to the returned record -/

theorem keyDetailsReads_spec {env : Env} {page : Page} {t : Str}
    (h : keyDetailsReads env page t = true) :
    keyDetailsGate (beforeKeyDetails env page) = true ∧
    (∃ it ∈ page.keyDetails, isSeriesLabel it.label = true ∧ it.seriesAnchor = some t) ∧
    (∀ it ∈ page.keyDetails, mentionsSeries it.label = true →
      it.seriesAnchor = none ∨ it.seriesAnchor = some t) := by
  simp only [keyDetailsReads, Bool.and_eq_true, List.any_eq_true, List.all_eq_true,
    Bool.or_eq_true, Bool.not_eq_true', beq_iff_eq] at h
  obtain ⟨⟨hg, ha⟩, hall⟩ := h
  refine ⟨hg, ha, ?_⟩
  intro it hit hm
  rcases hall it hit with (h1 | h1) | h1
  · rw [hm] at h1; cases h1
  · exact Or.inl h1
  · exact Or.inr h1

/-- The record after the key-details strategy read its series links, all of
text `t`, when reading `t` yields `target` from any state in `ok`. -/
theorem keyDetails_series_target {env : Env} {page : Page} {t : Str}
    (h : keyDetailsReads env page t = true) (target : Option Str × Option Str)
    (ok : Option Str × Option Str → Prop) (hok : ok target) (hinit : ok (none, none))
    (hread : ∀ b, ok (seriesOf b) → seriesOf (readKeySeries t b) = target) :
    seriesOf (keyDetailsPass page (beforeKeyDetails env page)) = target := by
  obtain ⟨hg, hex, hall⟩ := keyDetailsReads_spec h
  unfold keyDetailsPass
  rw [hg]
  simp only [if_true]
  exact ((keyDetails_fold_series t target ok hok hread page.keyDetails
    (beforeKeyDetails env page) hall
    (by rw [beforeKeyDetails_series]; exact hinit)).2.1 hex)

/-- After a strategy of the details sections set a series name, the rest of
the extraction only normalises the pair. -/
theorem extract_series_of_named {env : Env} {page : Page} (x : Option Str × Option Str)
    (hx : strTruthy x.1 = true)
    (h : seriesOf (featuredPass page (keyDetailsPass page (beforeKeyDetails env page))) = x) :
    seriesOf (extractDetails env page) = normalizeSeries x := by
  unfold extractDetails beforeNormalize
  rw [normalizePass_series, seriesFallback_of_named, h]
  have : (featuredPass page (keyDetailsPass page (beforeKeyDetails env page))).seriesName = x.1 :=
    congrArg Prod.fst h
  rw [this]
  exact hx

theorem extract_series_of_keyDetails {env : Env} {page : Page} (x : Option Str × Option Str)
    (hx : strTruthy x.1 = true)
    (h : seriesOf (keyDetailsPass page (beforeKeyDetails env page)) = x) :
    seriesOf (extractDetails env page) = normalizeSeries x := by
  apply extract_series_of_named x hx
  rw [featuredPass_series_named, h]
  have : (keyDetailsPass page (beforeKeyDetails env page)).seriesName = x.1 := congrArg Prod.fst h
  rw [this]
  exact hx

theorem strTruthy_hash_text {n p : Str} (hn : isPlainName n = true) :
    strTruthy (some (n ++ " #".toList ++ p)) = true := by
  cases n with
  | nil => exact absurd rfl (isPlainName_ne_nil hn)
  | cons c cs => rfl

/-- The legacy `dt`/`dd` strategy on `name #position`. -/
theorem legacy_series_hash {env : Env} {page : Page} {n p : Str} (hn : isPlainName n = true)
    (hp : p ≠ []) (hpd : ∀ c ∈ p, isDigitComma c = true)
    (h : legacyReads env page (n ++ " #".toList ++ p) = true) :
    seriesOf (featuredPass page (keyDetailsPass page (beforeKeyDetails env page)))
      = (some (n ++ " #".toList ++ p), none) := by
  unfold legacyReads at h
  cases hfd : page.featuredDetails with
  | none => rw [hfd] at h; cases h
  | some fd =>
    rw [hfd] at h
    simp only [Bool.and_eq_true, List.any_eq_true, List.all_eq_true, Bool.or_eq_true,
      Bool.not_eq_true', beq_iff_eq] at h
    obtain ⟨⟨⟨⟨⟨⟨g1, g2⟩, g3⟩, g4⟩, g5⟩, hex⟩, hall⟩ := h
    have hall' : ∀ d ∈ fd.dts, mentionsSeries d.label = true →
        d.seriesAnchor = none ∨ d.seriesAnchor = some (n ++ " #".toList ++ p) := by
      intro d hd hm
      rcases hall d hd with (h1 | h1) | h1
      · rw [hm] at h1; cases h1
      · exact Or.inl h1
      · exact Or.inr h1
    unfold featuredPass
    rw [hfd]
    simp only [g1, Bool.not_false, if_true]
    unfold legacyPass
    simp only [g2, g3, Bool.not_false, Bool.and_self, if_true]
    refine (legacy_fold_series (n ++ " #".toList ++ p) (some (n ++ " #".toList ++ p), none)
      (strTruthy_hash_text hn) ?_ fd.dts _ hall' ?_ ?_).2 hex
    · intro b _ hb
      rw [readKeySeries_hash hn hp hpd, hb]
    · simpa using g4
    · simpa using g5

/-- Every strategy on `name #position`. -/
theorem series_hash_all_paths {env : Env} {page : Page} {n p : Str}
    (hn : isPlainName n = true) (hp : p ≠ []) (hpd : ∀ c ∈ p, isDigitComma c = true)
    (hig : includes n ignoreWord = false)
    (h : keyDetailsReads env page (n ++ " #".toList ++ p) = true ∨
         legacyReads env page (n ++ " #".toList ++ p) = true ∨
         fallbackReads env page (n ++ " #".toList ++ p) = true) :
    seriesOf (extractDetails env page) = (some n, some (spaceCommas p)) := by
  rcases h with h | h | h
  · have := keyDetails_series_target h (some (n ++ " #".toList ++ p), none)
      (fun s => s.2 = none) rfl rfl
      (fun b hb => by rw [readKeySeries_hash hn hp hpd]; simp only [seriesOf] at hb; rw [hb])
    rw [extract_series_of_keyDetails _ (strTruthy_hash_text hn) this,
      normalizeSeries_hash hn hp hpd hig]
  · rw [extract_series_of_named _ (strTruthy_hash_text hn) (legacy_series_hash hn hp hpd h),
      normalizeSeries_hash hn hp hpd hig]
  · simp only [fallbackReads, Bool.and_eq_true, Bool.or_eq_true, Bool.not_eq_true',
      beq_iff_eq] at h
    obtain ⟨hb, hlink⟩ := h
    unfold extractDetails beforeNormalize
    rw [normalizePass_series, seriesFallback_hash hn hp hpd page _ hb hlink,
      normalizeSeries_clean (isPlainName_clean hn hig) hp]

/-- The key-details strategy on `name (#position)`. -/
theorem series_paren_key_details {env : Env} {page : Page} {n p : Str}
    (hn : isPlainName n = true) (hp : p ≠ []) (hpd : ∀ c ∈ p, isDigitDot c = true)
    (hig : includes n ignoreWord = false)
    (h : keyDetailsReads env page (n ++ " (#".toList ++ p ++ ")".toList) = true) :
    seriesOf (extractDetails env page) = (some n, some p) := by
  have := keyDetails_series_target h (some n, some p) (fun _ => True) trivial trivial
    (fun b _ => readKeySeries_paren hn hp hpd b)
  rw [extract_series_of_keyDetails _ (strTruthy_some_plain hn) this,
    normalizeSeries_clean (isPlainName_clean hn hig) hp, spaceCommas_id (digitDot_no_comma hpd)]

/-! ## Duplicate-free lists -/

theorem mem_strings {s : Str} {xs : List JVal} : s ∈ strings xs ↔ JVal.str s ∈ xs := by
  induction xs with
  | nil => simp [strings]
  | cons x rest ih =>
    cases x <;> simp [strings, ih]

theorem sameValueZero_str_self (s : Str) : JVal.sameValueZero (JVal.str s) (JVal.str s) = true := by
  simp [JVal.sameValueZero]

/-- A list without `includes`-duplicates has no two equal strings. -/
theorem distinct_strings_nodup {xs : List JVal} (h : distinctValues xs) : (strings xs).Nodup := by
  induction xs with
  | nil => simp [strings]
  | cons x rest ih =>
    have hp := List.pairwise_cons.mp h
    have hrest := ih hp.2
    cases x with
    | str s =>
      simp only [strings, List.nodup_cons]
      refine ⟨?_, hrest⟩
      intro hm
      have := hp.1 _ (mem_strings.mp hm)
      rw [sameValueZero_str_self] at this
      cases this
    | undef => simpa [strings] using hrest
    | null => simpa [strings] using hrest
    | bool b => simpa [strings] using hrest
    | num r => simpa [strings] using hrest
    | arr items => simpa [strings] using hrest
    | obj fields => simpa [strings] using hrest

theorem extendsDistinct_refl (xs : List JVal) : extendsDistinct xs xs :=
  ⟨⟨[], by simp⟩, fun h => h⟩

theorem extendsDistinct_trans {xs ys zs : List JVal} (h1 : extendsDistinct xs ys)
    (h2 : extendsDistinct ys zs) : extendsDistinct xs zs := by
  obtain ⟨⟨e1, he1⟩, d1⟩ := h1
  obtain ⟨⟨e2, he2⟩, d2⟩ := h2
  exact ⟨⟨e1 ++ e2, by rw [he2, he1, List.append_assoc]⟩, fun h => d2 (d1 h)⟩

theorem extendsDistinct_of_eq {xs ys : List JVal} (h : ys = xs) : extendsDistinct xs ys := by
  rw [h]; exact extendsDistinct_refl xs

theorem extendsDistinct_push {xs : List JVal} {v : JVal} (h : includesVal xs v = false) :
    extendsDistinct xs (xs ++ [v]) := by
  refine ⟨⟨[v], rfl⟩, ?_⟩
  intro hd
  unfold distinctValues at hd ⊢
  rw [List.pairwise_append]
  refine ⟨hd, List.pairwise_singleton _ _, ?_⟩
  intro a ha b hb
  simp only [List.mem_singleton] at hb
  subst hb
  simp only [includesVal, List.any_eq_false] at h
  simpa using h a ha

theorem extendsDistinct_pushUnique (xs : List JVal) (v : JVal) :
    extendsDistinct xs (pushUnique xs v) := by
  unfold pushUnique
  split
  · exact extendsDistinct_refl xs
  · rename_i h
    exact extendsDistinct_push (by simpa using h)

theorem extendsDistinct_single_of_nil {xs : List JVal} (v : JVal) (h : xs = []) :
    extendsDistinct xs (xs ++ [v]) := by
  subst h
  exact extendsDistinct_push rfl

theorem foldl_grows {α : Type} (f : BookDetails → α → BookDetails)
    (proj : BookDetails → List JVal)
    (h : ∀ b x, extendsDistinct (proj b) (proj (f b x))) (l : List α) (b : BookDetails) :
    extendsDistinct (proj b) (proj (l.foldl f b)) := by
  induction l generalizing b with
  | nil => exact extendsDistinct_refl _
  | cons x xs ih => exact extendsDistinct_trans (h b x) (ih (f b x))

/-! ### Characters -/

theorem addCharacter_grows (b : BookDetails) (raw : Str) :
    extendsDistinct b.characters (addCharacter b raw).characters := by
  unfold addCharacter
  dsimp only
  split
  · rename_i h
    simp only [Bool.and_eq_true, Bool.not_eq_true'] at h
    exact extendsDistinct_push h.2
  · exact extendsDistinct_refl _

theorem harvestAnchor_grows (b : BookDetails) (a : Anchor) :
    extendsDistinct b.characters (harvestAnchor b a).characters := by
  unfold harvestAnchor
  split
  · exact extendsDistinct_refl _
  · split
    · exact addCharacter_grows _ _
    · exact extendsDistinct_refl _

theorem directCharacters_grows (page : Page) (b : BookDetails) :
    extendsDistinct b.characters (directCharacters page b).characters :=
  foldl_grows harvestAnchor (fun b => b.characters) harvestAnchor_grows _ _

theorem charactersSectionEntry_grows (b : BookDetails) (dt : DtEntry) :
    extendsDistinct b.characters (charactersSectionEntry b dt).characters := by
  unfold charactersSectionEntry
  split
  · exact foldl_grows addCharacter (fun b => b.characters) addCharacter_grows _ _
  · exact extendsDistinct_refl _

theorem charactersSection_grows (page : Page) (b : BookDetails) :
    extendsDistinct b.characters (charactersSection page b).characters :=
  foldl_grows charactersSectionEntry (fun b => b.characters) charactersSectionEntry_grows _ _

theorem addRegexCharacter_grows (b : BookDetails) (name : Str) :
    extendsDistinct b.characters (addRegexCharacter b name).characters := by
  unfold addRegexCharacter
  split
  · split
    · rename_i h
      exact extendsDistinct_push (by simpa using h)
    · exact extendsDistinct_refl _
  · exact extendsDistinct_refl _

theorem regexCharacters_grows (content : Str) (b : BookDetails) :
    extendsDistinct b.characters (regexCharacters content b).characters :=
  foldl_grows addRegexCharacter (fun b => b.characters) addRegexCharacter_grows _ _

theorem addItemCharacter_grows (b : BookDetails) (char : JVal) :
    extendsDistinct b.characters (addItemCharacter b char).characters := by
  unfold addItemCharacter
  split
  · rename_i h
    simp only [Bool.and_eq_true, Bool.not_eq_true'] at h
    exact extendsDistinct_push h.2
  · exact extendsDistinct_refl _

theorem itemCharacters_grows (item : JVal) (b : BookDetails) :
    extendsDistinct b.characters (itemCharacters item b).characters := by
  unfold itemCharacters
  split
  · split
    · exact foldl_grows addItemCharacter (fun b => b.characters) addItemCharacter_grows _ _
    · exact extendsDistinct_refl _
  · exact extendsDistinct_refl _

theorem processItem_grows (b : BookDetails) (item : JVal) :
    extendsDistinct b.characters (processItem b item).1.characters := by
  unfold processItem
  dsimp only
  split
  · split
    · exact extendsDistinct_of_eq (by simp)
    · split
      · exact extendsDistinct_of_eq (by simp)
      · refine extendsDistinct_trans (extendsDistinct_of_eq ?_) (itemCharacters_grows item _)
        simp
  · exact extendsDistinct_refl _

theorem walkItems_grows (items : List JVal) (b : BookDetails) :
    extendsDistinct b.characters (walkItems items b).1.characters := by
  induction items generalizing b with
  | nil => exact extendsDistinct_refl _
  | cons item rest ih =>
    unfold walkItems
    split
    · exact processItem_grows b item
    · exact extendsDistinct_trans (processItem_grows b item) (ih _)

theorem structuredParse_grows (json : JVal) (b : BookDetails) :
    extendsDistinct b.characters (structuredParse json b).characters := by
  unfold structuredParse
  split
  · split
    · exact walkItems_grows _ _
    · exact extendsDistinct_refl _
  · exact extendsDistinct_refl _

theorem nextDataPass_grows (env : Env) (page : Page) (b : BookDetails) :
    extendsDistinct b.characters (nextDataPass env page b).characters := by
  unfold nextDataPass
  cases page.nextData with
  | none => exact extendsDistinct_refl _
  | some content =>
    dsimp only
    cases env.jsonParse content with
    | none => exact regexCharacters_grows content b
    | some json =>
      exact extendsDistinct_trans (regexCharacters_grows content b) (structuredParse_grows json _)

/-! ### Authors -/

theorem addAuthorText_grows (b : BookDetails) (raw : Str) :
    extendsDistinct b.authors (addAuthorText b raw).authors := by
  unfold addAuthorText
  dsimp only
  split
  · rename_i h
    simp only [Bool.and_eq_true, Bool.not_eq_true'] at h
    exact extendsDistinct_push h.2
  · exact extendsDistinct_refl _

theorem pushAuthorList_grows (authors : List JVal) (b : BookDetails) :
    extendsDistinct b.authors (pushAuthorList authors b).1.authors := by
  induction authors generalizing b with
  | nil => exact extendsDistinct_refl _
  | cons author rest ih =>
    unfold pushAuthorList
    split
    · exact extendsDistinct_refl _
    · refine extendsDistinct_trans ?_ (ih _)
      split
      · rename_i h
        simp only [Bool.and_eq_true, Bool.not_eq_true'] at h
        exact extendsDistinct_push h.2
      · exact extendsDistinct_refl _

theorem pushContributors_grows (contributors : List JVal) (b : BookDetails) :
    extendsDistinct b.authors (pushContributors contributors b).1.authors := by
  induction contributors generalizing b with
  | nil => exact extendsDistinct_refl _
  | cons contributor rest ih =>
    unfold pushContributors
    split
    · exact extendsDistinct_refl _
    · refine extendsDistinct_trans ?_ (ih _)
      split
      · rename_i h
        simp only [Bool.and_eq_true, Bool.not_eq_true'] at h
        exact extendsDistinct_push h.2
      · exact extendsDistinct_refl _

theorem authorFromItem_grows (b : BookDetails) (item : JVal) :
    extendsDistinct b.authors (authorFromItem b item).1.authors := by
  unfold authorFromItem
  split
  · split
    · exact extendsDistinct_pushUnique _ _
    · split
      · exact pushAuthorList_grows _ _
      · split
        · exact pushContributors_grows _ _
        · exact extendsDistinct_refl _
  · exact extendsDistinct_refl _

theorem walkAuthors_grows (items : List JVal) (b : BookDetails) :
    extendsDistinct b.authors (walkAuthors items b).1.authors := by
  induction items generalizing b with
  | nil => exact extendsDistinct_refl _
  | cons item rest ih =>
    unfold walkAuthors
    split
    · exact authorFromItem_grows b item
    · exact extendsDistinct_trans (authorFromItem_grows b item) (ih _)

theorem authorsFromNextData_grows (env : Env) (page : Page) (b : BookDetails) :
    extendsDistinct b.authors (authorsFromNextData env page b).authors := by
  unfold authorsFromNextData
  (repeat' split) <;> first
    | exact extendsDistinct_refl _
    | exact walkAuthors_grows _ _

theorem authorsFromTitleLinks_grows (page : Page) (b : BookDetails) :
    extendsDistinct b.authors (authorsFromTitleLinks page b).authors := by
  unfold authorsFromTitleLinks
  split
  · exact foldl_grows addAuthorText (fun b => b.authors) addAuthorText_grows _ _
  · exact extendsDistinct_refl _

theorem nameAndAuthors_grows (env : Env) (page : Page) (b : BookDetails) :
    extendsDistinct b.authors (nameAndAuthors env page b).authors := by
  unfold nameAndAuthors
  refine extendsDistinct_trans ?_ (authorsFromTitleLinks_grows page _)
  refine extendsDistinct_trans ?_ (authorsFromNextData_grows env page _)
  exact foldl_grows addAuthorText (fun b => b.authors) addAuthorText_grows _
    { b with bookName := some (trim page.title) }

theorem pushLdAuthors_grows (authors : List JVal) (b : BookDetails) :
    extendsDistinct b.authors (pushLdAuthors authors b).1.authors := by
  induction authors generalizing b with
  | nil => exact extendsDistinct_refl _
  | cons author rest ih =>
    unfold pushLdAuthors
    split
    · refine extendsDistinct_trans ?_ (ih _)
      split
      · rename_i h
        exact extendsDistinct_push (by simpa using h)
      · exact extendsDistinct_refl _
    · exact extendsDistinct_refl _
    · refine extendsDistinct_trans ?_ (ih _)
      split
      · rename_i h
        simp only [Bool.and_eq_true, Bool.not_eq_true'] at h
        exact extendsDistinct_push h.2
      · exact extendsDistinct_refl _

theorem ldAuthors_grows (jsonData : JVal) (b : BookDetails) :
    extendsDistinct b.authors (ldAuthors jsonData b).authors := by
  unfold ldAuthors
  split
  · rename_i h
    simp only [Bool.and_eq_true, beq_iff_eq, List.length_eq_zero] at h
    split
    · exact extendsDistinct_single_of_nil _ h.1
    · split
      · exact extendsDistinct_single_of_nil _ h.1
      · exact extendsDistinct_refl _
    · exact pushLdAuthors_grows _ _
    · exact extendsDistinct_refl _
  · exact extendsDistinct_refl _

theorem ldJsonPass_grows (env : Env) (page : Page) (b : BookDetails) :
    extendsDistinct b.authors (ldJsonPass env page b).authors := by
  unfold ldJsonPass
  (repeat' split) <;> first
    | exact extendsDistinct_refl _
    | exact extendsDistinct_of_eq (by simp)
    | (refine extendsDistinct_trans (extendsDistinct_of_eq ?_) (ldAuthors_grows _ _); simp)

/-- The authors of the returned record are pairwise distinct for `includes`. -/
theorem extract_authors_distinct (env : Env) (page : Page) :
    distinctValues (extractDetails env page).authors := by
  have h0 : (afterNextData env page).authors = [] := by
    simp [afterNextData, initialDetails]
  have h1 : extendsDistinct (afterNextData env page).authors
      (ldJsonPass env page (afterRatings env page)).authors := by
    refine extendsDistinct_trans ?_ (ldJsonPass_grows env page _)
    refine extendsDistinct_trans (nameAndAuthors_grows env page _) (extendsDistinct_of_eq ?_)
    simp [afterRatings]
  have h2 : (extractDetails env page).authors
      = (ldJsonPass env page (afterRatings env page)).authors := by
    simp [extractDetails, beforeNormalize, beforeKeyDetails]
  rw [h2]
  apply h1.2
  rw [h0]
  exact List.Pairwise.nil

/-! ### Characters of the details sections -/

theorem extendsDistinct_ne_nil {xs ys : List JVal} (h : extendsDistinct xs ys) (hx : xs ≠ []) :
    ys ≠ [] := by
  obtain ⟨⟨e, he⟩, _⟩ := h
  rw [he]
  simp [hx]

theorem pushCharacter_of_blank (b : BookDetails) {raw : Str} (h : trim raw = []) :
    pushCharacter b raw = b := by
  simp [pushCharacter, h]

theorem foldl_pushCharacter_of_blank (links : List Str) (b : BookDetails)
    (h : ∀ t ∈ links, trim t = []) : links.foldl pushCharacter b = b := by
  induction links generalizing b with
  | nil => rfl
  | cons t rest ih =>
    rw [List.foldl_cons, pushCharacter_of_blank b (h t (List.mem_cons_self _ _))]
    exact ih b (fun u hu => h u (List.mem_cons_of_mem _ hu))

theorem keyDetailsItem_characters (b : BookDetails) (it : KeyDetailsItem)
    (h : b.characters = [] → ∀ t ∈ it.characterLinks, trim t = []) :
    (keyDetailsItem b it).characters = b.characters := by
  unfold keyDetailsItem
  rw [(keyDetailsPublisher_frame _ it _).2.1]
  unfold keyDetailsChain
  split
  · simp
  · split
    · rfl
    · split
      · split <;> simp
      · split
        · rename_i hc
          simp only [Bool.and_eq_true, beq_iff_eq, List.length_eq_zero] at hc
          rw [foldl_pushCharacter_of_blank _ _ (h hc.2)]
        · rfl

theorem keyDetails_fold_characters (items : List KeyDetailsItem) :
    ∀ b, (b.characters = [] → ∀ it ∈ items, ∀ t ∈ it.characterLinks, trim t = []) →
      (items.foldl keyDetailsItem b).characters = b.characters := by
  induction items with
  | nil => intro b _; rfl
  | cons it rest ih =>
    intro b h
    have h1 := keyDetailsItem_characters b it
      (fun hb t ht => h hb it (List.mem_cons_self _ _) t ht)
    rw [List.foldl_cons, ih, h1]
    intro hb x hx
    rw [h1] at hb
    exact h hb x (List.mem_cons_of_mem _ hx)

theorem legacyDt_characters (b : BookDetails) (d : FeaturedDt)
    (h : b.characters = [] → ∀ t ∈ d.characterLinks, trim t = []) :
    (legacyDt b d).characters = b.characters := by
  unfold legacyDt
  dsimp only
  split
  · simp
  · split
    · rfl
    · split
      · split <;> simp
      · split
        · rename_i hc
          simp only [Bool.and_eq_true, beq_iff_eq, List.length_eq_zero] at hc
          rw [foldl_pushCharacter_of_blank _ _ (h hc.2)]
        · split <;> rfl

theorem legacy_fold_characters (dts : List FeaturedDt) :
    ∀ b, (b.characters = [] → ∀ d ∈ dts, ∀ t ∈ d.characterLinks, trim t = []) →
      (dts.foldl legacyDt b).characters = b.characters := by
  induction dts with
  | nil => intro b _; rfl
  | cons d rest ih =>
    intro b h
    have h1 := legacyDt_characters b d (fun hb t ht => h hb d (List.mem_cons_self _ _) t ht)
    rw [List.foldl_cons, ih, h1]
    intro hb x hx
    rw [h1] at hb
    exact h hb x (List.mem_cons_of_mem _ hx)

theorem harvestAnchor_ne_nil (b : BookDetails) {a : Anchor} (hc : isCharacterAnchor a = true)
    (ht : trim a.text ≠ []) : (harvestAnchor b a).characters ≠ [] := by
  unfold isCharacterAnchor at hc
  unfold harvestAnchor
  cases hh : a.href with
  | none => rw [hh] at hc; cases hc
  | some href =>
    rw [hh] at hc
    simp only at hc ⊢
    rw [hc]
    simp only [if_true]
    unfold addCharacter
    dsimp only
    split
    · simp
    · rename_i hcond
      intro he
      apply hcond
      have h1 : (!(trim a.text).isEmpty) = true := by
        cases hta : trim a.text with
        | nil => exact absurd hta ht
        | cons c cs => rfl
      simp [h1, he, includesVal]

theorem direct_ne_nil_of_anchor (anchors : List Anchor) {a : Anchor} (ha : a ∈ anchors)
    (hc : isCharacterAnchor a = true) (ht : trim a.text ≠ []) :
    ∀ b, (anchors.foldl harvestAnchor b).characters ≠ [] := by
  induction anchors with
  | nil => exact absurd ha (List.not_mem_nil _)
  | cons x rest ih =>
    intro b
    rw [List.foldl_cons]
    rcases List.mem_cons.mp ha with rfl | hr
    · exact extendsDistinct_ne_nil
        (foldl_grows harvestAnchor (fun b => b.characters) harvestAnchor_grows rest _)
        (harvestAnchor_ne_nil b hc ht)
    · exact ih hr _

theorem detail_links_blank_or_harvested (page : Page)
    (h : ∀ t ∈ detailCharacterLinks page, t ∈ characterAnchorTexts page) (b : BookDetails) :
    (directCharacters page b).characters ≠ [] ∨
    ∀ t ∈ detailCharacterLinks page, trim t = [] := by
  by_cases hex : ∃ a ∈ page.anchors, isCharacterAnchor a = true ∧ trim a.text ≠ []
  · obtain ⟨a, ha, hc, ht⟩ := hex
    exact Or.inl (direct_ne_nil_of_anchor page.anchors ha hc ht b)
  · right
    intro t ht
    have hm := h t ht
    simp only [characterAnchorTexts, List.mem_map, List.mem_filter] at hm
    obtain ⟨a, ⟨ha, hc⟩, rfl⟩ := hm
    by_contra hne
    exact hex ⟨a, ha, hc, hne⟩

theorem mem_detail_links_key {page : Page} {it : KeyDetailsItem} {t : Str}
    (hit : it ∈ page.keyDetails) (ht : t ∈ it.characterLinks) :
    t ∈ detailCharacterLinks page := by
  unfold detailCharacterLinks
  exact List.mem_append_left _ (List.mem_flatMap.mpr ⟨it, hit, ht⟩)

theorem mem_detail_links_legacy {page : Page} {fd : FeaturedDetails} {d : FeaturedDt} {t : Str}
    (hfd : page.featuredDetails = some fd) (hd : d ∈ fd.dts) (ht : t ∈ d.characterLinks) :
    t ∈ detailCharacterLinks page := by
  unfold detailCharacterLinks
  rw [hfd]
  exact List.mem_append_right _ (List.mem_flatMap.mpr ⟨d, hd, ht⟩)

theorem keyDetailsPass_characters (page : Page) (b : BookDetails)
    (h : b.characters = [] → ∀ t ∈ detailCharacterLinks page, trim t = []) :
    (keyDetailsPass page b).characters = b.characters := by
  unfold keyDetailsPass
  split
  · exact keyDetails_fold_characters _ b
      (fun hb it hit t ht => h hb t (mem_detail_links_key hit ht))
  · rfl

theorem featuredPass_characters (page : Page) (b : BookDetails)
    (h : b.characters = [] → ∀ t ∈ detailCharacterLinks page, trim t = []) :
    (featuredPass page b).characters = b.characters := by
  unfold featuredPass
  cases hfd : page.featuredDetails with
  | none => rfl
  | some fd =>
    dsimp only
    split
    · unfold legacyPass
      have hp : (List.foldl featuredParagraph b fd.paragraphs).characters = b.characters := by
        simp
      split
      · rw [legacy_fold_characters, hp]
        intro hb d hd t ht
        rw [hp] at hb
        exact h hb t (mem_detail_links_legacy hfd hd ht)
      · exact hp
    · rfl

/-- Under the hypothesis that the character links of the details sections
are anchors of the page, the details sections add no character: the
characters of the record are those collected up to the data island. -/
theorem extract_characters (env : Env) (page : Page)
    (h : ∀ t ∈ detailCharacterLinks page, t ∈ characterAnchorTexts page) :
    (extractDetails env page).characters = (afterNextData env page).characters := by
  have hgrow : extendsDistinct (directCharacters page initialDetails).characters
      (afterNextData env page).characters :=
    extendsDistinct_trans (charactersSection_grows page _) (nextDataPass_grows env page _)
  have hG : (afterNextData env page).characters = [] →
      ∀ t ∈ detailCharacterLinks page, trim t = [] := by
    intro he
    rcases detail_links_blank_or_harvested page h initialDetails with h1 | h1
    · exact absurd he (extendsDistinct_ne_nil hgrow h1)
    · exact h1
  have h0 : (beforeKeyDetails env page).characters = (afterNextData env page).characters := by
    simp [beforeKeyDetails, afterRatings]
  have h1 : (keyDetailsPass page (beforeKeyDetails env page)).characters
      = (afterNextData env page).characters := by
    rw [keyDetailsPass_characters, h0]
    rw [h0]; exact hG
  have h2 : (featuredPass page (keyDetailsPass page (beforeKeyDetails env page))).characters
      = (afterNextData env page).characters := by
    rw [featuredPass_characters, h1]
    rw [h1]; exact hG
  simp only [extractDetails, beforeNormalize, normalizePass_frame, seriesFallback_frame, h2]

theorem afterNextData_characters_distinct (env : Env) (page : Page) :
    distinctValues (afterNextData env page).characters := by
  have : extendsDistinct initialDetails.characters (afterNextData env page).characters :=
    extendsDistinct_trans (directCharacters_grows page _)
      (extendsDistinct_trans (charactersSection_grows page _) (nextDataPass_grows env page _))
  exact this.2 List.Pairwise.nil

/-! ## Genres -/

theorem strings_append (xs ys : List JVal) : strings (xs ++ ys) = strings xs ++ strings ys := by
  induction xs with
  | nil => rfl
  | cons x rest ih => cases x <;> simp [strings, ih]

theorem strings_sublist {xs ys : List JVal} (h : xs.Sublist ys) :
    (strings xs).Sublist (strings ys) := by
  induction h with
  | slnil => exact List.Sublist.refl _
  | cons a _ ih =>
    cases a <;> first
      | exact ih
      | exact List.Sublist.cons _ ih
  | cons₂ a _ ih =>
    cases a <;> first
      | exact ih
      | exact List.Sublist.cons₂ _ ih

/-- The `forEach` over `bookGenres` appends a sublist of the genre names. -/
theorem pushGenres_sublist (bgs : List JVal) (b : BookDetails) :
    ∃ l, (pushGenres bgs b).1.genres = b.genres ++ l ∧ l.Sublist (genreNames bgs) := by
  induction bgs generalizing b with
  | nil => exact ⟨[], by simp [pushGenres], List.Sublist.refl _⟩
  | cons bg rest ih =>
    unfold pushGenres
    split
    · exact ⟨[], by simp, List.nil_sublist _⟩
    · split
      · obtain ⟨l, hl, hs⟩ := ih { b with genres := b.genres ++ [(bg.prop "genre").prop "name"] }
        refine ⟨(bg.prop "genre").prop "name" :: l, ?_, ?_⟩
        · rw [hl]; simp
        · exact List.Sublist.cons₂ _ hs
      · obtain ⟨l, hl, hs⟩ := ih b
        exact ⟨l, hl, List.Sublist.cons _ hs⟩

theorem itemGenres_nodup (item : JVal) (b : BookDetails)
    (hitem : ∀ bgs, item.prop "bookGenres" = JVal.arr bgs → (strings (genreNames bgs)).Nodup)
    (hb : (strings b.genres).Nodup) : (strings (itemGenres item b).1.genres).Nodup := by
  unfold itemGenres
  split
  · rename_i bgs hbgs
    split
    · rename_i hlen
      simp only [beq_iff_eq, List.length_eq_zero] at hlen
      obtain ⟨l, hl, hs⟩ := pushGenres_sublist bgs b
      rw [hl, hlen, List.nil_append]
      exact List.Nodup.sublist (strings_sublist hs) (hitem bgs hbgs)
    · exact hb
  · exact hb

theorem processItem_genres_nodup (b : BookDetails) (item : JVal)
    (hitem : ∀ bgs, item.prop "bookGenres" = JVal.arr bgs → (strings (genreNames bgs)).Nodup)
    (hb : (strings b.genres).Nodup) : (strings (processItem b item).1.genres).Nodup := by
  unfold processItem
  dsimp only
  have hg := itemGenres_nodup item (itemPages item (itemLanguage item (itemPublisher item b))).1
    hitem (by simpa using hb)
  split
  · split
    · simpa using hb
    · split
      · exact hg
      · simpa using hg
  · exact hb

theorem walkItems_genres_nodup (items : List JVal) :
    ∀ b,
      (∀ item ∈ items, ∀ bgs, item.prop "bookGenres" = JVal.arr bgs →
        (strings (genreNames bgs)).Nodup) →
      (strings b.genres).Nodup → (strings (walkItems items b).1.genres).Nodup := by
  induction items with
  | nil => intro b _ hb; exact hb
  | cons item rest ih =>
    intro b hall hb
    have h1 := processItem_genres_nodup b item (hall item (List.mem_cons_self _ _)) hb
    unfold walkItems
    split
    · exact h1
    · exact ih _ (fun x hx => hall x (List.mem_cons_of_mem _ hx)) h1

theorem strings_filter_map_str (f : JVal → Bool) (l : List Str) :
    (strings ((l.map (fun t => JVal.str t)).filter f)).Sublist l := by
  induction l with
  | nil => exact List.Sublist.refl _
  | cons t rest ih =>
    simp only [List.map_cons, List.filter_cons]
    split
    · exact List.Sublist.cons₂ _ ih
    · exact List.Sublist.cons _ ih

theorem genresPass_nodup (page : Page) (b : BookDetails)
    (hlabels : (page.genreLabels.map trim).Nodup) (hb : (strings b.genres).Nodup) :
    (strings (genresPass page b).genres).Nodup := by
  unfold genresPass
  split
  · rename_i hlen
    simp only [beq_iff_eq, List.length_eq_zero] at hlen
    dsimp only
    rw [hlen, List.nil_append]
    have : page.genreLabels.map (fun t => JVal.str (trim t))
        = (page.genreLabels.map trim).map (fun t => JVal.str t) := by
      simp [List.map_map, Function.comp]
    rw [this]
    exact List.Nodup.sublist (strings_filter_map_str _ _) hlabels
  · exact hb

/-- The genres of the returned record have no two equal strings when no
`bookGenres` list of the data island and no two genre labels repeat a name. -/
theorem extract_genres_nodup (env : Env) (page : Page)
    (hisland : ∀ content json items, page.nextData = some content →
      env.jsonParse content = some json → stateItems (apolloStateOf json) = some items →
      ∀ item ∈ items, ∀ bgs, item.prop "bookGenres" = JVal.arr bgs →
        (strings (genreNames bgs)).Nodup)
    (hlabels : (page.genreLabels.map trim).Nodup) :
    (strings (extractDetails env page).genres).Nodup := by
  have h1 : (strings (afterNextData env page).genres).Nodup := by
    unfold afterNextData nextDataPass
    cases hnd : page.nextData with
    | none => simp [initialDetails, strings]
    | some content =>
      dsimp only
      cases hp : env.jsonParse content with
      | none => simp [initialDetails, strings]
      | some json =>
        dsimp only
        unfold structuredParse
        split
        · cases hs : stateItems (apolloStateOf json) with
          | none => simp [initialDetails, strings]
          | some items =>
            dsimp only
            exact walkItems_genres_nodup items _ (hisland content json items hnd hp hs)
              (by simp [initialDetails, strings])
        · simp [initialDetails, strings]
  have h2 : (extractDetails env page).genres
      = (genresPass page (publicationPass page (imageAndSummary env page
          (nameAndAuthors env page (afterNextData env page))))).genres := by
    simp [extractDetails, beforeNormalize, beforeKeyDetails, afterRatings]
  rw [h2]
  exact genresPass_nodup page _ hlabels (by simpa using h1)

/-! ## Precedence of the data island for publisher and language -/

theorem pushGenres_no_throw (bgs : List JVal) (b : BookDetails)
    (h : bgs.any JVal.isNullish = false) : (pushGenres bgs b).2 = false := by
  induction bgs generalizing b with
  | nil => rfl
  | cons bg rest ih =>
    simp only [List.any_cons, Bool.or_eq_false_iff] at h
    unfold pushGenres
    simp only [h.1, Bool.false_eq_true, if_false]
    exact ih _ h.2

theorem itemGenres_no_throw (item : JVal) (h : hasNullGenre item = false) (x : BookDetails) :
    (itemGenres item x).2 = false := by
  unfold itemGenres
  unfold hasNullGenre at h
  split
  · rename_i bgs hb
    rw [hb] at h
    split
    · exact pushGenres_no_throw bgs x h
    · rfl
  · rfl

theorem itemPages_no_throw (item : JVal) (h : hasBadPageCount item = false) (x : BookDetails) :
    (itemPages item x).2 = false := by
  unfold itemPages
  unfold hasBadPageCount at h
  split
  · cases hs : ((item.prop "details").prop "numPages").toStr with
    | none => rw [hs] at h; cases h
    | some t => simp [parseInt, hs]
  · rfl

theorem processItem_no_throw (b : BookDetails) (item : JVal) (h : canRaise item = false) :
    (processItem b item).2 = false := by
  simp only [canRaise, Bool.or_eq_false_iff] at h
  unfold processItem
  dsimp only
  split
  · rw [itemPages_no_throw item h.2, itemGenres_no_throw item h.1]
    rfl
  · rfl

theorem processItem_publisher_sticky (b : BookDetails) (item : JVal)
    (h : b.publisher.truthy = true) : (processItem b item).1.publisher = b.publisher := by
  unfold processItem
  dsimp only
  have hp : (itemPublisher item b).publisher = b.publisher := by
    simp [itemPublisher, h]
  split
  · (repeat' split) <;> simp [hp]
  · rfl

theorem processItem_publisher_skip (b : BookDetails) (item : JVal)
    (h : suppliesPublisher item = false) : (processItem b item).1.publisher = b.publisher := by
  unfold processItem
  dsimp only
  split
  · rename_i hc
    simp only [Bool.and_eq_true] at hc
    have hpf : (publisherOf item).truthy = false := by
      simpa [suppliesPublisher, hc.1, hc.2] using h
    have hp : (itemPublisher item b).publisher = b.publisher := by
      unfold publisherOf at hpf
      simp [itemPublisher, hpf]
    (repeat' split) <;> simp [hp]
  · rfl

theorem isCandidate_details {item : JVal} (h : isCandidate item = true) :
    (item.prop "details").truthy = true := by
  simp only [isCandidate, Bool.and_eq_true] at h
  exact h.1

theorem processItem_publisher_set (b : BookDetails) (item : JVal)
    (h : suppliesPublisher item = true) (hb : b.publisher.truthy = false) :
    (processItem b item).1.publisher = publisherOf item := by
  simp only [suppliesPublisher, Bool.and_eq_true] at h
  obtain ⟨⟨h1, h2⟩, h3⟩ := h
  have hp : (itemPublisher item b).publisher = publisherOf item := by
    unfold publisherOf at h3 ⊢
    simp [itemPublisher, isCandidate_details h2, h3, hb]
  unfold processItem
  dsimp only
  simp only [h1, h2, Bool.and_self, if_true]
  (repeat' split) <;> simp [hp]

theorem walkItems_publisher_sticky (items : List JVal) (b : BookDetails)
    (h : b.publisher.truthy = true) : (walkItems items b).1.publisher = b.publisher := by
  induction items generalizing b with
  | nil => rfl
  | cons item rest ih =>
    have h1 := processItem_publisher_sticky b item h
    unfold walkItems
    split
    · exact h1
    · rw [ih _ (by rw [h1]; exact h), h1]

theorem walkItems_publisher (pre : List JVal) (c : JVal) (post : List JVal) :
    ∀ b, (∀ i ∈ pre, canRaise i = false) → (∀ i ∈ pre, suppliesPublisher i = false) →
      suppliesPublisher c = true → b.publisher.truthy = false →
      (walkItems (pre ++ c :: post) b).1.publisher = publisherOf c := by
  induction pre with
  | nil =>
    intro b _ _ hc hb
    have h1 := processItem_publisher_set b c hc hb
    have ht : (processItem b c).1.publisher.truthy = true := by
      rw [h1]
      simp only [suppliesPublisher, Bool.and_eq_true] at hc
      exact hc.2
    rw [List.nil_append]
    unfold walkItems
    split
    · exact h1
    · rw [walkItems_publisher_sticky _ _ ht, h1]
  | cons i rest ih =>
    intro b hn hs hc hb
    have h1 := processItem_publisher_skip b i (hs i (List.mem_cons_self _ _))
    have h2 := processItem_no_throw b i (hn i (List.mem_cons_self _ _))
    rw [List.cons_append]
    unfold walkItems
    simp only [h2, Bool.false_eq_true, if_false]
    exact ih _ (fun x hx => hn x (List.mem_cons_of_mem _ hx))
      (fun x hx => hs x (List.mem_cons_of_mem _ hx)) hc (by rw [h1]; exact hb)

theorem languageOf_truthy {item : JVal} (h : (languageOf item).truthy = true) :
    ((item.prop "details").prop "language").truthy = true := by
  unfold languageOf at h
  cases hl : (item.prop "details").prop "language" with
  | obj fields => rfl
  | arr items => rfl
  | undef => rw [hl] at h; simp [JVal.prop, JVal.truthy] at h
  | null => rw [hl] at h; simp [JVal.prop, JVal.truthy] at h
  | bool x => rw [hl] at h; simp [JVal.prop, JVal.truthy] at h
  | num r => rw [hl] at h; simp [JVal.prop, JVal.truthy] at h
  | str s => rw [hl] at h; simp [JVal.prop, JVal.truthy] at h

theorem processItem_language_sticky (b : BookDetails) (item : JVal)
    (h : b.language.truthy = true) : (processItem b item).1.language = b.language := by
  unfold processItem
  dsimp only
  have hp : (itemLanguage item (itemPublisher item b)).language = b.language := by
    simp [itemLanguage, h]
  split
  · (repeat' split) <;> simp [hp]
  · rfl

theorem processItem_language_skip (b : BookDetails) (item : JVal)
    (h : suppliesLanguage item = false) : (processItem b item).1.language = b.language := by
  unfold processItem
  dsimp only
  split
  · rename_i hc
    simp only [Bool.and_eq_true] at hc
    have hpf : (languageOf item).truthy = false := by
      simpa [suppliesLanguage, hc.1, hc.2] using h
    have hp : (itemLanguage item (itemPublisher item b)).language = b.language := by
      unfold languageOf at hpf
      simp [itemLanguage, hpf]
    (repeat' split) <;> simp [hp]
  · rfl

theorem processItem_language_set (b : BookDetails) (item : JVal)
    (h : suppliesLanguage item = true) (hb : b.language.truthy = false) :
    (processItem b item).1.language = languageOf item := by
  simp only [suppliesLanguage, Bool.and_eq_true] at h
  obtain ⟨⟨h1, h2⟩, h3⟩ := h
  have hp : (itemLanguage item (itemPublisher item b)).language = languageOf item := by
    have h4 := languageOf_truthy h3
    unfold languageOf at h3 ⊢
    simp [itemLanguage, isCandidate_details h2, h3, h4, hb]
  unfold processItem
  dsimp only
  simp only [h1, h2, Bool.and_self, if_true]
  (repeat' split) <;> simp [hp]

theorem walkItems_language_sticky (items : List JVal) (b : BookDetails)
    (h : b.language.truthy = true) : (walkItems items b).1.language = b.language := by
  induction items generalizing b with
  | nil => rfl
  | cons item rest ih =>
    have h1 := processItem_language_sticky b item h
    unfold walkItems
    split
    · exact h1
    · rw [ih _ (by rw [h1]; exact h), h1]

theorem walkItems_language (pre : List JVal) (c : JVal) (post : List JVal) :
    ∀ b, (∀ i ∈ pre, canRaise i = false) → (∀ i ∈ pre, suppliesLanguage i = false) →
      suppliesLanguage c = true → b.language.truthy = false →
      (walkItems (pre ++ c :: post) b).1.language = languageOf c := by
  induction pre with
  | nil =>
    intro b _ _ hc hb
    have h1 := processItem_language_set b c hc hb
    have ht : (processItem b c).1.language.truthy = true := by
      rw [h1]
      simp only [suppliesLanguage, Bool.and_eq_true] at hc
      exact hc.2
    rw [List.nil_append]
    unfold walkItems
    split
    · exact h1
    · rw [walkItems_language_sticky _ _ ht, h1]
  | cons i rest ih =>
    intro b hn hs hc hb
    have h1 := processItem_language_skip b i (hs i (List.mem_cons_self _ _))
    have h2 := processItem_no_throw b i (hn i (List.mem_cons_self _ _))
    rw [List.cons_append]
    unfold walkItems
    simp only [h2, Bool.false_eq_true, if_false]
    exact ih _ (fun x hx => hn x (List.mem_cons_of_mem _ hx))
      (fun x hx => hs x (List.mem_cons_of_mem _ hx)) hc (by rw [h1]; exact hb)

theorem apolloStateOf_truthy_or_undef (json : JVal) :
    (apolloStateOf json).truthy = true ∨ apolloStateOf json = JVal.undef := by
  unfold apolloStateOf
  split
  · rename_i h
    simp only [Bool.and_eq_true] at h
    exact Or.inl h.2
  · exact Or.inr rfl

/-- When the structured parse visits at least one entry, the data-island pass
is the walk over those entries. -/
theorem nextDataPass_of_items {env : Env} {page : Page} (h : islandItems env page ≠ [])
    (b : BookDetails) :
    ∃ content, nextDataPass env page b
      = (walkItems (islandItems env page) (regexCharacters content b)).1 := by
  unfold islandItems at h ⊢
  unfold nextDataPass
  cases hnd : page.nextData with
  | none => rw [hnd] at h; exact absurd rfl h
  | some content =>
    rw [hnd] at h
    dsimp only at h ⊢
    cases hp : env.jsonParse content with
    | none => rw [hp] at h; exact absurd rfl h
    | some json =>
      rw [hp] at h
      dsimp only at h ⊢
      refine ⟨content, ?_⟩
      unfold structuredParse
      cases hs : stateItems (apolloStateOf json) with
      | none => rw [hs] at h; exact absurd rfl h
      | some items =>
        rw [hs] at h
        dsimp only at h ⊢
        rcases apolloStateOf_truthy_or_undef json with ht | hu
        · simp [ht]
        · rw [hu] at hs
          simp only [stateItems, Option.some.injEq] at hs
          exact absurd hs.symm h

/-! ### A truthy publisher or language is never overwritten by the markup -/

theorem publicationPass_publisher_sticky (page : Page) (b : BookDetails)
    (h : b.publisher.truthy = true) : (publicationPass page b).publisher = b.publisher := by
  have h1 : (publicationInfoStep page b).publisher = b.publisher := by
    unfold publicationInfoStep
    dsimp only
    (repeat' split) <;> simp_all
  have h2 : (publisherAfterBy page (publicationInfoStep page b)).publisher = b.publisher := by
    unfold publisherAfterBy
    dsimp only
    simp [h1, h]
  have h3 : (publisherFromElement page
      (publisherAfterBy page (publicationInfoStep page b))).publisher = b.publisher := by
    unfold publisherFromElement
    simp [h2, h]
  unfold publicationPass publisherFromLink
  simp [h3, h]

theorem keyDetailsItem_publisher_sticky (b : BookDetails) (it : KeyDetailsItem)
    (h : b.publisher.truthy = true) : (keyDetailsItem b it).publisher = b.publisher := by
  unfold keyDetailsItem keyDetailsPublisher
  simp [h]

theorem keyDetails_fold_publisher_sticky (items : List KeyDetailsItem) (b : BookDetails)
    (h : b.publisher.truthy = true) :
    (items.foldl keyDetailsItem b).publisher = b.publisher := by
  induction items generalizing b with
  | nil => rfl
  | cons it rest ih =>
    have h1 := keyDetailsItem_publisher_sticky b it h
    rw [List.foldl_cons, ih _ (by rw [h1]; exact h), h1]

theorem legacyDt_publisher_sticky (b : BookDetails) (d : FeaturedDt)
    (h : b.publisher.truthy = true) : (legacyDt b d).publisher = b.publisher := by
  unfold legacyDt
  dsimp only
  (repeat' split) <;> simp_all

theorem legacy_fold_publisher_sticky (dts : List FeaturedDt) (b : BookDetails)
    (h : b.publisher.truthy = true) : (dts.foldl legacyDt b).publisher = b.publisher := by
  induction dts generalizing b with
  | nil => rfl
  | cons d rest ih =>
    have h1 := legacyDt_publisher_sticky b d h
    rw [List.foldl_cons, ih _ (by rw [h1]; exact h), h1]

theorem featuredPass_publisher_sticky (page : Page) (b : BookDetails)
    (h : b.publisher.truthy = true) : (featuredPass page b).publisher = b.publisher := by
  unfold featuredPass
  split
  · rfl
  · split
    · unfold legacyPass
      have hp : ∀ l : List FeaturedParagraph,
          (List.foldl featuredParagraph b l).publisher = b.publisher := fun l => by simp
      split
      · rw [legacy_fold_publisher_sticky _ _ (by rw [hp]; exact h), hp]
      · exact hp _
    · rfl

/-- A publisher that is truthy after the data island is the publisher of the
returned record. -/
theorem extract_publisher_sticky (env : Env) (page : Page)
    (h : (afterNextData env page).publisher.truthy = true) :
    (extractDetails env page).publisher = (afterNextData env page).publisher := by
  have h1 : (beforeKeyDetails env page).publisher = (afterNextData env page).publisher := by
    have := publicationPass_publisher_sticky page
      (imageAndSummary env page (nameAndAuthors env page (afterNextData env page)))
      (by simpa using h)
    simp only [beforeKeyDetails, afterRatings, ldJsonPass_frame, ratingsPass_frame,
      genresPass_frame, this, imageAndSummary_frame, nameAndAuthors_frame]
  have h2 : (keyDetailsPass page (beforeKeyDetails env page)).publisher
      = (afterNextData env page).publisher := by
    unfold keyDetailsPass
    split
    · rw [keyDetails_fold_publisher_sticky _ _ (by rw [h1]; exact h), h1]
    · exact h1
  have h3 := featuredPass_publisher_sticky page (keyDetailsPass page (beforeKeyDetails env page))
    (by rw [h2]; exact h)
  simp only [extractDetails, beforeNormalize, normalizePass_frame, seriesFallback_frame, h3, h2]

theorem ldJsonPass_language_sticky (env : Env) (page : Page) (b : BookDetails)
    (h : b.language.truthy = true) : (ldJsonPass env page b).language = b.language := by
  unfold ldJsonPass
  (repeat' split) <;> simp [ldLanguage, h]

theorem keyDetailsItem_language_sticky (b : BookDetails) (it : KeyDetailsItem)
    (h : b.language.truthy = true) : (keyDetailsItem b it).language = b.language := by
  unfold keyDetailsItem
  rw [(keyDetailsPublisher_frame _ it _).2.2.2.1]
  unfold keyDetailsChain
  (repeat' split) <;> simp_all

theorem keyDetails_fold_language_sticky (items : List KeyDetailsItem) (b : BookDetails)
    (h : b.language.truthy = true) :
    (items.foldl keyDetailsItem b).language = b.language := by
  induction items generalizing b with
  | nil => rfl
  | cons it rest ih =>
    have h1 := keyDetailsItem_language_sticky b it h
    rw [List.foldl_cons, ih _ (by rw [h1]; exact h), h1]

theorem legacyDt_language_sticky (b : BookDetails) (d : FeaturedDt)
    (h : b.language.truthy = true) : (legacyDt b d).language = b.language := by
  unfold legacyDt
  dsimp only
  (repeat' split) <;> simp_all

theorem legacy_fold_language_sticky (dts : List FeaturedDt) (b : BookDetails)
    (h : b.language.truthy = true) : (dts.foldl legacyDt b).language = b.language := by
  induction dts generalizing b with
  | nil => rfl
  | cons d rest ih =>
    have h1 := legacyDt_language_sticky b d h
    rw [List.foldl_cons, ih _ (by rw [h1]; exact h), h1]

theorem featuredPass_language_sticky (page : Page) (b : BookDetails)
    (h : b.language.truthy = true) : (featuredPass page b).language = b.language := by
  unfold featuredPass
  split
  · rfl
  · split
    · unfold legacyPass
      have hp : ∀ l : List FeaturedParagraph,
          (List.foldl featuredParagraph b l).language = b.language := fun l => by simp
      split
      · rw [legacy_fold_language_sticky _ _ (by rw [hp]; exact h), hp]
      · exact hp _
    · rfl

/-- A language that is truthy after the data island is the language of the
returned record. -/
theorem extract_language_sticky (env : Env) (page : Page)
    (h : (afterNextData env page).language.truthy = true) :
    (extractDetails env page).language = (afterNextData env page).language := by
  have h0 : (afterRatings env page).language = (afterNextData env page).language := by
    simp [afterRatings]
  have h1 : (beforeKeyDetails env page).language = (afterNextData env page).language := by
    unfold beforeKeyDetails
    rw [ldJsonPass_language_sticky _ _ _ (by rw [h0]; exact h), h0]
  have h2 : (keyDetailsPass page (beforeKeyDetails env page)).language
      = (afterNextData env page).language := by
    unfold keyDetailsPass
    split
    · rw [keyDetails_fold_language_sticky _ _ (by rw [h1]; exact h), h1]
    · exact h1
  have h3 := featuredPass_language_sticky page (keyDetailsPass page (beforeKeyDetails env page))
    (by rw [h2]; exact h)
  simp only [extractDetails, beforeNormalize, normalizePass_frame, seriesFallback_frame, h3, h2]

/-- The publisher and the language after the data island, when the structured
parse reaches a candidate that supplies them. -/
theorem afterNextData_supplied (env : Env) (page : Page) (pre : List JVal) (c : JVal)
    (post : List JVal) (hitems : islandItems env page = pre ++ c :: post)
    (hpre : ∀ i ∈ pre, canRaise i = false) :
    (suppliesPublisher c = true → (∀ i ∈ pre, suppliesPublisher i = false) →
      (afterNextData env page).publisher = publisherOf c) ∧
    (suppliesLanguage c = true → (∀ i ∈ pre, suppliesLanguage i = false) →
      (afterNextData env page).language = languageOf c) := by
  have hne : islandItems env page ≠ [] := by rw [hitems]; simp
  obtain ⟨content, hc⟩ := nextDataPass_of_items hne
    (charactersSection page (directCharacters page initialDetails))
  unfold afterNextData
  rw [hc, hitems]
  constructor
  · intro h1 h2
    exact walkItems_publisher pre c post _ hpre h2 h1 (by simp [initialDetails, JVal.truthy])
  · intro h1 h2
    exact walkItems_language pre c post _ hpre h2 h1 (by simp [initialDetails, JVal.truthy])

/-! ## Frame lemmas for the single-selector fields -/

set_option linter.unusedTactic false
set_option linter.unreachableTactic false

@[simp] theorem addCharacter_keeps (b : BookDetails) (raw : Str) :
    (addCharacter b raw).bookName = b.bookName ∧
    (addCharacter b raw).imageUrl = b.imageUrl ∧
    (addCharacter b raw).bookSummary = b.bookSummary ∧
    (addCharacter b raw).publicationDate = b.publicationDate ∧
    (addCharacter b raw).ratings = b.ratings ∧
    (addCharacter b raw).averageRating = b.averageRating := by
  unfold addCharacter
  try dsimp only
  refine ⟨?_, ?_, ?_, ?_, ?_, ?_⟩ <;> (repeat' split) <;> simp

@[simp] theorem harvestAnchor_keeps (b : BookDetails) (a : Anchor) :
    (harvestAnchor b a).bookName = b.bookName ∧
    (harvestAnchor b a).imageUrl = b.imageUrl ∧
    (harvestAnchor b a).bookSummary = b.bookSummary ∧
    (harvestAnchor b a).publicationDate = b.publicationDate ∧
    (harvestAnchor b a).ratings = b.ratings ∧
    (harvestAnchor b a).averageRating = b.averageRating := by
  unfold harvestAnchor
  try dsimp only
  refine ⟨?_, ?_, ?_, ?_, ?_, ?_⟩ <;> (repeat' split) <;> simp

@[simp] theorem directCharacters_keeps (page : Page) (b : BookDetails) :
    (directCharacters page b).bookName = b.bookName ∧
    (directCharacters page b).imageUrl = b.imageUrl ∧
    (directCharacters page b).bookSummary = b.bookSummary ∧
    (directCharacters page b).publicationDate = b.publicationDate ∧
    (directCharacters page b).ratings = b.ratings ∧
    (directCharacters page b).averageRating = b.averageRating := by
  unfold directCharacters
  try dsimp only
  refine ⟨?_, ?_, ?_, ?_, ?_, ?_⟩ <;> (repeat' split) <;>
    first
    | rfl
    | exact foldl_frame _ _ (fun b x => by simp) _ _

@[simp] theorem charactersSectionEntry_keeps (b : BookDetails) (dt : DtEntry) :
    (charactersSectionEntry b dt).bookName = b.bookName ∧
    (charactersSectionEntry b dt).imageUrl = b.imageUrl ∧
    (charactersSectionEntry b dt).bookSummary = b.bookSummary ∧
    (charactersSectionEntry b dt).publicationDate = b.publicationDate ∧
    (charactersSectionEntry b dt).ratings = b.ratings ∧
    (charactersSectionEntry b dt).averageRating = b.averageRating := by
  unfold charactersSectionEntry
  try dsimp only
  refine ⟨?_, ?_, ?_, ?_, ?_, ?_⟩ <;> (repeat' split) <;>
    first
    | rfl
    | exact foldl_frame _ _ (fun b x => by simp) _ _

@[simp] theorem charactersSection_keeps (page : Page) (b : BookDetails) :
    (charactersSection page b).bookName = b.bookName ∧
    (charactersSection page b).imageUrl = b.imageUrl ∧
    (charactersSection page b).bookSummary = b.bookSummary ∧
    (charactersSection page b).publicationDate = b.publicationDate ∧
    (charactersSection page b).ratings = b.ratings ∧
    (charactersSection page b).averageRating = b.averageRating := by
  unfold charactersSection
  try dsimp only
  refine ⟨?_, ?_, ?_, ?_, ?_, ?_⟩ <;> (repeat' split) <;>
    first
    | rfl
    | exact foldl_frame _ _ (fun b x => by simp) _ _

@[simp] theorem addRegexCharacter_keeps (b : BookDetails) (name : Str) :
    (addRegexCharacter b name).bookName = b.bookName ∧
    (addRegexCharacter b name).imageUrl = b.imageUrl ∧
    (addRegexCharacter b name).bookSummary = b.bookSummary ∧
    (addRegexCharacter b name).publicationDate = b.publicationDate ∧
    (addRegexCharacter b name).ratings = b.ratings ∧
    (addRegexCharacter b name).averageRating = b.averageRating := by
  unfold addRegexCharacter
  try dsimp only
  refine ⟨?_, ?_, ?_, ?_, ?_, ?_⟩ <;> (repeat' split) <;> simp

@[simp] theorem regexCharacters_keeps (content : Str) (b : BookDetails) :
    (regexCharacters content b).bookName = b.bookName ∧
    (regexCharacters content b).imageUrl = b.imageUrl ∧
    (regexCharacters content b).bookSummary = b.bookSummary ∧
    (regexCharacters content b).publicationDate = b.publicationDate ∧
    (regexCharacters content b).ratings = b.ratings ∧
    (regexCharacters content b).averageRating = b.averageRating := by
  unfold regexCharacters
  try dsimp only
  refine ⟨?_, ?_, ?_, ?_, ?_, ?_⟩ <;> (repeat' split) <;>
    first
    | rfl
    | exact foldl_frame _ _ (fun b x => by simp) _ _

@[simp] theorem itemPublisher_keeps (item : JVal) (b : BookDetails) :
    (itemPublisher item b).bookName = b.bookName ∧
    (itemPublisher item b).imageUrl = b.imageUrl ∧
    (itemPublisher item b).bookSummary = b.bookSummary ∧
    (itemPublisher item b).publicationDate = b.publicationDate ∧
    (itemPublisher item b).ratings = b.ratings ∧
    (itemPublisher item b).averageRating = b.averageRating := by
  unfold itemPublisher
  try dsimp only
  refine ⟨?_, ?_, ?_, ?_, ?_, ?_⟩ <;> (repeat' split) <;> simp

@[simp] theorem itemLanguage_keeps (item : JVal) (b : BookDetails) :
    (itemLanguage item b).bookName = b.bookName ∧
    (itemLanguage item b).imageUrl = b.imageUrl ∧
    (itemLanguage item b).bookSummary = b.bookSummary ∧
    (itemLanguage item b).publicationDate = b.publicationDate ∧
    (itemLanguage item b).ratings = b.ratings ∧
    (itemLanguage item b).averageRating = b.averageRating := by
  unfold itemLanguage
  try dsimp only
  refine ⟨?_, ?_, ?_, ?_, ?_, ?_⟩ <;> (repeat' split) <;> simp

@[simp] theorem itemPages_keeps (item : JVal) (b : BookDetails) :
    ((itemPages item b).1).bookName = b.bookName ∧
    ((itemPages item b).1).imageUrl = b.imageUrl ∧
    ((itemPages item b).1).bookSummary = b.bookSummary ∧
    ((itemPages item b).1).publicationDate = b.publicationDate ∧
    ((itemPages item b).1).ratings = b.ratings ∧
    ((itemPages item b).1).averageRating = b.averageRating := by
  unfold itemPages
  try dsimp only
  refine ⟨?_, ?_, ?_, ?_, ?_, ?_⟩ <;> (repeat' split) <;> simp

@[simp] theorem pushGenres_bookName (bgs : List JVal) (b : BookDetails) :
    (pushGenres bgs b).1.bookName = b.bookName := by
  induction bgs generalizing b with
  | nil => rfl
  | cons bg rest ih =>
    unfold pushGenres
    (repeat' split) <;> first | rfl | rw [ih]

@[simp] theorem pushGenres_imageUrl (bgs : List JVal) (b : BookDetails) :
    (pushGenres bgs b).1.imageUrl = b.imageUrl := by
  induction bgs generalizing b with
  | nil => rfl
  | cons bg rest ih =>
    unfold pushGenres
    (repeat' split) <;> first | rfl | rw [ih]

@[simp] theorem pushGenres_bookSummary (bgs : List JVal) (b : BookDetails) :
    (pushGenres bgs b).1.bookSummary = b.bookSummary := by
  induction bgs generalizing b with
  | nil => rfl
  | cons bg rest ih =>
    unfold pushGenres
    (repeat' split) <;> first | rfl | rw [ih]

@[simp] theorem pushGenres_publicationDate (bgs : List JVal) (b : BookDetails) :
    (pushGenres bgs b).1.publicationDate = b.publicationDate := by
  induction bgs generalizing b with
  | nil => rfl
  | cons bg rest ih =>
    unfold pushGenres
    (repeat' split) <;> first | rfl | rw [ih]

@[simp] theorem pushGenres_ratings (bgs : List JVal) (b : BookDetails) :
    (pushGenres bgs b).1.ratings = b.ratings := by
  induction bgs generalizing b with
  | nil => rfl
  | cons bg rest ih =>
    unfold pushGenres
    (repeat' split) <;> first | rfl | rw [ih]

@[simp] theorem pushGenres_averageRating (bgs : List JVal) (b : BookDetails) :
    (pushGenres bgs b).1.averageRating = b.averageRating := by
  induction bgs generalizing b with
  | nil => rfl
  | cons bg rest ih =>
    unfold pushGenres
    (repeat' split) <;> first | rfl | rw [ih]

@[simp] theorem itemGenres_keeps (item : JVal) (b : BookDetails) :
    ((itemGenres item b).1).bookName = b.bookName ∧
    ((itemGenres item b).1).imageUrl = b.imageUrl ∧
    ((itemGenres item b).1).bookSummary = b.bookSummary ∧
    ((itemGenres item b).1).publicationDate = b.publicationDate ∧
    ((itemGenres item b).1).ratings = b.ratings ∧
    ((itemGenres item b).1).averageRating = b.averageRating := by
  unfold itemGenres
  try dsimp only
  refine ⟨?_, ?_, ?_, ?_, ?_, ?_⟩ <;> (repeat' split) <;> simp

@[simp] theorem addItemCharacter_keeps (b : BookDetails) (char : JVal) :
    (addItemCharacter b char).bookName = b.bookName ∧
    (addItemCharacter b char).imageUrl = b.imageUrl ∧
    (addItemCharacter b char).bookSummary = b.bookSummary ∧
    (addItemCharacter b char).publicationDate = b.publicationDate ∧
    (addItemCharacter b char).ratings = b.ratings ∧
    (addItemCharacter b char).averageRating = b.averageRating := by
  unfold addItemCharacter
  try dsimp only
  refine ⟨?_, ?_, ?_, ?_, ?_, ?_⟩ <;> (repeat' split) <;> simp

@[simp] theorem itemCharacters_keeps (item : JVal) (b : BookDetails) :
    (itemCharacters item b).bookName = b.bookName ∧
    (itemCharacters item b).imageUrl = b.imageUrl ∧
    (itemCharacters item b).bookSummary = b.bookSummary ∧
    (itemCharacters item b).publicationDate = b.publicationDate ∧
    (itemCharacters item b).ratings = b.ratings ∧
    (itemCharacters item b).averageRating = b.averageRating := by
  unfold itemCharacters
  try dsimp only
  refine ⟨?_, ?_, ?_, ?_, ?_, ?_⟩ <;> (repeat' split) <;>
    first
    | rfl
    | exact foldl_frame _ _ (fun b x => by simp) _ _

@[simp] theorem processItem_keeps (b : BookDetails) (item : JVal) :
    ((processItem b item).1).bookName = b.bookName ∧
    ((processItem b item).1).imageUrl = b.imageUrl ∧
    ((processItem b item).1).bookSummary = b.bookSummary ∧
    ((processItem b item).1).publicationDate = b.publicationDate ∧
    ((processItem b item).1).ratings = b.ratings ∧
    ((processItem b item).1).averageRating = b.averageRating := by
  unfold processItem
  try dsimp only
  refine ⟨?_, ?_, ?_, ?_, ?_, ?_⟩ <;> (repeat' split) <;> simp

@[simp] theorem walkItems_bookName (items : List JVal) (b : BookDetails) :
    (walkItems items b).1.bookName = b.bookName := by
  induction items generalizing b with
  | nil => rfl
  | cons item rest ih =>
    unfold walkItems
    split
    · simp
    · rw [ih]; simp

@[simp] theorem walkItems_imageUrl (items : List JVal) (b : BookDetails) :
    (walkItems items b).1.imageUrl = b.imageUrl := by
  induction items generalizing b with
  | nil => rfl
  | cons item rest ih =>
    unfold walkItems
    split
    · simp
    · rw [ih]; simp

@[simp] theorem walkItems_bookSummary (items : List JVal) (b : BookDetails) :
    (walkItems items b).1.bookSummary = b.bookSummary := by
  induction items generalizing b with
  | nil => rfl
  | cons item rest ih =>
    unfold walkItems
    split
    · simp
    · rw [ih]; simp

@[simp] theorem walkItems_publicationDate (items : List JVal) (b : BookDetails) :
    (walkItems items b).1.publicationDate = b.publicationDate := by
  induction items generalizing b with
  | nil => rfl
  | cons item rest ih =>
    unfold walkItems
    split
    · simp
    · rw [ih]; simp

@[simp] theorem walkItems_ratings (items : List JVal) (b : BookDetails) :
    (walkItems items b).1.ratings = b.ratings := by
  induction items generalizing b with
  | nil => rfl
  | cons item rest ih =>
    unfold walkItems
    split
    · simp
    · rw [ih]; simp

@[simp] theorem walkItems_averageRating (items : List JVal) (b : BookDetails) :
    (walkItems items b).1.averageRating = b.averageRating := by
  induction items generalizing b with
  | nil => rfl
  | cons item rest ih =>
    unfold walkItems
    split
    · simp
    · rw [ih]; simp

@[simp] theorem structuredParse_keeps (json : JVal) (b : BookDetails) :
    (structuredParse json b).bookName = b.bookName ∧
    (structuredParse json b).imageUrl = b.imageUrl ∧
    (structuredParse json b).bookSummary = b.bookSummary ∧
    (structuredParse json b).publicationDate = b.publicationDate ∧
    (structuredParse json b).ratings = b.ratings ∧
    (structuredParse json b).averageRating = b.averageRating := by
  unfold structuredParse
  try dsimp only
  refine ⟨?_, ?_, ?_, ?_, ?_, ?_⟩ <;> (repeat' split) <;> simp

@[simp] theorem nextDataPass_keeps (env : Env) (page : Page) (b : BookDetails) :
    (nextDataPass env page b).bookName = b.bookName ∧
    (nextDataPass env page b).imageUrl = b.imageUrl ∧
    (nextDataPass env page b).bookSummary = b.bookSummary ∧
    (nextDataPass env page b).publicationDate = b.publicationDate ∧
    (nextDataPass env page b).ratings = b.ratings ∧
    (nextDataPass env page b).averageRating = b.averageRating := by
  unfold nextDataPass
  try dsimp only
  refine ⟨?_, ?_, ?_, ?_, ?_, ?_⟩ <;> (repeat' split) <;> simp

@[simp] theorem addAuthorText_keeps (b : BookDetails) (raw : Str) :
    (addAuthorText b raw).bookName = b.bookName ∧
    (addAuthorText b raw).imageUrl = b.imageUrl ∧
    (addAuthorText b raw).bookSummary = b.bookSummary ∧
    (addAuthorText b raw).publicationDate = b.publicationDate ∧
    (addAuthorText b raw).ratings = b.ratings ∧
    (addAuthorText b raw).averageRating = b.averageRating := by
  unfold addAuthorText
  try dsimp only
  refine ⟨?_, ?_, ?_, ?_, ?_, ?_⟩ <;> (repeat' split) <;> simp

@[simp] theorem pushAuthorList_bookName (authors : List JVal) (b : BookDetails) :
    (pushAuthorList authors b).1.bookName = b.bookName := by
  induction authors generalizing b with
  | nil => rfl
  | cons author rest ih =>
    unfold pushAuthorList
    (repeat' split) <;> first | rfl | rw [ih]

@[simp] theorem pushAuthorList_imageUrl (authors : List JVal) (b : BookDetails) :
    (pushAuthorList authors b).1.imageUrl = b.imageUrl := by
  induction authors generalizing b with
  | nil => rfl
  | cons author rest ih =>
    unfold pushAuthorList
    (repeat' split) <;> first | rfl | rw [ih]

@[simp] theorem pushAuthorList_bookSummary (authors : List JVal) (b : BookDetails) :
    (pushAuthorList authors b).1.bookSummary = b.bookSummary := by
  induction authors generalizing b with
  | nil => rfl
  | cons author rest ih =>
    unfold pushAuthorList
    (repeat' split) <;> first | rfl | rw [ih]

@[simp] theorem pushAuthorList_publicationDate (authors : List JVal) (b : BookDetails) :
    (pushAuthorList authors b).1.publicationDate = b.publicationDate := by
  induction authors generalizing b with
  | nil => rfl
  | cons author rest ih =>
    unfold pushAuthorList
    (repeat' split) <;> first | rfl | rw [ih]

@[simp] theorem pushAuthorList_ratings (authors : List JVal) (b : BookDetails) :
    (pushAuthorList authors b).1.ratings = b.ratings := by
  induction authors generalizing b with
  | nil => rfl
  | cons author rest ih =>
    unfold pushAuthorList
    (repeat' split) <;> first | rfl | rw [ih]

@[simp] theorem pushAuthorList_averageRating (authors : List JVal) (b : BookDetails) :
    (pushAuthorList authors b).1.averageRating = b.averageRating := by
  induction authors generalizing b with
  | nil => rfl
  | cons author rest ih =>
    unfold pushAuthorList
    (repeat' split) <;> first | rfl | rw [ih]

@[simp] theorem pushContributors_bookName (contributors : List JVal) (b : BookDetails) :
    (pushContributors contributors b).1.bookName = b.bookName := by
  induction contributors generalizing b with
  | nil => rfl
  | cons contributor rest ih =>
    unfold pushContributors
    (repeat' split) <;> first | rfl | rw [ih]

@[simp] theorem pushContributors_imageUrl (contributors : List JVal) (b : BookDetails) :
    (pushContributors contributors b).1.imageUrl = b.imageUrl := by
  induction contributors generalizing b with
  | nil => rfl
  | cons contributor rest ih =>
    unfold pushContributors
    (repeat' split) <;> first | rfl | rw [ih]

@[simp] theorem pushContributors_bookSummary (contributors : List JVal) (b : BookDetails) :
    (pushContributors contributors b).1.bookSummary = b.bookSummary := by
  induction contributors generalizing b with
  | nil => rfl
  | cons contributor rest ih =>
    unfold pushContributors
    (repeat' split) <;> first | rfl | rw [ih]

@[simp] theorem pushContributors_publicationDate (contributors : List JVal) (b : BookDetails) :
    (pushContributors contributors b).1.publicationDate = b.publicationDate := by
  induction contributors generalizing b with
  | nil => rfl
  | cons contributor rest ih =>
    unfold pushContributors
    (repeat' split) <;> first | rfl | rw [ih]

@[simp] theorem pushContributors_ratings (contributors : List JVal) (b : BookDetails) :
    (pushContributors contributors b).1.ratings = b.ratings := by
  induction contributors generalizing b with
  | nil => rfl
  | cons contributor rest ih =>
    unfold pushContributors
    (repeat' split) <;> first | rfl | rw [ih]

@[simp] theorem pushContributors_averageRating (contributors : List JVal) (b : BookDetails) :
    (pushContributors contributors b).1.averageRating = b.averageRating := by
  induction contributors generalizing b with
  | nil => rfl
  | cons contributor rest ih =>
    unfold pushContributors
    (repeat' split) <;> first | rfl | rw [ih]

@[simp] theorem authorFromItem_keeps (b : BookDetails) (item : JVal) :
    ((authorFromItem b item).1).bookName = b.bookName ∧
    ((authorFromItem b item).1).imageUrl = b.imageUrl ∧
    ((authorFromItem b item).1).bookSummary = b.bookSummary ∧
    ((authorFromItem b item).1).publicationDate = b.publicationDate ∧
    ((authorFromItem b item).1).ratings = b.ratings ∧
    ((authorFromItem b item).1).averageRating = b.averageRating := by
  unfold authorFromItem
  try dsimp only
  refine ⟨?_, ?_, ?_, ?_, ?_, ?_⟩ <;> (repeat' split) <;> simp

@[simp] theorem walkAuthors_bookName (items : List JVal) (b : BookDetails) :
    (walkAuthors items b).1.bookName = b.bookName := by
  induction items generalizing b with
  | nil => rfl
  | cons item rest ih =>
    unfold walkAuthors
    split
    · simp
    · rw [ih]; simp

@[simp] theorem walkAuthors_imageUrl (items : List JVal) (b : BookDetails) :
    (walkAuthors items b).1.imageUrl = b.imageUrl := by
  induction items generalizing b with
  | nil => rfl
  | cons item rest ih =>
    unfold walkAuthors
    split
    · simp
    · rw [ih]; simp

@[simp] theorem walkAuthors_bookSummary (items : List JVal) (b : BookDetails) :
    (walkAuthors items b).1.bookSummary = b.bookSummary := by
  induction items generalizing b with
  | nil => rfl
  | cons item rest ih =>
    unfold walkAuthors
    split
    · simp
    · rw [ih]; simp

@[simp] theorem walkAuthors_publicationDate (items : List JVal) (b : BookDetails) :
    (walkAuthors items b).1.publicationDate = b.publicationDate := by
  induction items generalizing b with
  | nil => rfl
  | cons item rest ih =>
    unfold walkAuthors
    split
    · simp
    · rw [ih]; simp

@[simp] theorem walkAuthors_ratings (items : List JVal) (b : BookDetails) :
    (walkAuthors items b).1.ratings = b.ratings := by
  induction items generalizing b with
  | nil => rfl
  | cons item rest ih =>
    unfold walkAuthors
    split
    · simp
    · rw [ih]; simp

@[simp] theorem walkAuthors_averageRating (items : List JVal) (b : BookDetails) :
    (walkAuthors items b).1.averageRating = b.averageRating := by
  induction items generalizing b with
  | nil => rfl
  | cons item rest ih =>
    unfold walkAuthors
    split
    · simp
    · rw [ih]; simp

@[simp] theorem authorsFromNextData_keeps (env : Env) (page : Page) (b : BookDetails) :
    (authorsFromNextData env page b).bookName = b.bookName ∧
    (authorsFromNextData env page b).imageUrl = b.imageUrl ∧
    (authorsFromNextData env page b).bookSummary = b.bookSummary ∧
    (authorsFromNextData env page b).publicationDate = b.publicationDate ∧
    (authorsFromNextData env page b).ratings = b.ratings ∧
    (authorsFromNextData env page b).averageRating = b.averageRating := by
  unfold authorsFromNextData
  try dsimp only
  refine ⟨?_, ?_, ?_, ?_, ?_, ?_⟩ <;> (repeat' split) <;> simp

@[simp] theorem authorsFromTitleLinks_keeps (page : Page) (b : BookDetails) :
    (authorsFromTitleLinks page b).bookName = b.bookName ∧
    (authorsFromTitleLinks page b).imageUrl = b.imageUrl ∧
    (authorsFromTitleLinks page b).bookSummary = b.bookSummary ∧
    (authorsFromTitleLinks page b).publicationDate = b.publicationDate ∧
    (authorsFromTitleLinks page b).ratings = b.ratings ∧
    (authorsFromTitleLinks page b).averageRating = b.averageRating := by
  unfold authorsFromTitleLinks
  try dsimp only
  refine ⟨?_, ?_, ?_, ?_, ?_, ?_⟩ <;> (repeat' split) <;>
    first
    | rfl
    | exact foldl_frame _ _ (fun b x => by simp) _ _

@[simp] theorem foldl_addAuthorText_keeps (l : List Str) (b : BookDetails) :
    (l.foldl addAuthorText b).bookName = b.bookName ∧
    (l.foldl addAuthorText b).imageUrl = b.imageUrl ∧
    (l.foldl addAuthorText b).bookSummary = b.bookSummary ∧
    (l.foldl addAuthorText b).publicationDate = b.publicationDate ∧
    (l.foldl addAuthorText b).ratings = b.ratings ∧
    (l.foldl addAuthorText b).averageRating = b.averageRating := by
  refine ⟨?_, ?_, ?_, ?_, ?_, ?_⟩ <;> exact foldl_frame _ _ (fun b x => by simp) _ _

@[simp] theorem nameAndAuthors_keeps (env : Env) (page : Page) (b : BookDetails) :
    (nameAndAuthors env page b).imageUrl = b.imageUrl ∧
    (nameAndAuthors env page b).bookSummary = b.bookSummary ∧
    (nameAndAuthors env page b).publicationDate = b.publicationDate ∧
    (nameAndAuthors env page b).ratings = b.ratings ∧
    (nameAndAuthors env page b).averageRating = b.averageRating := by
  unfold nameAndAuthors
  try dsimp only
  refine ⟨?_, ?_, ?_, ?_, ?_⟩ <;> (repeat' split) <;> simp

@[simp] theorem imageAndSummary_keeps (env : Env) (page : Page) (b : BookDetails) :
    (imageAndSummary env page b).bookName = b.bookName ∧
    (imageAndSummary env page b).publicationDate = b.publicationDate ∧
    (imageAndSummary env page b).ratings = b.ratings ∧
    (imageAndSummary env page b).averageRating = b.averageRating := by
  unfold imageAndSummary
  try dsimp only
  refine ⟨?_, ?_, ?_, ?_⟩ <;> (repeat' split) <;> simp

@[simp] theorem publicationInfoStep_keeps (page : Page) (b : BookDetails) :
    (publicationInfoStep page b).bookName = b.bookName ∧
    (publicationInfoStep page b).imageUrl = b.imageUrl ∧
    (publicationInfoStep page b).bookSummary = b.bookSummary ∧
    (publicationInfoStep page b).ratings = b.ratings ∧
    (publicationInfoStep page b).averageRating = b.averageRating := by
  unfold publicationInfoStep
  try dsimp only
  refine ⟨?_, ?_, ?_, ?_, ?_⟩ <;> (repeat' split) <;> simp

@[simp] theorem publisherAfterBy_keeps (page : Page) (b : BookDetails) :
    (publisherAfterBy page b).bookName = b.bookName ∧
    (publisherAfterBy page b).imageUrl = b.imageUrl ∧
    (publisherAfterBy page b).bookSummary = b.bookSummary ∧
    (publisherAfterBy page b).publicationDate = b.publicationDate ∧
    (publisherAfterBy page b).ratings = b.ratings ∧
    (publisherAfterBy page b).averageRating = b.averageRating := by
  unfold publisherAfterBy
  try dsimp only
  refine ⟨?_, ?_, ?_, ?_, ?_, ?_⟩ <;> (repeat' split) <;> simp

@[simp] theorem publisherFromElement_keeps (page : Page) (b : BookDetails) :
    (publisherFromElement page b).bookName = b.bookName ∧
    (publisherFromElement page b).imageUrl = b.imageUrl ∧
    (publisherFromElement page b).bookSummary = b.bookSummary ∧
    (publisherFromElement page b).publicationDate = b.publicationDate ∧
    (publisherFromElement page b).ratings = b.ratings ∧
    (publisherFromElement page b).averageRating = b.averageRating := by
  unfold publisherFromElement
  try dsimp only
  refine ⟨?_, ?_, ?_, ?_, ?_, ?_⟩ <;> (repeat' split) <;> simp

@[simp] theorem publisherFromLink_keeps (page : Page) (b : BookDetails) :
    (publisherFromLink page b).bookName = b.bookName ∧
    (publisherFromLink page b).imageUrl = b.imageUrl ∧
    (publisherFromLink page b).bookSummary = b.bookSummary ∧
    (publisherFromLink page b).publicationDate = b.publicationDate ∧
    (publisherFromLink page b).ratings = b.ratings ∧
    (publisherFromLink page b).averageRating = b.averageRating := by
  unfold publisherFromLink
  try dsimp only
  refine ⟨?_, ?_, ?_, ?_, ?_, ?_⟩ <;> (repeat' split) <;> simp

@[simp] theorem publicationPass_keeps (page : Page) (b : BookDetails) :
    (publicationPass page b).bookName = b.bookName ∧
    (publicationPass page b).imageUrl = b.imageUrl ∧
    (publicationPass page b).bookSummary = b.bookSummary ∧
    (publicationPass page b).ratings = b.ratings ∧
    (publicationPass page b).averageRating = b.averageRating := by
  unfold publicationPass
  try dsimp only
  refine ⟨?_, ?_, ?_, ?_, ?_⟩ <;> (repeat' split) <;> simp

@[simp] theorem genresPass_keeps (page : Page) (b : BookDetails) :
    (genresPass page b).bookName = b.bookName ∧
    (genresPass page b).imageUrl = b.imageUrl ∧
    (genresPass page b).bookSummary = b.bookSummary ∧
    (genresPass page b).publicationDate = b.publicationDate ∧
    (genresPass page b).ratings = b.ratings ∧
    (genresPass page b).averageRating = b.averageRating := by
  unfold genresPass
  try dsimp only
  refine ⟨?_, ?_, ?_, ?_, ?_, ?_⟩ <;> (repeat' split) <;> simp

@[simp] theorem ratingsPass_keeps (page : Page) (b : BookDetails) :
    (ratingsPass page b).bookName = b.bookName ∧
    (ratingsPass page b).imageUrl = b.imageUrl ∧
    (ratingsPass page b).bookSummary = b.bookSummary ∧
    (ratingsPass page b).publicationDate = b.publicationDate := by
  unfold ratingsPass
  try dsimp only
  refine ⟨?_, ?_, ?_, ?_⟩ <;> (repeat' split) <;> simp

@[simp] theorem pushLdAuthors_bookName (authors : List JVal) (b : BookDetails) :
    (pushLdAuthors authors b).1.bookName = b.bookName := by
  induction authors generalizing b with
  | nil => rfl
  | cons author rest ih =>
    unfold pushLdAuthors
    (repeat' split) <;> first | rfl | rw [ih]

@[simp] theorem pushLdAuthors_imageUrl (authors : List JVal) (b : BookDetails) :
    (pushLdAuthors authors b).1.imageUrl = b.imageUrl := by
  induction authors generalizing b with
  | nil => rfl
  | cons author rest ih =>
    unfold pushLdAuthors
    (repeat' split) <;> first | rfl | rw [ih]

@[simp] theorem pushLdAuthors_bookSummary (authors : List JVal) (b : BookDetails) :
    (pushLdAuthors authors b).1.bookSummary = b.bookSummary := by
  induction authors generalizing b with
  | nil => rfl
  | cons author rest ih =>
    unfold pushLdAuthors
    (repeat' split) <;> first | rfl | rw [ih]

@[simp] theorem pushLdAuthors_publicationDate (authors : List JVal) (b : BookDetails) :
    (pushLdAuthors authors b).1.publicationDate = b.publicationDate := by
  induction authors generalizing b with
  | nil => rfl
  | cons author rest ih =>
    unfold pushLdAuthors
    (repeat' split) <;> first | rfl | rw [ih]

@[simp] theorem pushLdAuthors_ratings (authors : List JVal) (b : BookDetails) :
    (pushLdAuthors authors b).1.ratings = b.ratings := by
  induction authors generalizing b with
  | nil => rfl
  | cons author rest ih =>
    unfold pushLdAuthors
    (repeat' split) <;> first | rfl | rw [ih]

@[simp] theorem pushLdAuthors_averageRating (authors : List JVal) (b : BookDetails) :
    (pushLdAuthors authors b).1.averageRating = b.averageRating := by
  induction authors generalizing b with
  | nil => rfl
  | cons author rest ih =>
    unfold pushLdAuthors
    (repeat' split) <;> first | rfl | rw [ih]

@[simp] theorem ldAuthors_keeps (jsonData : JVal) (b : BookDetails) :
    (ldAuthors jsonData b).bookName = b.bookName ∧
    (ldAuthors jsonData b).imageUrl = b.imageUrl ∧
    (ldAuthors jsonData b).bookSummary = b.bookSummary ∧
    (ldAuthors jsonData b).publicationDate = b.publicationDate ∧
    (ldAuthors jsonData b).ratings = b.ratings ∧
    (ldAuthors jsonData b).averageRating = b.averageRating := by
  unfold ldAuthors
  try dsimp only
  refine ⟨?_, ?_, ?_, ?_, ?_, ?_⟩ <;> (repeat' split) <;> simp

@[simp] theorem ldLanguage_keeps (jsonData : JVal) (b : BookDetails) :
    (ldLanguage jsonData b).bookName = b.bookName ∧
    (ldLanguage jsonData b).imageUrl = b.imageUrl ∧
    (ldLanguage jsonData b).bookSummary = b.bookSummary ∧
    (ldLanguage jsonData b).publicationDate = b.publicationDate ∧
    (ldLanguage jsonData b).ratings = b.ratings ∧
    (ldLanguage jsonData b).averageRating = b.averageRating := by
  unfold ldLanguage
  try dsimp only
  refine ⟨?_, ?_, ?_, ?_, ?_, ?_⟩ <;> (repeat' split) <;> simp

@[simp] theorem ldPages_keeps (jsonData : JVal) (b : BookDetails) :
    ((ldPages jsonData b).1).bookName = b.bookName ∧
    ((ldPages jsonData b).1).imageUrl = b.imageUrl ∧
    ((ldPages jsonData b).1).bookSummary = b.bookSummary ∧
    ((ldPages jsonData b).1).publicationDate = b.publicationDate ∧
    ((ldPages jsonData b).1).ratings = b.ratings ∧
    ((ldPages jsonData b).1).averageRating = b.averageRating := by
  unfold ldPages
  try dsimp only
  refine ⟨?_, ?_, ?_, ?_, ?_, ?_⟩ <;> (repeat' split) <;> simp

@[simp] theorem ldJsonPass_keeps (env : Env) (page : Page) (b : BookDetails) :
    (ldJsonPass env page b).bookName = b.bookName ∧
    (ldJsonPass env page b).imageUrl = b.imageUrl ∧
    (ldJsonPass env page b).bookSummary = b.bookSummary ∧
    (ldJsonPass env page b).publicationDate = b.publicationDate ∧
    (ldJsonPass env page b).ratings = b.ratings ∧
    (ldJsonPass env page b).averageRating = b.averageRating := by
  unfold ldJsonPass
  try dsimp only
  refine ⟨?_, ?_, ?_, ?_, ?_, ?_⟩ <;> (repeat' split) <;> simp

@[simp] theorem readKeySeries_keeps (raw : Str) (b : BookDetails) :
    (readKeySeries raw b).bookName = b.bookName ∧
    (readKeySeries raw b).imageUrl = b.imageUrl ∧
    (readKeySeries raw b).bookSummary = b.bookSummary ∧
    (readKeySeries raw b).publicationDate = b.publicationDate ∧
    (readKeySeries raw b).ratings = b.ratings ∧
    (readKeySeries raw b).averageRating = b.averageRating := by
  unfold readKeySeries
  try dsimp only
  refine ⟨?_, ?_, ?_, ?_, ?_, ?_⟩ <;> (repeat' split) <;> simp

@[simp] theorem pushCharacter_keeps (b : BookDetails) (raw : Str) :
    (pushCharacter b raw).bookName = b.bookName ∧
    (pushCharacter b raw).imageUrl = b.imageUrl ∧
    (pushCharacter b raw).bookSummary = b.bookSummary ∧
    (pushCharacter b raw).publicationDate = b.publicationDate ∧
    (pushCharacter b raw).ratings = b.ratings ∧
    (pushCharacter b raw).averageRating = b.averageRating := by
  unfold pushCharacter
  try dsimp only
  refine ⟨?_, ?_, ?_, ?_, ?_, ?_⟩ <;> (repeat' split) <;> simp

@[simp] theorem foldl_pushCharacter_keeps (l : List Str) (b : BookDetails) :
    (l.foldl pushCharacter b).bookName = b.bookName ∧
    (l.foldl pushCharacter b).imageUrl = b.imageUrl ∧
    (l.foldl pushCharacter b).bookSummary = b.bookSummary ∧
    (l.foldl pushCharacter b).publicationDate = b.publicationDate ∧
    (l.foldl pushCharacter b).ratings = b.ratings ∧
    (l.foldl pushCharacter b).averageRating = b.averageRating := by
  refine ⟨?_, ?_, ?_, ?_, ?_, ?_⟩ <;> exact foldl_frame _ _ (fun b x => by simp) _ _

@[simp] theorem readPages_keeps (valueText : Str) (b : BookDetails) :
    (readPages valueText b).bookName = b.bookName ∧
    (readPages valueText b).imageUrl = b.imageUrl ∧
    (readPages valueText b).bookSummary = b.bookSummary ∧
    (readPages valueText b).publicationDate = b.publicationDate ∧
    (readPages valueText b).ratings = b.ratings ∧
    (readPages valueText b).averageRating = b.averageRating := by
  unfold readPages
  try dsimp only
  refine ⟨?_, ?_, ?_, ?_, ?_, ?_⟩ <;> (repeat' split) <;> simp

@[simp] theorem keyDetailsChain_keeps (label : Str) (it : KeyDetailsItem) (b : BookDetails) :
    (keyDetailsChain label it b).bookName = b.bookName ∧
    (keyDetailsChain label it b).imageUrl = b.imageUrl ∧
    (keyDetailsChain label it b).bookSummary = b.bookSummary ∧
    (keyDetailsChain label it b).publicationDate = b.publicationDate ∧
    (keyDetailsChain label it b).ratings = b.ratings ∧
    (keyDetailsChain label it b).averageRating = b.averageRating := by
  unfold keyDetailsChain
  try dsimp only
  refine ⟨?_, ?_, ?_, ?_, ?_, ?_⟩ <;> (repeat' split) <;> simp

@[simp] theorem keyDetailsPublisher_keeps (label : Str) (it : KeyDetailsItem) (b : BookDetails) :
    (keyDetailsPublisher label it b).bookName = b.bookName ∧
    (keyDetailsPublisher label it b).imageUrl = b.imageUrl ∧
    (keyDetailsPublisher label it b).bookSummary = b.bookSummary ∧
    (keyDetailsPublisher label it b).publicationDate = b.publicationDate ∧
    (keyDetailsPublisher label it b).ratings = b.ratings ∧
    (keyDetailsPublisher label it b).averageRating = b.averageRating := by
  unfold keyDetailsPublisher
  try dsimp only
  refine ⟨?_, ?_, ?_, ?_, ?_, ?_⟩ <;> (repeat' split) <;> simp

@[simp] theorem keyDetailsItem_keeps (b : BookDetails) (it : KeyDetailsItem) :
    (keyDetailsItem b it).bookName = b.bookName ∧
    (keyDetailsItem b it).imageUrl = b.imageUrl ∧
    (keyDetailsItem b it).bookSummary = b.bookSummary ∧
    (keyDetailsItem b it).publicationDate = b.publicationDate ∧
    (keyDetailsItem b it).ratings = b.ratings ∧
    (keyDetailsItem b it).averageRating = b.averageRating := by
  unfold keyDetailsItem
  try dsimp only
  refine ⟨?_, ?_, ?_, ?_, ?_, ?_⟩ <;> (repeat' split) <;> simp

@[simp] theorem foldl_keyDetailsItem_keeps (l : List KeyDetailsItem) (b : BookDetails) :
    (l.foldl keyDetailsItem b).bookName = b.bookName ∧
    (l.foldl keyDetailsItem b).imageUrl = b.imageUrl ∧
    (l.foldl keyDetailsItem b).bookSummary = b.bookSummary ∧
    (l.foldl keyDetailsItem b).publicationDate = b.publicationDate ∧
    (l.foldl keyDetailsItem b).ratings = b.ratings ∧
    (l.foldl keyDetailsItem b).averageRating = b.averageRating := by
  refine ⟨?_, ?_, ?_, ?_, ?_, ?_⟩ <;> exact foldl_frame _ _ (fun b x => by simp) _ _

@[simp] theorem keyDetailsPass_keeps (page : Page) (b : BookDetails) :
    (keyDetailsPass page b).bookName = b.bookName ∧
    (keyDetailsPass page b).imageUrl = b.imageUrl ∧
    (keyDetailsPass page b).bookSummary = b.bookSummary ∧
    (keyDetailsPass page b).publicationDate = b.publicationDate ∧
    (keyDetailsPass page b).ratings = b.ratings ∧
    (keyDetailsPass page b).averageRating = b.averageRating := by
  unfold keyDetailsPass
  try dsimp only
  refine ⟨?_, ?_, ?_, ?_, ?_, ?_⟩ <;> (repeat' split) <;> simp

@[simp] theorem featuredParagraph_keeps (b : BookDetails) (p : FeaturedParagraph) :
    (featuredParagraph b p).bookName = b.bookName ∧
    (featuredParagraph b p).imageUrl = b.imageUrl ∧
    (featuredParagraph b p).bookSummary = b.bookSummary ∧
    (featuredParagraph b p).publicationDate = b.publicationDate ∧
    (featuredParagraph b p).ratings = b.ratings ∧
    (featuredParagraph b p).averageRating = b.averageRating := by
  unfold featuredParagraph
  try dsimp only
  refine ⟨?_, ?_, ?_, ?_, ?_, ?_⟩ <;> (repeat' split) <;> simp

@[simp] theorem foldl_featuredParagraph_keeps (l : List FeaturedParagraph) (b : BookDetails) :
    (l.foldl featuredParagraph b).bookName = b.bookName ∧
    (l.foldl featuredParagraph b).imageUrl = b.imageUrl ∧
    (l.foldl featuredParagraph b).bookSummary = b.bookSummary ∧
    (l.foldl featuredParagraph b).publicationDate = b.publicationDate ∧
    (l.foldl featuredParagraph b).ratings = b.ratings ∧
    (l.foldl featuredParagraph b).averageRating = b.averageRating := by
  refine ⟨?_, ?_, ?_, ?_, ?_, ?_⟩ <;> exact foldl_frame _ _ (fun b x => by simp) _ _

@[simp] theorem legacyDt_keeps (b : BookDetails) (d : FeaturedDt) :
    (legacyDt b d).bookName = b.bookName ∧
    (legacyDt b d).imageUrl = b.imageUrl ∧
    (legacyDt b d).bookSummary = b.bookSummary ∧
    (legacyDt b d).publicationDate = b.publicationDate ∧
    (legacyDt b d).ratings = b.ratings ∧
    (legacyDt b d).averageRating = b.averageRating := by
  unfold legacyDt
  try dsimp only
  refine ⟨?_, ?_, ?_, ?_, ?_, ?_⟩ <;> (repeat' split) <;> simp

@[simp] theorem foldl_legacyDt_keeps (l : List FeaturedDt) (b : BookDetails) :
    (l.foldl legacyDt b).bookName = b.bookName ∧
    (l.foldl legacyDt b).imageUrl = b.imageUrl ∧
    (l.foldl legacyDt b).bookSummary = b.bookSummary ∧
    (l.foldl legacyDt b).publicationDate = b.publicationDate ∧
    (l.foldl legacyDt b).ratings = b.ratings ∧
    (l.foldl legacyDt b).averageRating = b.averageRating := by
  refine ⟨?_, ?_, ?_, ?_, ?_, ?_⟩ <;> exact foldl_frame _ _ (fun b x => by simp) _ _

@[simp] theorem legacyPass_keeps (fd : FeaturedDetails) (b : BookDetails) :
    (legacyPass fd b).bookName = b.bookName ∧
    (legacyPass fd b).imageUrl = b.imageUrl ∧
    (legacyPass fd b).bookSummary = b.bookSummary ∧
    (legacyPass fd b).publicationDate = b.publicationDate ∧
    (legacyPass fd b).ratings = b.ratings ∧
    (legacyPass fd b).averageRating = b.averageRating := by
  unfold legacyPass
  try dsimp only
  refine ⟨?_, ?_, ?_, ?_, ?_, ?_⟩ <;> (repeat' split) <;> simp

@[simp] theorem featuredPass_keeps (page : Page) (b : BookDetails) :
    (featuredPass page b).bookName = b.bookName ∧
    (featuredPass page b).imageUrl = b.imageUrl ∧
    (featuredPass page b).bookSummary = b.bookSummary ∧
    (featuredPass page b).publicationDate = b.publicationDate ∧
    (featuredPass page b).ratings = b.ratings ∧
    (featuredPass page b).averageRating = b.averageRating := by
  unfold featuredPass
  try dsimp only
  refine ⟨?_, ?_, ?_, ?_, ?_, ?_⟩ <;> (repeat' split) <;> simp

@[simp] theorem cleanCommonPatterns_keeps (b : BookDetails) :
    (cleanCommonPatterns b).bookName = b.bookName ∧
    (cleanCommonPatterns b).imageUrl = b.imageUrl ∧
    (cleanCommonPatterns b).bookSummary = b.bookSummary ∧
    (cleanCommonPatterns b).publicationDate = b.publicationDate ∧
    (cleanCommonPatterns b).ratings = b.ratings ∧
    (cleanCommonPatterns b).averageRating = b.averageRating := by
  unfold cleanCommonPatterns
  try dsimp only
  refine ⟨?_, ?_, ?_, ?_, ?_, ?_⟩ <;> (repeat' split) <;> simp

@[simp] theorem seriesAttempt_keeps (raw : Str) (b : BookDetails) :
    (seriesAttempt raw b).bookName = b.bookName ∧
    (seriesAttempt raw b).imageUrl = b.imageUrl ∧
    (seriesAttempt raw b).bookSummary = b.bookSummary ∧
    (seriesAttempt raw b).publicationDate = b.publicationDate ∧
    (seriesAttempt raw b).ratings = b.ratings ∧
    (seriesAttempt raw b).averageRating = b.averageRating := by
  unfold seriesAttempt
  try dsimp only
  refine ⟨?_, ?_, ?_, ?_, ?_, ?_⟩ <;> (repeat' split) <;> simp

@[simp] theorem seriesTry_keeps (link : Option Str) (b : BookDetails) :
    (seriesTry link b).bookName = b.bookName ∧
    (seriesTry link b).imageUrl = b.imageUrl ∧
    (seriesTry link b).bookSummary = b.bookSummary ∧
    (seriesTry link b).publicationDate = b.publicationDate ∧
    (seriesTry link b).ratings = b.ratings ∧
    (seriesTry link b).averageRating = b.averageRating := by
  unfold seriesTry
  try dsimp only
  refine ⟨?_, ?_, ?_, ?_, ?_, ?_⟩ <;> (repeat' split) <;> simp

@[simp] theorem residualCleanup_keeps (b : BookDetails) :
    (residualCleanup b).bookName = b.bookName ∧
    (residualCleanup b).imageUrl = b.imageUrl ∧
    (residualCleanup b).bookSummary = b.bookSummary ∧
    (residualCleanup b).publicationDate = b.publicationDate ∧
    (residualCleanup b).ratings = b.ratings ∧
    (residualCleanup b).averageRating = b.averageRating := by
  unfold residualCleanup
  try dsimp only
  refine ⟨?_, ?_, ?_, ?_, ?_, ?_⟩ <;> (repeat' split) <;> simp

@[simp] theorem seriesFallback_keeps (page : Page) (b : BookDetails) :
    (seriesFallback page b).bookName = b.bookName ∧
    (seriesFallback page b).imageUrl = b.imageUrl ∧
    (seriesFallback page b).bookSummary = b.bookSummary ∧
    (seriesFallback page b).publicationDate = b.publicationDate ∧
    (seriesFallback page b).ratings = b.ratings ∧
    (seriesFallback page b).averageRating = b.averageRating := by
  unfold seriesFallback
  try dsimp only
  refine ⟨?_, ?_, ?_, ?_, ?_, ?_⟩ <;> (repeat' split) <;> simp

@[simp] theorem normalizePass_keeps (b : BookDetails) :
    (normalizePass b).bookName = b.bookName ∧
    (normalizePass b).imageUrl = b.imageUrl ∧
    (normalizePass b).bookSummary = b.bookSummary ∧
    (normalizePass b).publicationDate = b.publicationDate ∧
    (normalizePass b).ratings = b.ratings ∧
    (normalizePass b).averageRating = b.averageRating := by
  unfold normalizePass
  try dsimp only
  refine ⟨?_, ?_, ?_, ?_, ?_, ?_⟩ <;> (repeat' split) <;> simp

/-! ## The decimal form of the average rating -/

theorem isDigit_dot_false : isDigit '.' = false := by decide

theorem char_class (c : Char) :
    (isDigit c = true ∧ c ≠ '.' ∧ '.' ≠ c) ∨ (c = '.') ∨ (isDigit c = false ∧ c ≠ '.' ∧ '.' ≠ c) := by
  by_cases h : c = '.'
  · exact Or.inr (Or.inl h)
  · cases hd : isDigit c
    · exact Or.inr (Or.inr ⟨rfl, h, fun e => h e.symm⟩)
    · exact Or.inl ⟨rfl, h, fun e => h e.symm⟩

set_option maxHeartbeats 1000000 in
theorem decimalAt_eq (s : Str) :
    digits12 (fun a r => lit ".".toList (digits12 (fun b _ => some (a ++ '.' :: b))) r) s
      = decimalPrefix s := by
  rcases s with _ | ⟨a, _ | ⟨b, _ | ⟨c, _ | ⟨d, _ | ⟨e, rest⟩⟩⟩⟩⟩
  · rfl
  · simp [digits12, decimalPrefix, isDecimal, lit, dropLit]
  · rcases char_class a with ⟨ha, ha1, ha2⟩ | rfl | ⟨ha, ha1, ha2⟩ <;>
    rcases char_class b with ⟨hb, hb1, hb2⟩ | rfl | ⟨hb, hb1, hb2⟩ <;>
    simp [digits12, decimalPrefix, isDecimal, lit, dropLit, eqCS, alt, isDigit_dot_false, *]
  · rcases char_class a with ⟨ha, ha1, ha2⟩ | rfl | ⟨ha, ha1, ha2⟩ <;>
    rcases char_class b with ⟨hb, hb1, hb2⟩ | rfl | ⟨hb, hb1, hb2⟩ <;>
    rcases char_class c with ⟨hc, hc1, hc2⟩ | rfl | ⟨hc, hc1, hc2⟩ <;>
    simp [digits12, decimalPrefix, isDecimal, lit, dropLit, eqCS, alt, isDigit_dot_false, *]
  · rcases char_class a with ⟨ha, ha1, ha2⟩ | rfl | ⟨ha, ha1, ha2⟩ <;>
    rcases char_class b with ⟨hb, hb1, hb2⟩ | rfl | ⟨hb, hb1, hb2⟩ <;>
    rcases char_class c with ⟨hc, hc1, hc2⟩ | rfl | ⟨hc, hc1, hc2⟩ <;>
    rcases char_class d with ⟨hd, hd1, hd2⟩ | rfl | ⟨hd, hd1, hd2⟩ <;>
    simp [digits12, decimalPrefix, isDecimal, lit, dropLit, eqCS, alt, isDigit_dot_false, *]
  · rcases char_class a with ⟨ha, ha1, ha2⟩ | rfl | ⟨ha, ha1, ha2⟩ <;>
    rcases char_class b with ⟨hb, hb1, hb2⟩ | rfl | ⟨hb, hb1, hb2⟩ <;>
    rcases char_class c with ⟨hc, hc1, hc2⟩ | rfl | ⟨hc, hc1, hc2⟩ <;>
    rcases char_class d with ⟨hd, hd1, hd2⟩ | rfl | ⟨hd, hd1, hd2⟩ <;>
    rcases char_class e with ⟨he, he1, he2⟩ | rfl | ⟨he, he1, he2⟩ <;>
    simp [digits12, decimalPrefix, isDecimal, lit, dropLit, eqCS, alt, isDigit_dot_false, *]

theorem isDecimal_length {m : Str} (h : isDecimal m = true) :
    m.length = 3 ∨ m.length = 4 ∨ m.length = 5 := by
  rcases m with _ | ⟨a, _ | ⟨b, _ | ⟨c, _ | ⟨d, _ | ⟨e, _ | ⟨f, rest⟩⟩⟩⟩⟩⟩ <;>
    simp [isDecimal] at h ⊢

theorem prefix_eq_take {s m post : Str} (h : s = m ++ post) : s.take m.length = m := by
  rw [h, List.take_left']
  rfl

theorem decimalPrefix_some {s m : Str} (h : decimalPrefix s = some m) :
    (∃ post, s = m ++ post) ∧ isDecimal m = true ∧
    ∀ m2 post2, s = m2 ++ post2 → isDecimal m2 = true → m2.length ≤ m.length := by
  have key : ∀ n, ∃ post, s = s.take n ++ post :=
    fun n => ⟨s.drop n, (List.take_append_drop n s).symm⟩
  have hm2 : ∀ m2 post2, s = m2 ++ post2 → isDecimal m2 = true →
      isDecimal (s.take m2.length) = true ∧ m2.length ≤ s.length ∧
      (m2.length = 3 ∨ m2.length = 4 ∨ m2.length = 5) := by
    intro m2 post2 e hd
    rw [prefix_eq_take e]
    refine ⟨hd, ?_, isDecimal_length hd⟩
    rw [e, List.length_append]
    omega
  unfold decimalPrefix at h
  by_cases h5 : isDecimal (s.take 5) = true
  · rw [if_pos h5] at h
    cases h
    refine ⟨key 5, h5, ?_⟩
    intro m2 post2 e hd
    obtain ⟨_, hle, hl⟩ := hm2 m2 post2 e hd
    rw [List.length_take]
    omega
  · rw [if_neg h5] at h
    by_cases h4 : isDecimal (s.take 4) = true
    · rw [if_pos h4] at h
      cases h
      refine ⟨key 4, h4, ?_⟩
      intro m2 post2 e hd
      obtain ⟨ht, hle, hl⟩ := hm2 m2 post2 e hd
      rw [List.length_take]
      rcases hl with hl | hl | hl
      · omega
      · omega
      · rw [hl] at ht; exact absurd ht h5
    · rw [if_neg h4] at h
      by_cases h3 : isDecimal (s.take 3) = true
      · rw [if_pos h3] at h
        cases h
        refine ⟨key 3, h3, ?_⟩
        intro m2 post2 e hd
        obtain ⟨ht, hle, hl⟩ := hm2 m2 post2 e hd
        rw [List.length_take]
        rcases hl with hl | hl | hl
        · omega
        · rw [hl] at ht; exact absurd ht h4
        · rw [hl] at ht; exact absurd ht h5
      · rw [if_neg h3] at h
        cases h

theorem decimalPrefix_none {s : Str} (h : decimalPrefix s = none) :
    ∀ m2 post2, s = m2 ++ post2 → isDecimal m2 = false := by
  intro m2 post2 e
  cases hd : isDecimal m2
  · rfl
  · exfalso
    have ht : isDecimal (s.take m2.length) = true := by rw [prefix_eq_take e]; exact hd
    unfold decimalPrefix at h
    by_cases h5 : isDecimal (s.take 5) = true
    · rw [if_pos h5] at h; cases h
    · rw [if_neg h5] at h
      by_cases h4 : isDecimal (s.take 4) = true
      · rw [if_pos h4] at h; cases h
      · rw [if_neg h4] at h
        by_cases h3 : isDecimal (s.take 3) = true
        · rw [if_pos h3] at h; cases h
        · rcases isDecimal_length hd with hl | hl | hl <;> rw [hl] at ht
          · exact h3 ht
          · exact h4 ht
          · exact h5 ht

theorem search_some {α : Type} (m : Str → Option α) :
    ∀ (s pre : Str) (a : α), search m s = some (pre, a) →
      ∃ t, s = pre ++ t ∧ m t = some a ∧ ∀ u c v, pre = u ++ c :: v → m (c :: v ++ t) = none := by
  intro s
  induction s with
  | nil =>
    intro pre a h
    cases hm : m [] with
    | none => simp [search, hm] at h
    | some x =>
      simp only [search, hm, Option.map_some', Option.some.injEq, Prod.mk.injEq] at h
      obtain ⟨rfl, rfl⟩ := h
      exact ⟨[], rfl, hm, fun u c v e => by cases u <;> cases e⟩
  | cons c cs ih =>
    intro pre a h
    cases hm : m (c :: cs) with
    | some x =>
      simp only [search, hm, Option.some.injEq, Prod.mk.injEq] at h
      obtain ⟨rfl, rfl⟩ := h
      exact ⟨c :: cs, rfl, hm, fun u d v e => by cases u <;> cases e⟩
    | none =>
      simp only [search, hm] at h
      cases hs : search m cs with
      | none => simp [hs] at h
      | some r =>
        obtain ⟨p, x⟩ := r
        simp only [hs, Option.map_some', Option.some.injEq, Prod.mk.injEq] at h
        obtain ⟨rfl, rfl⟩ := h
        obtain ⟨t, e, hok, hfail⟩ := ih p _ hs
        refine ⟨t, by rw [e]; rfl, hok, ?_⟩
        intro u d v e2
        cases u with
        | nil =>
          simp only [List.nil_append, List.cons.injEq] at e2
          obtain ⟨rfl, rfl⟩ := e2
          show m (c :: (p ++ t)) = none
          rw [← e]; exact hm
        | cons u0 us =>
          simp only [List.cons_append, List.cons.injEq] at e2
          exact hfail us d v e2.2

theorem search_eq_none {α : Type} (m : Str → Option α) :
    ∀ s, search m s = none → ∀ pre t, s = pre ++ t → m t = none := by
  intro s
  induction s with
  | nil =>
    intro h pre t e
    have : pre = [] ∧ t = [] := by simpa using e.symm
    obtain ⟨_, rfl⟩ := this
    cases hm : m [] with
    | none => rfl
    | some x => simp [search, hm] at h
  | cons c cs ih =>
    intro h pre t e
    cases hm : m (c :: cs) with
    | some x => simp [search, hm] at h
    | none =>
      simp only [search, hm, Option.map_eq_none'] at h
      cases pre with
      | nil => simp only [List.nil_append] at e; rw [← e]; exact hm
      | cons p ps =>
        simp only [List.cons_append, List.cons.injEq] at e
        exact ih h ps t e.2

/-! ## The single-selector fields of the final record -/

theorem extract_single_fields (env : Env) (page : Page) :
    (extractDetails env page).bookName = some (trim page.title) ∧
    (extractDetails env page).bookSummary = some (summaryOf env page) ∧
    (extractDetails env page).publicationDate
      = (publicationInfoStep page (imageAndSummary env page
          (nameAndAuthors env page (afterNextData env page)))).publicationDate ∧
    (extractDetails env page).ratings = ratingsOf page.ratingsCount ∧
    (extractDetails env page).averageRating
      = some (averageRatingOf page.ratingStatistic page.ratingValue) := by
  refine ⟨?_, ?_, ?_, ?_, ?_⟩
  · simp [extractDetails, beforeNormalize, beforeKeyDetails, afterRatings, normalizePass,
      nameAndAuthors]
  · simp [extractDetails, beforeNormalize, beforeKeyDetails, afterRatings, normalizePass,
      imageAndSummary]
  · simp [extractDetails, beforeNormalize, beforeKeyDetails, afterRatings, normalizePass,
      publicationPass, ratingsPass]
  · simp [extractDetails, beforeNormalize, beforeKeyDetails, afterRatings, normalizePass,
      ratingsPass]
  · simp [extractDetails, beforeNormalize, beforeKeyDetails, afterRatings, normalizePass,
      ratingsPass]

theorem publicationInfoStep_of_empty (page : Page) (b : BookDetails)
    (h : page.publicationInfo = []) : (publicationInfoStep page b).publicationDate = some [] := by
  have ht : trim page.publicationInfo = [] := by rw [h]; rfl
  have h1 : publishedMatch [] = none := by decide
  have h2 : firstPublishedMatch [] = none := by decide
  unfold publicationInfoStep
  simp only [ht, h1, h2, truthyGroup]
  split <;> rfl

theorem includesVal_map_str (acc : List Str) (t : Str) :
    includesVal (acc.map JVal.str) (JVal.str t) = decide (t ∈ acc) := by
  induction acc with
  | nil => simp [includesVal]
  | cons a rest ih =>
    simp only [includesVal, List.map_cons, List.any_cons, JVal.sameValueZero] at ih ⊢
    rw [ih]
    by_cases h : a = t
    · simp [h]
    · have h2 : ¬ t = a := fun e => h e.symm
      simp [h, h2]

/-- The author loop of lines 183-188 collects the first occurrences of the
non-empty trimmed texts. -/
theorem foldl_addAuthorText_authors (names : List Str) :
    ∀ (acc : List Str) (b : BookDetails), b.authors = acc.map JVal.str →
      (names.foldl addAuthorText b).authors =
        (acc ++ (withoutRepeats ((names.map trim).filter (fun t => !t.isEmpty))).filter
          (fun y => decide (y ∉ acc))).map JVal.str := by
  induction names with
  | nil => intro acc b h; simp [withoutRepeats, h]
  | cons n rest ih =>
    intro acc b h
    rw [List.foldl_cons]
    by_cases hn : trim n = []
    · have hb : addAuthorText b n = b := by simp [addAuthorText, hn]
      rw [hb, ih acc b h]
      simp [hn]
    · have hne : (trim n).isEmpty = false := by simpa using hn
      by_cases hm : trim n ∈ acc
      · have hb : addAuthorText b n = b := by
          simp [addAuthorText, h, includesVal_map_str, hm]
        rw [hb, ih acc b h]
        simp only [List.map_cons, List.filter_cons, hne, Bool.not_false, if_true, withoutRepeats,
          hm, not_true_eq_false, decide_False, Bool.false_eq_true, if_false, List.filter_filter]
        congr 2
        apply List.filter_congr
        intro y _
        by_cases hy : y ∈ acc
        · simp [hy]
        · have : y ≠ trim n := fun e => hy (e ▸ hm)
          simp [hy, this]
      · have hb : (addAuthorText b n).authors = (acc ++ [trim n]).map JVal.str := by
          simp [addAuthorText, h, includesVal_map_str, hm, hne]
        rw [ih (acc ++ [trim n]) _ hb]
        simp only [List.map_cons, List.filter_cons, hne, Bool.not_false, if_true, withoutRepeats,
          hm, not_false_eq_true, decide_True, List.filter_filter, List.append_assoc,
          List.singleton_append]
        congr 3
        apply List.filter_congr
        intro y _
        by_cases hy : y ∈ acc <;> by_cases hyn : y = trim n <;> simp [hy, hyn]

theorem withoutRepeats_ne_nil {l : List Str} (h : l ≠ []) : withoutRepeats l ≠ [] := by
  cases l with
  | nil => exact absurd rfl h
  | cons x xs => simp [withoutRepeats]

theorem ldAuthors_of_authors (jsonData : JVal) (b : BookDetails) (h : b.authors ≠ []) :
    (ldAuthors jsonData b).authors = b.authors := by
  have hl : (b.authors.length == 0) = false := by
    cases hb : b.authors with
    | nil => exact absurd hb h
    | cons x xs => rfl
  simp [ldAuthors, hl]

theorem ldJsonPass_of_authors (env : Env) (page : Page) (b : BookDetails) (h : b.authors ≠ []) :
    (ldJsonPass env page b).authors = b.authors := by
  unfold ldJsonPass
  split
  · rfl
  · split
    · rfl
    · split
      · split
        · simp
        · rw [ldAuthors_of_authors _ _ (by simpa using h)]
          simp
      · rfl

/-- When the author-name elements give at least one author, the authors of
the record are the first occurrences of their non-empty trimmed texts. -/
theorem extract_authors_of_elements (env : Env) (page : Page) (h : authorTexts page ≠ []) :
    (extractDetails env page).authors = (withoutRepeats (authorTexts page)).map JVal.str := by
  have h0 : ({ afterNextData env page with bookName := some (trim page.title) } :
      BookDetails).authors = ([] : List Str).map JVal.str := by
    simp [afterNextData, initialDetails]
  have h1 := foldl_addAuthorText_authors page.authorNames [] _ h0
  simp only [List.nil_append, List.not_mem_nil, not_false_eq_true, decide_True,
    List.filter_true] at h1
  have hne : (withoutRepeats (authorTexts page)).map JVal.str ≠ [] := by
    simpa using withoutRepeats_ne_nil h
  have h2 : (nameAndAuthors env page (afterNextData env page)).authors
      = (withoutRepeats (authorTexts page)).map JVal.str := by
    have hl : ∀ x : BookDetails, x.authors = (withoutRepeats (authorTexts page)).map JVal.str →
        (x.authors.length == 0) = false := by
      intro x hx
      rw [hx]
      cases hw : (withoutRepeats (authorTexts page)).map JVal.str with
      | nil => exact absurd hw hne
      | cons y ys => rfl
    unfold nameAndAuthors
    have ha : (authorsFromNextData env page (List.foldl addAuthorText
        { afterNextData env page with bookName := some (trim page.title) } page.authorNames))
        = List.foldl addAuthorText
        { afterNextData env page with bookName := some (trim page.title) } page.authorNames := by
      unfold authorsFromNextData
      rw [hl _ h1]
      rfl
    rw [ha]
    unfold authorsFromTitleLinks
    rw [hl _ h1]
    exact h1
  have h3 : (extractDetails env page).authors
      = (ldJsonPass env page (afterRatings env page)).authors := by
    simp [extractDetails, beforeNormalize, beforeKeyDetails]
  have h4 : (afterRatings env page).authors
      = (nameAndAuthors env page (afterNextData env page)).authors := by
    simp [afterRatings]
  rw [h3, ldJsonPass_of_authors _ _ _ (by rw [h4, h2]; exact hne), h4, h2]

theorem trim_group_ratings {g : Str} (h : isDigitGroup g = true) (tail : Str)
    (ht : ∀ c, (' ' :: tail).getLast? = some c → isWs c = false) :
    trim (g ++ ' ' :: tail) = g ++ ' ' :: tail := by
  simp only [isDigitGroup, Bool.and_eq_true, Bool.not_eq_true', List.all_eq_true] at h
  obtain ⟨hne, hall⟩ := h
  cases g with
  | nil => simp at hne
  | cons c cs =>
    apply trim_eq_self
    · intro d hd
      simp only [List.cons_append, List.head?_cons, Option.some.injEq] at hd
      subst hd
      exact (digitComma_classes (hall c (List.mem_cons_self _ _))).2.1
    · intro d hd
      rw [List.getLast?_append_of_ne_nil _ (by simp)] at hd
      exact ht d hd

/-- A group of digits and commas at the start of the ratings text, followed
by a space, is the match of `/([\d,]+)/`. -/
theorem ratingsMatch_group {g : Str} (h : isDigitGroup g = true) (tail : Str) :
    ratingsMatch (g ++ ' ' :: tail) = some g := by
  simp only [isDigitGroup, Bool.and_eq_true, Bool.not_eq_true', List.all_eq_true] at h
  obtain ⟨hne, hall⟩ := h
  have hne' : g ≠ [] := by simpa using hne
  have hp := plusCap_run isDigitComma (fun cap _ => some cap) g (' ' :: tail) g hne' hall
    (by intro c hc; simp only [List.head?_cons, Option.some.injEq] at hc; subst hc; decide) rfl
  unfold ratingsMatch
  cases g with
  | nil => exact absurd rfl hne'
  | cons c cs =>
    rw [List.cons_append] at hp ⊢
    simp [search, hp]

/-! ## The publication line `Published <date> by <publisher>` -/

theorem star_dropWhile {α : Type} (p : Char → Bool) (k : Str → Option α)
    (hk : ∀ c r, p c = true → k (c :: r) = none) (s : Str) :
    star p k s = k (s.dropWhile p) := by
  induction s with
  | nil => rfl
  | cons c cs ih =>
    by_cases hc : p c = true
    · simp only [star, hc, if_true, ih, hk c cs hc, alt_none_right, List.dropWhile_cons_of_pos hc]
    · simp only [star, hc, Bool.false_eq_true, if_false, List.dropWhile_cons_of_neg hc]

theorem byWord_of_ws {α : Type} (k : Str → Option α) (c : Char) (r : Str) (h : isWs c = true) :
    lit "by".toList k (c :: r) = none := by
  have hb : (('b' : Char) == c) = false := by
    rw [beq_eq_false_iff_ne]
    intro e
    rw [← e] at h
    exact absurd h (by decide)
  show lit ('b' :: "y".toList) k (c :: r) = none
  simp only [lit, dropLit, eqCS, hb, Bool.false_eq_true, if_false]

/-- The separator `\s+by\s+` at a white-space character: the white-space run
is passed, then `by` and white space must follow. -/
theorem separator_at_ws (c : Char) (r : Str) (h : isWs c = true) :
    plus isWs (lit "by".toList (plus isWs some)) (c :: r)
      = lit "by".toList (plus isWs some) (r.dropWhile isWs) := by
  simp only [plus, h, if_true]
  exact star_dropWhile isWs _ (fun d t hd => byWord_of_ws _ d t hd) r

theorem separator_at_other (c : Char) (r : Str) (h : isWs c = false) :
    plus isWs (lit "by".toList (plus isWs some)) (c :: r) = none := by
  simp only [plus, h, Bool.false_eq_true, if_false]

/-- After a text that does not start with the word `by`, and before the end
or a white-space character, the tail `by\s+` of the separator fails. -/
theorem byWord_none {t suf : Str} (ht : t ≠ []) (h : startsWithBy t = false)
    (hsuf : ∀ c, suf.head? = some c → isWs c = true) :
    lit "by".toList (plus isWs some) (t ++ suf) = none := by
  have hy : ∀ c, isWs c = true → (('y' : Char) == c) = false := by
    intro c hc
    rw [beq_eq_false_iff_ne]
    intro e
    rw [← e] at hc
    exact absurd hc (by decide)
  rcases t with _ | ⟨a, _ | ⟨b, _ | ⟨c, rest⟩⟩⟩
  · exact absurd rfl ht
  · -- one character
    show lit ('b' :: 'y' :: []) (plus isWs some) (a :: suf) = none
    cases suf with
    | nil => simp [lit, dropLit]
    | cons d ds =>
      have := hy d (hsuf d rfl)
      simp [lit, dropLit, eqCS, this]
  · show lit ('b' :: 'y' :: []) (plus isWs some) (a :: b :: suf) = none
    have h' : startsWithBy [a, b] = false := h
    unfold startsWithBy at h'
    change (match dropLit eqCS ('b' :: 'y' :: []) [a, b] with
      | some [] => true
      | some (c :: _) => isWs c
      | none => false) = false at h'
    simp only [lit, dropLit, eqCS] at h' ⊢
    by_cases h1 : (('b' : Char) == a) = true
    · by_cases h2 : (('y' : Char) == b) = true
      · simp [h1, h2] at h'
      · simp [h1, h2]
    · simp [h1]
  · show lit ('b' :: 'y' :: []) (plus isWs some) (a :: b :: c :: (rest ++ suf)) = none
    have h' : startsWithBy (a :: b :: c :: rest) = false := h
    unfold startsWithBy at h'
    change (match dropLit eqCS ('b' :: 'y' :: []) (a :: b :: c :: rest) with
      | some [] => true
      | some (c :: _) => isWs c
      | none => false) = false at h'
    simp only [lit, dropLit, eqCS] at h' ⊢
    by_cases h1 : (('b' : Char) == a) = true
    · by_cases h2 : (('y' : Char) == b) = true
      · simp only [h1, h2, if_true] at h' ⊢
        simp [plus, h']
      · simp [h1, h2]
    · simp [h1]

theorem hasSpacedBy_false {s : Str} (h : hasSpacedBy s = false) :
    ∀ p w r, s = p ++ w :: r → isWs w = true → startsWithBy r = false := by
  induction s with
  | nil => intro p w r e; cases p <;> cases e
  | cons c cs ih =>
    intro p w r e hw
    simp only [hasSpacedBy, Bool.or_eq_false_iff, Bool.and_eq_false_imp] at h
    cases p with
    | nil =>
      simp only [List.nil_append, List.cons.injEq] at e
      obtain ⟨rfl, rfl⟩ := e
      exact h.1 hw
    | cons p0 ps =>
      simp only [List.cons_append, List.cons.injEq] at e
      exact ih h.2 ps w r e.2 hw

theorem dropWhile_append_of_last {p : Char → Bool} {r : Str} {l : Char}
    (hl : r.getLast? = some l) (hp : p l = false) (suf : Str) :
    (r ++ suf).dropWhile p = r.dropWhile p ++ suf ∧ r.dropWhile p ≠ [] := by
  induction r with
  | nil => cases hl
  | cons c cs ih =>
    by_cases hc : p c = true
    · cases cs with
      | nil =>
        simp only [List.getLast?_singleton, Option.some.injEq] at hl
        rw [hl, hp] at hc
        cases hc
      | cons d ds =>
        rw [List.getLast?_cons_cons] at hl
        rw [List.cons_append, List.dropWhile_cons_of_pos hc, List.dropWhile_cons_of_pos hc]
        exact ih hl
    · rw [List.cons_append, List.dropWhile_cons_of_neg hc, List.dropWhile_cons_of_neg hc]
      exact ⟨rfl, by simp⟩

/-- Inside a text without the word `by` after white space and ending in a
character that is not white space, the separator `\s+by\s+` matches nowhere,
whatever follows the text after a white-space character (or nothing). -/
theorem separator_none_inside {s suf : Str} {l : Char} (hl : s.getLast? = some l)
    (hlw : isWs l = false) (hby : hasSpacedBy s = false)
    (hsuf : ∀ c, suf.head? = some c → isWs c = true) :
    ∀ pre t, s = pre ++ t → t ≠ [] →
      plus isWs (lit "by".toList (plus isWs some)) (t ++ suf) = none := by
  intro pre t e ht
  cases t with
  | nil => exact absurd rfl ht
  | cons c r =>
    rw [List.cons_append]
    cases hc : isWs c
    · exact separator_at_other c _ hc
    · rw [separator_at_ws c _ hc]
      have hrl : r.getLast? = some l := by
        have h1 : (c :: r).getLast? = some l := getLast_suffix e (by simp) hl
        cases r with
        | nil =>
          simp only [List.getLast?_singleton, Option.some.injEq] at h1
          rw [h1, hlw] at hc
          cases hc
        | cons d ds => rwa [List.getLast?_cons_cons] at h1
      obtain ⟨h1, h2⟩ := dropWhile_append_of_last hrl hlw suf
      rw [h1]
      apply byWord_none h2 _ hsuf
      -- the character before `r.dropWhile isWs` is white space
      have hsplit : r = r.takeWhile isWs ++ r.dropWhile isWs :=
        (List.takeWhile_append_dropWhile isWs r).symm
      have hrun : ∀ x ∈ c :: r.takeWhile isWs, isWs x = true := by
        intro x hx
        rcases List.mem_cons.1 hx with rfl | hx
        · exact hc
        · exact (List.mem_takeWhile_imp hx)
      have hne : c :: r.takeWhile isWs ≠ [] := by simp
      have hlast := hrun _ (List.getLast_mem hne)
      apply hasSpacedBy_false hby (pre ++ (c :: r.takeWhile isWs).dropLast)
        ((c :: r.takeWhile isWs).getLast hne) (r.dropWhile isWs) _ hlast
      rw [e, List.append_assoc]
      congr 1
      have : (c :: r.takeWhile isWs).dropLast ++ [(c :: r.takeWhile isWs).getLast hne]
          = c :: r.takeWhile isWs := List.dropLast_append_getLast hne
      calc c :: r = (c :: r.takeWhile isWs) ++ r.dropWhile isWs := by
              rw [List.cons_append, ← hsplit]
        _ = ((c :: r.takeWhile isWs).dropLast ++ [(c :: r.takeWhile isWs).getLast hne])
              ++ r.dropWhile isWs := by rw [this]
        _ = _ := by simp

theorem splitOn_no_match (m : Str → Option Str) (s suf : Str)
    (h : ∀ pre t, s = pre ++ t → t ≠ [] → m (t ++ suf) = none) (cur : Str) :
    splitOn m 0 cur (s ++ suf) = splitOn m 0 (cur ++ s) suf := by
  induction s generalizing cur with
  | nil => simp
  | cons c cs ih =>
    have h0 : m (c :: cs ++ suf) = none := h [] (c :: cs) rfl (by simp)
    have := ih (fun pre t e ht => h (c :: pre) t (by rw [e]; rfl) ht) (cur ++ [c])
    rw [List.cons_append] at h0 ⊢
    simp only [splitOn, h0, this, List.append_assoc, List.singleton_append]

theorem isPlainLine_facts {s : Str} (h : isPlainLine s = true) :
    (∃ c cs, s = c :: cs ∧ isWs c = false) ∧ (∃ l, s.getLast? = some l ∧ isWs l = false) ∧
    (∀ c ∈ s, isDot c = true) ∧ hasSpacedBy s = false := by
  simp only [isPlainLine, Bool.and_eq_true, Bool.not_eq_true', List.all_eq_true] at h
  obtain ⟨⟨⟨h1, h2⟩, h3⟩, h4⟩ := h
  refine ⟨?_, ?_, h3, h4⟩
  · cases s with
    | nil => simp at h1
    | cons c cs => exact ⟨c, cs, rfl, by simpa using h1⟩
  · cases hl : s.getLast? with
    | none => rw [hl] at h2; simp at h2
    | some l => rw [hl] at h2; exact ⟨l, rfl, by simpa using h2⟩

theorem isPlainLine_trim {s : Str} (h : isPlainLine s = true) : trim s = s := by
  obtain ⟨⟨c, cs, e, hc⟩, ⟨l, hl, hlw⟩, _, _⟩ := isPlainLine_facts h
  apply trim_eq_self
  · intro d hd
    rw [e] at hd
    simp only [List.head?_cons, Option.some.injEq] at hd
    rw [← hd]; exact hc
  · intro d hd
    rw [hl] at hd
    simp only [Option.some.injEq] at hd
    rw [← hd]; exact hlw

/-- The separator matches at the ` by ` between date and publisher. -/
theorem separator_between {p : Str} (h : isPlainLine p = true) :
    plus isWs (lit "by".toList (plus isWs some)) (" by ".toList ++ p) = some p := by
  obtain ⟨⟨c, cs, e, hc⟩, _, _, _⟩ := isPlainLine_facts h
  subst e
  show plus isWs (lit "by".toList (plus isWs some)) (' ' :: 'b' :: 'y' :: ' ' :: c :: cs) = some (c :: cs)
  rw [separator_at_ws ' ' _ (by decide)]
  have h1 : ('b' :: 'y' :: ' ' :: c :: cs).dropWhile isWs = 'b' :: 'y' :: ' ' :: c :: cs :=
    List.dropWhile_cons_of_neg (by decide)
  rw [h1]
  show lit ('b' :: 'y' :: []) (plus isWs some) ('b' :: 'y' :: ' ' :: c :: cs) = some (c :: cs)
  have hs : isWs ' ' = true := by decide
  simp only [lit, dropLit, eqCS, beq_self_eq_true, if_true, plus, hs, star, hc,
    Bool.false_eq_true, if_false]

/-- The value of `"<date> by <publisher>".split(/\s+by\s+/)`. -/
theorem splitBy_date_publisher {d p : Str} (hd : isPlainLine d = true) (hp : isPlainLine p = true) :
    splitBy (d ++ " by ".toList ++ p) = [d, p] := by
  obtain ⟨_, ⟨l, hl, hlw⟩, _, hby⟩ := isPlainLine_facts hd
  obtain ⟨⟨c, cs, e, hc⟩, ⟨l2, hl2, hlw2⟩, _, hby2⟩ := isPlainLine_facts hp
  unfold splitBy
  rw [List.append_assoc]
  rw [splitOn_no_match _ d (" by ".toList ++ p)
    (separator_none_inside hl hlw hby (by intro x hx; cases hx; decide)) []]
  have hsep := separator_between hp
  have hin := splitOn_no_match (plus isWs (lit "by".toList (plus isWs some))) p []
    (separator_none_inside hl2 hlw2 hby2 (by intro x hx; cases hx)) []
  simp only [List.append_nil, List.nil_append] at hin
  show splitOn _ 0 ([] ++ d) (' ' :: ('b' :: 'y' :: ' ' :: p)) = [d, p]
  have hsep' : plus isWs (lit "by".toList (plus isWs some)) (' ' :: ('b' :: 'y' :: ' ' :: p))
      = some p := hsep
  have hlen : ('b' :: 'y' :: ' ' :: p).length - p.length = 3 := by
    simp only [List.length_cons]
    omega
  rw [splitOn, hsep']
  simp only [hlen, List.nil_append]
  rw [splitOn, splitOn, splitOn, hin]
  rfl

/-- The match of `/Published\s+(.+)/` on `Published <date> by <publisher>`. -/
theorem publishedMatch_line {d p : Str} (hd : isPlainLine d = true) (hp : isPlainLine p = true) :
    publishedMatch ("Published ".toList ++ d ++ " by ".toList ++ p)
      = some (d ++ " by ".toList ++ p) := by
  obtain ⟨⟨c, cs, e, hc⟩, _, hdot, _⟩ := isPlainLine_facts hd
  obtain ⟨_, _, hdot2, _⟩ := isPlainLine_facts hp
  have hall : ∀ x ∈ cs ++ " by ".toList ++ p, isDot x = true := by
    intro x hx
    rcases List.mem_append.1 hx with hx | hx
    · rcases List.mem_append.1 hx with hx | hx
      · exact hdot x (by rw [e]; exact List.mem_cons_of_mem _ hx)
      · have : ∀ y ∈ " by ".toList, isDot y = true := by decide
        exact this x hx
    · exact hdot2 x hx
  have hcd : isDot c = true := hdot c (by rw [e]; exact List.mem_cons_self _ _)
  subst e
  unfold publishedMatch
  have hm : lit "Published".toList (plus isWs (plusCap isDot (fun cap _ => some cap)))
      ("Published ".toList ++ (c :: cs) ++ " by ".toList ++ p)
      = some (c :: cs ++ " by ".toList ++ p) := by
    show lit "Published".toList (plus isWs (plusCap isDot (fun cap _ => some cap)))
      ("Published".toList ++ (' ' :: (c :: (cs ++ " by ".toList ++ p)))) = _
    have hl : ∀ (k : Str → Option Str) (t : Str),
        lit "Published".toList k ("Published".toList ++ t) = k t := by
      intro k t
      simp [lit, dropLit, eqCS]
    rw [hl]
    have hs : isWs ' ' = true := by decide
    simp only [plus, hs, if_true, star, hc, Bool.false_eq_true, if_false]
    rw [plusCap_accept, if_pos hcd, takeWhile_eq_self_of_all hall]
    simp
  show (search _ ('P' :: ("ublished ".toList ++ (c :: cs) ++ " by ".toList ++ p))).map _ = _
  have hm' : lit "Published".toList (plus isWs (plusCap isDot (fun cap _ => some cap)))
      ('P' :: ("ublished ".toList ++ (c :: cs) ++ " by ".toList ++ p))
      = some (c :: cs ++ " by ".toList ++ p) := hm
  simp only [search, hm', Option.map_some']

theorem trim_published_line {d p : Str} (hp : isPlainLine p = true) :
    trim ("Published ".toList ++ d ++ " by ".toList ++ p)
      = "Published ".toList ++ d ++ " by ".toList ++ p := by
  obtain ⟨_, ⟨l, hl, hlw⟩, _, _⟩ := isPlainLine_facts hp
  have hne : p ≠ [] := by intro e; rw [e] at hl; cases hl
  apply trim_eq_self
  · intro x hx
    have : ("Published ".toList ++ d ++ " by ".toList ++ p).head? = some 'P' := rfl
    rw [this] at hx
    simp only [Option.some.injEq] at hx
    rw [← hx]; decide
  · intro x hx
    rw [List.getLast?_append_of_ne_nil _ hne, hl] at hx
    simp only [Option.some.injEq] at hx
    rw [← hx]; exact hlw

/-- Lines 280-300 on `Published <date> by <publisher>` when no publisher is
set yet. -/
theorem publicationInfoStep_line (page : Page) (b : BookDetails) {d p : Str}
    (hd : isPlainLine d = true) (hp : isPlainLine p = true)
    (htext : page.publicationInfo = "Published ".toList ++ d ++ " by ".toList ++ p)
    (hb : b.publisher.truthy = false) :
    (publicationInfoStep page b).publicationDate = some d ∧
    (publicationInfoStep page b).publisher = JVal.str p := by
  obtain ⟨⟨c, cs, e, _⟩, _, _, _⟩ := isPlainLine_facts hd
  have hg : truthyGroup (some (d ++ " by ".toList ++ p)) = some (d ++ " by ".toList ++ p) :=
    truthyGroup_of_ne_nil (by rw [e]; simp)
  unfold publicationInfoStep
  simp only [htext, trim_published_line hp, publishedMatch_line hd hp, hg,
    splitBy_date_publisher hd hp, hb]
  simp [isPlainLine_trim hd, isPlainLine_trim hp]

/-- A publisher found on the publication line is the publisher of the
returned record. -/
theorem extract_publisher_of_line (env : Env) (page : Page) (v : JVal)
    (hv : v.truthy = true)
    (h : (publicationInfoStep page (imageAndSummary env page
      (nameAndAuthors env page (afterNextData env page)))).publisher = v) :
    (extractDetails env page).publisher = v := by
  have h0 : (publicationPass page (imageAndSummary env page
      (nameAndAuthors env page (afterNextData env page)))).publisher = v := by
    simp [publicationPass, publisherFromLink, publisherFromElement, publisherAfterBy, h, hv]
  have h1 : (beforeKeyDetails env page).publisher = v := by
    simp only [beforeKeyDetails, afterRatings, ldJsonPass_frame, ratingsPass_frame,
      genresPass_frame, h0]
  have h2 : (keyDetailsPass page (beforeKeyDetails env page)).publisher = v := by
    unfold keyDetailsPass
    split
    · rw [keyDetails_fold_publisher_sticky _ _ (by rw [h1]; exact hv), h1]
    · exact h1
  have h3 := featuredPass_publisher_sticky page (keyDetailsPass page (beforeKeyDetails env page))
    (by rw [h2]; exact hv)
  simp only [extractDetails, beforeNormalize, normalizePass_frame, seriesFallback_frame, h3, h2]

/-! ## Steps that neither read nor write the character list -/

set_option linter.unusedTactic false
set_option linter.unreachableTactic false

theorem sameButCharacters_refl (b : BookDetails) : sameButCharacters b b := rfl

theorem sameButCharacters_set (b : BookDetails) (cs : List JVal) :
    sameButCharacters { b with characters := cs } b := rfl

theorem sameButCharacters_step {a b : BookDetails} (f : BookDetails → BookDetails)
    (hf : ∀ (x : BookDetails) (cs : List JVal),
      f { x with characters := cs } = { f x with characters := cs })
    (h : sameButCharacters a b) : sameButCharacters (f a) (f b) := by
  unfold sameButCharacters at h ⊢
  rw [h, hf]

theorem sameButCharacters_fields {a b : BookDetails} (h : sameButCharacters a b) :
    a.publisher = b.publisher ∧ a.language = b.language ∧ a.numberOfPages = b.numberOfPages ∧
    a.genres = b.genres ∧ a.seriesName = b.seriesName := by
  unfold sameButCharacters at h
  rw [h]
  exact ⟨rfl, rfl, rfl, rfl, rfl⟩

theorem sameIslandFields_of_same {a b : BookDetails} (h : sameButCharacters a b) :
    sameIslandFields a b := by
  obtain ⟨h1, h2, h3, h4, _⟩ := sameButCharacters_fields h
  exact ⟨h1, h2, h3, h4⟩

theorem foldl_setCharacters {α : Type} (f : BookDetails → α → BookDetails)
    (hf : ∀ (x : BookDetails) (cs : List JVal) (y : α),
      f { x with characters := cs } y = { f x y with characters := cs })
    (l : List α) (b : BookDetails) (cs : List JVal) :
    l.foldl f { b with characters := cs } = { l.foldl f b with characters := cs } := by
  induction l generalizing b with
  | nil => rfl
  | cons y ys ih => rw [List.foldl_cons, List.foldl_cons, hf, ih]

theorem addAuthorText_setCharacters (b : BookDetails) (cs : List JVal) (raw : Str) :
    addAuthorText { b with characters := cs } raw
      = { addAuthorText b raw with characters := cs } := by
  unfold addAuthorText
  dsimp only
  (repeat' split) <;> simp_all

theorem authorsFromTitleLinks_setCharacters (page : Page) (b : BookDetails) (cs : List JVal) :
    authorsFromTitleLinks page { b with characters := cs }
      = { authorsFromTitleLinks page b with characters := cs } := by
  unfold authorsFromTitleLinks
  dsimp only
  split
  · exact foldl_setCharacters _ addAuthorText_setCharacters _ _ _
  · rfl

theorem imageAndSummary_setCharacters (env : Env) (page : Page) (b : BookDetails)
    (cs : List JVal) :
    imageAndSummary env page { b with characters := cs }
      = { imageAndSummary env page b with characters := cs } := rfl

theorem publicationInfoStep_setCharacters (page : Page) (b : BookDetails) (cs : List JVal) :
    publicationInfoStep page { b with characters := cs }
      = { publicationInfoStep page b with characters := cs } := by
  unfold publicationInfoStep
  dsimp only
  (repeat' split) <;> simp_all

theorem publisherAfterBy_setCharacters (page : Page) (b : BookDetails) (cs : List JVal) :
    publisherAfterBy page { b with characters := cs }
      = { publisherAfterBy page b with characters := cs } := by
  unfold publisherAfterBy
  dsimp only
  (repeat' split) <;> simp_all

theorem publisherFromElement_setCharacters (page : Page) (b : BookDetails) (cs : List JVal) :
    publisherFromElement page { b with characters := cs }
      = { publisherFromElement page b with characters := cs } := by
  unfold publisherFromElement
  dsimp only
  (repeat' split) <;> simp_all

theorem publisherFromLink_setCharacters (page : Page) (b : BookDetails) (cs : List JVal) :
    publisherFromLink page { b with characters := cs }
      = { publisherFromLink page b with characters := cs } := by
  unfold publisherFromLink
  dsimp only
  (repeat' split) <;> simp_all

theorem publicationPass_setCharacters (page : Page) (b : BookDetails) (cs : List JVal) :
    publicationPass page { b with characters := cs }
      = { publicationPass page b with characters := cs } := by
  unfold publicationPass
  rw [publicationInfoStep_setCharacters, publisherAfterBy_setCharacters,
    publisherFromElement_setCharacters, publisherFromLink_setCharacters]

theorem genresPass_setCharacters (page : Page) (b : BookDetails) (cs : List JVal) :
    genresPass page { b with characters := cs }
      = { genresPass page b with characters := cs } := by
  unfold genresPass
  dsimp only
  (repeat' split) <;> simp_all

theorem ratingsPass_setCharacters (page : Page) (b : BookDetails) (cs : List JVal) :
    ratingsPass page { b with characters := cs }
      = { ratingsPass page b with characters := cs } := rfl

theorem pushLdAuthors_setCharacters (authors : List JVal) (b : BookDetails) (cs : List JVal) :
    pushLdAuthors authors { b with characters := cs }
      = ({ (pushLdAuthors authors b).1 with characters := cs }, (pushLdAuthors authors b).2) := by
  induction authors generalizing b with
  | nil => rfl
  | cons author rest ih =>
    unfold pushLdAuthors
    split
    · rename_i s
      dsimp only
      split
      · exact ih { b with authors := b.authors ++ [JVal.str s] }
      · exact ih b
    · rfl
    · dsimp only
      split
      · exact ih { b with authors := b.authors ++ [author.prop "name"] }
      · exact ih b

theorem ldAuthors_setCharacters (jsonData : JVal) (b : BookDetails) (cs : List JVal) :
    ldAuthors jsonData { b with characters := cs }
      = { ldAuthors jsonData b with characters := cs } := by
  unfold ldAuthors
  dsimp only
  split
  · split
    · rfl
    · split <;> rfl
    · rw [pushLdAuthors_setCharacters]
    · rfl
  · rfl

theorem ldLanguage_setCharacters (jsonData : JVal) (b : BookDetails) (cs : List JVal) :
    ldLanguage jsonData { b with characters := cs }
      = { ldLanguage jsonData b with characters := cs } := by
  unfold ldLanguage
  dsimp only
  (repeat' split) <;> simp_all

theorem ldPages_setCharacters (jsonData : JVal) (b : BookDetails) (cs : List JVal) :
    ldPages jsonData { b with characters := cs }
      = ({ (ldPages jsonData b).1 with characters := cs }, (ldPages jsonData b).2) := by
  unfold ldPages
  dsimp only
  split
  · split <;> rfl
  · rfl

theorem ldJsonPass_setCharacters (env : Env) (page : Page) (b : BookDetails) (cs : List JVal) :
    ldJsonPass env page { b with characters := cs }
      = { ldJsonPass env page b with characters := cs } := by
  unfold ldJsonPass
  split
  · rfl
  · split
    · rfl
    · split
      · rw [ldLanguage_setCharacters, ldPages_setCharacters]
        dsimp only
        split
        · rfl
        · rw [ldAuthors_setCharacters]
      · rfl

theorem featuredParagraph_setCharacters (b : BookDetails) (cs : List JVal)
    (p : FeaturedParagraph) :
    featuredParagraph { b with characters := cs } p
      = { featuredParagraph b p with characters := cs } := by
  unfold featuredParagraph
  dsimp only
  (repeat' split) <;> simp_all

/-! ## Steps that read or write the character list -/

theorem sameButCharacters_of_only {b x y : BookDetails}
    (hx : ∃ cs, x = { b with characters := cs }) (hy : ∃ cs, y = { b with characters := cs }) :
    sameButCharacters x y := by
  obtain ⟨c1, rfl⟩ := hx
  obtain ⟨c2, rfl⟩ := hy
  rfl

theorem only_characters_self (b : BookDetails) : ∃ cs, b = { b with characters := cs } :=
  ⟨b.characters, rfl⟩

theorem foldl_only_characters {α : Type} (f : BookDetails → α → BookDetails)
    (hf : ∀ x y, ∃ cs, f x y = { x with characters := cs }) (l : List α) :
    ∀ b, ∃ cs, l.foldl f b = { b with characters := cs } := by
  induction l with
  | nil => intro b; exact only_characters_self b
  | cons y ys ih =>
    intro b
    obtain ⟨c1, h1⟩ := hf b y
    obtain ⟨c2, h2⟩ := ih (f b y)
    exact ⟨c2, by rw [List.foldl_cons, h2, h1]⟩

theorem addRegexCharacter_only (b : BookDetails) (name : Str) :
    ∃ cs, addRegexCharacter b name = { b with characters := cs } := by
  unfold addRegexCharacter
  split
  · split
    · exact ⟨_, rfl⟩
    · exact only_characters_self b
  · exact only_characters_self b

theorem regexCharacters_only (content : Str) (b : BookDetails) :
    ∃ cs, regexCharacters content b = { b with characters := cs } :=
  foldl_only_characters _ addRegexCharacter_only _ b

theorem pushCharacter_only (b : BookDetails) (raw : Str) :
    ∃ cs, pushCharacter b raw = { b with characters := cs } := by
  unfold pushCharacter
  split
  · exact ⟨_, rfl⟩
  · exact only_characters_self b

theorem foldl_pushCharacter_only (links : List Str) (b : BookDetails) :
    ∃ cs, links.foldl pushCharacter b = { b with characters := cs } :=
  foldl_only_characters _ pushCharacter_only _ b

theorem foldl_pushCharacter_only_set (links : List Str) (b : BookDetails) (c0 : List JVal) :
    ∃ cs, links.foldl pushCharacter { b with characters := c0 } = { b with characters := cs } := by
  obtain ⟨cs, h⟩ := foldl_pushCharacter_only links { b with characters := c0 }
  exact ⟨cs, h⟩

theorem readPages_setCharacters (valueText : Str) (b : BookDetails) (cs : List JVal) :
    readPages valueText { b with characters := cs }
      = { readPages valueText b with characters := cs } := by
  unfold readPages
  split <;> rfl

theorem readKeySeries_setCharacters (raw : Str) (b : BookDetails) (cs : List JVal) :
    readKeySeries raw { b with characters := cs }
      = { readKeySeries raw b with characters := cs } := by
  unfold readKeySeries
  split
  · split
    · split <;> rfl
    · rfl
  · rfl

theorem keyDetailsPublisher_setCharacters (label : Str) (it : KeyDetailsItem) (b : BookDetails)
    (cs : List JVal) :
    keyDetailsPublisher label it { b with characters := cs }
      = { keyDetailsPublisher label it b with characters := cs } := by
  unfold keyDetailsPublisher
  dsimp only
  split <;> rfl

theorem keyDetailsChain_same (label : Str) (it : KeyDetailsItem) (b : BookDetails)
    (cs : List JVal) :
    sameButCharacters (keyDetailsChain label it { b with characters := cs })
      (keyDetailsChain label it b) := by
  unfold keyDetailsChain
  dsimp only
  by_cases h1 : (includes label "pages".toList && !numTruthy b.numberOfPages) = true
  · rw [if_pos h1, if_pos h1, readPages_setCharacters]
    exact sameButCharacters_set _ _
  · rw [if_neg h1, if_neg h1]
    by_cases h2 : (includes label "language".toList && !b.language.truthy) = true
    · rw [if_pos h2, if_pos h2]
      rfl
    · rw [if_neg h2, if_neg h2]
      by_cases h3 : includes label "series".toList = true
      · rw [if_pos h3, if_pos h3]
        cases it.seriesAnchor with
        | none => exact sameButCharacters_set _ _
        | some t =>
          dsimp only
          rw [readKeySeries_setCharacters]
          exact sameButCharacters_set _ _
      · rw [if_neg h3, if_neg h3]
        apply sameButCharacters_of_only (b := b)
        · split
          · exact foldl_pushCharacter_only_set _ _ _
          · exact ⟨cs, rfl⟩
        · split
          · exact foldl_pushCharacter_only _ _
          · exact only_characters_self b

theorem keyDetailsItem_same {a b : BookDetails} (h : sameButCharacters a b) (it : KeyDetailsItem) :
    sameButCharacters (keyDetailsItem a it) (keyDetailsItem b it) := by
  unfold sameButCharacters at h
  rw [h]
  unfold keyDetailsItem
  exact sameButCharacters_step _ (keyDetailsPublisher_setCharacters _ it)
    (keyDetailsChain_same _ it b _)

theorem keyDetails_fold_same (items : List KeyDetailsItem) :
    ∀ a b, sameButCharacters a b →
      sameButCharacters (items.foldl keyDetailsItem a) (items.foldl keyDetailsItem b) := by
  induction items with
  | nil => intro a b h; exact h
  | cons it rest ih =>
    intro a b h
    exact ih _ _ (keyDetailsItem_same h it)

theorem keyDetailsItem_pages_sticky (b : BookDetails) (it : KeyDetailsItem)
    (h : numTruthy b.numberOfPages = true) :
    (keyDetailsItem b it).numberOfPages = b.numberOfPages := by
  unfold keyDetailsItem
  rw [(keyDetailsPublisher_frame _ it _).2.2.2.2.1]
  unfold keyDetailsChain
  (repeat' split) <;> simp_all

theorem keyDetails_fold_pages_sticky (items : List KeyDetailsItem) (b : BookDetails)
    (h : numTruthy b.numberOfPages = true) :
    (items.foldl keyDetailsItem b).numberOfPages = b.numberOfPages := by
  induction items generalizing b with
  | nil => rfl
  | cons it rest ih =>
    have h1 := keyDetailsItem_pages_sticky b it h
    rw [List.foldl_cons, ih _ (by rw [h1]; exact h), h1]

/-- A key-details loop run on a record whose page count, language and
publisher are truthy changes none of the four island fields. -/
theorem keyDetails_fold_known (items : List KeyDetailsItem) (b : BookDetails)
    (h1 : numTruthy b.numberOfPages = true) (h2 : b.language.truthy = true)
    (h3 : b.publisher.truthy = true) :
    sameIslandFields (items.foldl keyDetailsItem b) b :=
  ⟨keyDetails_fold_publisher_sticky items b h3, keyDetails_fold_language_sticky items b h2,
    keyDetails_fold_pages_sticky items b h1, by simp⟩

theorem sameIslandFields_symm {a b : BookDetails} (h : sameIslandFields a b) :
    sameIslandFields b a :=
  ⟨h.1.symm, h.2.1.symm, h.2.2.1.symm, h.2.2.2.symm⟩

theorem sameIslandFields_trans {a b c : BookDetails} (h1 : sameIslandFields a b)
    (h2 : sameIslandFields b c) : sameIslandFields a c :=
  ⟨h1.1.trans h2.1, h1.2.1.trans h2.2.1, h1.2.2.1.trans h2.2.2.1, h1.2.2.2.trans h2.2.2.2⟩

theorem gate_closed_facts {b : BookDetails} (h : keyDetailsGate b = false) :
    numTruthy b.numberOfPages = true ∧ b.language.truthy = true ∧ b.publisher.truthy = true := by
  simp only [keyDetailsGate, Bool.or_eq_false_iff, Bool.not_eq_false'] at h
  exact ⟨h.1.1.1, h.1.1.2, h.2⟩

/-- The key-details attempt on two records that differ at most in their
characters: afterwards they still differ at most in their characters, or the
page count is known in both and the four island fields agree. -/
theorem keyDetailsPass_same (page : Page) {a b : BookDetails} (h : sameButCharacters a b) :
    sameButCharacters (keyDetailsPass page a) (keyDetailsPass page b) ∨
    (numTruthy (keyDetailsPass page a).numberOfPages = true ∧
     numTruthy (keyDetailsPass page b).numberOfPages = true ∧
     sameIslandFields (keyDetailsPass page a) (keyDetailsPass page b)) := by
  obtain ⟨e1, e2, e3, e4, _⟩ := sameButCharacters_fields h
  unfold keyDetailsPass
  cases ha : keyDetailsGate a <;> cases hb : keyDetailsGate b
  · left
    simpa using h
  · right
    obtain ⟨g1, g2, g3⟩ := gate_closed_facts ha
    have k := keyDetails_fold_known page.keyDetails b (e3 ▸ g1) (e2 ▸ g2) (e1 ▸ g3)
    simp only [Bool.false_eq_true, if_false, if_true]
    exact ⟨g1, by rw [k.2.2.1, ← e3]; exact g1,
      sameIslandFields_trans (sameIslandFields_of_same h) (sameIslandFields_symm k)⟩
  · right
    obtain ⟨g1, g2, g3⟩ := gate_closed_facts hb
    have k := keyDetails_fold_known page.keyDetails a (e3 ▸ g1) (e2 ▸ g2) (e1 ▸ g3)
    simp only [Bool.false_eq_true, if_false, if_true]
    exact ⟨by rw [k.2.2.1, e3]; exact g1, g1,
      sameIslandFields_trans k (sameIslandFields_of_same h)⟩
  · left
    simp only [if_true]
    exact keyDetails_fold_same _ _ _ h

theorem legacyDt_same (b : BookDetails) (cs : List JVal) (d : FeaturedDt)
    (hl : (includes (toLowerCase (trim d.label)) "characters".toList &&
      includes (toLowerCase (trim d.label)) "publisher".toList) = false) :
    sameButCharacters (legacyDt { b with characters := cs } d) (legacyDt b d) := by
  unfold legacyDt
  dsimp only
  by_cases h1 : (includes (toLowerCase (trim d.label)) "pages".toList
      && !numTruthy b.numberOfPages) = true
  · rw [if_pos h1, if_pos h1, readPages_setCharacters]
    exact sameButCharacters_set _ _
  · rw [if_neg h1, if_neg h1]
    by_cases h2 : (includes (toLowerCase (trim d.label)) "language".toList
        && !b.language.truthy) = true
    · rw [if_pos h2, if_pos h2]
      rfl
    · rw [if_neg h2, if_neg h2]
      by_cases h3 : (includes (toLowerCase (trim d.label)) "series".toList
          && !strTruthy b.seriesName) = true
      · rw [if_pos h3, if_pos h3]
        cases d.seriesAnchor with
        | none => exact sameButCharacters_set _ _
        | some t =>
          dsimp only
          rw [readKeySeries_setCharacters]
          exact sameButCharacters_set _ _
      · rw [if_neg h3, if_neg h3]
        by_cases h4 : includes (toLowerCase (trim d.label)) "characters".toList = true
        · have h5 : includes (toLowerCase (trim d.label)) "publisher".toList = false := by
            rw [h4, Bool.true_and] at hl
            exact hl
          apply sameButCharacters_of_only (b := b)
          · split
            · exact foldl_pushCharacter_only_set _ _ _
            · simp only [h5, Bool.false_and, Bool.false_eq_true, if_false]
              exact ⟨cs, rfl⟩
          · split
            · exact foldl_pushCharacter_only _ _
            · simp only [h5, Bool.false_and, Bool.false_eq_true, if_false]
              exact only_characters_self b
        · simp only [h4, Bool.false_and, Bool.false_eq_true, if_false]
          split
          · rfl
          · rfl

theorem legacy_fold_same (dts : List FeaturedDt)
    (hl : ∀ d ∈ dts, (includes (toLowerCase (trim d.label)) "characters".toList &&
      includes (toLowerCase (trim d.label)) "publisher".toList) = false) :
    ∀ a b, sameButCharacters a b →
      sameButCharacters (dts.foldl legacyDt a) (dts.foldl legacyDt b) := by
  induction dts with
  | nil => intro a b h; exact h
  | cons d rest ih =>
    intro a b h
    apply ih (fun x hx => hl x (List.mem_cons_of_mem _ hx))
    unfold sameButCharacters at h
    rw [h]
    exact legacyDt_same b _ d (hl d (List.mem_cons_self _ _))

theorem noCharacterPublisherLabel_spec {page : Page} (h : noCharacterPublisherLabel page = true)
    {fd : FeaturedDetails} (hfd : page.featuredDetails = some fd) :
    ∀ d ∈ fd.dts, (includes (toLowerCase (trim d.label)) "characters".toList &&
      includes (toLowerCase (trim d.label)) "publisher".toList) = false := by
  unfold noCharacterPublisherLabel at h
  rw [hfd] at h
  simp only [List.all_eq_true, Bool.not_eq_true'] at h
  exact h

theorem featuredPass_same (page : Page) (hl : noCharacterPublisherLabel page = true)
    {a b : BookDetails} (h : sameButCharacters a b) :
    sameButCharacters (featuredPass page a) (featuredPass page b) := by
  obtain ⟨_, _, e3, _, _⟩ := sameButCharacters_fields h
  unfold featuredPass
  cases hfd : page.featuredDetails with
  | none => exact h
  | some fd =>
    dsimp only
    rw [e3]
    split
    · have hp : sameButCharacters (fd.paragraphs.foldl featuredParagraph a)
          (fd.paragraphs.foldl featuredParagraph b) :=
        sameButCharacters_step (fun x => fd.paragraphs.foldl featuredParagraph x)
          (fun x cs => foldl_setCharacters _ featuredParagraph_setCharacters _ x cs) h
      obtain ⟨_, p2, p3, _, _⟩ := sameButCharacters_fields hp
      unfold legacyPass
      rw [p2, p3]
      split
      · exact legacy_fold_same fd.dts (noCharacterPublisherLabel_spec hl hfd) _ _ hp
      · exact hp
    · exact h

theorem featuredPass_of_pages (page : Page) (b : BookDetails)
    (h : numTruthy b.numberOfPages = true) : featuredPass page b = b := by
  unfold featuredPass
  split
  · rfl
  · simp [h]

/-! ## The legacy loop up to characters and publisher -/

theorem sameButCharactersPublisher_of_only {b x y : BookDetails}
    (hx : ∃ cs pv, x = { b with characters := cs, publisher := pv })
    (hy : ∃ cs pv, y = { b with characters := cs, publisher := pv }) :
    sameButCharactersPublisher x y := by
  obtain ⟨c1, p1, rfl⟩ := hx
  obtain ⟨c2, p2, rfl⟩ := hy
  rfl

theorem sameButCharactersPublisher_of_same {a b : BookDetails} (h : sameButCharacters a b) :
    sameButCharactersPublisher a b := by
  unfold sameButCharacters at h
  unfold sameButCharactersPublisher
  rw [h]

theorem sameButCharactersPublisher_fields {a b : BookDetails}
    (h : sameButCharactersPublisher a b) :
    a.language = b.language ∧ a.numberOfPages = b.numberOfPages ∧ a.genres = b.genres := by
  unfold sameButCharactersPublisher at h
  rw [h]
  exact ⟨rfl, rfl, rfl⟩

theorem readPages_setBoth (valueText : Str) (b : BookDetails) (cs : List JVal) (pv : JVal) :
    readPages valueText { b with characters := cs, publisher := pv }
      = { readPages valueText b with characters := cs, publisher := pv } := by
  unfold readPages
  split <;> rfl

theorem readKeySeries_setBoth (raw : Str) (b : BookDetails) (cs : List JVal) (pv : JVal) :
    readKeySeries raw { b with characters := cs, publisher := pv }
      = { readKeySeries raw b with characters := cs, publisher := pv } := by
  unfold readKeySeries
  split
  · split
    · split <;> rfl
    · rfl
  · rfl

theorem foldl_pushCharacter_only_both (links : List Str) (b : BookDetails) (c0 : List JVal)
    (pv : JVal) :
    ∃ cs pw, links.foldl pushCharacter { b with characters := c0, publisher := pv }
      = { b with characters := cs, publisher := pw } := by
  obtain ⟨cs, h⟩ := foldl_pushCharacter_only links { b with characters := c0, publisher := pv }
  exact ⟨cs, pv, h⟩

/-- The tail of the `else if` chain of a legacy `dt` (characters, then
publisher) changes nothing but characters and publisher. -/
theorem legacyTail_only (d : FeaturedDt) (x b : BookDetails)
    (hx : ∃ cs pv, x = { b with characters := cs, publisher := pv }) :
    ∃ cs pv,
      (if (includes (toLowerCase (trim d.label)) "characters".toList
            && x.characters.length == 0) = true then
        d.characterLinks.foldl pushCharacter x
       else if (includes (toLowerCase (trim d.label)) "publisher".toList
            && !x.publisher.truthy) = true then
        { x with publisher := JVal.str (trim (stripPublishedBy (trim d.detailText))) }
       else x) = { b with characters := cs, publisher := pv } := by
  obtain ⟨c0, p0, rfl⟩ := hx
  split
  · exact foldl_pushCharacter_only_both _ _ _ _
  · split
    · exact ⟨c0, _, rfl⟩
    · exact ⟨c0, p0, rfl⟩

theorem legacyDt_sameBoth (b : BookDetails) (cs : List JVal) (pv : JVal) (d : FeaturedDt) :
    sameButCharactersPublisher (legacyDt { b with characters := cs, publisher := pv } d)
      (legacyDt b d) := by
  unfold legacyDt
  dsimp only
  by_cases h1 : (includes (toLowerCase (trim d.label)) "pages".toList
      && !numTruthy b.numberOfPages) = true
  · rw [if_pos h1, if_pos h1, readPages_setBoth]
    rfl
  · rw [if_neg h1, if_neg h1]
    by_cases h2 : (includes (toLowerCase (trim d.label)) "language".toList
        && !b.language.truthy) = true
    · rw [if_pos h2, if_pos h2]
      rfl
    · rw [if_neg h2, if_neg h2]
      by_cases h3 : (includes (toLowerCase (trim d.label)) "series".toList
          && !strTruthy b.seriesName) = true
      · rw [if_pos h3, if_pos h3]
        cases d.seriesAnchor with
        | none => rfl
        | some t =>
          dsimp only
          rw [readKeySeries_setBoth]
          rfl
      · rw [if_neg h3, if_neg h3]
        exact sameButCharactersPublisher_of_only (b := b)
          (legacyTail_only d { b with characters := cs, publisher := pv } b ⟨cs, pv, rfl⟩)
          (legacyTail_only d b b ⟨b.characters, b.publisher, rfl⟩)

theorem legacy_fold_sameBoth (dts : List FeaturedDt) :
    ∀ a b, sameButCharactersPublisher a b →
      sameButCharactersPublisher (dts.foldl legacyDt a) (dts.foldl legacyDt b) := by
  induction dts with
  | nil => intro a b h; exact h
  | cons d rest ih =>
    intro a b h
    apply ih
    unfold sameButCharactersPublisher at h
    rw [h]
    exact legacyDt_sameBoth b _ _ d

/-- The featured-details pass on two records that differ at most in their
characters: afterwards they differ at most in characters and publisher. -/
theorem featuredPass_sameBoth (page : Page) {a b : BookDetails} (h : sameButCharacters a b) :
    sameButCharactersPublisher (featuredPass page a) (featuredPass page b) := by
  obtain ⟨_, _, e3, _, _⟩ := sameButCharacters_fields h
  unfold featuredPass
  cases hfd : page.featuredDetails with
  | none => exact sameButCharactersPublisher_of_same h
  | some fd =>
    dsimp only
    rw [e3]
    split
    · have hp : sameButCharacters (fd.paragraphs.foldl featuredParagraph a)
          (fd.paragraphs.foldl featuredParagraph b) :=
        sameButCharacters_step (fun x => fd.paragraphs.foldl featuredParagraph x)
          (fun x cs => foldl_setCharacters _ featuredParagraph_setCharacters _ x cs) h
      obtain ⟨_, p2, p3, _, _⟩ := sameButCharacters_fields hp
      unfold legacyPass
      rw [p2, p3]
      split
      · exact legacy_fold_sameBoth fd.dts _ _ (sameButCharactersPublisher_of_same hp)
      · exact sameButCharactersPublisher_of_same hp
    · exact sameButCharactersPublisher_of_same h

theorem sameIslandFields_tail (page : Page) {a b : BookDetails} (h : sameIslandFields a b) :
    sameIslandFields (normalizePass (seriesFallback page a))
      (normalizePass (seriesFallback page b)) := by
  obtain ⟨h1, h2, h3, h4⟩ := h
  unfold sameIslandFields
  simp only [normalizePass_frame, seriesFallback_frame]
  exact ⟨h1, h2, h3, h4⟩

theorem threeFields_tail (page : Page) {a b : BookDetails}
    (h : a.language = b.language ∧ a.numberOfPages = b.numberOfPages ∧ a.genres = b.genres) :
    (normalizePass (seriesFallback page a)).language
        = (normalizePass (seriesFallback page b)).language ∧
    (normalizePass (seriesFallback page a)).numberOfPages
        = (normalizePass (seriesFallback page b)).numberOfPages ∧
    (normalizePass (seriesFallback page a)).genres
        = (normalizePass (seriesFallback page b)).genres := by
  simp only [normalizePass_frame, seriesFallback_frame]
  exact h

/-! ## A data island that is not valid JSON -/

theorem authorsFromNextData_of_invalid (env : Env) (page : Page) (b : BookDetails)
    (h : ∀ content, page.nextData = some content → env.jsonParse content = none) :
    authorsFromNextData env page b = b := by
  unfold authorsFromNextData
  split
  · cases hn : page.nextData with
    | none => rfl
    | some content => simp [h content hn]
  · rfl

theorem nameAndAuthors_same (env : Env) (page : Page)
    (h : ∀ content, page.nextData = some content → env.jsonParse content = none)
    {a b : BookDetails} (hab : sameButCharacters a b) :
    sameButCharacters (nameAndAuthors env page a) (nameAndAuthors env (withoutIsland page) b) := by
  have h2 : ∀ content, (withoutIsland page).nextData = some content →
      env.jsonParse content = none := by
    intro content hc
    cases hc
  unfold nameAndAuthors
  rw [authorsFromNextData_of_invalid env page _ h,
    authorsFromNextData_of_invalid env (withoutIsland page) _ h2]
  exact sameButCharacters_step
    (fun x => authorsFromTitleLinks page
      (page.authorNames.foldl addAuthorText { x with bookName := some (trim page.title) }))
    (fun x cs => by
      show authorsFromTitleLinks page (page.authorNames.foldl addAuthorText
        { ({ x with bookName := some (trim page.title) } : BookDetails) with characters := cs }) = _
      rw [foldl_setCharacters _ addAuthorText_setCharacters,
        authorsFromTitleLinks_setCharacters]) hab

theorem afterNextData_same (env : Env) (page : Page) (content : Str)
    (hc : page.nextData = some content) (hj : env.jsonParse content = none) :
    sameButCharacters (afterNextData env page) (afterNextData env (withoutIsland page)) := by
  have h1 : afterNextData env page = regexCharacters content
      (charactersSection page (directCharacters page initialDetails)) := by
    simp [afterNextData, nextDataPass, hc, hj]
  have h2 : afterNextData env (withoutIsland page)
      = charactersSection page (directCharacters page initialDetails) := rfl
  rw [h1, h2]
  exact sameButCharacters_of_only (regexCharacters_only _ _) (only_characters_self _)

/-- Before the key-details attempt, the record of a page whose data island is
not valid JSON and the record of the same page without the island differ at
most in their characters. -/
theorem beforeKeyDetails_same (env : Env) (page : Page) (content : Str)
    (hc : page.nextData = some content) (hj : env.jsonParse content = none) :
    sameButCharacters (beforeKeyDetails env page) (beforeKeyDetails env (withoutIsland page)) := by
  have h : ∀ c, page.nextData = some c → env.jsonParse c = none := by
    intro c hc2
    rw [hc] at hc2
    cases hc2
    exact hj
  have s1 := nameAndAuthors_same env page h (afterNextData_same env page content hc hj)
  have s2 := sameButCharacters_step (imageAndSummary env page)
    (imageAndSummary_setCharacters env page) s1
  have s3 := sameButCharacters_step (publicationPass page) (publicationPass_setCharacters page) s2
  have s4 := sameButCharacters_step (genresPass page) (genresPass_setCharacters page) s3
  have s5 := sameButCharacters_step (ratingsPass page) (ratingsPass_setCharacters page) s4
  exact sameButCharacters_step (ldJsonPass env page) (ldJsonPass_setCharacters env page) s5

/-- The four island fields of the record of a page whose data island is not
valid JSON are those of the record of the page without the island, when no
legacy label mentions both characters and publisher. -/
theorem extract_invalid_island (env : Env) (page : Page) (content : Str)
    (hc : page.nextData = some content) (hj : env.jsonParse content = none)
    (hl : noCharacterPublisherLabel page = true) :
    sameIslandFields (extractDetails env page) (extractDetails env (withoutIsland page)) := by
  have h0 := beforeKeyDetails_same env page content hc hj
  unfold extractDetails beforeNormalize
  apply sameIslandFields_tail page
  rcases keyDetailsPass_same page h0 with h1 | ⟨p1, p2, h1⟩
  · exact sameIslandFields_of_same (featuredPass_same page hl h1)
  · have f1 := featuredPass_of_pages page _ p1
    have f2 := featuredPass_of_pages page _ p2
    show sameIslandFields (featuredPass page (keyDetailsPass page (beforeKeyDetails env page)))
      (featuredPass page (keyDetailsPass page (beforeKeyDetails env (withoutIsland page))))
    rw [f1, f2]
    exact h1

/-- Language, page count and genres of the record of a page whose data island
is not valid JSON are those of the record of the page without the island. -/
theorem extract_invalid_island_fields (env : Env) (page : Page) (content : Str)
    (hc : page.nextData = some content) (hj : env.jsonParse content = none) :
    (extractDetails env page).language = (extractDetails env (withoutIsland page)).language ∧
    (extractDetails env page).numberOfPages
      = (extractDetails env (withoutIsland page)).numberOfPages ∧
    (extractDetails env page).genres = (extractDetails env (withoutIsland page)).genres := by
  have h0 := beforeKeyDetails_same env page content hc hj
  unfold extractDetails beforeNormalize
  apply threeFields_tail page
  rcases keyDetailsPass_same page h0 with h1 | ⟨p1, p2, h1⟩
  · exact sameButCharactersPublisher_fields (featuredPass_sameBoth page h1)
  · have f1 := featuredPass_of_pages page _ p1
    have f2 := featuredPass_of_pages page _ p2
    show (featuredPass page (keyDetailsPass page (beforeKeyDetails env page))).language
        = (featuredPass page (keyDetailsPass page
            (beforeKeyDetails env (withoutIsland page)))).language ∧
      (featuredPass page (keyDetailsPass page (beforeKeyDetails env page))).numberOfPages
        = (featuredPass page (keyDetailsPass page
            (beforeKeyDetails env (withoutIsland page)))).numberOfPages ∧
      (featuredPass page (keyDetailsPass page (beforeKeyDetails env page))).genres
        = (featuredPass page (keyDetailsPass page
            (beforeKeyDetails env (withoutIsland page)))).genres
    rw [f1, f2]
    exact ⟨h1.2.1, h1.2.2.1, h1.2.2.2⟩

/-! ## Authors and characters hold no duplicates (C1) -/

/-- C1: for every page and every behaviour of `JSON.parse`, the authors and
the characters of the returned record contain no two equal strings, given that
every character anchor found inside a details section is also one of the
anchors of the page. -/
theorem authors_and_characters_without_duplicates (env : Env) (page : Page)
    (h : ∀ t ∈ detailCharacterLinks page, t ∈ characterAnchorTexts page) :
    (strings (extractDetails env page).authors).Nodup ∧
    (strings (extractDetails env page).characters).Nodup := by
  refine ⟨distinct_strings_nodup (extract_authors_distinct env page), ?_⟩
  rw [extract_characters env page h]
  exact distinct_strings_nodup (afterNextData_characters_distinct env page)

/-- C1, witness: a page whose key-details character links are anchors of the
page, with a repeated author element. -/
theorem authors_and_characters_without_duplicates_witness :
    (strings (extractDetails noJson charactersPage).authors).Nodup ∧
    (strings (extractDetails noJson charactersPage).characters).Nodup :=
  authors_and_characters_without_duplicates noJson charactersPage (by decide)

/-! ## Genres may hold duplicates (C2) -/

/-- C2, the stated claim fails: two genre labels with the same text, or two
`bookGenres` entries of the data island with the same genre name, give a
genres list that holds the string twice. -/
theorem genres_can_repeat :
    strings (extractDetails noJson repeatedGenrePage).genres
      = ["Fantasy".toList, "Fiction".toList, "Fantasy".toList] ∧
    strings (extractDetails (parseOnly repeatedGenreText repeatedGenreJson)
        repeatedGenreIslandPage).genres
      = ["Fantasy".toList, "Fantasy".toList] := by
  decide

/-- C2 (amended): the genres list of the returned record contains no two
equal strings provided that no `bookGenres` list of the data island names the
same genre twice and no two genre label elements have the same trimmed text. -/
theorem genres_without_duplicates_of_distinct_sources (env : Env) (page : Page)
    (h : genreSourcesDistinct env page = true) :
    (strings (extractDetails env page).genres).Nodup := by
  simp only [genreSourcesDistinct, Bool.and_eq_true, List.all_eq_true, decide_eq_true_eq] at h
  apply extract_genres_nodup env page _ h.2
  intro content json items hnd hp hs item hitem bgs hbgs
  have hi : islandItems env page = items := by
    simp only [islandItems, hnd, hp, hs]
  have := h.1 item (by rw [hi]; exact hitem)
  rw [hbgs] at this
  simpa using this

/-- C2, witness: a data island that lists two different genres. -/
theorem genres_without_duplicates_of_distinct_sources_witness :
    (strings (extractDetails (parseOnly twoGenresText twoGenresJson) twoGenresPage).genres).Nodup :=
  genres_without_duplicates_of_distinct_sources (parseOnly twoGenresText twoGenresJson)
    twoGenresPage (by decide)

/-! ## Ratings (C3) -/

/-- C3: the ratings-count text `Ratings, all editions: 1,234` contains digits,
yet the `ratings` field of the record is the empty string: the first run of
`[\d,]` is the lone comma, and deleting the commas leaves nothing. -/
theorem ratings_empty_on_leading_comma :
    (extractDetails noJson commaRatingsPage).ratings = [] ∧
    ratingsOf ",".toList = [] ∧
    ratingsOf "1,234,567 ratings".toList = "1234567".toList := by
  decide


/-! ## Precedence of the data island (C4) -/

set_option maxRecDepth 10000 in
/-- C4, the stated claim fails: the data island supplies the publisher
`Ace Books` and the language `English` in a book record candidate, but an
earlier entry of the state map has a `null` in its `bookGenres` list; reading
it raises a `TypeError` that ends the structured parse before the candidate,
and the record takes `Workman` from the publication line and `French` from the
key-details section. -/
theorem island_values_lost_after_exception :
    (islandItems (parseOnly brokenFirstEntryText brokenFirstEntryJson)
        brokenFirstEntryPage).map suppliesPublisher = [false, true] ∧
    (islandItems (parseOnly brokenFirstEntryText brokenFirstEntryJson)
        brokenFirstEntryPage).map suppliesLanguage = [false, true] ∧
    (extractDetails (parseOnly brokenFirstEntryText brokenFirstEntryJson)
        brokenFirstEntryPage).publisher.isStr "Workman" = true ∧
    (extractDetails (parseOnly brokenFirstEntryText brokenFirstEntryJson)
        brokenFirstEntryPage).language.isStr "French" = true := by
  decide

/-- C4 (amended): if the structured parse of the data island visits a book
record candidate whose `details.publisher` (respectively
`details.language.name`) is truthy, no earlier entry of the state map is a
candidate with a truthy one, and no earlier entry can raise an exception (it
has neither a `null` in its `bookGenres` list nor a `details.numPages` whose
conversion to a string raises), then the publisher (respectively the
language) of the returned record is that value, whatever the publication-info
text, the publisher-labelled elements, the linked-data block and the
key-details and featured-details sections contain. -/
theorem island_value_takes_precedence (env : Env) (page : Page) (pre : List JVal) (c : JVal)
    (post : List JVal) (hitems : islandItems env page = pre ++ c :: post)
    (hpre : ∀ i ∈ pre, canRaise i = false) :
    (suppliesPublisher c = true → (∀ i ∈ pre, suppliesPublisher i = false) →
      (extractDetails env page).publisher = publisherOf c) ∧
    (suppliesLanguage c = true → (∀ i ∈ pre, suppliesLanguage i = false) →
      (extractDetails env page).language = languageOf c) := by
  obtain ⟨hp, hl⟩ := afterNextData_supplied env page pre c post hitems hpre
  constructor
  · intro h1 h2
    have h3 := hp h1 h2
    have ht : (afterNextData env page).publisher.truthy = true := by
      rw [h3]
      simp only [suppliesPublisher, Bool.and_eq_true] at h1
      exact h1.2
    rw [extract_publisher_sticky env page ht, h3]
  · intro h1 h2
    have h3 := hl h1 h2
    have ht : (afterNextData env page).language.truthy = true := by
      rw [h3]
      simp only [suppliesLanguage, Bool.and_eq_true] at h1
      exact h1.2
    rw [extract_language_sticky env page ht, h3]

set_option maxRecDepth 10000 in
/-- C4, witness: after a contributor entry the data island gives `Ace Books`
and `English`; the publication line names `Workman` and the key-details
section `French`. -/
theorem island_value_takes_precedence_witness :
    (extractDetails (parseOnly aceBooksText aceBooksJson) aceBooksPage).publisher
        = publisherOf aceBooksItem ∧
    (extractDetails (parseOnly aceBooksText aceBooksJson) aceBooksPage).language
        = languageOf aceBooksItem ∧
    (publisherOf aceBooksItem).isStr "Ace Books" = true ∧
    (languageOf aceBooksItem).isStr "English" = true :=
  ⟨(island_value_takes_precedence (parseOnly aceBooksText aceBooksJson) aceBooksPage
      [contributorItem] aceBooksItem [] rfl (by decide)).1 (by decide) (by decide),
   (island_value_takes_precedence (parseOnly aceBooksText aceBooksJson) aceBooksPage
      [contributorItem] aceBooksItem [] rfl (by decide)).2 (by decide) (by decide),
   by decide, by decide⟩

/-! ## Series: residual position markers (C5) -/

/-- C5: a series link `Foo (#1) (#1) #1` read by the italic-link fallback
yields the name `Foo  (#1)` with position `1`, and a key-details series link
`Foo (#1) (#1)` yields the name `Foo (#1)` with position `1`: in both records
the name ends with `(#` + position + `)`. -/
theorem series_name_keeps_residual_marker :
    (extractDetails noJson (italicSeriesPage "Foo (#1) (#1) #1")).seriesName
        = some "Foo  (#1)".toList ∧
    (extractDetails noJson (italicSeriesPage "Foo (#1) (#1) #1")).positionInSeries
        = some "1".toList ∧
    (extractDetails noJson (keySeriesPage "Foo (#1) (#1)")).seriesName
        = some "Foo (#1)".toList ∧
    (extractDetails noJson (keySeriesPage "Foo (#1) (#1)")).positionInSeries
        = some "1".toList := by
  decide


/-! ## Normalisation is not idempotent (C6) -/

/-- C6, the stated claim fails: normalising `("Foundation", "1,2")` gives the
position `1, 2`, and normalising that output gives `1,  2`; normalising
`("A 1 2", null)` gives `("A 1", "2")`, and normalising that gives
`("A", "2")`. -/
theorem normalizeSeries_not_idempotent :
    normalizeSeries (normalizeSeries (some "Foundation".toList, some "1,2".toList))
      ≠ normalizeSeries (some "Foundation".toList, some "1,2".toList) ∧
    normalizeSeries (normalizeSeries (some "A 1 2".toList, none))
      ≠ normalizeSeries (some "A 1 2".toList, none) := by
  decide

/-- C6 (amended): the normalisation pass leaves unchanged every pair whose
series name (if any) is trimmed, free of the ignore word and does not end in a
digit or one of `/ . , -`, and whose position (if any) has no comma. -/
theorem normalizeSeries_fixed_point (name pos : Option Str)
    (hname : ∀ n, name = some n → isCleanName n = true)
    (hpos : ∀ p, pos = some p → hasNoComma p = true) :
    normalizeSeries (name, pos) = (name, pos) := by
  cases name with
  | none => simpa [normalizeSeries, extractHashNumber, cleanSeriesName]
      using formatPosition_no_comma none pos hpos
  | some n =>
    rw [normalizeSeries, extractHashNumber_clean (hname n rfl),
      cleanSeriesName_clean (hname n rfl), formatPosition_no_comma _ _ hpos]

/-- C6, witness: a clean pair is a fixed point. -/
theorem normalizeSeries_fixed_point_witness :
    normalizeSeries (some "Foundation".toList, some "1".toList)
      = (some "Foundation".toList, some "1".toList) :=
  normalizeSeries_fixed_point (some "Foundation".toList) (some "1".toList)
    (fun n h => by cases h; decide) (fun p h => by cases h; decide)

/-! ## Series parsing by the key-details strategy (C7) -/

/-- C7, the stated claim fails: the series link `ভলিউম (#1)` is read by the
key-details strategy, its name is made of letters, and the record has the
empty string as `seriesName`, because the normalisation removes the word
`ভলিউম` from every series name. -/
theorem key_details_series_name_lost_to_ignore_word :
    isPlainName "ভলিউম".toList = true ∧
    keyDetailsReads noJson (keySeriesPage "ভলিউম (#1)") "ভলিউম (#1)".toList = true ∧
    (extractDetails noJson (keySeriesPage "ভলিউম (#1)")).seriesName = some [] ∧
    (extractDetails noJson (keySeriesPage "ভলিউম (#1)")).positionInSeries = some "1".toList := by
  decide

/-- C7 (amended): when the key-details strategy reads a series link whose text
is `N (#p)`, with `N` a non-empty name of letters separated by single spaces
that does not contain the ignore word `ভলিউম`, and `p` a non-empty string of
digits and dots, the record has `seriesName = N` and `positionInSeries = p`. -/
theorem key_details_series_name_and_position (env : Env) (page : Page) (n p : Str)
    (hn : isPlainName n = true) (hig : includes n ignoreWord = false) (hp : p ≠ [])
    (hpd : ∀ c ∈ p, isDigitDot c = true)
    (h : keyDetailsReads env page (n ++ " (#".toList ++ p ++ ")".toList) = true) :
    (extractDetails env page).seriesName = some n ∧
    (extractDetails env page).positionInSeries = some p := by
  have := series_paren_key_details hn hp hpd hig h
  exact ⟨congrArg Prod.fst this, congrArg Prod.snd this⟩

/-- C7, witness: `Discworld (#1)` gives `Discworld` and `1`. -/
theorem key_details_series_name_and_position_witness :
    (extractDetails noJson (keySeriesPage "Discworld (#1)")).seriesName
      = some "Discworld".toList ∧
    (extractDetails noJson (keySeriesPage "Discworld (#1)")).positionInSeries
      = some "1".toList :=
  key_details_series_name_and_position noJson (keySeriesPage "Discworld (#1)")
    "Discworld".toList "1".toList (by decide) (by decide) (by decide) (by decide) (by decide)

/-! ## Series: the fallback links (C8) -/

/-- C8: the series text `Discworld (#1)` found by a generic fallback link
(italic title link, featured-details link or `bookSeries` link) leaves the
whole text in `seriesName` and no `positionInSeries`, whereas the key-details
strategy splits the same text into `Discworld` and `1`. -/
theorem fallback_link_keeps_parenthesised_position :
    (extractDetails noJson (italicSeriesPage "Discworld (#1)")).seriesName
        = some "Discworld (#1)".toList ∧
    (extractDetails noJson (italicSeriesPage "Discworld (#1)")).positionInSeries = none ∧
    (extractDetails noJson (featuredSeriesPage "Discworld (#1)")).seriesName
        = some "Discworld (#1)".toList ∧
    (extractDetails noJson (featuredSeriesPage "Discworld (#1)")).positionInSeries = none ∧
    (extractDetails noJson (genericSeriesPage "Discworld (#1)")).seriesName
        = some "Discworld (#1)".toList ∧
    (extractDetails noJson (genericSeriesPage "Discworld (#1)")).positionInSeries = none ∧
    (extractDetails noJson (keySeriesPage "Discworld (#1)")).seriesName
        = some "Discworld".toList ∧
    (extractDetails noJson (keySeriesPage "Discworld (#1)")).positionInSeries
        = some "1".toList := by
  decide

/-! ## Series parsing of `name #position` by every strategy (C9) -/

/-- C9, the stated claim fails: the series text `ভলিউম #1,2`, read from a
`bookSeries` link or by the key-details strategy, has a name made of letters,
and the record has the empty string as `seriesName` (with the position
`1, 2`), because the normalisation removes the word `ভলিউম` from every series
name. -/
theorem hash_series_name_lost_to_ignore_word :
    isPlainName "ভলিউম".toList = true ∧
    fallbackReads noJson (genericSeriesPage "ভলিউম #1,2") "ভলিউম #1,2".toList = true ∧
    (extractDetails noJson (genericSeriesPage "ভলিউম #1,2")).seriesName = some [] ∧
    (extractDetails noJson (genericSeriesPage "ভলিউম #1,2")).positionInSeries
      = some "1, 2".toList ∧
    keyDetailsReads noJson (keySeriesPage "ভলিউম #1,2") "ভলিউম #1,2".toList = true ∧
    (extractDetails noJson (keySeriesPage "ভলিউম #1,2")).seriesName = some [] := by
  decide

/-- C9 (amended): whichever strategy reads it (key details, legacy `dt`/`dd`,
or one of the three fallback links), a series text `N #p`, with `N` a
non-empty name of letters separated by single spaces that does not contain the
ignore word `ভলিউম`, and `p` a non-empty text of digits and commas, yields
`seriesName = N` and `positionInSeries = p` with every `,` replaced by
`, `. -/
theorem hash_series_name_and_position (env : Env) (page : Page) (n p : Str)
    (hn : isPlainName n = true) (hig : includes n ignoreWord = false) (hp : p ≠ [])
    (hpd : ∀ c ∈ p, isDigitComma c = true)
    (h : keyDetailsReads env page (n ++ " #".toList ++ p) = true ∨
         legacyReads env page (n ++ " #".toList ++ p) = true ∨
         fallbackReads env page (n ++ " #".toList ++ p) = true) :
    (extractDetails env page).seriesName = some n ∧
    (extractDetails env page).positionInSeries = some (spaceCommas p) := by
  have := series_hash_all_paths hn hp hpd hig h
  exact ⟨congrArg Prod.fst this, congrArg Prod.snd this⟩

/-- C9, witness: `Foundation #1,2` read from a `bookSeries` link gives
`Foundation` and `1, 2`. -/
theorem hash_series_name_and_position_witness :
    (extractDetails noJson (genericSeriesPage "Foundation #1,2")).seriesName
      = some "Foundation".toList ∧
    (extractDetails noJson (genericSeriesPage "Foundation #1,2")).positionInSeries
      = some "1, 2".toList :=
  hash_series_name_and_position noJson (genericSeriesPage "Foundation #1,2")
    "Foundation".toList "1,2".toList (by decide) (by decide) (by decide) (by decide)
    (Or.inr (Or.inr (by decide)))

/-! ## Page counts (C10) -/

theorem keyDetailsPublisher_numberOfPages (label : Str) (it : KeyDetailsItem) (b : BookDetails) :
    (keyDetailsPublisher label it b).numberOfPages = b.numberOfPages := by
  unfold keyDetailsPublisher
  split <;> rfl

set_option maxRecDepth 100000 in
/-- C10, the stated claim fails for the featured-details paragraph: for the
`pagesFormat` text `2nd edition, 412 pages` the first digit run is `2` but the
page count becomes 412, and for the text `412` (a digit, but no word `pages`)
the page count stays unset.  It also fails for digit runs that no double
represents: the key-details text `9007199254740993 pages` gives the page count
9007199254740992. -/
theorem pagesFormat_is_not_first_digit_run :
    (extractDetails noJson (pagesFormatPage "2nd edition, 412 pages")).numberOfPages
        = some (JNum.int 412) ∧
    digitsVal (firstDigitRun (trim "2nd edition, 412 pages".toList)) = 2 ∧
    (extractDetails noJson (pagesFormatPage "412")).numberOfPages = none ∧
    (trim "412".toList).any isDigit = true ∧
    (extractDetails noJson
      { emptyPage with keyDetails := [pagesItem "9007199254740993 pages"] }).numberOfPages
        = some (JNum.int 9007199254740992) ∧
    digitsVal (firstDigitRun "9007199254740993 pages".toList) = 9007199254740993 := by
  decide

/-- C10 (amended): in the key-details `pages` branch and in the legacy
`dt`/`dd` `pages` entry, when `numberOfPages` is falsy and the value text has a
digit, `numberOfPages` becomes the Number value of the first maximal digit
run; in the featured-details `pagesFormat` paragraph, when `numberOfPages` is
falsy, it becomes the Number value of the first digit run directly followed by
optional white space and the word `pages`, and is unchanged when there is no
such run.  The Number value of an integer below 2^53 is that integer (above,
it is the nearest double); `412 pages` gives 412 in all three. -/
theorem page_count_of_each_strategy :
    (∀ (b : BookDetails) (it : KeyDetailsItem),
      includes (toLowerCase (trim it.label)) "pages".toList = true →
      numTruthy b.numberOfPages = false → it.value.any isDigit = true →
      (keyDetailsItem b it).numberOfPages
        = some (numberOf false (digitsVal (firstDigitRun it.value)))) ∧
    (∀ (b : BookDetails) (d : FeaturedDt),
      includes (toLowerCase (trim d.label)) "pages".toList = true →
      numTruthy b.numberOfPages = false → (trim d.detailText).any isDigit = true →
      (legacyDt b d).numberOfPages
        = some (numberOf false (digitsVal (firstDigitRun (trim d.detailText))))) ∧
    (∀ (b : BookDetails) (p : FeaturedParagraph),
      p.testId = "pagesFormat".toList → numTruthy b.numberOfPages = false →
      (featuredParagraph b p).numberOfPages
        = match firstPagesRun (trim p.text) with
          | some run => some (numberOf false (digitsVal run))
          | none => b.numberOfPages) ∧
    (∀ n : Nat, n < 2 ^ 53 → numberOf false n = JNum.int (n : Int)) ∧
    digitsVal (firstDigitRun "412 pages".toList) = 412 ∧
    (firstPagesRun "412 pages".toList).map digitsVal = some 412 := by
  refine ⟨?_, ?_, ?_, fun n hn => numberOf_exact hn, by decide, by decide⟩
  · intro b it hl hu hd
    unfold keyDetailsItem
    rw [keyDetailsPublisher_numberOfPages]
    unfold keyDetailsChain
    simp only [hl, hu, Bool.not_false, Bool.and_self, if_true]
    exact readPages_of_digit _ _ hd
  · intro b d hl hu hd
    unfold legacyDt
    simp only [hl, hu, Bool.not_false, Bool.and_self, if_true]
    exact readPages_of_digit _ _ hd
  · intro b p hid hu
    exact featuredParagraph_pages b p hid hu

/-- C10, witness: the three strategies on the text `412 pages`. -/
theorem page_count_of_each_strategy_witness :
    (keyDetailsItem initialDetails (pagesItem "412 pages")).numberOfPages = some (JNum.int 412) ∧
    (legacyDt initialDetails (pagesDt "412 pages")).numberOfPages = some (JNum.int 412) ∧
    (featuredParagraph initialDetails
      { testId := "pagesFormat".toList, text := "412 pages".toList }).numberOfPages
        = some (JNum.int 412) ∧
    numberOf false 412 = JNum.int 412 :=
  ⟨(page_count_of_each_strategy.1 initialDetails (pagesItem "412 pages")
      (by decide) (by decide) (by decide)).trans (by decide),
   (page_count_of_each_strategy.2.1 initialDetails (pagesDt "412 pages")
      (by decide) (by decide) (by decide)).trans (by decide),
   (page_count_of_each_strategy.2.2.1 initialDetails
      { testId := "pagesFormat".toList, text := "412 pages".toList }
      (by decide) (by decide)).trans (by decide),
   page_count_of_each_strategy.2.2.2.1 412 (by decide)⟩

/-! ## Average rating (C11) -/

theorem avgRatingMatch_eq (text : Str) :
    avgRatingMatch text = (search decimalPrefix text).map (fun r => r.2) := by
  unfold avgRatingMatch
  have : (digits12 (fun a r => lit ".".toList (digits12 (fun b _ => some (a ++ '.' :: b))) r))
      = decimalPrefix := funext decimalAt_eq
  rw [this]

theorem isDecimal_ne_nil {m : Str} (h : isDecimal m = true) : m ≠ [] := by
  intro e
  rw [e] at h
  cases h

theorem avgRatingMatch_some {text pre m : Str} (h : search decimalPrefix text = some (pre, m)) :
    IsLeftmostDecimal text pre m := by
  obtain ⟨t, e, hok, hfail⟩ := search_some decimalPrefix text pre m h
  obtain ⟨⟨post, et⟩, hd, hlong⟩ := decimalPrefix_some hok
  refine ⟨⟨post, by rw [e, et, List.append_assoc]⟩, hd, ?_⟩
  intro pre2 m2 post2 e2 hd2
  rw [e, List.append_assoc] at e2
  rcases List.append_eq_append_iff.1 e2 with ⟨a, ha, hb⟩ | ⟨c, hc, hb⟩
  · -- `pre2 = pre ++ a`
    cases a with
    | nil =>
      right
      simp only [List.append_nil] at ha
      simp only [List.nil_append] at hb
      exact ⟨by rw [ha], hlong m2 post2 hb hd2⟩
    | cons x xs =>
      left
      rw [ha, List.length_append, List.length_cons]
      omega
  · -- `pre = pre2 ++ c`
    cases c with
    | nil =>
      right
      simp only [List.append_nil] at hc
      simp only [List.nil_append] at hb
      exact ⟨by rw [hc], hlong m2 post2 hb.symm hd2⟩
    | cons x xs =>
      exfalso
      have h1 := hfail pre2 x xs hc
      have h2 := decimalPrefix_none h1 m2 post2 (by rw [← hb])
      rw [hd2] at h2
      cases h2

/-- C11: if the raw rating text contains a text of the form one or two
digits, a dot, one or two digits, `averageRating` is the leftmost match of
that form (the longest one starting there); otherwise it is the raw trimmed
text. -/
theorem average_rating_is_leftmost_decimal (env : Env) (page : Page) :
    ((∃ pre m post, ratingText page = pre ++ m ++ post ∧ isDecimal m = true) →
      ∃ pre m, IsLeftmostDecimal (ratingText page) pre m ∧
        (extractDetails env page).averageRating = some m) ∧
    ((¬ ∃ pre m post, ratingText page = pre ++ m ++ post ∧ isDecimal m = true) →
      (extractDetails env page).averageRating = some (ratingText page)) := by
  have e5 := (extract_single_fields env page).2.2.2.2
  have hav : averageRatingOf page.ratingStatistic page.ratingValue
      = (match truthyGroup (avgRatingMatch (ratingText page)) with
         | some m => m
         | none => ratingText page) := rfl
  rw [e5, hav, avgRatingMatch_eq]
  cases hs : search decimalPrefix (ratingText page) with
  | none =>
    have hnone := search_eq_none decimalPrefix _ hs
    constructor
    · rintro ⟨pre, m, post, e, hd⟩
      have h1 := decimalPrefix_none (hnone pre (m ++ post) (by rw [e, List.append_assoc])) m post rfl
      rw [hd] at h1
      cases h1
    · intro _
      rfl
  | some r =>
    obtain ⟨pre, m⟩ := r
    have hl := avgRatingMatch_some hs
    have hm : truthyGroup (some m) = some m := truthyGroup_of_ne_nil (isDecimal_ne_nil hl.2.1)
    constructor
    · intro _
      refine ⟨pre, m, hl, ?_⟩
      simp only [Option.map_some', hm]
    · intro hno
      obtain ⟨⟨post, e⟩, hd, _⟩ := hl
      exact absurd ⟨pre, m, post, e, hd⟩ hno

set_option maxRecDepth 10000 in
/-- C11, witness: the rating text `Average rating 4.14 ·` gives `4.14`, and a
rating text without a decimal number is kept. -/
theorem average_rating_is_leftmost_decimal_witness :
    (∃ pre m, IsLeftmostDecimal (ratingText averageRatingPage) pre m ∧
      (extractDetails noJson averageRatingPage).averageRating = some m) ∧
    (extractDetails noJson averageRatingPage).averageRating = some "4.14".toList ∧
    (extractDetails noJson emptyPage).averageRating = some (ratingText emptyPage) :=
  ⟨(average_rating_is_leftmost_decimal noJson averageRatingPage).1
      ⟨"Average rating ".toList, "4.14".toList, " ·".toList, by decide, by decide⟩,
   by decide,
   (average_rating_is_leftmost_decimal noJson emptyPage).2 (by
      rintro ⟨pre, m, post, e, hd⟩
      have h0 : ratingText emptyPage = [] := by decide
      rw [h0] at e
      have : m = [] := by
        have := congrArg List.length e
        simp only [List.length_nil, List.length_append] at this
        exact List.length_eq_zero.1 (by omega)
      rw [this] at hd
      cases hd)⟩

/-! ## Title, authors and ratings count end to end (C12) -/

/-- C12: for a page with a title element, author-name elements of which at
least one has a non-empty trimmed text, and a ratings-count text made of a
group of digits and commas followed by ` ratings`, the record has the trimmed
title as `bookName`, the non-empty trimmed author texts in document order
without their later repeats as `authors`, and the group without its commas as
`ratings`. -/
theorem title_authors_ratings_end_to_end (env : Env) (page : Page) (g : Str)
    (hauthors : authorTexts page ≠ []) (hg : isDigitGroup g = true)
    (hratings : page.ratingsCount = g ++ " ratings".toList) :
    (extractDetails env page).bookName = some (trim page.title) ∧
    (extractDetails env page).authors = (withoutRepeats (authorTexts page)).map JVal.str ∧
    (extractDetails env page).ratings = removeCommas g := by
  obtain ⟨e1, _, _, e4, _⟩ := extract_single_fields env page
  refine ⟨e1, extract_authors_of_elements env page hauthors, ?_⟩
  rw [e4, hratings]
  unfold ratingsOf
  have ht : trim (g ++ " ratings".toList) = g ++ " ratings".toList :=
    trim_group_ratings hg "ratings".toList (by decide)
  have hm : ratingsMatch (g ++ " ratings".toList) = some g := ratingsMatch_group hg "ratings".toList
  rw [ht, hm]

set_option maxRecDepth 10000 in
/-- C12, witness: the scenario of the specification. -/
theorem title_authors_ratings_end_to_end_witness :
    (extractDetails noJson goodOmensPage).bookName = some (trim goodOmensPage.title) ∧
    (extractDetails noJson goodOmensPage).authors
      = (withoutRepeats (authorTexts goodOmensPage)).map JVal.str ∧
    (extractDetails noJson goodOmensPage).ratings = removeCommas "1,234,567".toList ∧
    trim goodOmensPage.title = "Good Omens".toList ∧
    withoutRepeats (authorTexts goodOmensPage)
      = ["Terry Pratchett".toList, "Neil Gaiman".toList] ∧
    removeCommas "1,234,567".toList = "1234567".toList :=
  ⟨(title_authors_ratings_end_to_end noJson goodOmensPage "1,234,567".toList (by decide)
      (by decide) (by decide)).1,
   (title_authors_ratings_end_to_end noJson goodOmensPage "1,234,567".toList (by decide)
      (by decide) (by decide)).2.1,
   (title_authors_ratings_end_to_end noJson goodOmensPage "1,234,567".toList (by decide)
      (by decide) (by decide)).2.2,
   by decide, by decide, by decide⟩

/-! ## Pages without series markup (C13) -/

theorem keyDetails_fold_no_link (items : List KeyDetailsItem) :
    ∀ b, (∀ it ∈ items, it.seriesAnchor = none) →
      seriesOf (items.foldl keyDetailsItem b) = seriesOf b := by
  induction items with
  | nil => intro b _; rfl
  | cons it rest ih =>
    intro b h
    rw [List.foldl_cons, ih _ (fun x hx => h x (List.mem_cons_of_mem _ hx))]
    rcases keyDetailsItem_series b it with h1 | ⟨_, t, ht, _⟩
    · exact h1
    · rw [h it (List.mem_cons_self _ _)] at ht; cases ht

theorem legacy_fold_no_link (dts : List FeaturedDt) :
    ∀ b, (∀ d ∈ dts, d.seriesAnchor = none) →
      seriesOf (dts.foldl legacyDt b) = seriesOf b := by
  induction dts with
  | nil => intro b _; rfl
  | cons d rest ih =>
    intro b h
    rw [List.foldl_cons, ih _ (fun x hx => h x (List.mem_cons_of_mem _ hx))]
    rcases legacyDt_series b d with h1 | ⟨_, _, t, ht, _⟩
    · exact h1
    · rw [h d (List.mem_cons_self _ _)] at ht; cases ht

theorem keyDetailsPass_no_link (page : Page) (b : BookDetails)
    (h : ∀ it ∈ page.keyDetails, it.seriesAnchor = none) :
    seriesOf (keyDetailsPass page b) = seriesOf b := by
  unfold keyDetailsPass
  split
  · exact keyDetails_fold_no_link _ _ h
  · rfl

theorem featuredPass_no_link (page : Page) (b : BookDetails)
    (h : ∀ fd, page.featuredDetails = some fd → ∀ d ∈ fd.dts, d.seriesAnchor = none) :
    seriesOf (featuredPass page b) = seriesOf b := by
  unfold featuredPass
  cases hfd : page.featuredDetails with
  | none => rfl
  | some fd =>
    have hp : seriesOf (List.foldl featuredParagraph b fd.paragraphs) = seriesOf b :=
      seriesOf_eq_of_fields (by simp) (by simp)
    dsimp only
    split
    · unfold legacyPass
      split
      · rw [legacy_fold_no_link _ _ (h fd hfd), hp]
      · exact hp
    · rfl

theorem seriesFallback_no_link (page : Page) (b : BookDetails)
    (h1 : page.seriesItalicLink = none) (h2 : page.seriesFeaturedLink = none)
    (h3 : page.seriesGenericLink = none) (hb : seriesOf b = (none, none)) :
    seriesOf (seriesFallback page b) = (none, none) := by
  have hn : b.seriesName = none := congrArg Prod.fst hb
  have hp : b.positionInSeries = none := congrArg Prod.snd hb
  simp [seriesFallback, seriesTry, residualCleanup, h1, h2, h3, hn, hp, seriesOf, strTruthy]

theorem noSeriesLink_spec {page : Page} (h : noSeriesLink page = true) :
    (∀ it ∈ page.keyDetails, it.seriesAnchor = none) ∧
    (∀ fd, page.featuredDetails = some fd → ∀ d ∈ fd.dts, d.seriesAnchor = none) ∧
    page.seriesItalicLink = none ∧ page.seriesFeaturedLink = none ∧
    page.seriesGenericLink = none := by
  simp only [noSeriesLink, Bool.and_eq_true, List.all_eq_true, Option.isNone_iff_eq_none] at h
  obtain ⟨⟨⟨⟨h1, h2⟩, h3⟩, h4⟩, h5⟩ := h
  refine ⟨h1, ?_, h3, h4, h5⟩
  intro fd hfd
  rw [hfd] at h2
  simpa only [List.all_eq_true, Option.isNone_iff_eq_none] using h2

/-- C13: for every page without a link whose target contains `/series/`, and
whatever its other contents and the behaviour of `JSON.parse`, the record has
`seriesName = null` and `positionInSeries = null`. -/
theorem no_series_markup_leaves_series_unset (env : Env) (page : Page)
    (h : noSeriesLink page = true) :
    (extractDetails env page).seriesName = none ∧
    (extractDetails env page).positionInSeries = none := by
  obtain ⟨h1, h2, h3, h4, h5⟩ := noSeriesLink_spec h
  have hb : seriesOf (beforeNormalize env page) = (none, none) := by
    unfold beforeNormalize
    apply seriesFallback_no_link _ _ h3 h4 h5
    rw [featuredPass_no_link _ _ h2, keyDetailsPass_no_link _ _ h1, beforeKeyDetails_series]
  have he : seriesOf (extractDetails env page) = (none, none) := by
    unfold extractDetails
    rw [normalizePass_series, hb]
    rfl
  exact ⟨congrArg Prod.fst he, congrArg Prod.snd he⟩

set_option maxRecDepth 10000 in
/-- C13, witness: a page with a title, an author, a character, a publication
line, a linked-data block and details sections, but no series link. -/
theorem no_series_markup_leaves_series_unset_witness :
    noSeriesLink noSeriesPage = true ∧
    (extractDetails (parseOnly linkedDataText linkedDataJson) noSeriesPage).seriesName = none ∧
    (extractDetails (parseOnly linkedDataText linkedDataJson) noSeriesPage).positionInSeries
      = none :=
  ⟨by decide,
   no_series_markup_leaves_series_unset (parseOnly linkedDataText linkedDataJson) noSeriesPage
     (by decide)⟩

/-! ## Missing text elements (C14) -/

/-- C14, the stated claim fails: on the page where every query finds nothing,
the four fields are the empty string, not `null`. -/
theorem missing_elements_give_empty_strings :
    lacksTextElements emptyPage = true ∧
    (extractDetails noJson emptyPage).bookName = some [] ∧
    (extractDetails noJson emptyPage).bookSummary = some [] ∧
    (extractDetails noJson emptyPage).publicationDate = some [] ∧
    (extractDetails noJson emptyPage).averageRating = some [] ∧
    (extractDetails noJson emptyPage).bookName ≠ none ∧
    (extractDetails noJson emptyPage).bookSummary ≠ none ∧
    (extractDetails noJson emptyPage).publicationDate ≠ none ∧
    (extractDetails noJson emptyPage).averageRating ≠ none := by
  decide

/-- C14 (amended): for every page on which the title element, the description
container, the publication-info element and both rating elements are missing,
the record has `bookName`, `bookSummary`, `publicationDate` and
`averageRating` set to the empty string. -/
theorem missing_elements_leave_empty_text (env : Env) (page : Page)
    (h : lacksTextElements page = true) :
    (extractDetails env page).bookName = some [] ∧
    (extractDetails env page).bookSummary = some [] ∧
    (extractDetails env page).publicationDate = some [] ∧
    (extractDetails env page).averageRating = some [] := by
  simp only [lacksTextElements, Bool.and_eq_true, List.isEmpty_iff,
    Option.isNone_iff_eq_none] at h
  obtain ⟨⟨⟨⟨h1, h2⟩, h3⟩, h4⟩, h5⟩ := h
  obtain ⟨e1, e2, e3, _, e5⟩ := extract_single_fields env page
  refine ⟨?_, ?_, ?_, ?_⟩
  · rw [e1, h1]; rfl
  · rw [e2]; simp [summaryOf, h2]
  · rw [e3]; exact publicationInfoStep_of_empty _ _ h3
  · rw [e5, h4, h5]; decide

set_option maxRecDepth 10000 in
/-- C14, witness: a page with authors, characters and a key-details item but
none of the five text elements. -/
theorem missing_elements_leave_empty_text_witness :
    lacksTextElements charactersPage = true ∧
    (extractDetails noJson charactersPage).bookName = some [] ∧
    (extractDetails noJson charactersPage).bookSummary = some [] ∧
    (extractDetails noJson charactersPage).publicationDate = some [] ∧
    (extractDetails noJson charactersPage).averageRating = some [] :=
  ⟨by decide, missing_elements_leave_empty_text noJson charactersPage (by decide)⟩

/-! ## Transport failures and the command line (C15, C16) -/

/-- C15: when the fetch fails (`axios.get` rejects: network error or a status
outside 2xx), `scrapeGoodreads` resolves to `null`; when the fetch succeeds and
parsing raises nothing (`cheerio.load` returns a document; every later
exception is caught where it is raised), it resolves to the record extracted
from the page, which is not `null`; when the fetch succeeds and `cheerio.load`
raises, it resolves to `null`.  The result is a value in every case: nothing
is raised to the caller. -/
theorem scrapeGoodreads_null_exactly_on_failed_fetch (env : Env) (fetch : Str → Option Str)
    (load : Str → Option Page) (url : Str) :
    (fetch url = none → scrapeGoodreads env fetch load url = none) ∧
    (∀ data page, fetch url = some data → load data = some page →
      scrapeGoodreads env fetch load url = some (extractDetails env page) ∧
      scrapeGoodreads env fetch load url ≠ none) ∧
    (∀ data, fetch url = some data → load data = none →
      scrapeGoodreads env fetch load url = none) := by
  refine ⟨?_, ?_, ?_⟩
  · intro h
    simp [scrapeGoodreads, h]
  · intro data page h hl
    simp [scrapeGoodreads, h, hl]
  · intro data h hl
    simp [scrapeGoodreads, h, hl]

/-- C15, witness: a fetch that answers 404 for every URL, one that returns an
empty document, and one whose body `cheerio.load` rejects. -/
theorem scrapeGoodreads_null_exactly_on_failed_fetch_witness :
    scrapeGoodreads noJson (fun _ => none) (fun _ => some emptyPage) goodOmensUrl = none ∧
    (scrapeGoodreads noJson (fun _ => some []) (fun _ => some emptyPage) goodOmensUrl
      = some (extractDetails noJson emptyPage) ∧
     scrapeGoodreads noJson (fun _ => some []) (fun _ => some emptyPage) goodOmensUrl ≠ none) ∧
    scrapeGoodreads noJson (fun _ => some "42".toList) (fun _ => none) goodOmensUrl = none :=
  ⟨(scrapeGoodreads_null_exactly_on_failed_fetch noJson (fun _ => none)
      (fun _ => some emptyPage) goodOmensUrl).1 rfl,
   (scrapeGoodreads_null_exactly_on_failed_fetch noJson (fun _ => some [])
      (fun _ => some emptyPage) goodOmensUrl).2.1 [] emptyPage rfl rfl,
   (scrapeGoodreads_null_exactly_on_failed_fetch noJson (fun _ => some "42".toList)
      (fun _ => none) goodOmensUrl).2.2 "42".toList rfl rfl⟩

/-- C16, at the failing input: with a well-formed URL and a fetch that fails,
`main` prints the text `null` as the record and the success message, and the
process ends with code 0; the `catch` block of `main` is not entered.  A
missing argument and an argument of another form end the process with
code 1. -/
theorem main_exits_zero_after_failed_fetch (env : Env) (load : Str → Option Page) :
    urlMatches goodOmensUrl = true ∧
    scrapeGoodreads env (fun _ => none) load goodOmensUrl = none ∧
    main env (fun _ => none) load (some goodOmensUrl) =
      { output := [Output.scraping goodOmensUrl, Output.record none, Output.completed],
        exitCode := 0 } ∧
    (main env (fun _ => none) load (some goodOmensUrl)).exitCode = 0 ∧
    (main env (fun _ => none) load none).exitCode = 1 ∧
    (main env (fun _ => none) load (some "goodreads.com/book/show/12067".toList)).exitCode = 1 :=
  ⟨by decide, rfl, rfl, rfl, rfl, rfl⟩

/-! ## A data island that is not valid JSON (C17) -/

set_option maxRecDepth 10000 in
/-- C17, the stated claim fails: the text of the data island is cut off, so
it is not valid JSON, but the regular-expression scan still takes the
character `Crowley` from it.  A legacy `dt` labelled
`Characters and publisher` is then read as a publisher entry, and the record
has the publisher `Ace Books`; without the island the same entry is read as a
(linkless) characters entry and the publisher stays unset. -/
theorem invalid_island_changes_publisher :
    (noJson.jsonParse truncatedIslandText.toList).isNone = true ∧
    strings (extractDetails noJson truncatedIslandPage).characters = ["Crowley".toList] ∧
    (extractDetails noJson truncatedIslandPage).publisher.isStr "Ace Books" = true ∧
    (extractDetails noJson (withoutIsland truncatedIslandPage)).publisher.truthy = false := by
  decide

/-- C17 (amended): for every page whose data-island text is not valid JSON,
`scrapeGoodreads` returns a record, and its language, page count and genres
are those of the record of the same page without the island; so is its
publisher when no `dt` label of the featured-details container mentions both
`characters` and `publisher`. -/
theorem invalid_island_is_skipped (env : Env) (fetch : Str → Option Str)
    (load : Str → Option Page) (url data content : Str) (page : Page)
    (hfetch : fetch url = some data) (hload : load data = some page)
    (hc : page.nextData = some content) (hj : env.jsonParse content = none) :
    ∃ b, scrapeGoodreads env fetch load url = some b ∧
      b.language = (extractDetails env (withoutIsland page)).language ∧
      b.numberOfPages = (extractDetails env (withoutIsland page)).numberOfPages ∧
      b.genres = (extractDetails env (withoutIsland page)).genres ∧
      (noCharacterPublisherLabel page = true →
        b.publisher = (extractDetails env (withoutIsland page)).publisher) := by
  refine ⟨extractDetails env page, by simp [scrapeGoodreads, hfetch, hload], ?_⟩
  obtain ⟨h1, h2, h3⟩ := extract_invalid_island_fields env page content hc hj
  exact ⟨h1, h2, h3, fun hl => (extract_invalid_island env page content hc hj hl).1⟩

set_option maxRecDepth 10000 in
/-- C17, witness: a page with a truncated data island, a publication line, a
linked-data block and details sections, none of whose `dt` labels mentions
both `characters` and `publisher`. -/
theorem invalid_island_is_skipped_witness :
    noCharacterPublisherLabel truncatedIslandBook = true ∧
    ∃ b, scrapeGoodreads (parseOnly linkedDataText linkedDataJson) (fun _ => some [])
        (fun _ => some truncatedIslandBook) goodOmensUrl = some b ∧
      b.language = (extractDetails (parseOnly linkedDataText linkedDataJson)
        (withoutIsland truncatedIslandBook)).language ∧
      b.numberOfPages = (extractDetails (parseOnly linkedDataText linkedDataJson)
        (withoutIsland truncatedIslandBook)).numberOfPages ∧
      b.genres = (extractDetails (parseOnly linkedDataText linkedDataJson)
        (withoutIsland truncatedIslandBook)).genres ∧
      (noCharacterPublisherLabel truncatedIslandBook = true →
        b.publisher = (extractDetails (parseOnly linkedDataText linkedDataJson)
          (withoutIsland truncatedIslandBook)).publisher) :=
  ⟨by decide,
   invalid_island_is_skipped (parseOnly linkedDataText linkedDataJson) (fun _ => some [])
    (fun _ => some truncatedIslandBook) goodOmensUrl [] truncatedIslandText.toList
    truncatedIslandBook rfl rfl rfl (Option.isNone_iff_eq_none.1 (by decide))⟩

/-! ## Nested character lists of the data island (C18) -/

theorem sameValueZero_eq {a b : JVal} (h : JVal.sameValueZero a b = true) : a = b := by
  cases a <;> cases b <;> simp_all [JVal.sameValueZero]

theorem mem_of_includesVal {xs : List JVal} {v : JVal} (h : includesVal xs v = true) : v ∈ xs := by
  simp only [includesVal, List.any_eq_true] at h
  obtain ⟨x, hx, hs⟩ := h
  rw [← sameValueZero_eq hs]
  exact hx

theorem addItemCharacter_mem (b : BookDetails) (char : JVal) :
    (∀ v ∈ b.characters, v ∈ (addItemCharacter b char).characters) ∧
    (∀ v ∈ nestedNames [char], v ∈ (addItemCharacter b char).characters) ∧
    (∀ v ∈ (addItemCharacter b char).characters, v ∈ b.characters ∨ v ∈ nestedNames [char]) := by
  unfold addItemCharacter
  by_cases h1 : (char.truthy && (char.prop "name").truthy) = true
  · have hn : nestedNames [char] = [char.prop "name"] := by simp [nestedNames, h1]
    rw [hn]
    by_cases h2 : includesVal b.characters (char.prop "name") = true
    · have hc : ¬ (char.truthy && (char.prop "name").truthy
          && !includesVal b.characters (char.prop "name")) = true := by simp [h2]
      rw [if_neg hc]
      refine ⟨fun v hv => hv, ?_, fun v hv => Or.inl hv⟩
      intro v hv
      rw [List.mem_singleton.1 hv]
      exact mem_of_includesVal h2
    · have hc : (char.truthy && (char.prop "name").truthy
          && !includesVal b.characters (char.prop "name")) = true := by simp [h1, h2]
      rw [if_pos hc]
      simp only [List.mem_append, List.mem_singleton]
      exact ⟨fun v hv => Or.inl hv, fun v hv => Or.inr hv, fun v hv => hv⟩
  · have hn : nestedNames [char] = [] := by simp [nestedNames, h1]
    have hc : ¬ (char.truthy && (char.prop "name").truthy
        && !includesVal b.characters (char.prop "name")) = true := by
      simp only [Bool.and_eq_true, not_and] at h1 ⊢
      intro h
      exact absurd (h1 h.1) (by simp [h.2])
    rw [hn, if_neg hc]
    exact ⟨fun v hv => hv, fun v hv => absurd hv (List.not_mem_nil _), fun v hv => Or.inl hv⟩

theorem nestedNames_cons (char : JVal) (rest : List JVal) :
    nestedNames (char :: rest) = nestedNames [char] ++ nestedNames rest := by
  simp only [nestedNames, List.filter_cons, List.filter_nil]
  split <;> simp

theorem foldl_addItemCharacter_mem (chars : List JVal) :
    ∀ b : BookDetails,
      (∀ v ∈ b.characters, v ∈ (chars.foldl addItemCharacter b).characters) ∧
      (∀ v ∈ nestedNames chars, v ∈ (chars.foldl addItemCharacter b).characters) ∧
      (∀ v ∈ (chars.foldl addItemCharacter b).characters,
        v ∈ b.characters ∨ v ∈ nestedNames chars) := by
  induction chars with
  | nil =>
    intro b
    exact ⟨fun v hv => hv, fun v hv => absurd hv (by simp [nestedNames]), fun v hv => Or.inl hv⟩
  | cons char rest ih =>
    intro b
    obtain ⟨s1, s2, s3⟩ := addItemCharacter_mem b char
    obtain ⟨r1, r2, r3⟩ := ih (addItemCharacter b char)
    rw [List.foldl_cons, nestedNames_cons]
    refine ⟨fun v hv => r1 v (s1 v hv), ?_, ?_⟩
    · intro v hv
      rcases List.mem_append.1 hv with h | h
      · exact r1 v (s2 v h)
      · exact r2 v h
    · intro v hv
      rcases r3 v hv with h | h
      · rcases s3 v h with h' | h'
        · exact Or.inl h'
        · exact Or.inr (List.mem_append.2 (Or.inl h'))
      · exact Or.inr (List.mem_append.2 (Or.inr h))

set_option maxRecDepth 10000 in
/-- C18, the stated claim fails: the anchor harvest has produced the character
`Crowley`, the regular-expression scan of the island text finds no name, and
the structured parse still appends `Aziraphale` from the nested character list
of the book record. -/
theorem nested_characters_added_to_non_empty_list :
    strings (charactersSection nestedCharactersPage
      (directCharacters nestedCharactersPage initialDetails)).characters = ["Crowley".toList] ∧
    regexCharacterNames nestedCharactersText.toList = [] ∧
    strings (afterNextData (parseOnly nestedCharactersText nestedCharactersJson)
      nestedCharactersPage).characters = ["Crowley".toList, "Aziraphale".toList] ∧
    strings (extractDetails (parseOnly nestedCharactersText nestedCharactersJson)
      nestedCharactersPage).characters = ["Crowley".toList, "Aziraphale".toList] := by
  decide

/-- C18 (amended): in the structured parse, for a book record candidate whose
nested character list is `chars` and whose processing raises no exception
(no `null` in its genre list, no page count whose conversion to a string
raises), the characters of the record after the entry are the characters
before it followed by appended entries; every name offered by the nested list
(truthy element, truthy name) is in the list afterwards, every entry of the
list afterwards was there before or is such a name, and a list without
duplicates stays without duplicates: a name is appended exactly when the list
does not contain it yet, whether or not the list is empty. -/
theorem nested_characters_appended_unless_present (b : BookDetails) (item : JVal)
    (chars : List JVal) (hobj : item.isObject = true) (hcand : isCandidate item = true)
    (hok : (processItem b item).2 = false)
    (hchars : (item.prop "details").prop "characters" = JVal.arr chars) :
    extendsDistinct b.characters (processItem b item).1.characters ∧
    (∀ v ∈ nestedNames chars, v ∈ (processItem b item).1.characters) ∧
    (∀ v ∈ (processItem b item).1.characters, v ∈ b.characters ∨ v ∈ nestedNames chars) := by
  refine ⟨processItem_grows b item, ?_⟩
  have hd := isCandidate_details hcand
  have hstep : ∀ x : BookDetails, itemCharacters item x = chars.foldl addItemCharacter x := by
    intro x
    simp [itemCharacters, hd, hchars]
  have hp2 : (itemPages item (itemLanguage item (itemPublisher item b))).2 = false := by
    have hthrow := hok
    unfold processItem at hthrow
    simp only [hobj, hcand, Bool.and_self, if_true] at hthrow
    by_cases h : (itemPages item (itemLanguage item (itemPublisher item b))).2 = true
    · rw [if_pos h] at hthrow
      exact hthrow
    · simpa using h
  have hr2 : (itemGenres item (itemPages item (itemLanguage item
      (itemPublisher item b))).1).2 = false := by
    have hthrow := hok
    unfold processItem at hthrow
    simp only [hobj, hcand, Bool.and_self, if_true, hp2, Bool.false_eq_true, if_false] at hthrow
    by_cases h : (itemGenres item (itemPages item (itemLanguage item
        (itemPublisher item b))).1).2 = true
    · rw [if_pos h] at hthrow
      exact hthrow
    · simpa using h
  have hres : (processItem b item).1 = chars.foldl addItemCharacter
      (itemGenres item (itemPages item (itemLanguage item (itemPublisher item b))).1).1 := by
    unfold processItem
    simp only [hobj, hcand, Bool.and_self, if_true, hp2, hr2, Bool.false_eq_true, if_false]
    exact hstep _
  have hb : (itemGenres item (itemPages item (itemLanguage item
      (itemPublisher item b))).1).1.characters = b.characters := by simp
  obtain ⟨_, r2, r3⟩ := foldl_addItemCharacter_mem chars
    (itemGenres item (itemPages item (itemLanguage item (itemPublisher item b))).1).1
  rw [hres]
  refine ⟨r2, ?_⟩
  intro v hv
  rcases r3 v hv with h | h
  · exact Or.inl (hb ▸ h)
  · exact Or.inr h

set_option maxRecDepth 10000 in
/-- C18, witness: the book record of `nestedCharactersText` met with the
character `Crowley` already in the list. -/
theorem nested_characters_appended_unless_present_witness :
    extendsDistinct [jstr "Crowley"]
      (processItem { characters := [jstr "Crowley"] } nestedCharactersItem).1.characters ∧
    (∀ v ∈ nestedNames nestedCharacterList,
      v ∈ (processItem { characters := [jstr "Crowley"] } nestedCharactersItem).1.characters) ∧
    (∀ v ∈ (processItem { characters := [jstr "Crowley"] } nestedCharactersItem).1.characters,
      v ∈ [jstr "Crowley"] ∨ v ∈ nestedNames nestedCharacterList) :=
  nested_characters_appended_unless_present { characters := [jstr "Crowley"] }
    nestedCharactersItem nestedCharacterList (by decide) (by decide) (by decide) rfl

/-! ## Publication date and publisher from the publication line (C19) -/

set_option maxRecDepth 10000 in
/-- C19, the stated claim fails: the publication line is split at every
`by` standing between white space and only the first two parts are used.  For
the publisher `Books by Design` the record has the publisher `Books`; for the
date text `Stand by` (which does not contain ` by `) the record has the date
`Stand` and the publisher `by Me`. -/
theorem publication_line_split_at_every_by :
    (extractDetails noJson (publicationPage "Published 2000 by Books by Design")).publicationDate
      = some "2000".toList ∧
    (extractDetails noJson (publicationPage "Published 2000 by Books by Design")).publisher.isStr
      "Books" = true ∧
    (extractDetails noJson (publicationPage "Published 2000 by Books by Design")).publisher.isStr
      "Books by Design" = false ∧
    includes "Stand by".toList " by ".toList = false ∧
    (extractDetails noJson (publicationPage "Published Stand by by Me")).publicationDate
      = some "Stand".toList ∧
    (extractDetails noJson (publicationPage "Published Stand by by Me")).publisher.isStr
      "by Me" = true := by
  decide

/-- C19 (amended): for every publication-info text
`"Published " + D + " by " + P` where `D` and `P` are one-line texts that
start and end with a character that is not white space and do not contain the
word `by` after white space, and the publisher is not already set by the data
island, the record has `publicationDate = D` and `publisher = P`; and for
every publication-info text (trimmed) that matches neither
`/Published\s+(.+)/` nor `/First published\s+(.+)/`, `publicationDate` is that
text. -/
theorem publication_line_date_and_publisher (env : Env) (page : Page) :
    (∀ d p : Str, isPlainLine d = true → isPlainLine p = true →
      page.publicationInfo = "Published ".toList ++ d ++ " by ".toList ++ p →
      (afterNextData env page).publisher.truthy = false →
      (extractDetails env page).publicationDate = some d ∧
      (extractDetails env page).publisher = JVal.str p) ∧
    (publishedMatch (trim page.publicationInfo) = none →
      firstPublishedMatch (trim page.publicationInfo) = none →
      (extractDetails env page).publicationDate = some (trim page.publicationInfo)) := by
  have e3 := (extract_single_fields env page).2.2.1
  constructor
  · intro d p hd hp htext hb
    have hb' : (imageAndSummary env page (nameAndAuthors env page
        (afterNextData env page))).publisher.truthy = false := by simpa using hb
    obtain ⟨h1, h2⟩ := publicationInfoStep_line page _ hd hp htext hb'
    refine ⟨by rw [e3, h1], extract_publisher_of_line env page (JVal.str p) ?_ h2⟩
    obtain ⟨⟨c, cs, e, _⟩, _, _, _⟩ := isPlainLine_facts hp
    rw [e]
    rfl
  · intro h1 h2
    rw [e3]
    unfold publicationInfoStep
    simp only [h1, h2, truthyGroup]
    split <;> rfl

set_option maxRecDepth 10000 in
/-- C19, witness: `Published May 1, 1990 by Workman` gives the date
`May 1, 1990` and the publisher `Workman`; `Expected publication 2030` is kept
as the date. -/
theorem publication_line_date_and_publisher_witness :
    ((extractDetails noJson (publicationPage "Published May 1, 1990 by Workman")).publicationDate
        = some "May 1, 1990".toList ∧
      (extractDetails noJson (publicationPage "Published May 1, 1990 by Workman")).publisher
        = JVal.str "Workman".toList) ∧
    (extractDetails noJson (publicationPage "Expected publication 2030")).publicationDate
      = some (trim (publicationPage "Expected publication 2030").publicationInfo) :=
  ⟨(publication_line_date_and_publisher noJson
      (publicationPage "Published May 1, 1990 by Workman")).1
      "May 1, 1990".toList "Workman".toList (by decide) (by decide) (by decide) (by decide),
   (publication_line_date_and_publisher noJson
      (publicationPage "Expected publication 2030")).2 (by decide) (by decide)⟩

/-! ## The guard of the key-details attempt (C20) -/

set_option maxRecDepth 10000 in
/-- C20, at the failing input: the key-details section has a `Series` item
with the link `Discworld (#2)`.  When page count, language, characters and
publisher were all set by earlier sources, the guard of line 411 skips the
whole key-details loop and the record has no series; on the same page without
the character anchor the loop runs and the link is parsed. -/
theorem key_details_series_skipped_when_details_known :
    keyDetailsGate (beforeKeyDetails (parseOnly linkedDataText linkedDataJson) gatedSeriesPage)
      = false ∧
    (extractDetails (parseOnly linkedDataText linkedDataJson) gatedSeriesPage).seriesName
      = none ∧
    (extractDetails (parseOnly linkedDataText linkedDataJson) gatedSeriesPage).positionInSeries
      = none ∧
    (extractDetails (parseOnly linkedDataText linkedDataJson)
      { gatedSeriesPage with anchors := [] }).seriesName = some "Discworld".toList ∧
    (extractDetails (parseOnly linkedDataText linkedDataJson)
      { gatedSeriesPage with anchors := [] }).positionInSeries = some "2".toList := by
  decide

end Goodreads
